import Mathlib

/-!
# PC-TRT: static paths of a control-flow graph and their matching

A shallow embedding of `ReTest/src/static/cfg.h`.

* Node ids are the dense block numbers `0 .. size-1` given by `initGraphFromFunction`;
  they are modelled as `Nat`.  Path ids and the values returned by the matchers are `int`
  in the source (with `INVALID_PATH_ID = -1`) and are modelled as `Int`.
* `std::string` masks are modelled as `List Char`.
* `std::unordered_map<K, V>` members are modelled as functions `K → Option V`
  (`count(k) > 0` is `(m k).isSome`).
* Loops that need not terminate (`while (!stack.empty())`, the recursion of `dfsHelper`)
  carry a fuel argument and return `none` when it runs out.
-/

namespace PCTRT

/-! ## Edges -/

/-- The member `edges` of `CFG`: `edges[u]` is the ordered successor list of node `u`.
Every id stored by `buildGraph` is a valid node id; a read outside the vector (which the
source never performs on a graph it built) is given the empty list. -/
def succs (edges : List (List Nat)) (u : Nat) : List Nat :=
  edges.getD u []

/-- The edge relation of the CFG: `v` is listed among the successors of `u`. -/
def IsEdge (edges : List (List Nat)) (u v : Nat) : Prop :=
  v ∈ succs edges u

instance (edges : List (List Nat)) (u v : Nat) : Decidable (IsEdge edges u v) :=
  inferInstanceAs (Decidable (v ∈ succs edges u))

/-- A node sequence in which every consecutive pair is an edge. -/
def IsWalk (edges : List (List Nat)) (p : List Nat) : Prop :=
  List.Chain' (IsEdge edges) p

/-- Boolean check of `IsWalk`, pair by pair. -/
def walkCheck (edges : List (List Nat)) : List Nat → Bool
  | [] => true
  | [_] => true
  | u :: v :: rest => decide (v ∈ succs edges u) && walkCheck edges (v :: rest)

instance (edges : List (List Nat)) (p : List Nat) : Decidable (IsWalk edges p) :=
  decidable_of_iff (walkCheck edges p = true) (by
    unfold IsWalk
    induction p with
    | nil => simp [walkCheck]
    | cons u rest ih =>
      cases rest with
      | nil => simp [walkCheck]
      | cons v rest' => simp [walkCheck, List.chain'_cons, ih, IsEdge])

/-- The sequence ends at a node without successors (an EXIT node). -/
def EndsAtExit (edges : List (List Nat)) (p : List Nat) : Prop :=
  ∃ x, p.getLast? = some x ∧ succs edges x = []

instance (edges : List (List Nat)) (p : List Nat) : Decidable (EndsAtExit edges p) :=
  decidable_of_iff (p.getLast?.map (fun x => (succs edges x).isEmpty) = some true) (by
    unfold EndsAtExit
    cases p.getLast? with
    | none => simp
    | some x => simp)

/-- Path well-formedness: starts at the entry node `0`, ends at an EXIT node, and every
consecutive pair is an edge. -/
def WellFormedPath (edges : List (List Nat)) (p : List Nat) : Prop :=
  p.head? = some 0 ∧ EndsAtExit edges p ∧ IsWalk edges p

instance (edges : List (List Nat)) (p : List Nat) : Decidable (WellFormedPath edges p) :=
  inferInstanceAs (Decidable (p.head? = some 0 ∧ EndsAtExit edges p ∧ IsWalk edges p))

/-! ## `CFG::dfsWithoutLoops` -/

/-- The body of `for (int neighbor : edges[currentNode])` in `dfsWithoutLoops`.
The state is `(stack, allPaths)`; the head of `stack` is the top of the `std::stack`. -/
def dfsVisit (edges : List (List Nat)) (currentPath : List Nat)
    (st : List (List Nat) × List (List Nat)) (neighbor : Nat) :
    List (List Nat) × List (List Nat) :=
  let newPath := currentPath ++ [neighbor]
  if (succs edges neighbor).isEmpty then (st.1, st.2 ++ [newPath])
  else (newPath :: st.1, st.2)

/-- The loop `while (!stack.empty())` of `dfsWithoutLoops`; one unit of fuel per
iteration. -/
def dfsLoop (edges : List (List Nat)) :
    Nat → List (List Nat) → List (List Nat) → Option (List (List Nat))
  | _, [], allPaths => some allPaths
  | 0, _ :: _, _ => none
  | fuel + 1, currentPath :: stack, allPaths =>
    let currentNode := currentPath.getLastD 0
    let st := (succs edges currentNode).foldl (dfsVisit edges currentPath) (stack, allPaths)
    dfsLoop edges fuel st.1 st.2

/-- The function `CFG::dfsWithoutLoops`: the stack starts as `{0}`. -/
def dfsWithoutLoops (edges : List (List Nat)) (fuel : Nat) : Option (List (List Nat)) :=
  dfsLoop edges fuel [[0]] []

/-! ## `Path::pathMask` -/

/-- The struct `Path::pathMask`: the array `nodeMask` of `numNodes` booleans
(`numNodes` is the length of the list). -/
abbrev pathMask := List Bool

/-- The constructor `pathMask(int num)`: `num` entries, all `false`. -/
def pathMask.ofNum (num : Nat) : pathMask :=
  List.replicate num false

/-- The constructor `pathMask(const std::string& str)`: `nodeMask[i] = str[i] == '1'`. -/
def pathMask.ofString (str : List Char) : pathMask :=
  str.map (fun c => c == '1')

/-- The method `pathMask::setBit`; `none` when `PCTRT_ASSERT(index >= 0 && index < numNodes)`
aborts. -/
def pathMask.setBit (m : pathMask) (index : Nat) : Option pathMask :=
  if index < m.length then some (m.set index true) else none

/-- The method `pathMask::isCover`: `false` when the sizes differ, else `false` as soon as
some `other.nodeMask[i] && !nodeMask[i]`. -/
def pathMask.isCover (m other : pathMask) : Bool :=
  if m.length ≠ other.length then false
  else (List.range m.length).all (fun i => !(other.getD i false && !m.getD i false))

/-- The method `pathMask::to_string`: one character per node, `'1'` or `'0'`. -/
def pathMask.to_string (m : pathMask) : List Char :=
  m.map (fun b => if b then '1' else '0')

/-! ## `Path` -/

/-- The class `Path`: its id, its node sequence (as node ids), `total_nodes` and its mask. -/
structure Path where
  id_ : Int
  nodes : List Nat
  total_nodes : Nat
  mask : pathMask
deriving DecidableEq

/-- The constructor `Path(total_nodes, nodes)` run when the static counter `Path::count_`
holds `count`: the id is `count` (the caller then holds `count + 1`), the mask starts all
`false` and `setBit` is run for every node; `none` when an assertion aborts. -/
def Path.new (count : Nat) (total_nodes : Nat) (nodes : List Nat) : Option Path :=
  (nodes.foldlM (fun m node_id => pathMask.setBit m node_id) (pathMask.ofNum total_nodes)).map
    (fun m => { id_ := (count : Int), nodes := nodes, total_nodes := total_nodes, mask := m })

/-- The method `Path::to_string`: the bitmask string of the path. -/
def Path.to_string (p : Path) : List Char :=
  pathMask.to_string p.mask

/-! ## `CFG` -/

/-- What the source reads off an `llvm::Loop`: `getBlocksSet()` and `getExitBlocks()`. -/
structure Loop where
  blocks : List Nat
  exitBlocks : List Nat
deriving DecidableEq

/-- The value of the macro `INVALID_PATH_ID`. -/
def INVALID_PATH_ID : Int := -1

/-- The value of `INT32_MAX`. -/
def INT32_MAX : Int := 2147483647

/-- The members of class `CFG` used by path analysis and matching.  `loop_map` lists the
header of every loop of the function (filled by `handleLoopsInFunction` for every loop of
`loopInfo`, so `loopInfo->empty()` is `loop_map = []`); `pathCount` is the static
`Path::count_`. -/
structure CFG where
  size : Nat
  edges : List (List Nat)
  loop_map : List (Nat × Loop)
  paths : List Path
  pathIdMap : List Char → Option Int
  pathTestCntMap : Int → Option Int
  pathCount : Nat

/-- The state in which `initGraphFromFunction` calls `analyzingPaths`: the constructor
`CFG()` has reset `Path::count_`, no path is stored and both maps are empty. -/
def CFG.init (size : Nat) (edges : List (List Nat)) (loop_map : List (Nat × Loop)) : CFG :=
  { size := size, edges := edges, loop_map := loop_map, paths := [],
    pathIdMap := fun _ => none, pathTestCntMap := fun _ => none, pathCount := 0 }

/-! ## `CFG::dfsWithLoops`, `CFG::getLoopPathsFromHeader`, `CFG::dfsHelper` -/

/-- The loop `for (auto& subPath : subPaths)` of `dfsHelper`; `rec` is the recursive call
`dfsHelper(block, header, path, allPaths, exitBlockSet)` with `exitBlockSet` fixed. -/
def dfsHelperSplice (rec : Nat → Option Nat → List Nat → List (List Nat) → Option (List (List Nat)))
    (header : Option Nat) (path : List Nat) :
    List (List Nat) → List (List Nat) → Option (List (List Nat))
  | [], allPaths => some allPaths
  | subPath :: subPaths, allPaths =>
    let newPath := path ++ subPath.tail
    match rec (newPath.getLastD 0) header newPath allPaths with
    | none => none
    | some allPaths1 => dfsHelperSplice rec header path subPaths allPaths1

/-- The loop `for (auto n_next : successors(next))` of `dfsHelper`, run when `next == header`.
The variable `path` is the by-value parameter of the enclosing call and keeps growing
across iterations; the state is `(path, allPaths)`. -/
def dfsHelperExits (rec : Nat → Option Nat → List Nat → List (List Nat) → Option (List (List Nat)))
    (header : Option Nat) (exitBlockSet set : List Nat) :
    List Nat → List Nat × List (List Nat) → Option (List Nat × List (List Nat))
  | [], st => some st
  | n_next :: rest, st =>
    if n_next ∈ exitBlockSet ∧ n_next ∉ set then
      let path := st.1 ++ [n_next]
      match rec n_next header path st.2 with
      | none => none
      | some allPaths1 => dfsHelperExits rec header exitBlockSet set rest (path, allPaths1)
    else dfsHelperExits rec header exitBlockSet set rest st

/-- The loop `for (auto next : successors(block))` of `dfsHelper`; the state is
`(path, allPaths)`.  `loop_map[next]` is read only for `next == header`; `none` when the
header is not a key of `loop_map` (a null `llvm::Loop*` is dereferenced). -/
def dfsHelperSuccs (edges : List (List Nat)) (loop_map : List (Nat × Loop))
    (rec : Nat → Option Nat → List Nat → List (List Nat) → Option (List (List Nat)))
    (header : Option Nat) (exitBlockSet : List Nat) :
    List Nat → List Nat × List (List Nat) → Option (List Nat × List (List Nat))
  | [], st => some st
  | next :: rest, st =>
    if header = some next then
      match loop_map.lookup next with
      | none => none
      | some loop =>
        match dfsHelperExits rec header exitBlockSet loop.blocks (succs edges next)
            (st.1 ++ [next], st.2) with
        | none => none
        | some st1 => dfsHelperSuccs edges loop_map rec header exitBlockSet rest st1
    else
      let newPath := st.1 ++ [next]
      match rec next header newPath st.2 with
      | none => none
      | some allPaths1 =>
        dfsHelperSuccs edges loop_map rec header exitBlockSet rest (st.1, allPaths1)

/-- The function `CFG::dfsHelper`, with `allPaths` passed through.  `header` is `none` for
`nullptr`.  The call `getLoopPathsFromHeader(block)` is the recursive call
`dfsHelper(block, block, {block}, allPaths, exitBlocks of the loop)` on an empty `allPaths`.
One unit of fuel per nested call. -/
def dfsHelper (edges : List (List Nat)) (loop_map : List (Nat × Loop)) :
    Nat → List Nat → Nat → Option Nat → List Nat → List (List Nat) → Option (List (List Nat))
  | 0, _, _, _, _, _ => none
  | fuel + 1, exitBlockSet, block, header, path, allPaths =>
    if block ∈ exitBlockSet then some (allPaths ++ [path])
    else if header ≠ some block ∧ (loop_map.lookup block).isSome then
      match loop_map.lookup block with
      | none => none
      | some loop =>
        match dfsHelper edges loop_map fuel loop.exitBlocks block (some block) [block] [] with
        | none => none
        | some subPaths =>
          dfsHelperSplice (dfsHelper edges loop_map fuel exitBlockSet) header path subPaths allPaths
    else
      (dfsHelperSuccs edges loop_map (dfsHelper edges loop_map fuel exitBlockSet) header
        exitBlockSet (succs edges block) (path, allPaths)).map Prod.snd

/-- The function `CFG::getLoopPathsFromHeader`. -/
def getLoopPathsFromHeader (edges : List (List Nat)) (loop_map : List (Nat × Loop))
    (fuel : Nat) (header : Nat) : Option (List (List Nat)) :=
  match loop_map.lookup header with
  | none => none
  | some loop => dfsHelper edges loop_map fuel loop.exitBlocks header (some header) [header] []

/-- The function `CFG::dfsWithLoops`: the entry block is node `0`, `func->back()` is node
`size - 1`, and `node_map` sends every block to its own id. -/
def dfsWithLoops (cfg : CFG) (fuel : Nat) : Option (List (List Nat)) :=
  dfsHelper cfg.edges cfg.loop_map fuel [cfg.size - 1] 0 none [0] []

/-! ## `CFG::analyzingPaths` -/

/-- The body of `for (const auto& idPath : idPaths)` in `analyzingPaths`: build the `Path`,
append it to `paths`, and store `pathIdMap[path.to_string()] = path.getId()`. -/
def addPath (cfg : CFG) (idPath : List Nat) : Option CFG :=
  match Path.new cfg.pathCount cfg.size idPath with
  | none => none
  | some p =>
    some { cfg with
      paths := cfg.paths ++ [p]
      pathIdMap := fun k => if k = p.to_string then some p.id_ else cfg.pathIdMap k
      pathCount := cfg.pathCount + 1 }

/-- The function `CFG::analyzingPaths`. -/
def analyzingPaths (cfg : CFG) (fuel : Nat) : Option CFG :=
  match (if cfg.loop_map.isEmpty then dfsWithoutLoops cfg.edges fuel
         else dfsWithLoops cfg fuel) with
  | none => none
  | some idPaths => idPaths.foldlM addPath cfg

/-! ## The matchers -/

/-- The function `CFG::matchPathId`. -/
def matchPathId (cfg : CFG) (mask : List Char) : Int :=
  match cfg.pathIdMap mask with
  | some id => id
  | none => INVALID_PATH_ID

/-- The function `CFG::matchPathIds`: the loop over `paths` pushing the id of every path
whose mask is covered by `mask`. -/
def matchPathIds (cfg : CFG) (mask : List Char) : List Int :=
  cfg.paths.foldl (fun ret path =>
    if pathMask.isCover (pathMask.ofString mask) (pathMask.ofString path.to_string)
    then ret ++ [path.id_] else ret) []

/-- The statement `pathTestCntMap[pid]++`: a missing key is created with value `0` first. -/
def incrCnt (cnt : Int → Option Int) (pid : Int) : Int → Option Int :=
  fun k => if k = pid then some ((cnt pid).getD 0 + 1) else cnt k

/-- The loop `for (int pid : pathIds)` of `matchBestPathId` on the state `(minCnt, pathId)`:
`Except.error pid` is the early `return pid` (taken when `pid` has no counter),
`Except.ok` is the state at the end of the loop. -/
def matchBestLoop (cnt : Int → Option Int) : List Int → Int × Int → Except Int (Int × Int)
  | [], st => Except.ok st
  | pid :: rest, st =>
    match cnt pid with
    | none => Except.error pid
    | some c =>
      if c < st.1 then matchBestLoop cnt rest (c, pid)
      else matchBestLoop cnt rest st

/-- The function `CFG::matchBestPathId`: the returned id and the CFG with its updated
`pathTestCntMap`. -/
def matchBestPathId (cfg : CFG) (mask : List Char) : Int × CFG :=
  let pathId := matchPathId cfg mask
  if pathId ≠ INVALID_PATH_ID ∧ (cfg.pathTestCntMap pathId).isNone then
    (pathId, { cfg with pathTestCntMap := incrCnt cfg.pathTestCntMap pathId })
  else
    let pathIds := matchPathIds cfg mask
    if pathIds.isEmpty then (INVALID_PATH_ID, cfg)
    else
      match matchBestLoop cfg.pathTestCntMap pathIds (INT32_MAX, pathId) with
      | Except.error pid => (pid, { cfg with pathTestCntMap := incrCnt cfg.pathTestCntMap pid })
      | Except.ok st => (st.2, { cfg with pathTestCntMap := incrCnt cfg.pathTestCntMap st.2 })

/-! ## Specification-level notions for the acyclic enumeration -/

/-- Invariant of a stack entry of `dfsWithoutLoops`: a walk that starts at node `0`. -/
def StackInv (edges : List (List Nat)) (q : List Nat) : Prop :=
  q.head? = some 0 ∧ IsWalk edges q

/-- Completions of the stack entry `cur`: the sequences `cur ++ w` with `w` a non-empty
walk continuing from the last node of `cur` and ending at an EXIT node. -/
def Ext (edges : List (List Nat)) (cur q : List Nat) : Prop :=
  ∃ w, w ≠ [] ∧ q = cur ++ w ∧ IsWalk edges (cur.getLastD 0 :: w) ∧ EndsAtExit edges w

/-- Popping `cur` and running the loop until the stack is back to what lay below `cur`
appends exactly the completions of `cur`, each once. -/
def Drains (edges : List (List Nat)) (cur : List Nat) : Prop :=
  ∀ rest acc, ∃ k O, (∀ fuel, dfsLoop edges (k + fuel) (cur :: rest) acc
      = dfsLoop edges fuel rest (acc ++ O)) ∧ O.Nodup ∧ ∀ q, q ∈ O ↔ Ext edges cur q

/-- The CFG has no cycle: no non-empty walk leads from a node back to itself. -/
def Acyclic (edges : List (List Nat)) : Prop :=
  ∀ (u : Nat) (w : List Nat), w ≠ [] → IsWalk edges (u :: w) → w.getLast? ≠ some u

/-! ## Specification-level notions for the matchers -/

/-- Subset of bitmask strings, position by position: every position that is `'1'` in `a`
is `'1'` in `M`. -/
def BitSubset (a M : List Char) : Prop :=
  ∀ i, i < a.length → a[i]? = some '1' → M[i]? = some '1'

instance (a M : List Char) : Decidable (BitSubset a M) :=
  inferInstanceAs (Decidable (∀ i, i < a.length → a[i]? = some '1' → M[i]? = some '1'))

/-- Subset of bitmasks over one node-id space: both strings have one character per node
(the same length) and `a` is a position-wise subset of `M`. -/
def MaskSubset (a M : List Char) : Prop :=
  a.length = M.length ∧ BitSubset a M

instance (a M : List Char) : Decidable (MaskSubset a M) :=
  inferInstanceAs (Decidable (a.length = M.length ∧ BitSubset a M))

/-- What `analyzingPaths` establishes from the state left by the constructor `CFG()`:
path ids are the positions in `paths`, every mask has one character per node, and
`pathIdMap` holds exactly the bitmask strings of the stored paths, each mapped to the id of
a path with that bitmask. -/
def CFG.Consistent (cfg : CFG) : Prop :=
  cfg.pathCount = cfg.paths.length ∧
  cfg.paths.map Path.id_ = (List.range cfg.paths.length).map (fun (i : Nat) => (i : Int)) ∧
  (∀ p ∈ cfg.paths, p.to_string.length = cfg.size) ∧
  (∀ mask id, cfg.pathIdMap mask = some id → ∃ p ∈ cfg.paths, p.id_ = id ∧ p.to_string = mask) ∧
  (∀ p ∈ cfg.paths, cfg.pathIdMap p.to_string ≠ none)

/-- The value a counter counts as: `0` for a path that has no counter yet. -/
def cntOf (cnt : Int → Option Int) (pid : Int) : Int :=
  (cnt pid).getD 0

/-- Counter states without overflow: a stored counter was created by `++` (so it is at least
`1`) and is below `INT32_MAX`. -/
def CountersOk (cnt : Int → Option Int) : Prop :=
  ∀ k c, cnt k = some c → 1 ≤ c ∧ c < INT32_MAX

/-! ## Concrete graphs used as examples -/

/-- The if-else diamond `0 → {1, 2} → 3`. -/
def diamondEdges : List (List Nat) := [[1, 2], [3], [3], []]

/-- The analysed CFG of the diamond (no loops). -/
def diamondCFG : CFG :=
  (analyzingPaths (CFG.init 4 diamondEdges []) 3).getD (CFG.init 0 [] [])

/-- The CFG `cfg` in the counter state `cnt` (its member `pathTestCntMap`). -/
def CFG.withCounters (cfg : CFG) (cnt : Int → Option Int) : CFG :=
  { cfg with pathTestCntMap := cnt }

/-- A counter state of the diamond in which path `1` has been counted once. -/
def diamondCnt : Int → Option Int :=
  fun k => if k = 1 then some 1 else none

/-! ## Specification-level notions for the loop-aware enumeration -/

/-- The contract of a call `dfsHelper(block, header, path, allPaths, exitBlockSet)` whose
`path` ends at `block`: every path it adds starts where `path` starts and ends at a block of
`exitBlockSet`. -/
def RecOk (exitBlockSet : List Nat)
    (rec : Nat → Option Nat → List Nat → List (List Nat) → Option (List (List Nat))) : Prop :=
  ∀ block header path allPaths r, rec block header path allPaths = some r →
    path ≠ [] → path.getLast? = some block →
    ∀ q ∈ r, q ∈ allPaths ∨ (q.head? = path.head? ∧ ∃ x ∈ exitBlockSet, q.getLast? = some x)

/-- One call answers at least what another answers (used for a call with more fuel). -/
def RecLe (rec rec' : Nat → Option Nat → List Nat → List (List Nat) → Option (List (List Nat))) :
    Prop :=
  ∀ block header path allPaths r, rec block header path allPaths = some r →
    rec' block header path allPaths = some r

/-- A do-while loop whose last block is not the returning block:
`0 → 1`, `1 → 2`, `2 → {1, 4}`, `4 → 3`, and `3` returns.  The loop has header `1`,
blocks `{1, 2}` and exit block `4`; `func->back()` is block `4`. -/
def doWhileCFG : CFG :=
  CFG.init 5 [[1], [2], [1, 4], [], [3]] [(1, { blocks := [1, 2], exitBlocks := [4] })]

/-- The one-loop CFG `E → H`, `H → B`, `H → X`, `B → H` with `E = 0`, `H = 1`, `B = 2`,
`X = 3`: the only loop has header `H`, blocks `{H, B}` and exit block `X`, the last block. -/
def oneLoopCFG : CFG :=
  CFG.init 4 [[1], [2, 3], [1], []] [(1, { blocks := [1, 2], exitBlocks := [3] })]

/-- The analysed one-loop CFG. -/
def oneLoopAnalyzed : CFG :=
  (analyzingPaths oneLoopCFG 5).getD (CFG.init 0 [] [])

/-- The CFG of a function that is a single basic block: one node without successors and
no loop. -/
def singleBlockCFG : CFG :=
  CFG.init 1 [[]] []

/-- A counter state of the diamond in which both paths carry the value `INT32_MAX`. -/
def diamondCntMax : Int → Option Int :=
  fun k => if k = 0 ∨ k = 1 then some INT32_MAX else none

/-! ## Edit scripts and edit distance (specification level) -/

/-- `EditCost sub xs ys c`: some edit script turns `xs` into `ys` at total cost `c`, where a
deletion and an insertion cost `1` and substituting `b` for `a` costs `sub a b` (keeping an
element is the substitution of an element for itself). -/
inductive EditCost {α β V : Type} [LinearOrderedCommRing V] (sub : α → β → V) :
    List α → List β → V → Prop
  | nil : EditCost sub [] [] 0
  | delete (a : α) {xs : List α} {ys : List β} {c : V} :
      EditCost sub xs ys c → EditCost sub (a :: xs) ys (c + 1)
  | insert (b : β) {xs : List α} {ys : List β} {c : V} :
      EditCost sub xs ys c → EditCost sub xs (b :: ys) (c + 1)
  | substitute (a : α) (b : β) {xs : List α} {ys : List β} {c : V} :
      EditCost sub xs ys c → EditCost sub (a :: xs) (b :: ys) (c + sub a b)

/-- The number `d` is the minimum total cost of an edit script turning `xs` into `ys`. -/
def IsMinEditCost {α β V : Type} [LinearOrderedCommRing V] (sub : α → β → V)
    (xs : List α) (ys : List β) (d : V) : Prop :=
  EditCost sub xs ys d ∧ ∀ c, EditCost sub xs ys c → d ≤ c

/-- Inner recursion of `lev`: the row of the element `a`, given the row `prev` of the
elements after it and the length `len` of the first sequence from `a` on. -/
def levRow {β V : Type} [LinearOrderedCommRing V] (subA : β → V) (prev : List β → V) (len : V) :
    List β → V
  | [] => len
  | b :: ys => min (min (prev (b :: ys) + 1) (levRow subA prev len ys + 1)) (prev ys + subA b)

/-- The weighted Levenshtein recurrence: the minimum of delete, insert and substitute. -/
def lev {α β V : Type} [LinearOrderedCommRing V] (sub : α → β → V) : List α → List β → V
  | [], ys => (ys.length : V)
  | a :: xs, ys => levRow (sub a) (lev sub xs) ((xs.length : V) + 1) ys

/-- Unit substitution cost: `0` for equal elements, `1` otherwise. -/
def unitSub {α V : Type} [DecidableEq α] [LinearOrderedCommRing V] (a b : α) : V :=
  if a = b then 0 else 1

/-- Inner recursion of `levSC`. -/
def levSCRow {β V : Type} [LinearOrderedCommRing V] [DecidableEq V] (subA : β → V)
    (prev : List β → V) (len : V) : List β → V
  | [] => len
  | b :: ys =>
    if subA b = 0 then prev ys
    else min (min (prev (b :: ys) + 1) (levSCRow subA prev len ys + 1)) (prev ys + subA b)

/-- The recurrence the two dynamic programs of `SimilarityStrategy` follow: as `lev`, but
the diagonal value is taken as it is whenever the substitution cost is `0`. -/
def levSC {α β V : Type} [LinearOrderedCommRing V] [DecidableEq V] (sub : α → β → V) :
    List α → List β → V
  | [], ys => (ys.length : V)
  | a :: xs, ys => levSCRow (sub a) (levSC sub xs) ((xs.length : V) + 1) ys

/-- The cell rule of `levSC`, from `dp[i-1][j]`, `dp[i][j-1]` and `dp[i-1][j-1]`. -/
def scCell {α β V : Type} [LinearOrderedCommRing V] [DecidableEq V] (sub : α → β → V)
    (a : α) (b : β) (up left diag : V) : V :=
  if sub a b = 0 then diag else min (min (up + 1) (left + 1)) (diag + sub a b)

/-- The values `levSC sub xr (b₁ :: yr)`, `levSC sub xr (b₂ :: b₁ :: yr)`, … for the elements
`b₁, b₂, …` of the third list: one row of the table after its first cell `levSC sub xr yr`. -/
def rowTail {α β V : Type} [LinearOrderedCommRing V] [DecidableEq V] (sub : α → β → V)
    (xr : List α) : List β → List β → List V
  | _, [] => []
  | yr, b :: bs => levSC sub xr (b :: yr) :: rowTail sub xr (b :: yr) bs

/-! ## The dynamic-programming tables of `SimilarityStrategy` -/

/-- The inner loop `for (int j = 1; j <= n; ++j)` filling row `i` of a table `dp[m+1][n+1]`.
`cell s a b up left diag` computes `dp[i][j]` for the elements `a` (index `i-1`) and `b`
(index `j-1`) from `dp[i-1][j]`, `dp[i][j-1]`, `dp[i-1][j-1]` and the state `s`.  The list
argument is row `i-1` from `dp[i-1][j-1]` on, the value argument is `dp[i][j-1]`; the result
is `dp[i][j..n]` with the final state. -/
def dpRow {σ α β W : Type} (cell : σ → α → β → W → W → W → W × σ) (a : α) :
    List β → List W → W → σ → List W × σ
  | b :: bs, diag :: up :: prevRest, left, s =>
    let r := cell s a b up left diag
    let rest := dpRow cell a bs (up :: prevRest) r.1 r.2
    (r.1 :: rest.1, rest.2)
  | _, _, _, s => ([], s)

/-- The outer loop `for (int i = 1; i <= m; ++i)`: `prevRow` is row `i-1`, `ofIdx i` is the
value stored by `dp[i][0] = i`; the result is row `m`. -/
def dpRows {σ α β W : Type} (cell : σ → α → β → W → W → W → W × σ) (ofIdx : Nat → W) :
    List α → Nat → List β → List W → σ → List W × σ
  | [], _, _, prevRow, s => (prevRow, s)
  | a :: as, i, bs, prevRow, s =>
    let r := dpRow cell a bs prevRow (ofIdx i) s
    dpRows cell ofIdx as (i + 1) bs (ofIdx i :: r.1) r.2

/-- The whole table: row `0` is `dp[0][j] = j`, then the rows `1..m`; the result is
`dp[m][n]` with the final state. -/
def dpTable {σ α β W : Type} (cell : σ → α → β → W → W → W → W × σ) (ofIdx : Nat → W)
    (as : List α) (bs : List β) (s : σ) : W × σ :=
  let r := dpRows cell ofIdx as 1 bs ((List.range (bs.length + 1)).map ofIdx) s
  (r.1.getLastD (ofIdx 0), r.2)

/-- The generic form of a table recursion: the first row holds the values `ofIdx j`, the
first cell of the row of `a` holds `first`, and every other cell is `g` of the element of
the column and the cells above, to the left and diagonally above.  This is the inner
recursion, along one row. -/
def tblRow {β W : Type} (g : β → W → W → W → W) (prev : List β → W) (first : W) :
    List β → W
  | [] => first
  | b :: ys => g b (prev (b :: ys)) (tblRow g prev first ys) (prev ys)

/-- The value in the last cell of the table with cell rule `g` and border values `ofIdx`,
for the two sequences read from their last element to their first. -/
def tbl {α β W : Type} (g : α → β → W → W → W → W) (ofIdx : Nat → W) : List α → List β → W
  | [], ys => ofIdx ys.length
  | a :: xs, ys => tblRow (g a) (tbl g ofIdx xs) (ofIdx (xs.length + 1)) ys

/-- The values `tbl g ofIdx xr (b₁ :: yr)`, `tbl g ofIdx xr (b₂ :: b₁ :: yr)`, … for the
elements `b₁, b₂, …` of the third list: one row of the table after its first cell. -/
def tblTail {α β W : Type} (g : α → β → W → W → W → W) (ofIdx : Nat → W) (xr : List α) :
    List β → List β → List W
  | _, [] => []
  | yr, b :: bs => tbl g ofIdx xr (b :: yr) :: tblTail g ofIdx xr (b :: yr) bs

/-! ## `double` values

A `double` is modelled by the rational number it holds: `some q` is the number `q`, `none`
is NaN.  Every conversion and every arithmetic operation rounds its exact result to the
nearest number with a significand of 53 bits, ties going to the even significand, as IEEE 754
binary64 arithmetic does in its default rounding mode.  The range of the exponent is not
bounded in the model; the numbers the code below computes are counts, sums of at most
`m + n` terms in `[0, 1]` and quotients of such numbers, which lie far inside the normal range
of binary64, so that neither overflow nor gradual underflow occurs.  A division has a zero
denominator only when its numerator is zero as well (`0.0 / 0.0`), so no infinity arises. -/

/-- The type `double`. -/
abbrev Dbl := Option ℚ

/-- Rounding of a rational number to the nearest integer, ties going to the even one. -/
def Dbl.rne (x : ℚ) : ℤ :=
  if x - ⌊x⌋ < 1 / 2 then ⌊x⌋
  else if 1 / 2 < x - ⌊x⌋ then ⌊x⌋ + 1
  else if ⌊x⌋ % 2 = 0 then ⌊x⌋ else ⌊x⌋ + 1

/-- Rounding of a rational number to binary64: with `2^e ≤ |x| < 2^(e+1)` the result is the
multiple of `2^(e-52)` nearest to `x`, ties going to the even multiple. -/
def Dbl.round (x : ℚ) : ℚ :=
  if x = 0 then 0
  else (Dbl.rne (x / 2 ^ (Int.log 2 |x| - 52)) : ℚ) * 2 ^ (Int.log 2 |x| - 52)

/-- Conversion of a `size_t` or `int` count to `double`. -/
def Dbl.ofNat (n : Nat) : Dbl := some (Dbl.round (n : ℚ))

/-- Conversion of an `int` to `double`. -/
def Dbl.ofInt (z : Int) : Dbl := some (Dbl.round (z : ℚ))

/-- Addition of doubles; NaN propagates. -/
def Dbl.add (x y : Dbl) : Dbl :=
  match x, y with
  | some a, some b => some (Dbl.round (a + b))
  | _, _ => none

/-- Subtraction of doubles; NaN propagates. -/
def Dbl.sub (x y : Dbl) : Dbl :=
  match x, y with
  | some a, some b => some (Dbl.round (a - b))
  | _, _ => none

/-- Division of doubles; a zero denominator gives NaN. -/
def Dbl.div (x y : Dbl) : Dbl :=
  match x, y with
  | some a, some b => if b = 0 then none else some (Dbl.round (a / b))
  | _, _ => none

/-- The comparison `x < y`; false when an operand is NaN. -/
def Dbl.lt (x y : Dbl) : Bool :=
  match x, y with
  | some a, some b => decide (a < b)
  | _, _ => false

/-- The comparison `x == y`; false when an operand is NaN. -/
def Dbl.eqq (x y : Dbl) : Bool :=
  match x, y with
  | some a, some b => decide (a = b)
  | _, _ => false

/-- The function `std::min(x, y)`, which is `(y < x) ? y : x`. -/
def Dbl.min (x y : Dbl) : Dbl :=
  if Dbl.lt y x then y else x

/-! ## `Node` -/

/-- The enum `NODE_TYPE`. -/
inductive NODE_TYPE where
  | NODE_NORMAL
  | NODE_BRANCH
  | NODE_LOOP
  | NODE_ENTRY
  | NODE_EXIT
deriving DecidableEq

/-- The class `Node`. -/
structure Node where
  id : Nat
  node_type : NODE_TYPE
  successors : List Nat
  ops : List String
  instructions : String
  src : String
  selectNum : Int
deriving DecidableEq

/-- A `Path` as the similarity code reads it: `getId()` and the nodes `getNode(0)`, …,
`getNode(size() - 1)` its pointers lead to. -/
structure PathView where
  id_ : Int
  nodes : List Node
deriving DecidableEq

/-! ## `SimilarityStrategy` -/

/-- The member `sim_cache`, a map from the two node ids to the stored similarity. -/
abbrev SimCache := Nat → Nat → Option Dbl

/-- The statement `sim_cache[id1][id2] = sim`. -/
def SimCache.store (cache : SimCache) (id1 id2 : Nat) (sim : Dbl) : SimCache :=
  fun i j => if i = id1 ∧ j = id2 then some sim else cache i j

/-- The cell rule of the `int dp` table of `getNodeSimilarity`:
`ops1[i-1] == ops2[j-1] ? dp[i-1][j-1] : min(min(dp[i-1][j], dp[i][j-1]), dp[i-1][j-1]) + 1`. -/
def opCell (s : Unit) (op1 op2 : String) (up left diag : Int) : Int × Unit :=
  (if op1 = op2 then diag else min (min up left) diag + 1, s)

/-- The function `SimilarityStrategy::getNodeSimilarity`: the returned similarity and the
cache after the call. -/
def getNodeSimilarity (sim_cache : SimCache) (node1 node2 : Node) : Dbl × SimCache :=
  match sim_cache node1.id node2.id with
  | some v => (v, sim_cache)
  | none =>
    if node1.node_type ≠ node2.node_type then
      (some 0, sim_cache.store node1.id node2.id (some 0))
    else if node1.selectNum ≠ node2.selectNum then
      (some 0, sim_cache.store node1.id node2.id (some 0))
    else
      let lcs : Int := (dpTable opCell (fun i => (i : Int)) node1.ops node2.ops ()).1
      let sim := Dbl.sub (some 1)
        (Dbl.div (Dbl.ofInt lcs) (Dbl.ofNat (max node1.ops.length node2.ops.length)))
      (sim, sim_cache.store node1.id node2.id sim)

/-- The cell rule of the `double dp` table of `calculate`, with the cache passed through
the call of `getNodeSimilarity`. -/
def pathCell (sim_cache : SimCache) (node1 node2 : Node) (up left diag : Dbl) :
    Dbl × SimCache :=
  let r := getNodeSimilarity sim_cache node1 node2
  if Dbl.eqq r.1 (some 1) then (diag, r.2)
  else
    let cost := Dbl.sub (some 1) r.1
    (Dbl.min (Dbl.min (Dbl.add up (some 1)) (Dbl.add left (some 1))) (Dbl.add diag cost), r.2)

/-- The function `SimilarityStrategy::calculate` on the node sequences of the two paths:
the returned similarity and the cache after the call. -/
def calculate (sim_cache : SimCache) (path1 path2 : List Node) : Dbl × SimCache :=
  let r := dpTable pathCell Dbl.ofNat path1 path2 sim_cache
  (Dbl.sub (some 1) (Dbl.div r.1 (Dbl.ofNat (max path1.length path2.length))), r.2)

/-- The cache of a freshly constructed `SimilarityStrategy`. -/
def freshCache : SimCache := fun _ _ => none

/-! ## Specification-level notions for the similarity engine -/

/-- The similarity of two nodes: what `getNodeSimilarity` returns on a fresh cache. -/
def nodeSim (a b : Node) : Dbl :=
  (getNodeSimilarity freshCache a b).1

/-- The rational value of `nodeSim` (`0` stands in for NaN; used only where the value is
a number). -/
def nodeSimQ (a b : Node) : ℚ :=
  (nodeSim a b).getD 0

/-- The substitution cost `1 - nodeSim(a, b)` of the weighted Levenshtein distance, as a
real number (the subtraction is exact here). -/
def substCost (a b : Node) : ℚ :=
  1 - nodeSimQ a b

/-- The cell rule of the `double dp` table of `calculate` on numbers: the diagonal cell when
the node similarity is `1.0`, and otherwise the minimum of the three rounded sums, the third
with the rounded `cost = 1 - similarity`. -/
def dblCell (a b : Node) (up left diag : ℚ) : ℚ :=
  if nodeSimQ a b = 1 then diag
  else min (min (Dbl.round (up + 1)) (Dbl.round (left + 1)))
    (Dbl.round (diag + Dbl.round (1 - nodeSimQ a b)))

/-- The numbers of the `double dp` table of `calculate`, as a recursion on the two node
sequences read from their last node to their first; the border cells hold the converted
indices. -/
def dblTbl (X Y : List Node) : ℚ :=
  tbl dblCell (fun i => Dbl.round (i : ℚ)) X Y

/-- The number in `dp[m][n]` of the `double dp` table of `calculate` for the node sequences
`P` and `Q`: the weighted edit distance as the binary64 arithmetic computes it. -/
def dblDist (P Q : List Node) : ℚ :=
  dblTbl P.reverse Q.reverse

/-- Within the node list `A`, the id determines the node (the nodes of one CFG). -/
def IdsDetermine (A : List Node) : Prop :=
  ∀ a ∈ A, ∀ a' ∈ A, a.id = a'.id → a = a'

/-- Every entry the cache holds for a first node of `A` and a second node of `B` is the
similarity of these two nodes. -/
def CacheOk (A B : List Node) (cache : SimCache) : Prop :=
  ∀ a ∈ A, ∀ b ∈ B, ∀ v, cache a.id b.id = some v → v = nodeSim a b

/-- The unit-cost Levenshtein distance between the opcode sequences of two nodes. -/
def opDist (a b : Node) : Int :=
  lev (unitSub : String → String → Int) a.ops b.ops

instance (A : List Node) : Decidable (IdsDetermine A) :=
  inferInstanceAs (Decidable (∀ a ∈ A, ∀ a' ∈ A, a.id = a'.id → a = a'))

/-! ## Concrete nodes and paths used as examples -/

/-- An entry block. -/
def exEntry : Node :=
  { id := 0, node_type := NODE_TYPE.NODE_ENTRY, successors := [1],
    ops := ["alloca", "store", "br"], instructions := "", src := "", selectNum := 0 }

/-- A returning block. -/
def exRet : Node :=
  { id := 1, node_type := NODE_TYPE.NODE_EXIT, successors := [],
    ops := ["load", "ret"], instructions := "", src := "", selectNum := 0 }

/-- The returning block of another version, with one more instruction. -/
def exRet2 : Node :=
  { id := 1, node_type := NODE_TYPE.NODE_EXIT, successors := [],
    ops := ["load", "add", "ret"], instructions := "", src := "", selectNum := 0 }

/-- A block in the middle of a function. -/
def exMid : Node :=
  { id := 1, node_type := NODE_TYPE.NODE_NORMAL, successors := [2],
    ops := ["load", "icmp", "br"], instructions := "", src := "", selectNum := 0 }

/-- A returning block with the id `2`. -/
def exTail : Node :=
  { id := 2, node_type := NODE_TYPE.NODE_EXIT, successors := [],
    ops := ["load", "ret"], instructions := "", src := "", selectNum := 0 }

/-- The block `exTail` in another version, where both of its instructions have changed. -/
def exTailChanged : Node :=
  { id := 2, node_type := NODE_TYPE.NODE_EXIT, successors := [],
    ops := ["store", "br"], instructions := "", src := "", selectNum := 0 }

/-- An entry block in another version, where two of the three instructions of `exEntry` have
changed. -/
def exEntryChanged : Node :=
  { id := 0, node_type := NODE_TYPE.NODE_ENTRY, successors := [1],
    ops := ["alloca", "load", "switch"], instructions := "", src := "", selectNum := 0 }

/-- The block `exRet` in another version, where one of its two instructions has changed. -/
def exRetChanged : Node :=
  { id := 1, node_type := NODE_TYPE.NODE_EXIT, successors := [],
    ops := ["store", "ret"], instructions := "", src := "", selectNum := 0 }

/-! ## `SimilarityCalculator` -/

/-- The loop `for (const auto& old_path : old_paths)` of `findMostSimilarPath` on the state
`(most_similar_path_id, max_sim)`, with the cache of the strategy passed through. -/
def findMostSimilarLoop (path : PathView) :
    List PathView → Int × Dbl → SimCache → (Int × Dbl) × SimCache
  | [], st, cache => (st, cache)
  | old_path :: rest, st, cache =>
    let r := calculate cache path.nodes old_path.nodes
    if Dbl.lt st.2 r.1 then findMostSimilarLoop path rest (old_path.id_, r.1) r.2
    else findMostSimilarLoop path rest st r.2

/-- The function `SimilarityCalculator::findMostSimilarPath`: the returned pair and the cache
after the call. -/
def findMostSimilarPath (cache : SimCache) (old_paths : List PathView) (path : PathView) :
    (Int × Dbl) × SimCache :=
  findMostSimilarLoop path old_paths (INVALID_PATH_ID, some 0) cache

/-- The function `SimilarityCalculator::run`: for every new path,
`path_map[path.getId()] = findMostSimilarPath(path)`. -/
def SimilarityCalculator.run (old_paths : List PathView) :
    List PathView → (Int → Option (Int × Dbl)) → SimCache →
      (Int → Option (Int × Dbl)) × SimCache
  | [], path_map, cache => (path_map, cache)
  | path :: rest, path_map, cache =>
    let r := findMostSimilarPath cache old_paths path
    SimilarityCalculator.run old_paths rest
      (fun k => if k = path.id_ then some r.1 else path_map k) r.2

/-- The similarity of two paths: what `calculate` returns on a fresh cache. -/
def pathSim (P Q : List Node) : Dbl :=
  (calculate freshCache P Q).1

/-- The loop of `findMostSimilarPath` on the list of `(id, similarity)` pairs. -/
def bestLoop : List (Int × Dbl) → Int × Dbl → Int × Dbl
  | [], st => st
  | x :: rest, st => if Dbl.lt st.2 x.2 then bestLoop rest x else bestLoop rest st

/-- The pair `r = (q, s)` is the best match of the new path `P` among the old paths: when
some old path has a similarity above `0`, `s` is the maximum similarity and `q` is the id of
the first old path (in the order of the list, which is the id order of the old CFG) that
attains it; when every similarity is `0` (or there is no old path), `r` is
`(INVALID_PATH_ID, 0)`. -/
def IsBestMatch (old_paths : List PathView) (P : PathView) (r : Int × Dbl) : Prop :=
  ((∃ Q ∈ old_paths, ∃ v : ℚ, pathSim P.nodes Q.nodes = some v ∧ 0 < v) →
    ∃ sv : ℚ, r.2 = some sv ∧ 0 < sv ∧
      (∀ Q ∈ old_paths, ∀ v : ℚ, pathSim P.nodes Q.nodes = some v → v ≤ sv) ∧
      ∃ l1 Qm l2, old_paths = l1 ++ Qm :: l2 ∧ r.1 = Qm.id_ ∧
        pathSim P.nodes Qm.nodes = some sv ∧
        ∀ Q ∈ l1, pathSim P.nodes Q.nodes ≠ some sv) ∧
  ((∀ Q ∈ old_paths, pathSim P.nodes Q.nodes = some 0) → r = (INVALID_PATH_ID, some 0))

/-- All nodes of a list of paths. -/
def allNodes (paths : List PathView) : List Node :=
  paths.flatMap PathView.nodes

/-- A returning block with the id `2` and the opcodes `load, add, ret`. -/
def exOldRetAdd : Node :=
  { id := 2, node_type := NODE_TYPE.NODE_EXIT, successors := [],
    ops := ["load", "add", "ret"], instructions := "", src := "", selectNum := 0 }

/-- A returning block with the id `3` and the opcodes `load, sub, ret`. -/
def exOldRetSub : Node :=
  { id := 3, node_type := NODE_TYPE.NODE_EXIT, successors := [],
    ops := ["load", "sub", "ret"], instructions := "", src := "", selectNum := 0 }

/-- A returning block of the new version with the id `2` and the opcodes `load, sub, ret`. -/
def exNewRetSub : Node :=
  { id := 2, node_type := NODE_TYPE.NODE_EXIT, successors := [],
    ops := ["load", "sub", "ret"], instructions := "", src := "", selectNum := 0 }

/-- A block of the new version that is neither an entry nor an exit. -/
def exNewLone : Node :=
  { id := 3, node_type := NODE_TYPE.NODE_NORMAL, successors := [],
    ops := ["call"], instructions := "", src := "", selectNum := 0 }

/-- The three paths of an old version, in id order: the entry block followed by one of three
returning blocks. -/
def exOldPaths : List PathView :=
  [{ id_ := 0, nodes := [exEntry, exRetChanged] },
   { id_ := 1, nodes := [exEntry, exOldRetAdd] },
   { id_ := 2, nodes := [exEntry, exOldRetSub] }]

/-- Three paths of a new version, in id order. -/
def exNewPaths : List PathView :=
  [{ id_ := 0, nodes := [exEntry, exRet] },
   { id_ := 1, nodes := [exEntry, exNewRetSub] },
   { id_ := 2, nodes := [exNewLone] }]

/-! ## `TestCase` and `TestSuite` (`static/testcase.h`)

Strings other than execution masks are modelled as `String`. -/

/-- The struct `InputVar`. -/
structure InputVar where
  name : String
  type : String
  data : String
deriving DecidableEq

/-- The struct `OutputVar`. -/
structure OutputVar where
  name : String
  type : String
  expectation : String
deriving DecidableEq

/-- The class `TestCase`; `result` holds an execution mask. -/
structure TestCase where
  inputs : List InputVar
  outputs : List OutputVar
  description : String
  pathId : Int
  result : List Char
deriving DecidableEq

/-- The class `TestSuite`. -/
structure TestSuite where
  srcFile : String
  funcName : String
  description : String
  executed : Bool
  coverage : Dbl
  testCases : List TestCase
deriving DecidableEq

/-- A default-constructed `TestSuite`: empty strings, `executed {false}`, `coverage {0.0}`. -/
def TestSuite.default : TestSuite :=
  { srcFile := "", funcName := "", description := "", executed := false, coverage := some 0,
    testCases := [] }

/-- The method `TestSuite::getTestCase`; `none` when `RETEST_ASSERT` aborts. -/
def TestSuite.getTestCase (ts : TestSuite) (idx : Int) : Option TestCase :=
  if 0 ≤ idx ∧ idx < ts.testCases.length then ts.testCases[idx.toNat]? else none

/-- The method `TestSuite::addTestCase`. -/
def TestSuite.addTestCase (ts : TestSuite) (tc : TestCase) : TestSuite :=
  { ts with testCases := ts.testCases ++ [tc] }

/-- The method `TestSuite::addTestCaseWithoutExpectation`: copy `tc`, set the expectation of
every output of the copy to `""`, push the copy. -/
def TestSuite.addTestCaseWithoutExpectation (ts : TestSuite) (tc : TestCase) : TestSuite :=
  let newTc : TestCase :=
    { tc with outputs := tc.outputs.map (fun output => { output with expectation := "" }) }
  { ts with testCases := ts.testCases ++ [newTc] }

/-- The JSON object of a test case: the keys written by `to_json(json&, const TestCase&)`. -/
structure TestCaseJson where
  inputs : List InputVar
  outputs : List OutputVar
  description : String
  pathId : Int
deriving DecidableEq

/-- The JSON object of a suite: the keys written by `to_json(json&, const TestSuite&)`. -/
structure TestSuiteJson where
  executed : Bool
  srcFile : String
  funcName : String
  description : String
  coverage : Dbl
  testCases : List TestCaseJson
deriving DecidableEq

/-- The function `from_json(const json&, TestCase&)` on a default-constructed test case: the
four keys are read, `result` stays empty. -/
def TestCase.from_json (j : TestCaseJson) : TestCase :=
  { inputs := j.inputs, outputs := j.outputs, description := j.description,
    pathId := j.pathId, result := [] }

/-- The function `from_json(const json&, TestSuite&)` on a default-constructed suite: it
reads `srcFile`, `funcName`, `description`, `coverage` and `testCases`; the key `executed`
is not read, so the member keeps its default `false`. -/
def TestSuite.from_json (j : TestSuiteJson) : TestSuite :=
  { srcFile := j.srcFile, funcName := j.funcName, description := j.description,
    executed := false, coverage := j.coverage,
    testCases := j.testCases.map TestCase.from_json }

/-- The function `getTestSuiteFromFile`: `none` is a file that does not exist. -/
def getTestSuiteFromFile (file : Option TestSuiteJson) : TestSuite :=
  match file with
  | none => TestSuite.default
  | some j => TestSuite.from_json j

/-! ## `TestEngine::computeCoverage` (`dynamic/testengine.h`)

The local `std::unordered_map<int, int> pathTestCnt` is an association list with one entry
per key, so that `pathTestCnt.size()` is its length. -/

/-- The C function `isspace` in the "C" locale. -/
def isspace (c : Char) : Bool :=
  c = ' ' || c = '\t' || c = '\n' || c = '\x0b' || c = '\x0c' || c = '\r'

/-- The function `TestEngine::removeBlanks`. -/
def removeBlanks (str : List Char) : List Char := str.filter (fun x => !isspace x)

/-- The statement `pathTestCnt[id]++` on the local map: a missing key is created with
value `0` first. -/
def cntIncr (pathTestCnt : List (Int × Int)) (id : Int) : List (Int × Int) :=
  if (pathTestCnt.lookup id).isSome then
    pathTestCnt.map (fun e => if e.1 = id then (e.1, e.2 + 1) else e)
  else pathTestCnt ++ [(id, 1)]

/-- The loop `for(auto& id : pathIds)` of `computeCoverage` on the state `(minCnt, minId)`;
the `break` is taken at the first id without a counter. -/
def coverageMinLoop (pathTestCnt : List (Int × Int)) : List Int → Int × Int → Int × Int
  | [], st => st
  | id :: pathIds, st =>
    match pathTestCnt.lookup id with
    | none => (0, id)
    | some c =>
      if c < st.1 then coverageMinLoop pathTestCnt pathIds (c, id)
      else coverageMinLoop pathTestCnt pathIds st

/-- One iteration of the loop `for(int i = 0; i < outputs.size(); ++i)` of
`computeCoverage`, on `testCases[i]` and the map `pathTestCnt`. -/
def computeCoverageStep (cfg : CFG) (outputs_i : List Char) (tc : TestCase)
    (pathTestCnt : List (Int × Int)) : TestCase × List (Int × Int) :=
  let output := removeBlanks outputs_i
  let tc1 : TestCase := { tc with result := output }
  let pathId := matchPathId cfg output
  if pathId ≠ INVALID_PATH_ID ∧ (pathTestCnt.lookup pathId).isNone then
    ({ tc1 with pathId := pathId }, cntIncr pathTestCnt pathId)
  else
    let pathIds := matchPathIds cfg output
    if pathIds.isEmpty then (tc1, pathTestCnt)
    else
      let st := coverageMinLoop pathTestCnt pathIds (INT32_MAX, INVALID_PATH_ID)
      ({ tc1 with pathId := st.2 }, cntIncr pathTestCnt st.2)

/-- The loop of `computeCoverage` over `outputs`, walking `testCases` in step (`outputs[i]`
goes with `testCases[i]`).  `TestEngine::run` passes one output per test case; an output
without a test case (an out-of-range `testCases[i]` in the source) ends the walk. -/
def computeCoverageLoop (cfg : CFG) :
    List (List Char) → List TestCase → List (Int × Int) → List TestCase × List (Int × Int)
  | output :: outputs, tc :: tcs, pathTestCnt =>
    let r := computeCoverageStep cfg output tc pathTestCnt
    let rest := computeCoverageLoop cfg outputs tcs r.2
    (r.1 :: rest.1, rest.2)
  | _, tcs, pathTestCnt => (tcs, pathTestCnt)

/-- The function `TestEngine::computeCoverage`. -/
def computeCoverage (testSuite : TestSuite) (outputs : List (List Char)) (cfg : CFG) :
    TestSuite :=
  let r := computeCoverageLoop cfg outputs testSuite.testCases []
  { testSuite with
    testCases := r.1
    coverage := Dbl.div (Dbl.ofNat r.2.length) (Dbl.ofNat cfg.paths.length) }

/-! ## `ReuseEngine::reuseTestSuite` (`dynamic/reuseengine.h`) -/

/-- The constant `SIMILARITY_THRESHOLD` (`0.35`): the double nearest to `35/100`. -/
def SIMILARITY_THRESHOLD : Dbl := some (Dbl.round (35 / 100))

/-- The members of `ReuseEngine` that `reuseTestSuite` reads or writes.  `path_map` lists the
entries of the `unordered_map` in the order in which the range-for visits them. -/
structure ReuseEngine where
  newSrcFile : String
  funcName : String
  new_cfg : CFG
  old_cfg : CFG
  old_suite : TestSuite
  path_test_map : Int → List Int
  path_map : List (Int × (Int × Dbl))

/-- What `reuseTestSuite` obtains from outside the engine: the content of the suite file
(`none` when the file does not exist), the CFG held by the `TestEngine` of the old and of
the new source file, the outputs the executor returns for the old and for the new suite,
and the orders in which the two `unordered_set`s are iterated. -/
structure ReuseEnv where
  file : Option TestSuiteJson
  oldTesterCfg : CFG
  oldResults : List (List Char)
  newTesterCfg : CFG
  newResults : List (List Char)
  fullOrder : List Int → List Int
  inputsOnlyOrder : List Int → List Int

/-- The statement `path_test_map[old_path_id].push_back(i)`. -/
def pushTest (path_test_map : Int → List Int) (old_path_id : Int) (i : Int) :
    Int → List Int :=
  fun k => if k = old_path_id then path_test_map old_path_id ++ [i] else path_test_map k

/-- The loop `for(int i = 0; i < test_results.size(); ++i)` of the branch that runs the old
suite: test `i` is recorded under `matchBestPathId(test_results[i])` unless that is
`INVALID_PATH_ID`. -/
def reuseIndexRun : List (List Char) → Nat → CFG → (Int → List Int) →
    CFG × (Int → List Int)
  | [], _, old_cfg, path_test_map => (old_cfg, path_test_map)
  | res :: rest, i, old_cfg, path_test_map =>
    let r := matchBestPathId old_cfg res
    if r.1 ≠ INVALID_PATH_ID then reuseIndexRun rest (i + 1) r.2 (pushTest path_test_map r.1 i)
    else reuseIndexRun rest (i + 1) r.2 path_test_map

/-- The loop `for(int i = 0; i < old_suite_size; ++i)` of the branch for an executed suite:
test `i` is recorded under its stored `pathId`. -/
def reuseIndexExecuted : List TestCase → Nat → (Int → List Int) → (Int → List Int)
  | [], _, path_test_map => path_test_map
  | tc :: rest, i, path_test_map =>
    reuseIndexExecuted rest (i + 1) (pushTest path_test_map tc.pathId i)

/-- The call `insert` on an `unordered_set<int>` kept as a duplicate-free list. -/
def setInsert (s : List Int) (x : Int) : List Int := if x ∈ s then s else s ++ [x]

/-- One iteration of the loop `for(const auto& [new_path_id, old_path] : path_map)` on the
state `(reused_test_ids, reused_without_exep_test_ids)`. -/
def reuseSelectStep (path_test_map : Int → List Int) (st : List Int × List Int)
    (entry : Int × (Int × Dbl)) : List Int × List Int :=
  let old_path_id := entry.2.1
  let sim := entry.2.2
  let test_ids := path_test_map old_path_id
  if Dbl.lt SIMILARITY_THRESHOLD sim then
    (test_ids.foldl setInsert st.1, st.2)
  else
    (st.1, test_ids.foldl (fun s test_id => if test_id ∈ st.1 then s else setInsert s test_id)
      st.2)

/-- The selection loop of `reuseTestSuite` over the entries of `path_map`, from two empty
sets. -/
def reuseSelect (path_test_map : Int → List Int) (path_map : List (Int × (Int × Dbl))) :
    List Int × List Int :=
  path_map.foldl (reuseSelectStep path_test_map) ([], [])

/-- The loop `for(const auto& test_id : reused_test_ids)
new_suite.addTestCase(old_suite.getTestCase(test_id))`; `none` when `getTestCase` aborts. -/
def reuseAddLoop (old_suite : TestSuite) : List Int → TestSuite → Option TestSuite
  | [], new_suite => some new_suite
  | test_id :: rest, new_suite =>
    match old_suite.getTestCase test_id with
    | none => none
    | some tc => reuseAddLoop old_suite rest (new_suite.addTestCase tc)

/-- The loop `for(const auto& test_id : reused_without_exep_test_ids)
new_suite.addTestCaseWithoutExpectation(old_suite.getTestCase(test_id))`. -/
def reuseAddWithoutLoop (old_suite : TestSuite) : List Int → TestSuite → Option TestSuite
  | [], new_suite => some new_suite
  | test_id :: rest, new_suite =>
    match old_suite.getTestCase test_id with
    | none => none
    | some tc => reuseAddWithoutLoop old_suite rest (new_suite.addTestCaseWithoutExpectation tc)

/-- The loop over `newTestCases` that sets `newPathCoverInfo[tc.pathId] = true` for
`tc.pathId >= 0`; `none` when the index is past the end of the vector. -/
def markCovered : List TestCase → List Bool → Option (List Bool)
  | [], info => some info
  | tc :: tcs, info =>
    if 0 ≤ tc.pathId then
      if tc.pathId.toNat < info.length then markCovered tcs (info.set tc.pathId.toNat true)
      else none
    else markCovered tcs info

/-- The state of `reuseTestSuite` after the selection loop: the engine with `old_suite`,
`old_cfg` and `path_test_map` updated, and the two sets. -/
structure ReuseSelection where
  engine : ReuseEngine
  reused_test_ids : List Int
  reused_without_exep_test_ids : List Int

/-- The first half of `reuseTestSuite`: load the old suite, fill `path_test_map` (by running
the suite when `isExecuted()` is false, from the stored path ids otherwise) and select the
tests to reuse. -/
def reuseTestSuite.select (eng : ReuseEngine) (env : ReuseEnv) : ReuseSelection :=
  let old_suite := getTestSuiteFromFile env.file
  let eng1 : ReuseEngine :=
    if !old_suite.executed then
      let ran := computeCoverage old_suite env.oldResults env.oldTesterCfg
      let r := reuseIndexRun env.oldResults 0 eng.old_cfg eng.path_test_map
      { eng with old_suite := ran, old_cfg := r.1, path_test_map := r.2 }
    else
      { eng with
        old_suite := old_suite
        path_test_map := reuseIndexExecuted old_suite.testCases 0 eng.path_test_map }
  let sel := reuseSelect eng1.path_test_map eng1.path_map
  { engine := eng1, reused_test_ids := sel.1, reused_without_exep_test_ids := sel.2 }

/-- The suite `new_suite` of `reuseTestSuite` after the two loops that add the reused test
cases, before it is executed; `none` when `getTestCase` aborts. -/
def reuseTestSuite.build (eng : ReuseEngine) (env : ReuseEnv) (new_suite : TestSuite) :
    Option TestSuite :=
  let sel := reuseTestSuite.select eng env
  let s0 : TestSuite :=
    { new_suite with
      description := "new test suite reused from old test suite for function " ++ eng.funcName
      funcName := eng.funcName
      srcFile := eng.newSrcFile }
  match reuseAddLoop sel.engine.old_suite (env.fullOrder sel.reused_test_ids) s0 with
  | none => none
  | some s1 =>
    reuseAddWithoutLoop sel.engine.old_suite
      (env.inputsOnlyOrder sel.reused_without_exep_test_ids) s1

/-- The function `ReuseEngine::reuseTestSuite`: the suite `new_suite` after
`executeNewTestsuite` and the returned vector `newPathCoverInfo`; `none` when the source
aborts or indexes the vector past its end. -/
def reuseTestSuite (eng : ReuseEngine) (env : ReuseEnv) (new_suite : TestSuite) :
    Option (TestSuite × List Bool) :=
  match reuseTestSuite.build eng env new_suite with
  | none => none
  | some built =>
    let executedSuite := computeCoverage built env.newResults env.newTesterCfg
    match markCovered executedSuite.testCases (List.replicate eng.new_cfg.paths.length false) with
    | none => none
    | some info => some (executedSuite, info)

/-! ## Examples for `reuseTestSuite` -/

/-- A reuse map in which new paths `0` and `2` are paired with old path `0` at similarity
`0.2` and new path `1` is paired with old path `0` at similarity `0.9` (the doubles nearest
to `2/10` and to `9/10`), listed by ascending new path id. -/
def exReuseMap : List (Int × (Int × Dbl)) :=
  [(0, (0, some (Dbl.round (2 / 10)))), (1, (0, some (Dbl.round (9 / 10)))),
   (2, (0, some (Dbl.round (2 / 10))))]

/-- A path-test map in which old path `0` has the single test `0`. -/
def exPathTestMap : Int → List Int := fun k => if k = 0 then [0] else []

/-- The content of a suite file with two test cases, written with `"executed": true`. -/
def exSuiteJson : TestSuiteJson :=
  { executed := true, srcFile := "old.c", funcName := "f", description := "", coverage := some 1,
    testCases :=
      [{ inputs := [{ name := "x", type := "int", data := "1" }],
         outputs := [{ name := "ret", type := "int", expectation := "1" }],
         description := "t0", pathId := 0 },
       { inputs := [{ name := "x", type := "int", data := "0" }],
         outputs := [{ name := "ret", type := "int", expectation := "0" }],
         description := "t1", pathId := INVALID_PATH_ID }] }

/-- A freshly constructed engine for two versions of the diamond; new path `0` is paired with
old path `0` at similarity `0.9`, new path `1` has no match. -/
def exReuseEngine : ReuseEngine :=
  { newSrcFile := "new.c", funcName := "f", new_cfg := diamondCFG, old_cfg := diamondCFG,
    old_suite := TestSuite.default, path_test_map := fun _ => [],
    path_map := [(0, (0, some (Dbl.round (9 / 10)))), (1, (INVALID_PATH_ID, some 0))] }

/-- The surroundings of a run of `exReuseEngine` on `exSuiteJson`: the outputs of the two old
tests and of the reused test, the sets iterated in insertion order. -/
def exReuseEnv : ReuseEnv :=
  { file := some exSuiteJson, oldTesterCfg := diamondCFG,
    oldResults := ["1011".toList, "1101".toList], newTesterCfg := diamondCFG,
    newResults := ["1011".toList], fullOrder := id, inputsOnlyOrder := id }

/-! ## `RollingHashIndex` (`generate/pathinstrument.h`)

Sequence items are node ids, modelled as `Nat`; `size_t` arithmetic is arithmetic modulo
`2 ^ 64`.  The member `index` maps a hash to its bucket, the vector of sequence indices
pushed under that hash. -/

/-- The members `A`, `index`, `sequences` and `hash_len` of a `RollingHashIndex`. -/
structure RollingHashIndex where
  A : Nat
  index : Nat → Option (List Nat)
  sequences : List (List Nat)
  hash_len : Nat

/-- The member `M` (`1e9+7`). -/
def RollingHashIndex.M : Nat := 1000000007

/-- The method `RollingHashIndex::hash` for the base `A`:
`((hashA + 1) * A + (hashB + 1)) % M` in `size_t` arithmetic. -/
def RollingHashIndex.hash (A hashA hashB : Nat) : Nat :=
  ((hashA + 1) * A + (hashB + 1)) % 2 ^ 64 % RollingHashIndex.M

/-- The items `seq[i], …, seq[i + l - 1]`. -/
def window (seq : List Nat) (i l : Nat) : List Nat := (seq.drop i).take l

/-- The loop `for(int j = i; j < i + hash_len; ++j) h = hash(h, seq[j]) % M` of
`updateIndex`, started from `h = 0`. -/
def updateHash (A : Nat) (seq : List Nat) (i l : Nat) : Nat :=
  (window seq i l).foldl (fun h x => RollingHashIndex.hash A h x % RollingHashIndex.M) 0

/-- The loop `for(int j = i; j < i + l; ++j) h = hash(h, seq[j])` of
`getShortestUniqueSubSeq`, started from `h = 0`. -/
def queryHash (A : Nat) (seq : List Nat) (i l : Nat) : Nat :=
  (window seq i l).foldl (RollingHashIndex.hash A) 0

/-- The statement `index[h].push_back(idx)`: a missing bucket is created empty first. -/
def indexPush (index : Nat → Option (List Nat)) (h idx : Nat) : Nat → Option (List Nat) :=
  fun k => if k = h then some ((index h).getD [] ++ [idx]) else index k

/-- The loop `for(int i = 0; i <= n - hash_len; ++i)` of `updateIndex` for the sequence
`seq` with index `idx`. -/
def updateIndexWindows (A hash_len idx : Nat) (seq : List Nat) :
    List Nat → (Nat → Option (List Nat)) → (Nat → Option (List Nat))
  | [], index => index
  | i :: is, index =>
    updateIndexWindows A hash_len idx seq is (indexPush index (updateHash A seq i hash_len) idx)

/-- The loop `for(int idx = 0; idx < sequences.size(); ++idx)` of `updateIndex`; a sequence
shorter than `hash_len` is skipped. -/
def updateIndexSeqs (A hash_len : Nat) :
    List (List Nat) → Nat → (Nat → Option (List Nat)) → (Nat → Option (List Nat))
  | [], _, index => index
  | seq :: rest, idx, index =>
    if seq.length < hash_len then updateIndexSeqs A hash_len rest (idx + 1) index
    else updateIndexSeqs A hash_len rest (idx + 1)
      (updateIndexWindows A hash_len idx seq (List.range (seq.length - hash_len + 1)) index)

/-- The method `RollingHashIndex::updateIndex`: when `hash_len < len`, `hash_len` grows by
one and every window of the new length is indexed. -/
def RollingHashIndex.updateIndex (r : RollingHashIndex) (len : Nat) : RollingHashIndex :=
  if r.hash_len ≥ len then r
  else
    { r with
      hash_len := r.hash_len + 1
      index := updateIndexSeqs r.A (r.hash_len + 1) r.sequences 0 r.index }

/-- The constructor `RollingHashIndex(seqs, max_item_size)`: `hash_len {1}`, an empty index,
then `updateIndex(2)`. -/
def RollingHashIndex.new (seqs : List (List Nat)) (max_item_size : Nat) : RollingHashIndex :=
  RollingHashIndex.updateIndex
    { A := max_item_size, index := fun _ => none, sequences := seqs, hash_len := 1 } 2

/-- How `getShortestUniqueSubSeq` returns: through the `return {}` after "Not found", through
the `return` of a window, or through the final `return {}`. -/
inductive SubSeqReturn where
  | notFound : SubSeqReturn
  | found (subSeq : List Nat) : SubSeqReturn
  | exhausted : SubSeqReturn
deriving DecidableEq

/-- The vector returned. -/
def SubSeqReturn.value : SubSeqReturn → List Nat
  | SubSeqReturn.found subSeq => subSeq
  | _ => []

/-- The loop `for(int i = 0; i <= n - l; ++i)` of `getShortestUniqueSubSeq`; `none` when the
loop ends without a `return`. -/
def querySubSeqWindows (A : Nat) (index : Nat → Option (List Nat)) (seq : List Nat)
    (id l : Nat) : List Nat → Option SubSeqReturn
  | [] => none
  | i :: is =>
    match index (queryHash A seq i l) with
    | none => some SubSeqReturn.notFound
    | some bucket =>
      if bucket.length = 1 ∧ bucket.head? = some id then
        some (SubSeqReturn.found (window seq i l))
      else querySubSeqWindows A index seq id l is

/-- The loop `for(int l = 2; l <= seq.size(); ++l)` of `getShortestUniqueSubSeq`, with
`updateIndex(l + 1)` at the end of each round. -/
def querySubSeqLoop (seq : List Nat) (id : Nat) :
    List Nat → RollingHashIndex → SubSeqReturn × RollingHashIndex
  | [], r => (SubSeqReturn.exhausted, r)
  | l :: ls, r =>
    match querySubSeqWindows r.A r.index seq id l (List.range (seq.length - l + 1)) with
    | some ret => (ret, r)
    | none => querySubSeqLoop seq id ls (r.updateIndex (l + 1))

/-- The method `RollingHashIndex::getShortestUniqueSubSeq`, with the index it leaves behind;
`none` when `RETEST_ASSERT` aborts. -/
def RollingHashIndex.getShortestUniqueSubSeq (r : RollingHashIndex) (id : Int) :
    Option (SubSeqReturn × RollingHashIndex) :=
  if 0 ≤ id ∧ id < r.sequences.length then
    let seq := r.sequences.getD id.toNat []
    some (querySubSeqLoop seq id.toNat (List.range' 2 (seq.length - 1)) r)
  else none

/-- The index after a run of earlier queries `ids`; `none` when one of them aborts. -/
def RollingHashIndex.afterQueries (r : RollingHashIndex) : List Int → Option RollingHashIndex
  | [] => some r
  | id :: ids =>
    match r.getShortestUniqueSubSeq id with
    | none => none
    | some res => RollingHashIndex.afterQueries res.2 ids

/-! ## Serialising a suite (`static/testcase.h`) -/

/-- The function `to_json(json&, const TestCase&)`: `result` is not written. -/
def TestCase.to_json (tc : TestCase) : TestCaseJson :=
  { inputs := tc.inputs, outputs := tc.outputs, description := tc.description,
    pathId := tc.pathId }

/-- The function `to_json(json&, const TestSuite&)`. -/
def TestSuite.to_json (ts : TestSuite) : TestSuiteJson :=
  { executed := ts.executed, srcFile := ts.srcFile, funcName := ts.funcName,
    description := ts.description, coverage := ts.coverage,
    testCases := ts.testCases.map TestCase.to_json }

/-- An executed suite: one test case, recorded on path `0`. -/
def exExecutedSuite : TestSuite :=
  { srcFile := "old.c", funcName := "f", description := "", executed := true,
    coverage := some 1,
    testCases :=
      [{ inputs := [{ name := "x", type := "int", data := "1" }],
         outputs := [{ name := "ret", type := "int", expectation := "1" }],
         description := "t0", pathId := 0, result := "1011".toList }] }

/-- The surroundings of `exReuseEnv`, except that the reused test prints a mask that no path
of the new CFG matches. -/
def exReuseEnvNoMatch : ReuseEnv :=
  { exReuseEnv with newResults := ["0000".toList] }

/-! ## Specification-level notions for paths that differ in one block -/

/-- Two nodes agree in kind, `select_num` and opcode sequence. -/
def Node.Agree (a b : Node) : Prop :=
  a.node_type = b.node_type ∧ a.selectNum = b.selectNum ∧ a.ops = b.ops

instance (a b : Node) : Decidable (Node.Agree a b) :=
  inferInstanceAs (Decidable (a.node_type = b.node_type ∧ a.selectNum = b.selectNum ∧
    a.ops = b.ops))

/-- A returning block that differs from `exRet2` in one opcode. -/
def exRetSub : Node :=
  { id := 1, node_type := NODE_TYPE.NODE_EXIT, successors := [],
    ops := ["load", "sub", "ret"], instructions := "", src := "", selectNum := 0 }

/-! ## From the CFGs to the reuse map -/

/-- The paths of a CFG as the similarity code reads them; `nodes` is the member `nodes` of
the CFG (the node with id `i` at position `i`). -/
def CFG.pathViews (nodes : List Node) (cfg : CFG) : List PathView :=
  cfg.paths.map (fun p => { id_ := p.id_, nodes := p.nodes.filterMap (fun i => nodes[i]?) })

/-- The entries of the map `path_map` in the order in which a range-for visits the keys
`keys`. -/
def pathMapEntries (path_map : Int → Option (Int × Dbl)) (keys : List Int) :
    List (Int × (Int × Dbl)) :=
  keys.filterMap (fun k => (path_map k).map (fun r => (k, r)))

/-- The nodes of a function whose entry block ends in a `switch` with two cases that share
a block: `switch x [default: B1, 1: B2, 2: B2]`, both blocks fall through to the returning
block.  Block `1` is successor `0` of the terminator (`select_num` 1), block `2` is
successors `1` and `2` (`select_num` 3). -/
def exSwitchNodes : List Node :=
  [{ id := 0, node_type := NODE_TYPE.NODE_ENTRY, successors := [1, 2, 2],
     ops := ["alloca", "store", "load", "switch"], instructions := "", src := "",
     selectNum := 0 },
   { id := 1, node_type := NODE_TYPE.NODE_NORMAL, successors := [3],
     ops := ["store", "br"], instructions := "", src := "", selectNum := 1 },
   { id := 2, node_type := NODE_TYPE.NODE_NORMAL, successors := [3],
     ops := ["store", "br"], instructions := "", src := "", selectNum := 3 },
   { id := 3, node_type := NODE_TYPE.NODE_EXIT, successors := [],
     ops := ["load", "ret"], instructions := "", src := "", selectNum := 0 }]

/-- The analysed CFG of that function: `edges[0]` lists block `2` twice. -/
def exSwitchCFG : CFG :=
  (analyzingPaths (CFG.init 4 [[1, 2, 2], [3], [3], []] []) 10).getD (CFG.init 0 [] [])

/-- The paths of `exSwitchCFG` with their nodes. -/
def exSwitchPaths : List PathView := CFG.pathViews exSwitchNodes exSwitchCFG

/-- The engine for an old and a new version that are both the switch function: the reuse
map is what `SimilarityCalculator::run` computes for the two identical path lists. -/
def exSwitchEngine : ReuseEngine :=
  { newSrcFile := "new.c", funcName := "f", new_cfg := exSwitchCFG, old_cfg := exSwitchCFG,
    old_suite := TestSuite.default, path_test_map := fun _ => [],
    path_map := pathMapEntries
      (SimilarityCalculator.run exSwitchPaths exSwitchPaths (fun _ => none) freshCache).1
      [0, 1, 2] }

/-- One old test, whose execution goes through block `2`. -/
def exSwitchEnv : ReuseEnv :=
  { file := some
      { executed := false, srcFile := "old.c", funcName := "f", description := "",
        coverage := some 0,
        testCases :=
          [{ inputs := [{ name := "x", type := "int", data := "1" }],
             outputs := [{ name := "ret", type := "int", expectation := "1" }],
             description := "t0", pathId := INVALID_PATH_ID }] },
    oldTesterCfg := exSwitchCFG, oldResults := ["1011".toList], newTesterCfg := exSwitchCFG,
    newResults := [], fullOrder := id, inputsOnlyOrder := id }

/-- The nodes of a diamond: the entry block branches to blocks `1` and `2`, which both fall
through to the returning block. -/
def exDiamondNodes : List Node :=
  [{ id := 0, node_type := NODE_TYPE.NODE_ENTRY, successors := [1, 2],
     ops := ["alloca", "store", "load", "icmp", "br"], instructions := "", src := "",
     selectNum := 0 },
   { id := 1, node_type := NODE_TYPE.NODE_NORMAL, successors := [3],
     ops := ["store", "br"], instructions := "", src := "", selectNum := 1 },
   { id := 2, node_type := NODE_TYPE.NODE_NORMAL, successors := [3],
     ops := ["store", "br"], instructions := "", src := "", selectNum := 2 },
   { id := 3, node_type := NODE_TYPE.NODE_EXIT, successors := [],
     ops := ["load", "ret"], instructions := "", src := "", selectNum := 0 }]

/-- The engine for an old and a new version that are both the diamond, with the reuse map
that `SimilarityCalculator::run` computes for the two identical path lists. -/
def exDiamondEngine : ReuseEngine :=
  { exReuseEngine with
    path_map := pathMapEntries
      (SimilarityCalculator.run (CFG.pathViews exDiamondNodes diamondCFG)
        (CFG.pathViews exDiamondNodes diamondCFG) (fun _ => none) freshCache).1 [0, 1] }

/-! ## Specification-level notions for the rolling-hash index

A window is named by the triple `(l, idx, i)`: length, sequence index, start position. -/

/-- The windows of length `l` that `updateIndex` indexes, in the order of its loops, for the
sequences `rest` whose first has index `idx`. -/
def levelTriples (l : Nat) : List (List Nat) → Nat → List (Nat × Nat × Nat)
  | [], _ => []
  | seq :: rest, idx =>
    (if seq.length < l then []
     else (List.range (seq.length - l + 1)).map (fun i => (l, idx, i))) ++
      levelTriples l rest (idx + 1)

/-- The windows indexed when `hash_len` has reached the given value: lengths `2` to
`hash_len`. -/
def allTriples (seqs : List (List Nat)) (hash_len : Nat) : List (Nat × Nat × Nat) :=
  (List.range' 2 (hash_len - 1)).flatMap (fun l => levelTriples l seqs 0)

/-- The hash of the window `(l, idx, i)`. -/
def tripleHash (A : Nat) (seqs : List (List Nat)) (t : Nat × Nat × Nat) : Nat :=
  queryHash A (seqs.getD t.2.1 []) t.2.2 t.1

/-- The index that holds, under each hash, the sequence indices of the windows of `T` with
that hash, in the order of `T`. -/
def bucketOf (A : Nat) (seqs : List (List Nat)) (T : List (Nat × Nat × Nat)) :
    Nat → Option (List Nat) :=
  fun h =>
    if (T.filter (fun t => tripleHash A seqs t = h)).map (fun t => t.2.1) = [] then none
    else some ((T.filter (fun t => tripleHash A seqs t = h)).map (fun t => t.2.1))

/-- The state of an index over the sequences `seqs` with base `A`: every window of a length
from `2` to `hash_len` is in the bucket of its hash, once per occurrence. -/
def RollingHashIndex.Inv (r : RollingHashIndex) (seqs : List (List Nat)) (A : Nat) : Prop :=
  r.sequences = seqs ∧ r.A = A ∧ 2 ≤ r.hash_len ∧
  r.index = bucketOf A seqs (allTriples seqs r.hash_len)

/-- The window of length `l` at position `i` of sequence `id` occurs at no other place of
any sequence. -/
def OccursOnce (seqs : List (List Nat)) (id i l : Nat) : Prop :=
  ∀ idx j, idx < seqs.length → j + l ≤ (seqs.getD idx []).length →
    window (seqs.getD idx []) j l = window (seqs.getD id []) i l → idx = id ∧ j = i

/-- No path other than path `id` contains `w` as a contiguous subsequence. -/
def AbsentElsewhere (seqs : List (List Nat)) (id : Nat) (w : List Nat) : Prop :=
  ∀ idx, idx < seqs.length → idx ≠ id → ¬ w <:+: seqs.getD idx []

/-- All windows of length at least `2` of the sequences. -/
def allWindows (seqs : List (List Nat)) : List (List Nat) :=
  seqs.flatMap (fun seq =>
    (List.range' 2 (seq.length - 1)).flatMap (fun l =>
      (List.range (seq.length - l + 1)).map (fun i => window seq i l)))

/-- Distinct windows have distinct hashes. -/
def HashInjective (A : Nat) (seqs : List (List Nat)) : Prop :=
  ∀ w₁ ∈ allWindows seqs, ∀ w₂ ∈ allWindows seqs,
    w₁.foldl (RollingHashIndex.hash A) 0 = w₂.foldl (RollingHashIndex.hash A) 0 → w₁ = w₂

instance (A : Nat) (seqs : List (List Nat)) : Decidable (HashInjective A seqs) :=
  inferInstanceAs (Decidable (∀ w₁ ∈ allWindows seqs, ∀ w₂ ∈ allWindows seqs,
    w₁.foldl (RollingHashIndex.hash A) 0 = w₂.foldl (RollingHashIndex.hash A) 0 → w₁ = w₂))

/-- The test `index[h].size() == 1 && index[h].front() == id` of `getShortestUniqueSubSeq`
succeeds on a bucket that is present. -/
def UniqueBucket (index : Nat → Option (List Nat)) (h id : Nat) : Prop :=
  ∃ b, index h = some b ∧ b.length = 1 ∧ b.head? = some id

/-- At some state of the index that holds the windows of length `l`, the window `(l, id, i)`
passes the test of `getShortestUniqueSubSeq`. -/
def PassesAt (seqs : List (List Nat)) (A id i l : Nat) : Prop :=
  ∃ r : RollingHashIndex, r.Inv seqs A ∧ l ≤ r.hash_len ∧
    UniqueBucket r.index (queryHash A (seqs.getD id []) i l) id

/-- At some state of the index that holds the windows of length `l`, the window `(l, id, i)`
does not pass the test of `getShortestUniqueSubSeq`. -/
def FailsAt (seqs : List (List Nat)) (A id i l : Nat) : Prop :=
  ∃ r : RollingHashIndex, r.Inv seqs A ∧ l ≤ r.hash_len ∧
    ¬ UniqueBucket r.index (queryHash A (seqs.getD id []) i l) id

/-- The two paths of scenario E6, for a function of five blocks. -/
def exSeqsE6 : List (List Nat) := [[0, 1, 2, 3], [0, 1, 4, 3]]

/-- Two paths of a function of four blocks, the first going twice round the loop
`1 → 2 → 1`. -/
def exSeqsRepeat : List (List Nat) := [[0, 1, 2, 1, 2, 3], [0, 1, 3]]

/-! ## `PathInstrument` (`generate/pathinstrument.h`)

The module is modelled by the calls to `klee_path_trigger` and `klee_path_conditional_exit`
that have been inserted in each block of the function. -/

/-- A call inserted by `insertTriggerFunctionCall` or `insertExitFunctionCall`, with its
argument. -/
inductive InstrCall where
  | trigger (arg : Nat) : InstrCall
  | conditional_exit (arg : Nat) : InstrCall
deriving DecidableEq

/-- Is the call a call of `klee_path_trigger`? -/
def InstrCall.isTrigger : InstrCall → Bool
  | InstrCall.trigger _ => true
  | InstrCall.conditional_exit _ => false

/-- The members of a `PathInstrument` that `setPathToInstrument` reads or writes; `calls b`
lists the calls inserted in block `b`, the one at the first insertion point first. -/
structure PathInstrument where
  cfg : CFG
  calls : Nat → List InstrCall
  paths : List (List Nat)
  exitBlocks : List Nat
  rollingHashIndex : RollingHashIndex

/-- The constructor of `PathInstrument` on a module without inserted calls, for the analysed
CFG `cfg` of the function: `initPaths` copies the node sequences of the paths and builds the
index with base `cfg->getSize()`. -/
def PathInstrument.new (cfg : CFG) : PathInstrument :=
  { cfg := cfg, calls := fun _ => [], paths := cfg.paths.map Path.nodes, exitBlocks := [],
    rollingHashIndex := RollingHashIndex.new (cfg.paths.map Path.nodes) cfg.size }

/-- The method `CFG::getBlockSuccessors`; `none` when `PCTRT_ASSERT` aborts. -/
def getBlockSuccessors (cfg : CFG) (blockId : Nat) : Option (List Nat) :=
  if blockId < cfg.size then some (succs cfg.edges blockId) else none

/-- The insertion of a call at the first insertion point of block `bb`; `blockMap` holds
every block id of the function (`init`), so the lookup `blockMap[bb]` finds the block. -/
def insertCall (calls : Nat → List InstrCall) (bb : Nat) (c : InstrCall) :
    Nat → List InstrCall :=
  fun b => if b = bb then c :: calls b else calls b

/-- The call `exitBlocks.insert(succ)` on the `unordered_set<int>` kept as a duplicate-free
list. -/
def exitBlocksInsert (s : List Nat) (x : Nat) : List Nat := if x ∈ s then s else s ++ [x]

/-- The loop `for(int i = 0; i < seq.size() - 1; ++i)` of `setPathToInstrument` over the
consecutive pairs `(seq[i], seq[i + 1])`; `none` when `getBlockSuccessors` aborts.  The loop
is reached only after a non-empty subsequence was found, hence with at least two nodes. -/
def exitBlocksLoop (cfg : CFG) : List Nat → List Nat → Option (List Nat)
  | u :: nextId :: rest, exitBlocks =>
    match getBlockSuccessors cfg u with
    | none => none
    | some successors =>
      exitBlocksLoop cfg (nextId :: rest)
        (successors.foldl
          (fun s succ => if succ ≠ nextId then exitBlocksInsert s succ else s) exitBlocks)
  | _, exitBlocks => some exitBlocks

/-- The argument of the trigger call for position `i` of a subsequence of `size` nodes:
`(int(i != 0) << 1) | int(i != size - 1)`. -/
def triggerMask (i size : Nat) : Nat :=
  ((if i ≠ 0 then 1 else 0) <<< 1) ||| (if i ≠ size - 1 then 1 else 0)

/-- The loop `for(int i = 0; i < subSeq.size(); ++i)` of `setPathToInstrument`, from
position `i` on. -/
def triggerLoop (size : Nat) : List Nat → Nat → (Nat → List InstrCall) → (Nat → List InstrCall)
  | [], _, calls => calls
  | s :: rest, i, calls =>
    triggerLoop size rest (i + 1) (insertCall calls s (InstrCall.trigger (triggerMask i size)))

/-- The method `PathInstrument::setPathToInstrument`: the returned flag and the instrumenter
afterwards; `exitOrder` is the order in which the range-for visits `exitBlocks`; `none` when
an assertion aborts. -/
def PathInstrument.setPathToInstrument (self : PathInstrument)
    (exitOrder : List Nat → List Nat) (pathId : Int) : Option (Bool × PathInstrument) :=
  if pathId < 0 ∨ pathId ≥ self.cfg.paths.length then some (false, self)
  else
    let seq := (self.cfg.paths.map Path.nodes).getD pathId.toNat []
    match self.rollingHashIndex.getShortestUniqueSubSeq pathId with
    | none => none
    | some res =>
      let subSeq := res.1.value
      if subSeq.isEmpty then some (false, { self with rollingHashIndex := res.2 })
      else
        match exitBlocksLoop self.cfg seq self.exitBlocks with
        | none => none
        | some exitBlocks =>
          let calls1 := triggerLoop subSeq.length subSeq 0 self.calls
          let calls2 := (exitOrder exitBlocks).foldl
            (fun c bbId => insertCall c bbId (InstrCall.conditional_exit 0)) calls1
          some (true,
            { self with rollingHashIndex := res.2, exitBlocks := exitBlocks, calls := calls2 })

/-- The blocks that are a successor of a node of `seq` other than the next node of `seq`. -/
def OffPath (cfg : CFG) (seq : List Nat) (b : Nat) : Prop :=
  ∃ i, i + 1 < seq.length ∧ b ∈ succs cfg.edges (seq.getD i 0) ∧ b ≠ seq.getD (i + 1) 0

/-- The analysed CFG of scenario E6: `0 → 1`, `1 → 2`, `1 → 4`, `2 → 3`, `4 → 3`; the
terminator of block `1` lists block `4` first, so that the path through `2` is path `0`. -/
def exE6CFG : CFG :=
  (analyzingPaths (CFG.init 5 [[1], [4, 2], [3], [], [3]] []) 10).getD (CFG.init 0 [] [])

/-- The analysed CFG of a loop with header `1`, blocks `1, 2, 3, 4` and exit block `5`:
`0 → 1`, `1 → 2, 3, 5`, `2 → 1, 4`, `3 → 2`, `4 → 1`. -/
def exLoopCFG : CFG :=
  (analyzingPaths (CFG.init 6 [[1], [2, 3, 5], [1, 4], [2], [1], []]
    [(1, { blocks := [1, 2, 3, 4], exitBlocks := [5] })]) 50).getD (CFG.init 0 [] [])

/-! ## Definitions for the rounds of a query, call sequences and further examples -/

/-- The rounds of the loop `for(int l = 2; l <= seq.size(); ++l)` that a run of
`getShortestUniqueSubSeq` goes through: each length `l` whose windows are looked up, paired
with the index as it is during these lookups.  The round in which the inner loop returns is
the last one; otherwise `updateIndex(l + 1)` runs before the next round. -/
def querySubSeqRounds (seq : List Nat) (id : Nat) :
    List Nat → RollingHashIndex → List (Nat × RollingHashIndex)
  | [], _ => []
  | l :: ls, r =>
    (l, r) ::
      match querySubSeqWindows r.A r.index seq id l (List.range (seq.length - l + 1)) with
      | some _ => []
      | none => querySubSeqRounds seq id ls (r.updateIndex (l + 1))

/-- A sequence of calls `getNodeSimilarity(node1, node2)` on one `SimilarityStrategy`: the
values returned, in order, and the cache after the last call. -/
def getNodeSimilarityCalls : List (Node × Node) → SimCache → List Dbl × SimCache
  | [], sim_cache => ([], sim_cache)
  | c :: rest, sim_cache =>
    let r := getNodeSimilarity sim_cache c.1 c.2
    let rs := getNodeSimilarityCalls rest r.2
    (r.1 :: rs.1, rs.2)

/-- The analysed CFG of an `if` without `else`: `0 → 1`, `0 → 2`, `1 → 2`, and block `2`
returns.  Its paths are `[0, 2]` (id `0`) and `[0, 1, 2]` (id `1`). -/
def exIfCFG : CFG :=
  (analyzingPaths (CFG.init 3 [[1, 2], [2], []] []) 10).getD (CFG.init 0 [] [])

/-- No node of `seq` has an edge to a node of `seq` other than its next node on `seq`. -/
def NoChord (cfg : CFG) (seq : List Nat) : Prop :=
  ∀ i, i + 1 < seq.length → ∀ b ∈ seq, b ∈ succs cfg.edges (seq.getD i 0) →
    b = seq.getD (i + 1) 0

/-- The successor lists of a function whose entry block branches to a block that ends in
`unreachable` (block `1`, after a call that does not return) and to the returning block `2`,
the last block. -/
def exAbortEdges : List (List Nat) := [[1, 2], [], []]

/-- For every bitmask string in `pathIdMap`, the id stored is the largest id of a stored
path with that bitmask string. -/
def CFG.LastWins (cfg : CFG) : Prop :=
  ∀ mask id, cfg.pathIdMap mask = some id →
    ∀ p ∈ cfg.paths, p.to_string = mask → p.id_ ≤ id

/-- The analysed CFG of `while (a) { if (b) break; }`: `0 → 1`, `1 → 2, 3`, `2 → 3, 1`, and
block `3` returns; the loop has header `1`, blocks `{1, 2}` and exit block `3`.  Its paths
are `[0, 1, 2, 3]` (id `0`), `[0, 1, 2, 1, 3]` (id `1`) and `[0, 1, 3]` (id `2`). -/
def exBreakCFG : CFG :=
  (analyzingPaths (CFG.init 4 [[1], [2, 3], [3, 1], []]
    [(1, { blocks := [1, 2], exitBlocks := [3] })]) 10).getD (CFG.init 0 [] [])

/-! ## Definitions for the hash without reduction and for runs of the matcher -/

/-- The unreduced polynomial value of an item sequence: the combination rule
`h' = (h + 1) * A + (item + 1)` folded from `h = 0` without any reduction. -/
def polyValue (A : Nat) (items : List Nat) : Nat :=
  items.foldl (fun h x => (h + 1) * A + (x + 1)) 0

/-- The CFG after `n` consecutive calls `matchBestPathId(mask)` with one and the same
mask. -/
def matchBestRepeat (cfg : CFG) (mask : List Char) : Nat → CFG
  | 0 => cfg
  | n + 1 => (matchBestPathId (matchBestRepeat cfg mask n) mask).2

/-- The values returned by `matchBestPathId` when it is called on the masks of the list, in
order, each call on the CFG left by the call before. -/
def matchBestRun : List (List Char) → CFG → List Int
  | [], _ => []
  | mask :: rest, cfg =>
    let r := matchBestPathId cfg mask
    r.1 :: matchBestRun rest r.2

/-- A suite of three test cases that have no path id yet. -/
def exCoverageSuite : TestSuite :=
  { srcFile := "new.c", funcName := "f", description := "", executed := false,
    coverage := some 0,
    testCases :=
      [{ inputs := [{ name := "x", type := "int", data := "1" }], outputs := [],
         description := "t0", pathId := -1, result := [] },
       { inputs := [{ name := "x", type := "int", data := "2" }], outputs := [],
         description := "t1", pathId := -1, result := [] },
       { inputs := [{ name := "x", type := "int", data := "3" }], outputs := [],
         description := "t2", pathId := -1, result := [] }] }

/-- Three execution masks for the diamond: two runs that mark every block and one run along
the path `[0, 2, 3]`. -/
def exCoverageMasks : List (List Char) :=
  [['1', '1', '1', '1'], ['1', '1', '1', '1'], ['1', '0', '1', '1']]

/-! ## Definitions for the bitmasks of the stored paths -/

/-- Every stored path has its nodes among the blocks of the function, and character `i` of
its bitmask string is `'1'` exactly when node `i` occurs in it. -/
def CFG.MasksOk (cfg : CFG) : Prop :=
  ∀ p ∈ cfg.paths, (∀ x ∈ p.nodes, x < cfg.size) ∧
    ∀ i, i < cfg.size → p.to_string[i]? = some (if i ∈ p.nodes then '1' else '0')

/-! ## `CFG::buildGraph` (`static/cfg.h`)

The function is read through its basic blocks, in layout order; block `i` becomes node `i`
(`node_map` sends a block to its position, as `initGraphFromFunction` asserts). -/

/-- What the CFG construction reads off an `llvm::BasicBlock`: the printed instructions, the
opcode names, and the successor blocks of its terminator in the order of
`getTerminator()->getSuccessor(i)` (which is also the order of `succ_begin .. succ_end`),
each given by its position in the function. -/
structure BasicBlock where
  instructions : String
  ops : List String
  successors : List Nat
deriving DecidableEq

/-- The successor blocks of the terminator of block `b`. -/
def termSuccs (func : List BasicBlock) (b : Nat) : List Nat :=
  ((func[b]?).map BasicBlock.successors).getD []

/-- The vector `nodes` when `buildGraph` is called: `initGraphFromFunction` has constructed
one `Node` per block (`Node(&block)`: the next id, type `NODE_NORMAL`, no successors,
`selectNum {0}`), has set the type of the entry node to `NODE_ENTRY`, and
`handleLoopsInFunction` has set the type of every loop header to `NODE_LOOP`.  The blocks
are `func`, the first of them with id `bbId`. -/
def initNodes : List BasicBlock → Nat → List Nat → List Node
  | [], _, _ => []
  | block :: rest, bbId, headers =>
    { id := bbId,
      node_type := if bbId ∈ headers then NODE_TYPE.NODE_LOOP
        else if bbId = 0 then NODE_TYPE.NODE_ENTRY else NODE_TYPE.NODE_NORMAL,
      successors := [], ops := block.ops, instructions := block.instructions, src := "",
      selectNum := 0 } :: initNodes rest (bbId + 1) headers

/-- A write through the reference `nodes[k]`. -/
def updateNode (nodes : List Node) (k : Nat) (f : Node → Node) : List Node :=
  match nodes[k]? with
  | some n => nodes.set k (f n)
  | none => nodes

/-- The loop `for(size_t i = 0; i < num; ++i)` of `buildGraph`, from index `i` on:
`nodes[node_map[getSuccessor(i)]].setSelectNum(i + 1)`. -/
def setSelectNumLoop : List Nat → Nat → List Node → List Node
  | [], _, nodes => nodes
  | succBlock :: rest, i, nodes =>
    setSelectNumLoop rest (i + 1)
      (updateNode nodes succBlock (fun n => { n with selectNum := (i : Int) + 1 }))

/-- The body of the loop `for (auto& [block, node_id] : node_map)` of `buildGraph`, up to
the last statement: the vector `nodes` after the successors of `nodes[node_id]` were pushed,
its type was set, and the select numbers of its successors were set. -/
def buildGraphNodes (func : List BasicBlock) (nodes : List Node) (node_id : Nat) : List Node :=
  let nodes1 := updateNode nodes node_id
    (fun node => { node with successors := node.successors ++ termSuccs func node_id })
  let successors := ((nodes1[node_id]?).map Node.successors).getD []
  if successors.isEmpty then
    updateNode nodes1 node_id (fun node => { node with node_type := NODE_TYPE.NODE_EXIT })
  else if successors.length > 1 then
    setSelectNumLoop (termSuccs func node_id) 0
      (updateNode nodes1 node_id (fun node =>
        if node.node_type = NODE_TYPE.NODE_NORMAL
        then { node with node_type := NODE_TYPE.NODE_BRANCH } else node))
  else nodes1

/-- The body of the loop `for (auto& [block, node_id] : node_map)` of `buildGraph` on the
state `(nodes, edges)`; its last statement is `edges[node_id] = node.getSuccessors()`. -/
def buildGraphStep (func : List BasicBlock) (st : List Node × List (List Nat))
    (node_id : Nat) : List Node × List (List Nat) :=
  let nodes2 := buildGraphNodes func st.1 node_id
  (nodes2, st.2.set node_id (((nodes2[node_id]?).map Node.successors).getD []))

/-- The function `CFG::buildGraph`; `order` lists the node ids in the order in which the
range-for visits the `unordered_map` `node_map`. -/
def buildGraph (func : List BasicBlock) (order : List Nat)
    (st : List Node × List (List Nat)) : List Node × List (List Nat) :=
  order.foldl (buildGraphStep func) st

/-- The state `(nodes, edges)` in which `initGraphFromFunction` calls `buildGraph`:
`edges.resize(size)`. -/
def initGraphState (func : List BasicBlock) (headers : List Nat) :
    List Node × List (List Nat) :=
  (initNodes func 0 headers, List.replicate func.length [])

/-- A function whose entry block ends in `switch x [default: B1, 1: B2, 2: B2]`; blocks `1`
and `2` branch to the returning block `3`. -/
def exSwitchFunc : List BasicBlock :=
  [{ instructions := "", ops := ["alloca", "store", "load", "switch"], successors := [1, 2, 2] },
   { instructions := "", ops := ["store", "br"], successors := [3] },
   { instructions := "", ops := ["store", "br"], successors := [3] },
   { instructions := "", ops := ["load", "ret"], successors := [] }]

/-- A function with the body `if (!a || b) s1; else s2;`: the entry block ends in
`br a, lor.lhs.false, if.then`, block `1` (`lor.lhs.false`) in `br b, if.then, if.else`;
`if.then` is block `2`, `if.else` block `3`, and both branch to the returning block `4`. -/
def exOrFunc : List BasicBlock :=
  [{ instructions := "", ops := ["load", "br"], successors := [1, 2] },
   { instructions := "", ops := ["load", "br"], successors := [2, 3] },
   { instructions := "", ops := ["store", "br"], successors := [4] },
   { instructions := "", ops := ["store", "br"], successors := [4] },
   { instructions := "", ops := ["ret"], successors := [] }]

/-- The state of `buildGraph` after the blocks of `V` have been visited, for a function of
`N` blocks: a visited node holds the successors of its terminator and `edges` holds them
too, a node not yet visited holds no successor; and the select number of a node is `0` when
no visited block with at least two successors lists it, and otherwise one more than the
last index at which some visited block with at least two successors lists it. -/
def BuildGraphInv (func : List BasicBlock) (N : Nat) (V : List Nat)
    (st : List Node × List (List Nat)) : Prop :=
  st.1.length = N ∧ st.2.length = N ∧
  (∀ b ∈ V, st.2[b]? = some (termSuccs func b)) ∧
  ∀ t n, st.1[t]? = some n →
    n.successors = (if t ∈ V then termSuccs func t else []) ∧
    ((n.selectNum = 0 ∧ ∀ b ∈ V, 1 < (termSuccs func b).length → t ∉ termSuccs func b) ∨
      ∃ b ∈ V, 1 < (termSuccs func b).length ∧
        ∃ j : Nat, (termSuccs func b)[j]? = some t ∧
          (∀ k : Nat, j < k → (termSuccs func b)[k]? ≠ some t) ∧ n.selectNum = (j : Int) + 1)

/-- What a round of the loop of `buildGraph` on block `b` does to the vector `nodes`: node
`b` receives the successors of the terminator of `b`; when these are at least two, each of
them receives as select number its last index among them, plus one; nothing else changes in
`successors` and `selectNum`. -/
def NodesAfterVisit (func : List BasicBlock) (nodes : List Node) (b : Nat)
    (nodes2 : List Node) : Prop :=
  nodes2.length = nodes.length ∧
  ∀ t n', nodes2[t]? = some n' →
    ∃ n, nodes[t]? = some n ∧
      n'.successors = (if t = b then termSuccs func b else n.successors) ∧
      ((¬ (1 < (termSuccs func b).length ∧ t ∈ termSuccs func b) ∧
          n'.selectNum = n.selectNum) ∨
        (1 < (termSuccs func b).length ∧
          ∃ j : Nat, (termSuccs func b)[j]? = some t ∧
            (∀ k : Nat, j < k → (termSuccs func b)[k]? ≠ some t) ∧
            n'.selectNum = (j : Int) + 1))

/-- The index over the paths of scenario E6 after the queries for path `0` and path `1`. -/
def exIndexAfterQueries : RollingHashIndex :=
  ((RollingHashIndex.new exSeqsE6 5).afterQueries [0, 1]).getD (RollingHashIndex.new exSeqsE6 5)

/-- The second test case of `exCoverageSuite` after `computeCoverage` on `exCoverageMasks`
and the diamond: recorded on path `1`. -/
def exCoveredCase : TestCase :=
  { inputs := [{ name := "x", type := "int", data := "2" }], outputs := [],
    description := "t1", pathId := 1, result := ['1', '1', '1', '1'] }

/-! ## Acyclic enumeration: well-formedness (C1) and completeness (C3) -/

theorem isWalk_snoc {edges : List (List Nat)} {q : List Nat} {v : Nat}
    (hq : IsWalk edges q) (hv : v ∈ succs edges (q.getLastD 0)) :
    IsWalk edges (q ++ [v]) := by
  unfold IsWalk at *
  refine List.Chain'.append hq (List.chain'_singleton v) ?_
  intro x hx y hy
  simp at hy
  subst hy
  have : q.getLastD 0 = x := by
    rw [List.getLastD_eq_getLast?]
    simp at hx
    simp [hx]
  rw [this] at hv
  exact hv

theorem head?_snoc {q : List Nat} {v a : Nat} (h : q.head? = some a) :
    (q ++ [v]).head? = some a := by
  cases q with
  | nil => simp at h
  | cons x xs => simpa using h

theorem dfsVisit_fold_inv (edges : List (List Nat)) (cur : List Nat) (hcur : StackInv edges cur) :
    ∀ (nbrs : List Nat) (st : List (List Nat) × List (List Nat)),
      (∀ v ∈ nbrs, v ∈ succs edges (cur.getLastD 0)) →
      (∀ q ∈ st.1, StackInv edges q) → (∀ p ∈ st.2, WellFormedPath edges p) →
      (∀ q ∈ (nbrs.foldl (dfsVisit edges cur) st).1, StackInv edges q) ∧
      (∀ p ∈ (nbrs.foldl (dfsVisit edges cur) st).2, WellFormedPath edges p) := by
  intro nbrs
  induction nbrs with
  | nil => intro st _ h1 h2; exact ⟨h1, h2⟩
  | cons v rest ih =>
    intro st hn h1 h2
    rw [List.foldl_cons]
    have hv := hn v (List.mem_cons_self _ _)
    have hwalk : IsWalk edges (cur ++ [v]) := isWalk_snoc hcur.2 hv
    have hhead : (cur ++ [v]).head? = some 0 := head?_snoc hcur.1
    apply ih
    · intro w hw; exact hn w (List.mem_cons_of_mem _ hw)
    · intro q hq
      unfold dfsVisit at hq
      simp only at hq
      split at hq
      · exact h1 q hq
      · rcases List.mem_cons.1 hq with h | h
        · subst h; exact ⟨hhead, hwalk⟩
        · exact h1 q h
    · intro p hp
      unfold dfsVisit at hp
      simp only at hp
      split at hp
      next hemp =>
        rcases List.mem_append.1 hp with h | h
        · exact h2 p h
        · simp at h
          subst h
          refine ⟨hhead, ⟨v, by simp, ?_⟩, hwalk⟩
          simpa using hemp
      · exact h2 p hp

theorem dfsLoop_inv (edges : List (List Nat)) :
    ∀ (fuel : Nat) (stack allPaths paths : List (List Nat)),
      (∀ q ∈ stack, StackInv edges q) → (∀ p ∈ allPaths, WellFormedPath edges p) →
      dfsLoop edges fuel stack allPaths = some paths →
      ∀ p ∈ paths, WellFormedPath edges p := by
  intro fuel
  induction fuel with
  | zero =>
    intro stack allPaths paths _ h2 h
    cases stack with
    | nil => simp [dfsLoop] at h; subst h; exact h2
    | cons c s => simp [dfsLoop] at h
  | succ n ih =>
    intro stack allPaths paths h1 h2 h
    cases stack with
    | nil => simp [dfsLoop] at h; subst h; exact h2
    | cons c s =>
      simp only [dfsLoop] at h
      have hc := h1 c (List.mem_cons_self _ _)
      have := dfsVisit_fold_inv edges c hc (succs edges (c.getLastD 0)) (s, allPaths)
        (fun v hv => hv) (fun q hq => h1 q (List.mem_cons_of_mem _ hq)) h2
      exact ih _ _ _ this.1 this.2 h

/-- C1: in the acyclic regime, whenever `dfsWithoutLoops` terminates (returns with the fuel
it was given), every path it returns starts at the entry node `0`, ends at a node without
successors, and has an edge of the CFG between every two consecutive nodes. -/
theorem dfsWithoutLoops_wellFormed (edges : List (List Nat)) (fuel : Nat)
    (paths : List (List Nat)) (h : dfsWithoutLoops edges fuel = some paths) :
    ∀ p ∈ paths, p.head? = some 0 ∧ EndsAtExit edges p ∧ IsWalk edges p := by
  apply dfsLoop_inv edges fuel [[0]] [] paths _ _ h
  · intro q hq
    simp at hq
    subst hq
    exact ⟨rfl, by simp [IsWalk]⟩
  · intro p hp; simp at hp

theorem dfsWithoutLoops_wellFormed_witness :
    dfsWithoutLoops diamondEdges 3 = some [[0, 2, 3], [0, 1, 3]] ∧
    ∀ p ∈ [[0, 2, 3], [0, 1, 3]],
      p.head? = some 0 ∧ EndsAtExit diamondEdges p ∧ IsWalk diamondEdges p :=
  ⟨by decide, dfsWithoutLoops_wellFormed diamondEdges 3 _ (by decide)⟩

theorem dfsVisit_fold_eq (edges : List (List Nat)) (cur : List Nat) :
    ∀ (nbrs : List Nat) (s a : List (List Nat)),
      nbrs.foldl (dfsVisit edges cur) (s, a) =
        (((nbrs.filter (fun v => !(succs edges v).isEmpty)).map (fun v => cur ++ [v])).reverse ++ s,
          a ++ (nbrs.filter (fun v => (succs edges v).isEmpty)).map (fun v => cur ++ [v])) := by
  intro nbrs
  induction nbrs with
  | nil => intro s a; simp
  | cons v rest ih =>
    intro s a
    rw [List.foldl_cons]
    by_cases hv : (succs edges v).isEmpty = true
    · simp [dfsVisit, hv, ih]
    · simp [dfsVisit, hv, ih]

theorem drains_list (edges : List (List Nat)) :
    ∀ (cs : List (List Nat)), (∀ c ∈ cs, Drains edges c) →
      cs.Pairwise (fun c d => ∀ q, Ext edges c q → ¬ Ext edges d q) →
      ∀ rest acc, ∃ k O, (∀ fuel, dfsLoop edges (k + fuel) (cs ++ rest) acc
          = dfsLoop edges fuel rest (acc ++ O)) ∧ O.Nodup ∧
        ∀ q, q ∈ O ↔ ∃ c ∈ cs, Ext edges c q := by
  intro cs
  induction cs with
  | nil =>
    intro _ _ rest acc
    exact ⟨0, [], by simp, by simp, by simp⟩
  | cons c cs ih =>
    intro hd hp rest acc
    obtain ⟨k1, O1, h1, n1, m1⟩ := hd c (List.mem_cons_self _ _) (cs ++ rest) acc
    rw [List.pairwise_cons] at hp
    obtain ⟨k2, O2, h2, n2, m2⟩ :=
      ih (fun d hd' => hd d (List.mem_cons_of_mem _ hd')) hp.2 rest (acc ++ O1)
    refine ⟨k1 + k2, O1 ++ O2, ?_, ?_, ?_⟩
    · intro fuel
      rw [List.cons_append, Nat.add_assoc, h1, h2, List.append_assoc]
    · rw [List.nodup_append]
      refine ⟨n1, n2, ?_⟩
      intro q hq1 hq2
      obtain ⟨d, hdm, hdq⟩ := (m2 q).1 hq2
      exact hp.1 d hdm q ((m1 q).1 hq1) hdq
    · intro q
      rw [List.mem_append, m1, m2]
      simp

theorem getLastD_snoc (cur : List Nat) (v : Nat) : (cur ++ [v]).getLastD 0 = v := by
  rw [List.getLastD_eq_getLast?]; simp

theorem ext_snoc_disjoint (edges : List (List Nat)) (cur : List Nat) {v v' : Nat} (hvv : v ≠ v')
    (q : List Nat) : Ext edges (cur ++ [v]) q → ¬ Ext edges (cur ++ [v']) q := by
  rintro ⟨w, _, hq, _, _⟩ ⟨w', _, hq', _, _⟩
  rw [hq, List.append_assoc, List.append_assoc] at hq'
  have := List.append_cancel_left hq'
  simp at this
  exact hvv this.1

theorem ext_iff_kids (edges : List (List Nat)) (cur q : List Nat) :
    Ext edges cur q ↔
      (∃ v ∈ succs edges (cur.getLastD 0), (succs edges v).isEmpty = true ∧ q = cur ++ [v]) ∨
      (∃ v ∈ succs edges (cur.getLastD 0), (succs edges v).isEmpty = false ∧
        Ext edges (cur ++ [v]) q) := by
  constructor
  · rintro ⟨w, hw, hq, hwalk, hexit⟩
    cases w with
    | nil => exact absurd rfl hw
    | cons v w' =>
      have hv : v ∈ succs edges (cur.getLastD 0) := by
        unfold IsWalk at hwalk
        exact (List.chain'_cons.1 hwalk).1
      have hwalk' : IsWalk edges (v :: w') := by
        unfold IsWalk at hwalk ⊢
        exact (List.chain'_cons.1 hwalk).2
      cases w' with
      | nil =>
        left
        refine ⟨v, hv, ?_, hq⟩
        obtain ⟨x, hx, hs⟩ := hexit
        simp at hx
        subst hx
        simp [hs]
      | cons y w'' =>
        right
        refine ⟨v, hv, ?_, y :: w'', by simp, by simp [hq], ?_, ?_⟩
        · have hy : y ∈ succs edges v := by
            unfold IsWalk at hwalk'
            exact (List.chain'_cons.1 hwalk').1
          cases hs : succs edges v with
          | nil => rw [hs] at hy; simp at hy
          | cons a b => rfl
        · rw [getLastD_snoc]; exact hwalk'
        · obtain ⟨x, hx, hs⟩ := hexit
          exact ⟨x, by simpa using hx, hs⟩
  · rintro (⟨v, hv, hs, hq⟩ | ⟨v, hv, _, w, hw, hq, hwalk, hexit⟩)
    · refine ⟨[v], by simp, hq, ?_, v, by simp, ?_⟩
      · unfold IsWalk
        exact List.chain'_cons.2 ⟨hv, List.chain'_singleton v⟩
      · simpa using hs
    · refine ⟨v :: w, by simp, by simp [hq], ?_, ?_⟩
      · rw [getLastD_snoc] at hwalk
        unfold IsWalk at hwalk ⊢
        exact List.chain'_cons.2 ⟨hv, hwalk⟩
      · obtain ⟨x, hx, hs⟩ := hexit
        refine ⟨x, ?_, hs⟩
        cases w with
        | nil => exact absurd rfl hw
        | cons a b => simpa using hx

theorem drains_step (edges : List (List Nat)) (hnd : ∀ u, (succs edges u).Nodup)
    (cur : List Nat)
    (hkids : ∀ v ∈ succs edges (cur.getLastD 0), Drains edges (cur ++ [v])) :
    Drains edges cur := by
  intro rest acc
  have hpw : (((succs edges (cur.getLastD 0)).filter
      (fun v => !(succs edges v).isEmpty)).map (fun v => cur ++ [v])).reverse.Pairwise
      (fun c d => ∀ q, Ext edges c q → ¬ Ext edges d q) := by
    rw [List.pairwise_reverse, List.pairwise_map]
    refine List.Pairwise.imp ?_ (List.Pairwise.filter _ (hnd (cur.getLastD 0)))
    intro a b hab q
    exact ext_snoc_disjoint edges cur (Ne.symm hab) q
  obtain ⟨k, O, h, n, m⟩ := drains_list edges _ (by
      intro c hc
      simp only [List.mem_reverse, List.mem_map, List.mem_filter] at hc
      obtain ⟨v, ⟨hv, _⟩, rfl⟩ := hc
      exact hkids v hv) hpw rest
    (acc ++ ((succs edges (cur.getLastD 0)).filter
      (fun v => (succs edges v).isEmpty)).map (fun v => cur ++ [v]))
  refine ⟨k + 1, ((succs edges (cur.getLastD 0)).filter
      (fun v => (succs edges v).isEmpty)).map (fun v => cur ++ [v]) ++ O, ?_, ?_, ?_⟩
  · intro fuel
    have e : k + 1 + fuel = (k + fuel) + 1 := by omega
    rw [e]
    simp only [dfsLoop]
    rw [dfsVisit_fold_eq, h fuel, List.append_assoc]
  · rw [List.nodup_append]
    refine ⟨?_, n, ?_⟩
    · refine List.Nodup.map ?_ (List.Nodup.filter _ (hnd _))
      intro a b hab
      simpa using hab
    · intro q hq1 hq2
      simp only [List.mem_map, List.mem_filter] at hq1
      obtain ⟨v, _, rfl⟩ := hq1
      obtain ⟨c, hc, w, hw, hq, _⟩ := (m _).1 hq2
      simp only [List.mem_reverse, List.mem_map, List.mem_filter] at hc
      obtain ⟨v', _, rfl⟩ := hc
      have := congrArg List.length hq
      simp at this
      cases w with
      | nil => exact hw rfl
      | cons a b => simp at this
  · intro q
    rw [List.mem_append, m, ext_iff_kids]
    simp only [List.mem_map, List.mem_filter, List.mem_reverse]
    constructor
    · rintro (⟨v, ⟨hv, hs⟩, rfl⟩ | ⟨c, ⟨v, ⟨hv, hs⟩, rfl⟩, hc⟩)
      · left; exact ⟨v, hv, hs, rfl⟩
      · right; exact ⟨v, hv, by simpa using hs, hc⟩
    · rintro (⟨v, hv, hs, rfl⟩ | ⟨v, hv, hs, hc⟩)
      · left; exact ⟨v, ⟨hv, hs⟩, rfl⟩
      · right; exact ⟨_, ⟨v, ⟨hv, by simpa using hs⟩, rfl⟩, hc⟩

theorem walk_of_transGen (edges : List (List Nat)) {a b : Nat}
    (h : Relation.TransGen (fun v u => IsEdge edges u v) a b) :
    ∃ w, w ≠ [] ∧ IsWalk edges (b :: w) ∧ w.getLast? = some a := by
  induction h with
  | single h1 =>
    refine ⟨[a], by simp, ?_, by simp⟩
    unfold IsWalk
    exact List.chain'_cons.2 ⟨h1, List.chain'_singleton a⟩
  | @tail b c _ h2 ih =>
    obtain ⟨w, hw, hwalk, hlast⟩ := ih
    refine ⟨b :: w, by simp, ?_, ?_⟩
    · unfold IsWalk at hwalk ⊢
      exact List.chain'_cons.2 ⟨h2, hwalk⟩
    · cases w with
      | nil => exact absurd rfl hw
      | cons x y => simpa using hlast

theorem succs_eq_nil_of_le (edges : List (List Nat)) {u : Nat} (h : edges.length ≤ u) :
    succs edges u = [] := by
  unfold succs
  simp [List.getD_eq_getElem?_getD, List.getElem?_eq_none h]

theorem acyclic_wf (edges : List (List Nat)) (hac : Acyclic edges) :
    WellFounded (fun v u => IsEdge edges u v) := by
  haveI : IsTrans (Fin edges.length)
      (fun a b => Relation.TransGen (fun v u => IsEdge edges u v) a.val b.val) :=
    ⟨fun _ _ _ h1 h2 => Relation.TransGen.trans h1 h2⟩
  haveI : IsIrrefl (Fin edges.length)
      (fun a b => Relation.TransGen (fun v u => IsEdge edges u v) a.val b.val) :=
    ⟨fun a h => by
      obtain ⟨w, hw, hwalk, hlast⟩ := walk_of_transGen edges h
      exact hac a.val w hw hwalk hlast⟩
  have wf := Finite.wellFounded_of_trans_of_irrefl
    (fun (a b : Fin edges.length) =>
      Relation.TransGen (fun v u => IsEdge edges u v) a.val b.val)
  have key : ∀ a : Fin edges.length, Acc (fun v u => IsEdge edges u v) a.val := by
    intro a
    induction a using wf.induction with
    | _ a ih =>
      refine Acc.intro _ (fun v hv => ?_)
      by_cases hlt : v < edges.length
      · exact ih ⟨v, hlt⟩ (Relation.TransGen.single hv)
      · refine Acc.intro _ (fun x hx => ?_)
        have : succs edges v = [] := succs_eq_nil_of_le edges (Nat.le_of_not_lt hlt)
        unfold IsEdge at hx
        rw [this] at hx
        simp at hx
  refine ⟨fun u => ?_⟩
  by_cases hlt : u < edges.length
  · exact key ⟨u, hlt⟩
  · refine Acc.intro _ (fun x hx => ?_)
    have : succs edges u = [] := succs_eq_nil_of_le edges (Nat.le_of_not_lt hlt)
    unfold IsEdge at hx
    rw [this] at hx
    simp at hx

theorem drains_all (edges : List (List Nat)) (hac : Acyclic edges)
    (hnd : ∀ u, (succs edges u).Nodup) :
    ∀ (u : Nat) (cur : List Nat), cur.getLastD 0 = u → Drains edges cur := by
  intro u
  induction u using (acyclic_wf edges hac).induction with
  | _ u ih =>
    intro cur hcur
    apply drains_step edges hnd cur
    intro v hv
    rw [hcur] at hv
    exact ih v hv (cur ++ [v]) (getLastD_snoc cur v)

theorem ext_entry_iff (edges : List (List Nat)) (h0 : succs edges 0 ≠ []) (q : List Nat) :
    Ext edges [0] q ↔ WellFormedPath edges q := by
  constructor
  · rintro ⟨w, hw, hq, hwalk, x, hx, hs⟩
    subst hq
    refine ⟨by simp, ⟨x, ?_, hs⟩, by simpa using hwalk⟩
    cases w with
    | nil => exact absurd rfl hw
    | cons a b => simpa using hx
  · rintro ⟨hhead, ⟨x, hx, hs⟩, hwalk⟩
    cases q with
    | nil => simp at hhead
    | cons a w =>
      simp at hhead
      subst hhead
      have hw : w ≠ [] := by
        rintro rfl
        simp at hx
        subst hx
        exact h0 hs
      refine ⟨w, hw, by simp, by simpa using hwalk, x, ?_, hs⟩
      cases w with
      | nil => exact absurd rfl hw
      | cons a b => simpa using hx

/-- C3: on an acyclic CFG in which no successor list repeats a node and the entry node `0`
has a successor, `dfsWithoutLoops` terminates (every fuel from `fuel0` on gives the same
list), and the returned list has no duplicate and holds exactly the walks from node `0` to a
node without successors. -/
theorem dfsWithoutLoops_complete (edges : List (List Nat)) (hac : Acyclic edges)
    (hnd : ∀ u, (succs edges u).Nodup) (h0 : succs edges 0 ≠ []) :
    ∃ paths fuel0, (∀ fuel, fuel0 ≤ fuel → dfsWithoutLoops edges fuel = some paths) ∧
      paths.Nodup ∧ ∀ p, p ∈ paths ↔ WellFormedPath edges p := by
  obtain ⟨k, O, h, n, m⟩ := drains_all edges hac hnd 0 [0] rfl [] []
  refine ⟨O, k, ?_, n, fun p => (m p).trans (ext_entry_iff edges h0 p)⟩
  intro fuel hf
  obtain ⟨d, rfl⟩ := Nat.exists_eq_add_of_le hf
  unfold dfsWithoutLoops
  rw [h d]
  cases d <;> simp [dfsLoop]

theorem acyclic_of_increasing (edges : List (List Nat))
    (h : ∀ u v, IsEdge edges u v → u < v) : Acyclic edges := by
  intro u w hw hwalk hlast
  unfold IsWalk at hwalk
  have hlt : List.Chain' (fun a b : Nat => a < b) (u :: w) := List.Chain'.imp h hwalk
  rw [List.chain'_iff_pairwise, List.pairwise_cons] at hlt
  have hmem : u ∈ w := List.mem_of_mem_getLast? hlast
  exact Nat.lt_irrefl u (hlt.1 u hmem)

theorem diamond_increasing :
    ∀ u v, IsEdge diamondEdges u v → u < v := by
  intro u v huv
  unfold IsEdge at huv
  by_cases hlt : u < 4
  · interval_cases u <;> simp [succs, diamondEdges] at huv <;> omega
  · rw [succs_eq_nil_of_le _ (by simp [diamondEdges]; omega)] at huv
    simp at huv

theorem diamond_nodup : ∀ u, (succs diamondEdges u).Nodup := by
  intro u
  by_cases hlt : u < 4
  · interval_cases u <;> simp [succs, diamondEdges]
  · rw [succs_eq_nil_of_le _ (by simp [diamondEdges]; omega)]
    exact List.nodup_nil

theorem dfsWithoutLoops_complete_witness :
    Acyclic diamondEdges ∧ (∀ u, (succs diamondEdges u).Nodup) ∧
    succs diamondEdges 0 ≠ [] ∧
    ∃ paths fuel0,
      (∀ fuel, fuel0 ≤ fuel → dfsWithoutLoops diamondEdges fuel = some paths) ∧
      paths.Nodup ∧ ∀ p, p ∈ paths ↔ WellFormedPath diamondEdges p :=
  ⟨acyclic_of_increasing _ diamond_increasing, diamond_nodup, by decide,
    dfsWithoutLoops_complete diamondEdges
      (acyclic_of_increasing _ diamond_increasing) diamond_nodup (by decide)⟩

/-! ## Bitmask of a path (C4) -/

theorem setBit_fold (n : Nat) :
    ∀ (ids : List Nat) (m : pathMask), m.length = n → (∀ x ∈ ids, x < n) →
      ∃ m', ids.foldlM (fun m node_id => pathMask.setBit m node_id) m = some m' ∧
        m'.length = n ∧ ∀ i, i < n → m'[i]? = some (m.getD i false || decide (i ∈ ids)) := by
  intro ids
  induction ids with
  | nil =>
    intro m hm _
    refine ⟨m, rfl, hm, ?_⟩
    intro i hi
    simp [List.getD_eq_getElem?_getD, List.getElem?_eq_getElem (hm ▸ hi)]
  | cons x rest ih =>
    intro m hm hx
    have hxn : x < m.length := by rw [hm]; exact hx x (List.mem_cons_self _ _)
    obtain ⟨m', h1, h2, h3⟩ := ih (m.set x true) (by simp [hm])
      (fun y hy => hx y (List.mem_cons_of_mem _ hy))
    refine ⟨m', ?_, h2, ?_⟩
    · simp only [List.foldlM_cons, pathMask.setBit, hxn, if_true]
      exact h1
    · intro i hi
      rw [h3 i hi]
      have hil : i < m.length := hm ▸ hi
      by_cases hix : i = x
      · subst hix
        simp [List.getD_eq_getElem?_getD, hil]
      · have hxi : x ≠ i := fun h => hix h.symm
        simp [List.getD_eq_getElem?_getD, List.getElem?_set_ne hxi, hix]

/-- C4: a path built from a node sequence whose ids all lie in `[0, n)` exists (no assertion
aborts), its bitmask string has exactly `n` characters, and character `i` is `'1'` when node
`i` occurs in the sequence and `'0'` otherwise. -/
theorem path_bitmask_correct (count n : Nat) (ids : List Nat) (h : ∀ x ∈ ids, x < n) :
    ∃ p, Path.new count n ids = some p ∧ p.nodes = ids ∧ p.to_string.length = n ∧
      ∀ i, i < n → p.to_string[i]? = some (if i ∈ ids then '1' else '0') := by
  obtain ⟨m', h1, h2, h3⟩ := setBit_fold n ids (pathMask.ofNum n) (by simp [pathMask.ofNum]) h
  refine ⟨_, by simp only [Path.new, h1, Option.map_some']; rfl, rfl, ?_, ?_⟩
  · simp [Path.to_string, pathMask.to_string, h2]
  · intro i hi
    simp only [Path.to_string, pathMask.to_string, List.getElem?_map, h3 i hi]
    by_cases hm : i ∈ ids <;> simp [hm, pathMask.ofNum, List.getD_eq_getElem?_getD, hi]

theorem path_bitmask_correct_witness :
    (∀ x ∈ [0, 2, 3], x < 4) ∧
    ∃ p, Path.new 0 4 [0, 2, 3] = some p ∧ p.nodes = [0, 2, 3] ∧ p.to_string.length = 4 ∧
      ∀ i, i < 4 → p.to_string[i]? = some (if i ∈ [0, 2, 3] then '1' else '0') :=
  ⟨by decide, path_bitmask_correct 0 4 [0, 2, 3] (by decide)⟩

/-! ## The bitmask map and matchPathId (C5) -/

theorem Path.new_some {count n : Nat} {ids : List Nat} {p : Path}
    (h : Path.new count n ids = some p) :
    p.id_ = (count : Int) ∧ p.nodes = ids ∧ p.to_string.length = n := by
  unfold Path.new at h
  cases hm : ids.foldlM (fun m node_id => pathMask.setBit m node_id) (pathMask.ofNum n) with
  | none => rw [hm] at h; simp at h
  | some m =>
    rw [hm] at h
    simp only [Option.map_some', Option.some.injEq] at h
    subst h
    refine ⟨rfl, rfl, ?_⟩
    -- the length is kept by every `setBit`
    have key : ∀ (l : List Nat) (m0 m1 : pathMask),
        l.foldlM (fun m node_id => pathMask.setBit m node_id) m0 = some m1 →
        m1.length = m0.length := by
      intro l
      induction l with
      | nil => intro m0 m1 h0; simp at h0; subst h0; rfl
      | cons x rest ih =>
        intro m0 m1 h0
        simp only [List.foldlM_cons, pathMask.setBit] at h0
        by_cases hx : x < m0.length
        · simp only [hx, if_true] at h0
          have := ih _ _ h0
          simpa using this
        · simp [hx] at h0
    have := key ids _ _ hm
    simp [Path.to_string, pathMask.to_string, this, pathMask.ofNum]

theorem init_consistent (size : Nat) (edges : List (List Nat)) (loop_map : List (Nat × Loop)) :
    (CFG.init size edges loop_map).Consistent := by
  simp [CFG.Consistent, CFG.init]

theorem addPath_consistent {cfg cfg' : CFG} {idPath : List Nat} (hc : cfg.Consistent)
    (h : addPath cfg idPath = some cfg') :
    cfg'.Consistent ∧ cfg'.size = cfg.size ∧ cfg'.edges = cfg.edges ∧
      cfg'.pathTestCntMap = cfg.pathTestCntMap := by
  unfold addPath at h
  cases hp : Path.new cfg.pathCount cfg.size idPath with
  | none => rw [hp] at h; simp at h
  | some p =>
    rw [hp] at h
    simp only [Option.some.injEq] at h
    subst h
    obtain ⟨hid, _, hlen⟩ := Path.new_some hp
    obtain ⟨c1, c2, c3, c4, c5⟩ := hc
    refine ⟨⟨?_, ?_, ?_, ?_, ?_⟩, rfl, rfl, rfl⟩
    · simp [c1]
    · simp [List.range_succ, c2, hid, c1]
    · intro q hq
      simp only [List.mem_append, List.mem_singleton] at hq
      rcases hq with hq | rfl
      · exact c3 q hq
      · exact hlen
    · intro mask id hm
      simp only at hm
      by_cases hk : mask = p.to_string
      · simp only [hk, if_true, Option.some.injEq] at hm
        exact ⟨p, by simp, hm, hk.symm⟩
      · simp only [hk, if_false] at hm
        obtain ⟨q, hq, h1, h2⟩ := c4 mask id hm
        exact ⟨q, by simp [hq], h1, h2⟩
    · intro q hq
      simp only [List.mem_append, List.mem_singleton] at hq
      by_cases hk : q.to_string = p.to_string
      · simp [hk]
      · simp only [hk, if_false]
        rcases hq with hq | rfl
        · exact c5 q hq
        · exact absurd rfl hk

theorem addPath_fold_consistent :
    ∀ (idPaths : List (List Nat)) (cfg cfg' : CFG), cfg.Consistent →
      idPaths.foldlM addPath cfg = some cfg' →
      cfg'.Consistent ∧ cfg'.size = cfg.size ∧ cfg'.edges = cfg.edges ∧
        cfg'.pathTestCntMap = cfg.pathTestCntMap := by
  intro idPaths
  induction idPaths with
  | nil =>
    intro cfg cfg' hc h
    simp at h
    subst h
    exact ⟨hc, rfl, rfl, rfl⟩
  | cons x rest ih =>
    intro cfg cfg' hc h
    simp only [List.foldlM_cons] at h
    cases h1 : addPath cfg x with
    | none => rw [h1] at h; simp at h
    | some c1 =>
      rw [h1] at h
      have h : List.foldlM addPath c1 rest = some cfg' := h
      obtain ⟨a1, a2, a3, a4⟩ := addPath_consistent hc h1
      obtain ⟨b1, b2, b3, b4⟩ := ih c1 cfg' a1 h
      exact ⟨b1, b2.trans a2, b3.trans a3, b4.trans a4⟩

theorem analyzingPaths_consistent {size : Nat} {edges : List (List Nat)}
    {loop_map : List (Nat × Loop)} {fuel : Nat} {cfg : CFG}
    (h : analyzingPaths (CFG.init size edges loop_map) fuel = some cfg) :
    cfg.Consistent ∧ cfg.size = size := by
  unfold analyzingPaths at h
  split at h
  · simp at h
  · next idPaths _ =>
    have := addPath_fold_consistent idPaths _ _ (init_consistent size edges loop_map) h
    exact ⟨this.1, this.2.1⟩

theorem matchPathId_cases (cfg : CFG) (hc : cfg.Consistent) (mask : List Char) :
    (matchPathId cfg mask = INVALID_PATH_ID ∧ ∀ p ∈ cfg.paths, p.to_string ≠ mask) ∨
    (matchPathId cfg mask ≠ INVALID_PATH_ID ∧
      ∃ p ∈ cfg.paths, p.id_ = matchPathId cfg mask ∧ p.to_string = mask) := by
  obtain ⟨_, c2, _, c4, c5⟩ := hc
  unfold matchPathId
  cases hm : cfg.pathIdMap mask with
  | none =>
    left
    refine ⟨rfl, ?_⟩
    intro p hp he
    have := c5 p hp
    rw [he] at this
    exact this hm
  | some id =>
    right
    obtain ⟨p, hp, h1, h2⟩ := c4 mask id hm
    refine ⟨?_, p, hp, h1, h2⟩
    simp only
    rw [← h1]
    have : p.id_ ∈ cfg.paths.map Path.id_ := List.mem_map_of_mem _ hp
    rw [c2] at this
    simp only [List.mem_map, List.mem_range] at this
    obtain ⟨i, _, hi⟩ := this
    rw [← hi]
    unfold INVALID_PATH_ID
    omega

/-- C5: on an analysed CFG, `matchPathId(mask)` is `INVALID_PATH_ID` exactly when no
enumerated path has the bitmask string `mask`; otherwise it is the id of an enumerated path
whose bitmask string is `mask`; and `matchPathId(P.bitmask) = P.id` for every enumerated path
`P` whose bitmask no other path shares. -/
theorem matchPathId_spec (size : Nat) (edges : List (List Nat)) (loop_map : List (Nat × Loop))
    (fuel : Nat) (cfg : CFG)
    (h : analyzingPaths (CFG.init size edges loop_map) fuel = some cfg) (mask : List Char) :
    (matchPathId cfg mask = INVALID_PATH_ID ↔ ∀ p ∈ cfg.paths, p.to_string ≠ mask) ∧
    (matchPathId cfg mask ≠ INVALID_PATH_ID →
      ∃ p ∈ cfg.paths, p.id_ = matchPathId cfg mask ∧ p.to_string = mask) ∧
    (∀ p ∈ cfg.paths, (∀ q ∈ cfg.paths, q.to_string = p.to_string → q = p) →
      matchPathId cfg p.to_string = p.id_) := by
  have hc := (analyzingPaths_consistent h).1
  refine ⟨?_, ?_, ?_⟩
  · rcases matchPathId_cases cfg hc mask with ⟨h1, h2⟩ | ⟨h1, p, hp, _, h3⟩
    · exact ⟨fun _ => h2, fun _ => h1⟩
    · exact ⟨fun h0 => absurd h0 h1, fun h0 => absurd h3 (h0 p hp)⟩
  · intro hne
    rcases matchPathId_cases cfg hc mask with ⟨h1, _⟩ | ⟨_, h2⟩
    · exact absurd h1 hne
    · exact h2
  · intro p hp huniq
    rcases matchPathId_cases cfg hc p.to_string with ⟨_, h2⟩ | ⟨_, q, hq, h3, h4⟩
    · exact absurd rfl (h2 p hp)
    · rw [← h3, huniq q hq h4]

theorem diamondCFG_analyzed :
    analyzingPaths (CFG.init 4 diamondEdges []) 3 = some diamondCFG := rfl

theorem matchPathId_spec_witness :
    analyzingPaths (CFG.init 4 diamondEdges []) 3 = some diamondCFG ∧
    ((matchPathId diamondCFG ['1', '1', '0', '1'] = INVALID_PATH_ID ↔
        ∀ p ∈ diamondCFG.paths, p.to_string ≠ ['1', '1', '0', '1']) ∧
      (matchPathId diamondCFG ['1', '1', '0', '1'] ≠ INVALID_PATH_ID →
        ∃ p ∈ diamondCFG.paths, p.id_ = matchPathId diamondCFG ['1', '1', '0', '1'] ∧
          p.to_string = ['1', '1', '0', '1']) ∧
      (∀ p ∈ diamondCFG.paths,
        (∀ q ∈ diamondCFG.paths, q.to_string = p.to_string → q = p) →
        matchPathId diamondCFG p.to_string = p.id_)) :=
  ⟨rfl, matchPathId_spec 4 diamondEdges [] 3 diamondCFG rfl ['1', '1', '0', '1']⟩

/-! ## Subset matching: matchPathIds (C6) -/

theorem ofString_getD (s : List Char) (i : Nat) :
    (pathMask.ofString s).getD i false = decide (s[i]? = some '1') := by
  unfold pathMask.ofString
  rw [List.getD_eq_getElem?_getD, List.getElem?_map]
  cases h : s[i]? with
  | none => simp
  | some c =>
    simp only [Option.map_some', Option.getD_some, Option.some.injEq]
    by_cases hc : c = '1' <;> simp [hc]

theorem isCover_iff (M a : List Char) :
    pathMask.isCover (pathMask.ofString M) (pathMask.ofString a) = true ↔ MaskSubset a M := by
  unfold pathMask.isCover MaskSubset BitSubset
  have hlM : (pathMask.ofString M).length = M.length := by simp [pathMask.ofString]
  have hla : (pathMask.ofString a).length = a.length := by simp [pathMask.ofString]
  rw [hlM, hla]
  by_cases hl : M.length = a.length
  · simp only [hl, ne_eq, not_true_eq_false, if_false, List.all_eq_true, List.mem_range,
      ofString_getD]
    constructor
    · intro h
      refine ⟨trivial, fun i hi h1 => ?_⟩
      have := h i hi
      simpa [h1] using this
    · rintro ⟨_, h⟩ i hi
      by_cases h1 : a[i]? = some '1'
      · simp [h1, h i hi h1]
      · simp [h1]
  · simp only [ne_eq, hl, not_false_eq_true, if_true]
    constructor
    · intro h; exact absurd h (by simp)
    · rintro ⟨h, _⟩; exact absurd h.symm hl

theorem push_fold_eq {α β : Type} (c : α → Bool) (f : α → β) :
    ∀ (l : List α) (acc : List β),
      l.foldl (fun ret x => if c x then ret ++ [f x] else ret) acc
        = acc ++ (l.filter c).map f := by
  intro l
  induction l with
  | nil => intro acc; simp
  | cons x rest ih =>
    intro acc
    rw [List.foldl_cons, ih]
    by_cases hx : c x = true
    · simp [hx]
    · simp [hx]

theorem matchPathIds_eq (cfg : CFG) (mask : List Char) :
    matchPathIds cfg mask =
      (cfg.paths.filter (fun p => decide (MaskSubset p.to_string mask))).map Path.id_ := by
  unfold matchPathIds
  rw [push_fold_eq (fun p =>
    pathMask.isCover (pathMask.ofString mask) (pathMask.ofString p.to_string)) Path.id_]
  simp only [List.nil_append]
  congr 1
  apply List.filter_congr
  intro p _
  rw [Bool.eq_iff_iff]
  simp [isCover_iff]

theorem ids_sorted (cfg : CFG) (hc : cfg.Consistent) (c : Path → Bool) :
    ((cfg.paths.filter c).map Path.id_).Sorted (fun a b => a < b) := by
  have hsub : List.Sublist ((cfg.paths.filter c).map Path.id_) (cfg.paths.map Path.id_) :=
    List.Sublist.map _ (List.filter_sublist _)
  refine List.Pairwise.sublist hsub ?_
  rw [hc.2.1, List.pairwise_map]
  refine List.Pairwise.imp ?_ (List.pairwise_lt_range _)
  intro a b hab
  exact_mod_cast hab

/-- C6: on an analysed CFG and for a mask `M` with one character per node, `matchPathIds(M)`
is the list of ids of the enumerated paths whose bitmask is a position-wise subset of `M`,
taken in path order; the list is strictly increasing, so every id occurs once. -/
theorem matchPathIds_spec (size : Nat) (edges : List (List Nat)) (loop_map : List (Nat × Loop))
    (fuel : Nat) (cfg : CFG)
    (h : analyzingPaths (CFG.init size edges loop_map) fuel = some cfg) (M : List Char)
    (hM : M.length = size) :
    matchPathIds cfg M =
      (cfg.paths.filter (fun p => decide (BitSubset p.to_string M))).map Path.id_ ∧
    (matchPathIds cfg M).Sorted (fun a b => a < b) := by
  obtain ⟨hc, hs⟩ := analyzingPaths_consistent h
  have e : matchPathIds cfg M =
      (cfg.paths.filter (fun p => decide (BitSubset p.to_string M))).map Path.id_ := by
    rw [matchPathIds_eq]
    congr 1
    apply List.filter_congr
    intro p hp
    have : p.to_string.length = M.length := by rw [hc.2.2.1 p hp, hs, hM]
    simp [MaskSubset, this]
  refine ⟨e, ?_⟩
  rw [e]
  exact ids_sorted cfg hc _

theorem matchPathIds_spec_witness :
    analyzingPaths (CFG.init 4 diamondEdges []) 3 = some diamondCFG ∧
    ['1', '1', '1', '1'].length = 4 ∧
    (matchPathIds diamondCFG ['1', '1', '1', '1'] =
      (diamondCFG.paths.filter
        (fun p => decide (BitSubset p.to_string ['1', '1', '1', '1']))).map Path.id_ ∧
    (matchPathIds diamondCFG ['1', '1', '1', '1']).Sorted (fun a b => a < b)) :=
  ⟨rfl, rfl, matchPathIds_spec 4 diamondEdges [] 3 diamondCFG rfl ['1', '1', '1', '1'] rfl⟩


/-! ## Balanced matching: matchBestPathId (C7, C8) -/

theorem matchBestLoop_spec (cnt : Int → Option Int) :
    ∀ (l : List Int) (st : Int × Int),
      (∀ pid, matchBestLoop cnt l st = Except.error pid →
        ∃ l1 l2, l = l1 ++ pid :: l2 ∧ cnt pid = none ∧ ∀ x ∈ l1, cnt x ≠ none) ∧
      (∀ st', matchBestLoop cnt l st = Except.ok st' →
        (∀ x ∈ l, ∃ c, cnt x = some c ∧ st'.1 ≤ c) ∧
        ((st' = st ∧ ∀ x ∈ l, ∀ c, cnt x = some c → st.1 ≤ c) ∨
         (∃ l1 l2, l = l1 ++ st'.2 :: l2 ∧ cnt st'.2 = some st'.1 ∧ st'.1 < st.1 ∧
            ∀ x ∈ l1, ∀ c, cnt x = some c → st'.1 < c))) := by
  intro l
  induction l with
  | nil =>
    intro st
    refine ⟨fun pid h => ?_, fun st' h => ?_⟩
    · simp [matchBestLoop] at h
    · simp only [matchBestLoop, Except.ok.injEq] at h
      subst h
      exact ⟨by simp, Or.inl ⟨rfl, by simp⟩⟩
  | cons pid rest ih =>
    intro st
    cases hp : cnt pid with
    | none =>
      refine ⟨fun q h => ?_, fun st' h => ?_⟩
      · simp only [matchBestLoop, hp, Except.error.injEq] at h
        subst h
        exact ⟨[], rest, rfl, hp, by simp⟩
      · simp [matchBestLoop, hp] at h
    | some c =>
      by_cases hlt : c < st.1
      · obtain ⟨ihe, iho⟩ := ih (c, pid)
        refine ⟨fun q h => ?_, fun st' h => ?_⟩
        · simp only [matchBestLoop, hp, hlt, if_true] at h
          obtain ⟨l1, l2, e, hq, hl1⟩ := ihe q h
          refine ⟨pid :: l1, l2, by simp [e], hq, ?_⟩
          intro x hx
          rcases List.mem_cons.1 hx with rfl | hx
          · simp [hp]
          · exact hl1 x hx
        · simp only [matchBestLoop, hp, hlt, if_true] at h
          obtain ⟨hall, hcase⟩ := iho st' h
          rcases hcase with ⟨e, hge⟩ | ⟨l1, l2, e, hq, hlt', hl1⟩
          · subst e
            refine ⟨?_, Or.inr ⟨[], rest, rfl, hp, hlt, by simp⟩⟩
            intro x hx
            rcases List.mem_cons.1 hx with rfl | hx
            · exact ⟨c, hp, le_refl _⟩
            · exact hall x hx
          · simp only at hlt'
            refine ⟨?_, Or.inr ⟨pid :: l1, l2, by simp [e], hq, lt_trans hlt' hlt, ?_⟩⟩
            · intro x hx
              rcases List.mem_cons.1 hx with rfl | hx
              · exact ⟨c, hp, le_of_lt hlt'⟩
              · exact hall x hx
            · intro x hx c' hc'
              rcases List.mem_cons.1 hx with rfl | hx
              · rw [hp] at hc'
                simp only [Option.some.injEq] at hc'
                subst hc'
                exact hlt'
              · exact hl1 x hx c' hc'
      · obtain ⟨ihe, iho⟩ := ih st
        refine ⟨fun q h => ?_, fun st' h => ?_⟩
        · simp only [matchBestLoop, hp, hlt, if_false] at h
          obtain ⟨l1, l2, e, hq, hl1⟩ := ihe q h
          refine ⟨pid :: l1, l2, by simp [e], hq, ?_⟩
          intro x hx
          rcases List.mem_cons.1 hx with rfl | hx
          · simp [hp]
          · exact hl1 x hx
        · simp only [matchBestLoop, hp, hlt, if_false] at h
          obtain ⟨hall, hcase⟩ := iho st' h
          rcases hcase with ⟨e, hge⟩ | ⟨l1, l2, e, hq, hlt', hl1⟩
          · subst e
            refine ⟨?_, Or.inl ⟨rfl, ?_⟩⟩
            · intro x hx
              rcases List.mem_cons.1 hx with rfl | hx
              · exact ⟨c, hp, le_of_not_lt hlt⟩
              · exact hall x hx
            · intro x hx c' hc'
              rcases List.mem_cons.1 hx with rfl | hx
              · rw [hp] at hc'
                simp only [Option.some.injEq] at hc'
                subst hc'
                exact le_of_not_lt hlt
              · exact hge x hx c' hc'
          · have hc1 : st'.1 < c := lt_of_lt_of_le hlt' (le_of_not_lt hlt)
            refine ⟨?_, Or.inr ⟨pid :: l1, l2, by simp [e], hq, hlt', ?_⟩⟩
            · intro x hx
              rcases List.mem_cons.1 hx with rfl | hx
              · exact ⟨c, hp, le_of_lt hc1⟩
              · exact hall x hx
            · intro x hx c' hc'
              rcases List.mem_cons.1 hx with rfl | hx
              · rw [hp] at hc'
                simp only [Option.some.injEq] at hc'
                subst hc'
                exact hc1
              · exact hl1 x hx c' hc'
theorem sorted_split {l l1 l2 : List Int} {x : Int} (hs : l.Sorted (fun a b => a < b))
    (e : l = l1 ++ x :: l2) : (∀ y ∈ l1, y < x) ∧ (∀ y ∈ l2, x < y) := by
  subst e
  unfold List.Sorted at hs
  rw [List.pairwise_append, List.pairwise_cons] at hs
  exact ⟨fun y hy => hs.2.2 y hy x (List.mem_cons_self _ _), fun y hy => hs.2.1.1 y hy⟩

theorem mem_matchPathIds (cfg : CFG) (mask : List Char) (x : Int) :
    x ∈ matchPathIds cfg mask ↔
      ∃ p ∈ cfg.paths, MaskSubset p.to_string mask ∧ p.id_ = x := by
  rw [matchPathIds_eq]
  simp only [List.mem_map, List.mem_filter, decide_eq_true_eq]
  constructor
  · rintro ⟨p, ⟨hp, hs⟩, rfl⟩; exact ⟨p, hp, hs, rfl⟩
  · rintro ⟨p, hp, hs, rfl⟩; exact ⟨p, ⟨hp, hs⟩, rfl⟩

theorem cntOf_none {cnt : Int → Option Int} {k : Int} (h : cnt k = none) : cntOf cnt k = 0 := by
  simp [cntOf, h]

theorem cntOf_some {cnt : Int → Option Int} {k c : Int} (h : cnt k = some c) :
    cntOf cnt k = c := by
  simp [cntOf, h]

theorem cntOf_nonneg {cnt : Int → Option Int} (hk : CountersOk cnt) (k : Int) :
    0 ≤ cntOf cnt k := by
  cases h : cnt k with
  | none => rw [cntOf_none h]
  | some c => rw [cntOf_some h]; have := (hk k c h).1; omega

/-- The three outcomes of `matchBestPathId` on a consistent CFG whose counters do not
overflow: the uncounted exact match; no subset match at all; or the subset match with the
smallest counter (lowest id among equals). -/
theorem matchBestPathId_cases (cfg : CFG) (hc : cfg.Consistent)
    (hk : CountersOk cfg.pathTestCntMap) (mask : List Char) :
    (matchPathId cfg mask ≠ INVALID_PATH_ID ∧
      cfg.pathTestCntMap (matchPathId cfg mask) = none ∧
      matchBestPathId cfg mask = (matchPathId cfg mask,
        { cfg with pathTestCntMap := incrCnt cfg.pathTestCntMap (matchPathId cfg mask) })) ∨
    (¬ (matchPathId cfg mask ≠ INVALID_PATH_ID ∧
        cfg.pathTestCntMap (matchPathId cfg mask) = none) ∧
      (∀ p ∈ cfg.paths, ¬ MaskSubset p.to_string mask) ∧
      matchBestPathId cfg mask = (INVALID_PATH_ID, cfg)) ∨
    (¬ (matchPathId cfg mask ≠ INVALID_PATH_ID ∧
        cfg.pathTestCntMap (matchPathId cfg mask) = none) ∧
      ∃ p ∈ cfg.paths, MaskSubset p.to_string mask ∧
        matchBestPathId cfg mask = (p.id_,
          { cfg with pathTestCntMap := incrCnt cfg.pathTestCntMap p.id_ }) ∧
        ∀ q ∈ cfg.paths, MaskSubset q.to_string mask →
          cntOf cfg.pathTestCntMap p.id_ < cntOf cfg.pathTestCntMap q.id_ ∨
          (cntOf cfg.pathTestCntMap p.id_ = cntOf cfg.pathTestCntMap q.id_ ∧
            p.id_ ≤ q.id_)) := by
  by_cases hex : matchPathId cfg mask ≠ INVALID_PATH_ID ∧
      cfg.pathTestCntMap (matchPathId cfg mask) = none
  · left
    refine ⟨hex.1, hex.2, ?_⟩
    unfold matchBestPathId
    simp only [hex.2, Option.isNone_none, and_true]
    rw [if_pos hex.1]
  · right
    have hcond : ¬ (matchPathId cfg mask ≠ INVALID_PATH_ID ∧
        (cfg.pathTestCntMap (matchPathId cfg mask)).isNone = true) := by
      intro h
      exact hex ⟨h.1, by simpa using h.2⟩
    have hsorted : (matchPathIds cfg mask).Sorted (fun a b => a < b) := by
      rw [matchPathIds_eq]; exact ids_sorted cfg hc _
    cases hids : matchPathIds cfg mask with
    | nil =>
      left
      refine ⟨hex, ?_, ?_⟩
      · intro p hp hs
        have : p.id_ ∈ matchPathIds cfg mask := (mem_matchPathIds cfg mask _).2 ⟨p, hp, hs, rfl⟩
        rw [hids] at this
        simp at this
      · unfold matchBestPathId
        simp only [hids, List.isEmpty_nil, if_true]
        rw [if_neg hcond]
    | cons a rest =>
      right
      refine ⟨hex, ?_⟩
      obtain ⟨hE, hO⟩ := matchBestLoop_spec cfg.pathTestCntMap (matchPathIds cfg mask)
        (INT32_MAX, matchPathId cfg mask)
      have hrun : matchBestPathId cfg mask =
          match matchBestLoop cfg.pathTestCntMap (matchPathIds cfg mask)
              (INT32_MAX, matchPathId cfg mask) with
          | Except.error pid =>
            (pid, { cfg with pathTestCntMap := incrCnt cfg.pathTestCntMap pid })
          | Except.ok st =>
            (st.2, { cfg with pathTestCntMap := incrCnt cfg.pathTestCntMap st.2 }) := by
        unfold matchBestPathId
        simp only [hids, List.isEmpty_cons, if_false]
        rw [if_neg hcond]
        simp
      cases hloop : matchBestLoop cfg.pathTestCntMap (matchPathIds cfg mask)
          (INT32_MAX, matchPathId cfg mask) with
      | error pid =>
        rw [hloop] at hrun
        obtain ⟨l1, l2, e, hpid, hl1⟩ := hE pid hloop
        obtain ⟨hlt1, hlt2⟩ := sorted_split hsorted e
        have hmem : pid ∈ matchPathIds cfg mask := by rw [e]; simp
        obtain ⟨p, hp, hs, hpe⟩ := (mem_matchPathIds cfg mask pid).1 hmem
        subst hpe
        refine ⟨p, hp, hs, hrun, ?_⟩
        intro q hq hqs
        have hqm : q.id_ ∈ matchPathIds cfg mask := (mem_matchPathIds cfg mask _).2 ⟨q, hq, hqs, rfl⟩
        rw [cntOf_none hpid]
        rw [e] at hqm
        simp only [List.mem_append, List.mem_cons] at hqm
        rcases hqm with h1 | h1 | h1
        · left
          cases hq' : cfg.pathTestCntMap q.id_ with
          | none => exact absurd hq' (hl1 _ h1)
          | some c => rw [cntOf_some hq']; have := (hk _ _ hq').1; omega
        · right
          rw [h1]
          exact ⟨(cntOf_none hpid).symm, le_refl _⟩
        · have hlt := hlt2 _ h1
          cases hq' : cfg.pathTestCntMap q.id_ with
          | none => right; exact ⟨(cntOf_none hq').symm, le_of_lt hlt⟩
          | some c => left; rw [cntOf_some hq']; have := (hk _ _ hq').1; omega
      | ok st' =>
        rw [hloop] at hrun
        obtain ⟨hall, hcase⟩ := hO st' hloop
        rcases hcase with ⟨_, hge⟩ | ⟨l1, l2, e, hst, _, hl1⟩
        · exfalso
          have ha : a ∈ matchPathIds cfg mask := by rw [hids]; simp
          obtain ⟨c, hc1, _⟩ := hall a ha
          have h1 := hge a ha c hc1
          have h2 := (hk a c hc1).2
          simp only at h1
          omega
        · obtain ⟨hlt1, hlt2⟩ := sorted_split hsorted e
          have hmem : st'.2 ∈ matchPathIds cfg mask := by rw [e]; simp
          obtain ⟨p, hp, hs, hpe⟩ := (mem_matchPathIds cfg mask st'.2).1 hmem
          have hrun' : matchBestPathId cfg mask = (st'.2,
              { cfg with pathTestCntMap := incrCnt cfg.pathTestCntMap st'.2 }) := hrun
          rw [← hpe] at hrun' hst
          refine ⟨p, hp, hs, hrun', ?_⟩
          intro q hq hqs
          have hqm : q.id_ ∈ matchPathIds cfg mask :=
            (mem_matchPathIds cfg mask _).2 ⟨q, hq, hqs, rfl⟩
          obtain ⟨c, hc1, hc2⟩ := hall _ hqm
          rw [cntOf_some hst, cntOf_some hc1]
          rw [e] at hqm
          simp only [List.mem_append, List.mem_cons] at hqm
          rcases hqm with h1 | h1 | h1
          · left; exact hl1 _ h1 c hc1
          · right
            have hqp : q.id_ = p.id_ := h1.trans hpe.symm
            rw [hqp, hst] at hc1
            simp only [Option.some.injEq] at hc1
            exact ⟨hc1, le_of_eq hqp.symm⟩
          · have hlt := hlt2 _ h1
            rw [← hpe] at hlt
            rcases lt_or_eq_of_le hc2 with h2 | h2
            · left; exact h2
            · right; exact ⟨h2, le_of_lt hlt⟩
theorem path_id_nonneg (cfg : CFG) (hc : cfg.Consistent) {p : Path} (hp : p ∈ cfg.paths) :
    0 ≤ p.id_ := by
  have : p.id_ ∈ cfg.paths.map Path.id_ := List.mem_map_of_mem _ hp
  rw [hc.2.1] at this
  simp only [List.mem_map, List.mem_range] at this
  obtain ⟨i, _, hi⟩ := this
  rw [← hi]
  omega

theorem withCounters_consistent {cfg : CFG} (hc : cfg.Consistent) (cnt : Int → Option Int) :
    (cfg.withCounters cnt).Consistent := hc

theorem maskSubset_refl (a : List Char) : MaskSubset a a :=
  ⟨rfl, fun _ _ h => h⟩

theorem incrCnt_self (cnt : Int → Option Int) (k : Int) :
    incrCnt cnt k k = some (cntOf cnt k + 1) := by
  simp [incrCnt, cntOf]

theorem incrCnt_other (cnt : Int → Option Int) {k j : Int} (h : j ≠ k) :
    incrCnt cnt k j = cnt j := by
  simp [incrCnt, h]

/-- C7 (amended): on an analysed CFG in every counter state whose stored counters lie in
`[1, INT32_MAX)` (`CountersOk`), `matchBestPathId(mask)` returns the exact-match path when there is one and it has no counter yet; otherwise, when
some path bitmask is a subset of `mask`, it returns a subset-matching path whose counter is
smallest among all subset matches (a never-counted path counting as `0`, the lowest id among
equal counters); in both cases the counter of the returned path goes up by exactly one, every
other counter is unchanged, and so are the paths and the bitmask map. -/
theorem matchBestPathId_spec (size : Nat) (edges : List (List Nat))
    (loop_map : List (Nat × Loop)) (fuel : Nat) (cfg0 : CFG)
    (h : analyzingPaths (CFG.init size edges loop_map) fuel = some cfg0)
    (cnt : Int → Option Int) (hk : CountersOk cnt) (mask : List Char) :
    ((matchPathId (cfg0.withCounters cnt) mask ≠ INVALID_PATH_ID ∧
        cnt (matchPathId (cfg0.withCounters cnt) mask) = none) →
      (matchBestPathId (cfg0.withCounters cnt) mask).1 = matchPathId (cfg0.withCounters cnt) mask ∧
      ∃ p ∈ cfg0.paths, p.to_string = mask ∧
        p.id_ = (matchBestPathId (cfg0.withCounters cnt) mask).1) ∧
    (¬ (matchPathId (cfg0.withCounters cnt) mask ≠ INVALID_PATH_ID ∧
        cnt (matchPathId (cfg0.withCounters cnt) mask) = none) →
      (∃ p ∈ cfg0.paths, MaskSubset p.to_string mask) →
      ∃ p ∈ cfg0.paths, MaskSubset p.to_string mask ∧
        (matchBestPathId (cfg0.withCounters cnt) mask).1 = p.id_ ∧
        ∀ q ∈ cfg0.paths, MaskSubset q.to_string mask →
          cntOf cnt p.id_ < cntOf cnt q.id_ ∨
          (cntOf cnt p.id_ = cntOf cnt q.id_ ∧ p.id_ ≤ q.id_)) ∧
    (((matchPathId (cfg0.withCounters cnt) mask ≠ INVALID_PATH_ID ∧
        cnt (matchPathId (cfg0.withCounters cnt) mask) = none) ∨
        ∃ p ∈ cfg0.paths, MaskSubset p.to_string mask) →
      (matchBestPathId (cfg0.withCounters cnt) mask).2.pathTestCntMap
          (matchBestPathId (cfg0.withCounters cnt) mask).1
        = some (cntOf cnt (matchBestPathId (cfg0.withCounters cnt) mask).1 + 1) ∧
      (∀ k, k ≠ (matchBestPathId (cfg0.withCounters cnt) mask).1 →
        (matchBestPathId (cfg0.withCounters cnt) mask).2.pathTestCntMap k = cnt k) ∧
      (matchBestPathId (cfg0.withCounters cnt) mask).2.paths = cfg0.paths ∧
      (matchBestPathId (cfg0.withCounters cnt) mask).2.pathIdMap = cfg0.pathIdMap) := by
  have hc : (cfg0.withCounters cnt).Consistent :=
    withCounters_consistent (analyzingPaths_consistent h).1 cnt
  have hcases := matchBestPathId_cases (cfg0.withCounters cnt) hc hk mask
  refine ⟨?_, ?_, ?_⟩
  · intro hex
    rcases hcases with ⟨_, _, hr⟩ | ⟨hn, _⟩ | ⟨hn, _⟩
    · rw [hr]
      refine ⟨rfl, ?_⟩
      rcases matchPathId_cases _ hc mask with ⟨h1, _⟩ | ⟨_, p, hp, h3, h4⟩
      · exact absurd h1 hex.1
      · exact ⟨p, hp, h4, h3⟩
    · exact absurd hex hn
    · exact absurd hex hn
  · intro hn ⟨p, hp, hs⟩
    rcases hcases with ⟨h1, h2, _⟩ | ⟨_, hno, _⟩ | ⟨_, q, hq, hqs, hr, hmin⟩
    · exact absurd ⟨h1, h2⟩ hn
    · exact absurd hs (hno p hp)
    · exact ⟨q, hq, hqs, by rw [hr], hmin⟩
  · intro hor
    rcases hcases with ⟨_, _, hr⟩ | ⟨hn, hno, _⟩ | ⟨_, q, _, _, hr, _⟩
    · rw [hr]
      exact ⟨incrCnt_self cnt _, fun k hk' => incrCnt_other cnt hk', rfl, rfl⟩
    · exfalso
      rcases hor with hex | ⟨p, hp, hs⟩
      · exact hn hex
      · exact hno p hp hs
    · rw [hr]
      exact ⟨incrCnt_self cnt _, fun k hk' => incrCnt_other cnt hk', rfl, rfl⟩

theorem diamondCnt_ok : CountersOk diamondCnt := by
  intro k c hkc
  unfold diamondCnt at hkc
  by_cases h1 : k = 1
  · simp only [h1, if_true, Option.some.injEq] at hkc
    subst hkc
    unfold INT32_MAX
    omega
  · simp [h1] at hkc

theorem matchBestPathId_spec_witness :
    analyzingPaths (CFG.init 4 diamondEdges []) 3 = some diamondCFG ∧
    CountersOk diamondCnt ∧
    (matchBestPathId (diamondCFG.withCounters diamondCnt) ['1', '1', '1', '1']).1 = 0 ∧
    (((matchPathId (diamondCFG.withCounters diamondCnt) ['1', '1', '1', '1']
          ≠ INVALID_PATH_ID ∧
        diamondCnt (matchPathId (diamondCFG.withCounters diamondCnt) ['1', '1', '1', '1'])
          = none) ∨
        ∃ p ∈ diamondCFG.paths, MaskSubset p.to_string ['1', '1', '1', '1']) →
      (matchBestPathId (diamondCFG.withCounters diamondCnt) ['1', '1', '1', '1']).2.pathTestCntMap
          (matchBestPathId (diamondCFG.withCounters diamondCnt) ['1', '1', '1', '1']).1
        = some (cntOf diamondCnt
            (matchBestPathId (diamondCFG.withCounters diamondCnt) ['1', '1', '1', '1']).1 + 1) ∧
      (∀ k, k ≠ (matchBestPathId (diamondCFG.withCounters diamondCnt) ['1', '1', '1', '1']).1 →
        (matchBestPathId (diamondCFG.withCounters diamondCnt)
          ['1', '1', '1', '1']).2.pathTestCntMap k = diamondCnt k) ∧
      (matchBestPathId (diamondCFG.withCounters diamondCnt) ['1', '1', '1', '1']).2.paths
        = diamondCFG.paths ∧
      (matchBestPathId (diamondCFG.withCounters diamondCnt) ['1', '1', '1', '1']).2.pathIdMap
        = diamondCFG.pathIdMap) :=
  ⟨rfl, diamondCnt_ok, by decide,
    (matchBestPathId_spec 4 diamondEdges [] 3 diamondCFG rfl diamondCnt diamondCnt_ok
      ['1', '1', '1', '1']).2.2⟩

/-- C8 (amended): on an analysed CFG in every counter state whose stored counters lie in
`[1, INT32_MAX)` (`CountersOk`), `matchBestPathId(mask)` returns `INVALID_PATH_ID` exactly when no enumerated path's bitmask is a subset of `mask`,
and then the counter map is left as it was (no counter created or changed). -/
theorem matchBestPathId_invalid_iff (size : Nat) (edges : List (List Nat))
    (loop_map : List (Nat × Loop)) (fuel : Nat) (cfg0 : CFG)
    (h : analyzingPaths (CFG.init size edges loop_map) fuel = some cfg0)
    (cnt : Int → Option Int) (hk : CountersOk cnt) (mask : List Char) :
    ((matchBestPathId (cfg0.withCounters cnt) mask).1 = INVALID_PATH_ID ↔
      ∀ p ∈ cfg0.paths, ¬ MaskSubset p.to_string mask) ∧
    ((matchBestPathId (cfg0.withCounters cnt) mask).1 = INVALID_PATH_ID →
      (matchBestPathId (cfg0.withCounters cnt) mask).2.pathTestCntMap = cnt) := by
  have hc : (cfg0.withCounters cnt).Consistent :=
    withCounters_consistent (analyzingPaths_consistent h).1 cnt
  have hinv : ∀ p ∈ cfg0.paths, p.id_ ≠ INVALID_PATH_ID := by
    intro p hp
    have := path_id_nonneg _ hc hp
    unfold INVALID_PATH_ID
    omega
  rcases matchBestPathId_cases (cfg0.withCounters cnt) hc hk mask with
    ⟨h1, _, hr⟩ | ⟨_, hno, hr⟩ | ⟨_, q, hq, hqs, hr, _⟩
  · rw [hr]
    refine ⟨⟨fun h0 => absurd h0 h1, fun hno => ?_⟩, fun h0 => absurd h0 h1⟩
    rcases matchPathId_cases _ hc mask with ⟨h2, _⟩ | ⟨_, p, hp, _, h4⟩
    · exact absurd h2 h1
    · exact absurd (h4 ▸ maskSubset_refl p.to_string) (hno p hp)
  · rw [hr]
    exact ⟨⟨fun _ => hno, fun _ => rfl⟩, fun _ => rfl⟩
  · rw [hr]
    exact ⟨⟨fun h0 => absurd h0 (hinv q hq), fun hno => absurd hqs (hno q hq)⟩,
      fun h0 => absurd h0 (hinv q hq)⟩

theorem matchBestPathId_invalid_iff_witness :
    analyzingPaths (CFG.init 4 diamondEdges []) 3 = some diamondCFG ∧
    CountersOk diamondCnt ∧
    ((∀ p ∈ diamondCFG.paths, ¬ MaskSubset p.to_string ['1', '0', '0', '1']) ∧
      (matchBestPathId (diamondCFG.withCounters diamondCnt) ['1', '0', '0', '1']).1
        = INVALID_PATH_ID ∧
      (matchBestPathId (diamondCFG.withCounters diamondCnt)
        ['1', '0', '0', '1']).2.pathTestCntMap = diamondCnt) ∧
    ((∃ p ∈ diamondCFG.paths, MaskSubset p.to_string ['1', '1', '1', '1']) ∧
      (matchBestPathId (diamondCFG.withCounters diamondCnt) ['1', '1', '1', '1']).1 = 0 ∧
      ((matchBestPathId (diamondCFG.withCounters diamondCnt) ['1', '1', '1', '1']).1
          = INVALID_PATH_ID ↔
        ∀ p ∈ diamondCFG.paths, ¬ MaskSubset p.to_string ['1', '1', '1', '1'])) :=
  ⟨rfl, diamondCnt_ok,
    ⟨by decide, by decide,
      (matchBestPathId_invalid_iff 4 diamondEdges [] 3 diamondCFG rfl diamondCnt diamondCnt_ok
        ['1', '0', '0', '1']).2 (by decide)⟩,
    ⟨by decide, by decide,
      (matchBestPathId_invalid_iff 4 diamondEdges [] 3 diamondCFG rfl diamondCnt diamondCnt_ok
        ['1', '1', '1', '1']).1⟩⟩

/-! ## The counter-state condition of C7 and C8 -/

/-- Every call of `matchBestPathId` keeps all stored counters at least `1`: a counter is only
ever created or changed by `++`.  The fresh map of `CFG.init` stores no counter. -/
theorem matchBestPathId_counters_pos (cfg : CFG) (mask : List Char)
    (hpos : ∀ k c, cfg.pathTestCntMap k = some c → 1 ≤ c) :
    ∀ k c, (matchBestPathId cfg mask).2.pathTestCntMap k = some c → 1 ≤ c := by
  have hincr : ∀ pid k c, incrCnt cfg.pathTestCntMap pid k = some c → 1 ≤ c := by
    intro pid k c hkc
    unfold incrCnt at hkc
    by_cases hk : k = pid
    · simp only [hk, if_true, Option.some.injEq] at hkc
      cases hp : cfg.pathTestCntMap pid with
      | none => rw [hp] at hkc; simp at hkc; omega
      | some d =>
        rw [hp] at hkc
        have := hpos pid d hp
        simp at hkc
        omega
    · simp only [hk, if_false] at hkc
      exact hpos k c hkc
  intro k c hkc
  unfold matchBestPathId at hkc
  simp only at hkc
  split at hkc
  · exact hincr _ k c hkc
  · split at hkc
    · exact hpos k c hkc
    · split at hkc
      · exact hincr _ k c hkc
      · exact hincr _ k c hkc

/-- C7 (counterexample): the claim fails in the counter state in which both paths of the
diamond carry the value `INT32_MAX`: the mask `1111` has no exact match and both path bitmasks
are subsets of it, so a subset-matching path with the smallest counter should be returned and
its counter incremented; but the test `pathTestCntMap[pid] < minCnt` never succeeds against
`minCnt = INT32_MAX`, the returned value is the id of no path, and no path's counter
changes. -/
theorem matchBestPathId_sentinel_returns_no_path :
    matchPathId (diamondCFG.withCounters diamondCntMax) ['1', '1', '1', '1']
      = INVALID_PATH_ID ∧
    (∀ p ∈ diamondCFG.paths, MaskSubset p.to_string ['1', '1', '1', '1']) ∧
    (∀ p ∈ diamondCFG.paths,
      (matchBestPathId (diamondCFG.withCounters diamondCntMax) ['1', '1', '1', '1']).1
        ≠ p.id_) ∧
    (∀ p ∈ diamondCFG.paths,
      (matchBestPathId (diamondCFG.withCounters diamondCntMax)
        ['1', '1', '1', '1']).2.pathTestCntMap p.id_ = diamondCntMax p.id_) := by
  decide

/-- C8 (counterexample): the upper bound of `CountersOk` is needed.  When every
subset-matching path carries the value `INT32_MAX` and there is no exact match, the test
`pathTestCntMap[pid] < minCnt` never succeeds and `pathId` keeps the value `INVALID_PATH_ID`:
`INVALID_PATH_ID` is returned although a path bitmask is a subset of the mask, and the final
`pathTestCntMap[pathId]++` creates a counter for the key `-1`, which had none. -/
theorem matchBestPathId_at_sentinel :
    (∃ p ∈ diamondCFG.paths, MaskSubset p.to_string ['1', '1', '1', '1']) ∧
    (matchBestPathId (diamondCFG.withCounters diamondCntMax) ['1', '1', '1', '1']).1
      = INVALID_PATH_ID ∧
    diamondCntMax (-1) = none ∧
    (matchBestPathId (diamondCFG.withCounters diamondCntMax)
      ['1', '1', '1', '1']).2.pathTestCntMap (-1) = some 1 := by
  decide

/-! ## Loop-aware enumeration (C2) -/

theorem getLast?_snoc' (l : List Nat) (v : Nat) : (l ++ [v]).getLast? = some v := by
  simp

theorem head?_append_of_ne {l : List Nat} (h : l ≠ []) (t : List Nat) :
    (l ++ t).head? = l.head? := by
  cases l with
  | nil => exact absurd rfl h
  | cons a b => rfl

theorem getLastD_eq_of_ne {l : List Nat} (h : l ≠ []) :
    l.getLast? = some (l.getLastD 0) := by
  rw [List.getLastD_eq_getLast?]
  cases hl : l.getLast? with
  | none => exact absurd (List.getLast?_eq_none_iff.1 hl) h
  | some x => rfl

theorem splice_ok {exitBlockSet : List Nat}
    {rec : Nat → Option Nat → List Nat → List (List Nat) → Option (List (List Nat))}
    (hrec : RecOk exitBlockSet rec) (header : Option Nat) (path : List Nat) (hne : path ≠ []) :
    ∀ (subPaths allPaths r : List (List Nat)),
      dfsHelperSplice rec header path subPaths allPaths = some r →
      ∀ q ∈ r, q ∈ allPaths ∨
        (q.head? = path.head? ∧ ∃ x ∈ exitBlockSet, q.getLast? = some x) := by
  intro subPaths
  induction subPaths with
  | nil =>
    intro allPaths r h q hq
    simp only [dfsHelperSplice, Option.some.injEq] at h
    subst h
    exact Or.inl hq
  | cons sp rest ih =>
    intro allPaths r h q hq
    simp only [dfsHelperSplice] at h
    cases h1 : rec ((path ++ sp.tail).getLastD 0) header (path ++ sp.tail) allPaths with
    | none => rw [h1] at h; simp at h
    | some a1 =>
      rw [h1] at h
      have hne' : path ++ sp.tail ≠ [] := by simp [hne]
      rcases ih a1 r h q hq with h2 | h2
      · rcases hrec _ _ _ _ _ h1 hne' (getLastD_eq_of_ne hne') q h2 with h3 | ⟨h3, h4⟩
        · exact Or.inl h3
        · exact Or.inr ⟨h3.trans (head?_append_of_ne hne _), h4⟩
      · exact Or.inr h2

theorem exits_ok {exitBlockSet : List Nat}
    {rec : Nat → Option Nat → List Nat → List (List Nat) → Option (List (List Nat))}
    (hrec : RecOk exitBlockSet rec) (header : Option Nat) (set : List Nat) :
    ∀ (l : List Nat) (st st' : List Nat × List (List Nat)),
      dfsHelperExits rec header exitBlockSet set l st = some st' → st.1 ≠ [] →
      st'.1 ≠ [] ∧ st'.1.head? = st.1.head? ∧
      ∀ q ∈ st'.2, q ∈ st.2 ∨
        (q.head? = st.1.head? ∧ ∃ x ∈ exitBlockSet, q.getLast? = some x) := by
  intro l
  induction l with
  | nil =>
    intro st st' h hne
    simp only [dfsHelperExits, Option.some.injEq] at h
    subst h
    exact ⟨hne, rfl, fun q hq => Or.inl hq⟩
  | cons n rest ih =>
    intro st st' h hne
    simp only [dfsHelperExits] at h
    split at h
    · cases h1 : rec n header (st.1 ++ [n]) st.2 with
      | none => rw [h1] at h; simp at h
      | some a1 =>
        rw [h1] at h
        have hne' : st.1 ++ [n] ≠ [] := by simp
        obtain ⟨i1, i2, i3⟩ := ih (st.1 ++ [n], a1) st' h hne'
        have hh : (st.1 ++ [n]).head? = st.1.head? := head?_append_of_ne hne _
        refine ⟨i1, i2.trans hh, ?_⟩
        intro q hq
        rcases i3 q hq with h2 | ⟨h2, h3⟩
        · rcases hrec _ _ _ _ _ h1 hne' (getLast?_snoc' _ _) q h2 with h4 | ⟨h4, h5⟩
          · exact Or.inl h4
          · exact Or.inr ⟨h4.trans hh, h5⟩
        · exact Or.inr ⟨h2.trans hh, h3⟩
    · exact ih st st' h hne

theorem succs_ok (edges : List (List Nat)) (loop_map : List (Nat × Loop))
    {exitBlockSet : List Nat}
    {rec : Nat → Option Nat → List Nat → List (List Nat) → Option (List (List Nat))}
    (hrec : RecOk exitBlockSet rec) (header : Option Nat) :
    ∀ (l : List Nat) (st st' : List Nat × List (List Nat)),
      dfsHelperSuccs edges loop_map rec header exitBlockSet l st = some st' → st.1 ≠ [] →
      st'.1 ≠ [] ∧ st'.1.head? = st.1.head? ∧
      ∀ q ∈ st'.2, q ∈ st.2 ∨
        (q.head? = st.1.head? ∧ ∃ x ∈ exitBlockSet, q.getLast? = some x) := by
  intro l
  induction l with
  | nil =>
    intro st st' h hne
    simp only [dfsHelperSuccs, Option.some.injEq] at h
    subst h
    exact ⟨hne, rfl, fun q hq => Or.inl hq⟩
  | cons n rest ih =>
    intro st st' h hne
    simp only [dfsHelperSuccs] at h
    split at h
    · cases hl : loop_map.lookup n with
      | none => rw [hl] at h; simp at h
      | some loop =>
        rw [hl] at h
        simp only at h
        cases h1 : dfsHelperExits rec header exitBlockSet loop.blocks (succs edges n)
            (st.1 ++ [n], st.2) with
        | none => rw [h1] at h; simp at h
        | some st1 =>
          rw [h1] at h
          simp only at h
          have hne' : st.1 ++ [n] ≠ [] := by simp
          have hh : (st.1 ++ [n]).head? = st.1.head? := head?_append_of_ne hne _
          obtain ⟨e1, e2, e3⟩ := exits_ok hrec header loop.blocks _ _ _ h1 hne'
          obtain ⟨i1, i2, i3⟩ := ih st1 st' h e1
          refine ⟨i1, i2.trans (e2.trans hh), ?_⟩
          intro q hq
          rcases i3 q hq with h2 | ⟨h2, h3⟩
          · rcases e3 q h2 with h4 | ⟨h4, h5⟩
            · exact Or.inl h4
            · exact Or.inr ⟨h4.trans hh, h5⟩
          · exact Or.inr ⟨h2.trans (e2.trans hh), h3⟩
    · cases h1 : rec n header (st.1 ++ [n]) st.2 with
      | none => rw [h1] at h; simp at h
      | some a1 =>
        rw [h1] at h
        simp only at h
        have hne' : st.1 ++ [n] ≠ [] := by simp
        have hh : (st.1 ++ [n]).head? = st.1.head? := head?_append_of_ne hne _
        obtain ⟨i1, i2, i3⟩ := ih (st.1, a1) st' h hne
        refine ⟨i1, i2, ?_⟩
        intro q hq
        rcases i3 q hq with h2 | h2
        · rcases hrec _ _ _ _ _ h1 hne' (getLast?_snoc' _ _) q h2 with h4 | ⟨h4, h5⟩
          · exact Or.inl h4
          · exact Or.inr ⟨h4.trans hh, h5⟩
        · exact Or.inr h2

theorem dfsHelper_ok (edges : List (List Nat)) (loop_map : List (Nat × Loop)) :
    ∀ (fuel : Nat) (exitBlockSet : List Nat),
      RecOk exitBlockSet (dfsHelper edges loop_map fuel exitBlockSet) := by
  intro fuel
  induction fuel with
  | zero =>
    intro exitBlockSet block header path allPaths r h
    simp [dfsHelper] at h
  | succ n ih =>
    intro exitBlockSet block header path allPaths r h hne hlast q hq
    simp only [dfsHelper] at h
    split at h
    · next hmem =>
      simp only [Option.some.injEq] at h
      subst h
      rcases List.mem_append.1 hq with h1 | h1
      · exact Or.inl h1
      · simp only [List.mem_singleton] at h1
        subst h1
        exact Or.inr ⟨rfl, block, hmem, hlast⟩
    · split at h
      · cases hl : loop_map.lookup block with
        | none => rw [hl] at h; simp at h
        | some loop =>
          rw [hl] at h
          simp only at h
          cases hs : dfsHelper edges loop_map n loop.exitBlocks block (some block) [block] [] with
          | none => rw [hs] at h; simp at h
          | some subPaths =>
            rw [hs] at h
            simp only at h
            exact splice_ok (ih exitBlockSet) header path hne subPaths allPaths r h q hq
      · cases hs : dfsHelperSuccs edges loop_map (dfsHelper edges loop_map n exitBlockSet) header
            exitBlockSet (succs edges block) (path, allPaths) with
        | none => rw [hs] at h; simp at h
        | some st' =>
          rw [hs] at h
          simp only [Option.map_some', Option.some.injEq] at h
          subst h
          exact (succs_ok edges loop_map (ih exitBlockSet) header _ _ _ hs hne).2.2 q hq

/-- C2 (amended): whenever the loop-aware enumeration `dfsWithLoops` returns, every path it
returns starts at the entry node `0` and ends at the function's last block, node
`size - 1`. -/
theorem dfsWithLoops_endpoints (cfg : CFG) (fuel : Nat) (paths : List (List Nat))
    (h : dfsWithLoops cfg fuel = some paths) :
    ∀ p ∈ paths, p.head? = some 0 ∧ p.getLast? = some (cfg.size - 1) := by
  intro p hp
  unfold dfsWithLoops at h
  rcases dfsHelper_ok cfg.edges cfg.loop_map fuel [cfg.size - 1] 0 none [0] [] paths h
    (by simp) rfl p hp with h1 | ⟨h1, x, hx, h2⟩
  · simp at h1
  · simp only [List.mem_singleton] at hx
    subst hx
    exact ⟨h1, h2⟩

theorem dfsWithLoops_endpoints_witness :
    dfsWithLoops oneLoopCFG 5 = some [[0, 1, 2, 1, 3], [0, 1, 3]] ∧
    ∀ p ∈ [[0, 1, 2, 1, 3], [0, 1, 3]],
      p.head? = some 0 ∧ p.getLast? = some (oneLoopCFG.size - 1) :=
  ⟨by decide, dfsWithLoops_endpoints oneLoopCFG 5 _ (by decide)⟩


theorem splice_mono
    {rec rec' : Nat → Option Nat → List Nat → List (List Nat) → Option (List (List Nat))}
    (hle : RecLe rec rec') (header : Option Nat) (path : List Nat) :
    ∀ (subPaths allPaths r : List (List Nat)),
      dfsHelperSplice rec header path subPaths allPaths = some r →
      dfsHelperSplice rec' header path subPaths allPaths = some r := by
  intro subPaths
  induction subPaths with
  | nil => intro allPaths r h; simpa [dfsHelperSplice] using h
  | cons sp rest ih =>
    intro allPaths r h
    simp only [dfsHelperSplice] at h ⊢
    cases h1 : rec ((path ++ sp.tail).getLastD 0) header (path ++ sp.tail) allPaths with
    | none => rw [h1] at h; simp at h
    | some a1 =>
      rw [h1] at h
      rw [hle _ _ _ _ _ h1]
      exact ih a1 r h

theorem exits_mono
    {rec rec' : Nat → Option Nat → List Nat → List (List Nat) → Option (List (List Nat))}
    (hle : RecLe rec rec') (header : Option Nat) (exitBlockSet set : List Nat) :
    ∀ (l : List Nat) (st st' : List Nat × List (List Nat)),
      dfsHelperExits rec header exitBlockSet set l st = some st' →
      dfsHelperExits rec' header exitBlockSet set l st = some st' := by
  intro l
  induction l with
  | nil => intro st st' h; simpa [dfsHelperExits] using h
  | cons n rest ih =>
    intro st st' h
    simp only [dfsHelperExits] at h ⊢
    split
    · next hc =>
      rw [if_pos hc] at h
      cases h1 : rec n header (st.1 ++ [n]) st.2 with
      | none => rw [h1] at h; simp at h
      | some a1 =>
        rw [h1] at h
        rw [hle _ _ _ _ _ h1]
        exact ih _ st' h
    · next hc =>
      rw [if_neg hc] at h
      exact ih st st' h

theorem succs_mono (edges : List (List Nat)) (loop_map : List (Nat × Loop))
    {rec rec' : Nat → Option Nat → List Nat → List (List Nat) → Option (List (List Nat))}
    (hle : RecLe rec rec') (header : Option Nat) (exitBlockSet : List Nat) :
    ∀ (l : List Nat) (st st' : List Nat × List (List Nat)),
      dfsHelperSuccs edges loop_map rec header exitBlockSet l st = some st' →
      dfsHelperSuccs edges loop_map rec' header exitBlockSet l st = some st' := by
  intro l
  induction l with
  | nil => intro st st' h; simpa [dfsHelperSuccs] using h
  | cons n rest ih =>
    intro st st' h
    simp only [dfsHelperSuccs] at h ⊢
    split
    · next hc =>
      rw [if_pos hc] at h
      cases hl : loop_map.lookup n with
      | none => rw [hl] at h; simp at h
      | some loop =>
        rw [hl] at h
        simp only at h ⊢
        cases h1 : dfsHelperExits rec header exitBlockSet loop.blocks (succs edges n)
            (st.1 ++ [n], st.2) with
        | none => rw [h1] at h; simp at h
        | some st1 =>
          rw [h1] at h
          rw [exits_mono hle header exitBlockSet loop.blocks _ _ _ h1]
          exact ih st1 st' h
    · next hc =>
      rw [if_neg hc] at h
      cases h1 : rec n header (st.1 ++ [n]) st.2 with
      | none => rw [h1] at h; simp at h
      | some a1 =>
        rw [h1] at h
        rw [hle _ _ _ _ _ h1]
        exact ih _ st' h

theorem dfsHelper_mono_succ (edges : List (List Nat)) (loop_map : List (Nat × Loop)) :
    ∀ (fuel : Nat) (exitBlockSet : List Nat),
      RecLe (dfsHelper edges loop_map fuel exitBlockSet)
        (dfsHelper edges loop_map (fuel + 1) exitBlockSet) := by
  intro fuel
  induction fuel with
  | zero =>
    intro exitBlockSet block header path allPaths r h
    simp [dfsHelper] at h
  | succ n ih =>
    intro exitBlockSet block header path allPaths r h
    rw [dfsHelper] at h ⊢
    split
    · next hc => rw [if_pos hc] at h; exact h
    · next hc =>
      rw [if_neg hc] at h
      split
      · next hc2 =>
        rw [if_pos hc2] at h
        cases hl : loop_map.lookup block with
        | none => rw [hl] at h; simp at h
        | some loop =>
          rw [hl] at h
          simp only at h ⊢
          cases hs : dfsHelper edges loop_map n loop.exitBlocks block (some block) [block] [] with
          | none => rw [hs] at h; simp at h
          | some subPaths =>
            rw [hs] at h
            rw [ih _ _ _ _ _ _ hs]
            exact splice_mono (ih exitBlockSet) header path subPaths allPaths r h
      · next hc2 =>
        rw [if_neg hc2] at h
        cases hs : dfsHelperSuccs edges loop_map (dfsHelper edges loop_map n exitBlockSet) header
            exitBlockSet (succs edges block) (path, allPaths) with
        | none => rw [hs] at h; simp at h
        | some st' =>
          rw [hs] at h
          rw [succs_mono edges loop_map (ih exitBlockSet) header exitBlockSet _ _ _ hs]
          exact h

theorem dfsHelper_mono (edges : List (List Nat)) (loop_map : List (Nat × Loop))
    (exitBlockSet : List Nat) {fuel fuel' : Nat} (hle : fuel ≤ fuel') :
    RecLe (dfsHelper edges loop_map fuel exitBlockSet)
      (dfsHelper edges loop_map fuel' exitBlockSet) := by
  induction hle with
  | refl => intro _ _ _ _ _ h; exact h
  | step _ ih =>
    intro b hd p a r h
    exact dfsHelper_mono_succ edges loop_map _ exitBlockSet b hd p a r (ih b hd p a r h)

theorem dfsWithLoops_mono (cfg : CFG) {fuel fuel' : Nat} (hle : fuel ≤ fuel')
    {paths : List (List Nat)} (h : dfsWithLoops cfg fuel = some paths) :
    dfsWithLoops cfg fuel' = some paths :=
  dfsHelper_mono cfg.edges cfg.loop_map _ hle _ _ _ _ _ h

theorem dfsLoop_mono (edges : List (List Nat)) :
    ∀ (fuel : Nat) (stack allPaths r : List (List Nat)),
      dfsLoop edges fuel stack allPaths = some r →
      dfsLoop edges (fuel + 1) stack allPaths = some r := by
  intro fuel
  induction fuel with
  | zero =>
    intro stack allPaths r h
    cases stack with
    | nil => simpa [dfsLoop] using h
    | cons c s => simp [dfsLoop] at h
  | succ n ih =>
    intro stack allPaths r h
    cases stack with
    | nil => simpa [dfsLoop] using h
    | cons c s =>
      rw [dfsLoop] at h ⊢
      exact ih _ _ _ h

theorem dfsWithoutLoops_mono (edges : List (List Nat)) {fuel fuel' : Nat} (hle : fuel ≤ fuel')
    {paths : List (List Nat)} (h : dfsWithoutLoops edges fuel = some paths) :
    dfsWithoutLoops edges fuel' = some paths := by
  induction hle with
  | refl => exact h
  | step _ ih => exact dfsLoop_mono edges _ _ _ _ ih

theorem analyzingPaths_mono (cfg : CFG) {fuel fuel' : Nat} (hle : fuel ≤ fuel') {cfg' : CFG}
    (h : analyzingPaths cfg fuel = some cfg') : analyzingPaths cfg fuel' = some cfg' := by
  unfold analyzingPaths at h ⊢
  by_cases hl : cfg.loop_map.isEmpty = true
  · simp only [hl, if_true] at h ⊢
    cases h1 : dfsWithoutLoops cfg.edges fuel with
    | none => rw [h1] at h; simp at h
    | some idPaths =>
      rw [h1] at h
      rw [dfsWithoutLoops_mono cfg.edges hle h1]
      exact h
  · simp only [hl] at h ⊢
    cases h1 : dfsWithLoops cfg fuel with
    | none => rw [h1] at h; simp at h
    | some idPaths =>
      rw [h1] at h
      rw [dfsWithLoops_mono cfg hle h1]
      exact h

/-- C2 (as stated) fails: on the do-while CFG, which has a natural loop, the enumeration
returns (for every fuel from 6 on) the single path `0, 1, 2, 1, 4`; it starts at the entry
node but ends at block `4`, which has a successor, and it steps from `1` to `4`, which is not
an edge. -/
theorem dfsWithLoops_not_wellFormed :
    doWhileCFG.loop_map ≠ [] ∧
    dfsWithLoops doWhileCFG 6 = some [[0, 1, 2, 1, 4]] ∧
    (∀ fuel, 6 ≤ fuel → dfsWithLoops doWhileCFG fuel = some [[0, 1, 2, 1, 4]]) ∧
    ¬ EndsAtExit doWhileCFG.edges [0, 1, 2, 1, 4] ∧
    ¬ IsWalk doWhileCFG.edges [0, 1, 2, 1, 4] ∧
    ¬ (∀ p ∈ [[0, 1, 2, 1, 4]], WellFormedPath doWhileCFG.edges p) :=
  ⟨by decide, by decide, fun _ hf => dfsWithLoops_mono doWhileCFG hf (by decide),
    by decide, by decide, by decide⟩

/-! ## Scenarios: the single block (C9) and the one-loop CFG (C10) -/

/-- C9 (code): for a function with a single basic block (one node, no successor, no loop)
the enumeration returns no path at all for every fuel from 1 on: the entry node is popped,
has no neighbour, and is never tested for being a destination itself.  `analyzingPaths`
therefore stores no path and no bitmask, and `matchPathId("1")` is `INVALID_PATH_ID`. -/
theorem singleBlock_no_path :
    (∀ fuel, 1 ≤ fuel → dfsWithoutLoops singleBlockCFG.edges fuel = some []) ∧
    (∀ fuel, 1 ≤ fuel → analyzingPaths singleBlockCFG fuel = some singleBlockCFG) ∧
    singleBlockCFG.size = 1 ∧ singleBlockCFG.paths = [] ∧
    matchPathId singleBlockCFG ['1'] = INVALID_PATH_ID :=
  ⟨fun _ hf => dfsWithoutLoops_mono _ hf (by decide),
    fun _ hf => analyzingPaths_mono _ hf rfl, rfl, rfl, by decide⟩

/-- C10: on the one-loop CFG the loop-aware enumeration returns (for every fuel from 5 on)
exactly the two paths `E, H, B, H, X` and `E, H, X`; their bitmask strings are `1111` and
`1101`, which differ exactly at position `2`, the bit of `B`. -/
theorem oneLoop_paths :
    oneLoopCFG.loop_map ≠ [] ∧
    (∀ fuel, 5 ≤ fuel → dfsWithLoops oneLoopCFG fuel = some [[0, 1, 2, 1, 3], [0, 1, 3]]) ∧
    (∀ fuel, 5 ≤ fuel → analyzingPaths oneLoopCFG fuel = some oneLoopAnalyzed) ∧
    oneLoopAnalyzed.paths.map Path.nodes = [[0, 1, 2, 1, 3], [0, 1, 3]] ∧
    oneLoopAnalyzed.paths.map Path.to_string
      = [['1', '1', '1', '1'], ['1', '1', '0', '1']] ∧
    (∀ i, i < 4 → ((['1', '1', '1', '1'] : List Char)[i]? ≠
      (['1', '1', '0', '1'] : List Char)[i]? ↔ i = 2)) :=
  ⟨by decide, fun _ hf => dfsWithLoops_mono oneLoopCFG hf (by decide),
    fun _ hf => analyzingPaths_mono oneLoopCFG hf rfl, by decide, by decide, by decide⟩

/-! ## Edit distance: the recurrence, edit scripts and the tables -/

section EditDistance

variable {α β V : Type} [LinearOrderedCommRing V]

theorem lev_nil (sub : α → β → V) (ys : List β) : lev sub [] ys = (ys.length : V) := rfl

theorem lev_cons_nil (sub : α → β → V) (a : α) (xs : List α) :
    lev sub (a :: xs) [] = (xs.length : V) + 1 := rfl

theorem lev_cons_cons (sub : α → β → V) (a : α) (xs : List α) (b : β) (ys : List β) :
    lev sub (a :: xs) (b :: ys) =
      min (min (lev sub xs (b :: ys) + 1) (lev sub (a :: xs) ys + 1)) (lev sub xs ys + sub a b) :=
  rfl

theorem lev_nil_right (sub : α → β → V) (xs : List α) : lev sub xs [] = (xs.length : V) := by
  cases xs with
  | nil => rfl
  | cons a xs => rw [lev_cons_nil]; simp

theorem lev_delete_le (sub : α → β → V) (a : α) (xs : List α) (ys : List β) :
    lev sub (a :: xs) ys ≤ lev sub xs ys + 1 := by
  cases ys with
  | nil => rw [lev_cons_nil, lev_nil_right]
  | cons b ys => rw [lev_cons_cons]; exact le_trans (min_le_left _ _) (min_le_left _ _)

theorem lev_insert_le (sub : α → β → V) (xs : List α) (b : β) (ys : List β) :
    lev sub xs (b :: ys) ≤ lev sub xs ys + 1 := by
  cases xs with
  | nil => simp [lev_nil]
  | cons a xs => rw [lev_cons_cons]; exact le_trans (min_le_left _ _) (min_le_right _ _)

theorem lev_substitute_le (sub : α → β → V) (a : α) (xs : List α) (b : β) (ys : List β) :
    lev sub (a :: xs) (b :: ys) ≤ lev sub xs ys + sub a b := by
  rw [lev_cons_cons]; exact min_le_right _ _

theorem lev_achieved (sub : α → β → V) :
    ∀ (xs : List α) (ys : List β), EditCost sub xs ys (lev sub xs ys) := by
  intro xs
  induction xs with
  | nil =>
    intro ys
    induction ys with
    | nil => simpa [lev_nil] using (EditCost.nil : EditCost sub [] [] 0)
    | cons b ys ih =>
      have := EditCost.insert b ih
      simpa [lev_nil] using this
  | cons a xs ihx =>
    intro ys
    induction ys with
    | nil =>
      have := EditCost.delete a (ihx [])
      rw [lev_cons_nil]
      rwa [lev_nil_right] at this
    | cons b ys ihy =>
      rw [lev_cons_cons]
      rcases min_choice (min (lev sub xs (b :: ys) + 1) (lev sub (a :: xs) ys + 1))
        (lev sub xs ys + sub a b) with h | h
      · rw [h]
        rcases min_choice (lev sub xs (b :: ys) + 1) (lev sub (a :: xs) ys + 1) with h' | h'
        · rw [h']; exact EditCost.delete a (ihx (b :: ys))
        · rw [h']; exact EditCost.insert b ihy
      · rw [h]; exact EditCost.substitute a b (ihx ys)

theorem lev_le_of_editCost (sub : α → β → V) {xs : List α} {ys : List β} {c : V}
    (h : EditCost sub xs ys c) : lev sub xs ys ≤ c := by
  induction h with
  | nil => simp [lev_nil]
  | delete a _ ih => exact le_trans (lev_delete_le sub a _ _) (add_le_add_right ih 1)
  | insert b _ ih => exact le_trans (lev_insert_le sub _ b _) (add_le_add_right ih 1)
  | substitute a b _ ih =>
    exact le_trans (lev_substitute_le sub a _ b _) (add_le_add_right ih _)

theorem lev_isMin (sub : α → β → V) (xs : List α) (ys : List β) :
    IsMinEditCost sub xs ys (lev sub xs ys) :=
  ⟨lev_achieved sub xs ys, fun _ h => lev_le_of_editCost sub h⟩

theorem isMinEditCost_unique (sub : α → β → V) {xs : List α} {ys : List β} {d d' : V}
    (h : IsMinEditCost sub xs ys d) (h' : IsMinEditCost sub xs ys d') : d = d' :=
  le_antisymm (h.2 _ h'.1) (h'.2 _ h.1)

end EditDistance

section EditDistance2

variable {α β V : Type} [LinearOrderedCommRing V]

theorem editCost_snoc_delete (sub : α → β → V) (a : α) {xs : List α} {ys : List β} {c : V}
    (h : EditCost sub xs ys c) : EditCost sub (xs ++ [a]) ys (c + 1) := by
  induction h with
  | nil => exact EditCost.delete a EditCost.nil
  | delete a' _ ih => exact EditCost.delete a' ih
  | insert b _ ih => exact EditCost.insert b ih
  | @substitute a' b xs ys c _ ih =>
    have := EditCost.substitute a' b ih
    rwa [show c + 1 + sub a' b = c + sub a' b + 1 by ring] at this

theorem editCost_snoc_insert (sub : α → β → V) (b : β) {xs : List α} {ys : List β} {c : V}
    (h : EditCost sub xs ys c) : EditCost sub xs (ys ++ [b]) (c + 1) := by
  induction h with
  | nil => exact EditCost.insert b EditCost.nil
  | delete a _ ih => exact EditCost.delete a ih
  | insert b' _ ih => exact EditCost.insert b' ih
  | @substitute a b' xs ys c _ ih =>
    have := EditCost.substitute a b' ih
    rwa [show c + 1 + sub a b' = c + sub a b' + 1 by ring] at this

theorem editCost_snoc_substitute (sub : α → β → V) (a : α) (b : β) {xs : List α}
    {ys : List β} {c : V} (h : EditCost sub xs ys c) :
    EditCost sub (xs ++ [a]) (ys ++ [b]) (c + sub a b) := by
  induction h with
  | nil =>
    have := EditCost.substitute a b (EditCost.nil : EditCost sub [] [] 0)
    simpa using this
  | @delete a' xs ys c _ ih =>
    have := EditCost.delete a' ih
    rwa [show c + sub a b + 1 = c + 1 + sub a b by ring] at this
  | @insert b' xs ys c _ ih =>
    have := EditCost.insert b' ih
    rwa [show c + sub a b + 1 = c + 1 + sub a b by ring] at this
  | @substitute a' b' xs ys c _ ih =>
    have := EditCost.substitute a' b' ih
    rwa [show c + sub a b + sub a' b' = c + sub a' b' + sub a b by ring] at this

theorem editCost_reverse (sub : α → β → V) {xs : List α} {ys : List β} {c : V}
    (h : EditCost sub xs ys c) : EditCost sub xs.reverse ys.reverse c := by
  induction h with
  | nil => exact EditCost.nil
  | delete a _ ih => rw [List.reverse_cons]; exact editCost_snoc_delete sub a ih
  | insert b _ ih => rw [List.reverse_cons]; exact editCost_snoc_insert sub b ih
  | substitute a b _ ih =>
    rw [List.reverse_cons, List.reverse_cons]; exact editCost_snoc_substitute sub a b ih

theorem editCost_reverse_iff (sub : α → β → V) (xs : List α) (ys : List β) (c : V) :
    EditCost sub xs.reverse ys.reverse c ↔ EditCost sub xs ys c := by
  constructor
  · intro h
    have := editCost_reverse sub h
    simpa using this
  · exact editCost_reverse sub

theorem isMinEditCost_reverse (sub : α → β → V) (xs : List α) (ys : List β) (d : V) :
    IsMinEditCost sub xs.reverse ys.reverse d ↔ IsMinEditCost sub xs ys d := by
  unfold IsMinEditCost
  simp only [editCost_reverse_iff]

theorem editCost_swap (sub : α → β → V) {xs : List α} {ys : List β} {c : V}
    (h : EditCost sub xs ys c) : EditCost (fun b a => sub a b) ys xs c := by
  induction h with
  | nil => exact EditCost.nil
  | delete a _ ih => exact EditCost.insert a ih
  | insert b _ ih => exact EditCost.delete b ih
  | substitute a b _ ih => exact EditCost.substitute b a ih

theorem lev_swap (sub : α → β → V) (xs : List α) (ys : List β) :
    lev (fun b a => sub a b) ys xs = lev sub xs ys :=
  isMinEditCost_unique (fun b a => sub a b)
    (lev_isMin _ ys xs)
    ⟨editCost_swap sub (lev_achieved sub xs ys),
      fun _ hc => lev_le_of_editCost sub (editCost_swap (fun b a => sub a b) hc)⟩

theorem lev_reverse (sub : α → β → V) (xs : List α) (ys : List β) :
    lev sub xs.reverse ys.reverse = lev sub xs ys :=
  isMinEditCost_unique sub (lev_isMin sub xs.reverse ys.reverse)
    ((isMinEditCost_reverse sub xs ys _).2 (lev_isMin sub xs ys))

/-- Dropping the first element of the target changes the distance by at most one. -/
theorem lev_le_insert (sub : α → β → V) (hsub : ∀ a b, 0 ≤ sub a b) :
    ∀ (xs : List α) (b : β) (ys : List β), lev sub xs ys ≤ lev sub xs (b :: ys) + 1 := by
  intro xs
  induction xs with
  | nil => intro b ys; simp [lev_nil]; linarith
  | cons a xs ih =>
    intro b ys
    rw [lev_cons_cons]
    have hd := lev_delete_le sub a xs ys
    have h1 := ih b ys
    have h3 := hsub a b
    rcases min_choice (min (lev sub xs (b :: ys) + 1) (lev sub (a :: xs) ys + 1))
      (lev sub xs ys + sub a b) with h | h
    · rw [h]
      rcases min_choice (lev sub xs (b :: ys) + 1) (lev sub (a :: xs) ys + 1) with h' | h'
      · rw [h']; linarith
      · rw [h']; linarith
    · rw [h]; linarith

/-- Dropping the first element of the source changes the distance by at most one. -/
theorem lev_le_delete (sub : α → β → V) (hsub : ∀ a b, 0 ≤ sub a b)
    (a : α) (xs : List α) (ys : List β) : lev sub xs ys ≤ lev sub (a :: xs) ys + 1 := by
  have := lev_le_insert (fun b a => sub a b) (fun b a => hsub a b) ys a xs
  rw [lev_swap sub xs ys, lev_swap sub (a :: xs) ys] at this
  exact this

end EditDistance2

section EditDistance3

variable {α β V : Type} [LinearOrderedCommRing V] [DecidableEq V]

theorem levSC_cons_cons (sub : α → β → V) (a : α) (xs : List α) (b : β) (ys : List β) :
    levSC sub (a :: xs) (b :: ys) =
      if sub a b = 0 then levSC sub xs ys
      else min (min (levSC sub xs (b :: ys) + 1) (levSC sub (a :: xs) ys + 1))
        (levSC sub xs ys + sub a b) :=
  rfl

/-- The shortcut on a zero substitution cost does not change the result. -/
theorem levSC_eq_lev (sub : α → β → V) (hsub : ∀ a b, 0 ≤ sub a b) :
    ∀ (xs : List α) (ys : List β), levSC sub xs ys = lev sub xs ys := by
  intro xs
  induction xs with
  | nil => intro ys; rfl
  | cons a xs ihx =>
    intro ys
    induction ys with
    | nil => rfl
    | cons b ys ihy =>
      rw [levSC_cons_cons, lev_cons_cons, ihx, ihx, ihy]
      split
      · next h0 =>
        rw [h0, add_zero]
        have h1 := lev_le_insert sub hsub xs b ys
        have h2 := lev_le_delete sub hsub a xs ys
        rw [min_eq_right]
        exact le_min h1 h2
      · rfl

end EditDistance3

section Table

variable {σ α β V W : Type} [LinearOrderedCommRing V] [DecidableEq V]

theorem rowTail_getLast (sub : α → β → V) (xr : List α) :
    ∀ (bs yr : List β) (d : V),
      (levSC sub xr yr :: rowTail sub xr yr bs).getLastD d
        = levSC sub xr (bs.reverse ++ yr) := by
  intro bs
  induction bs with
  | nil => intro yr d; simp [rowTail]
  | cons b bs ih =>
    intro yr d
    rw [rowTail, List.getLastD_cons, ih]
    simp

theorem rowTail_nil_eq (sub : α → β → V) :
    ∀ (bs yr : List β),
      rowTail sub ([] : List α) yr bs
        = (List.range' (yr.length + 1) bs.length).map (fun (i : Nat) => (i : V)) := by
  intro bs
  induction bs with
  | nil => intro yr; simp [rowTail]
  | cons b bs ih =>
    intro yr
    rw [rowTail, ih]
    simp [List.range'_succ, levSC]

/-- One row of the table: if `cell` computes `scCell` on embedded values and keeps the
state invariant, the row loop turns the row of `xr` into the row of `a :: xr`. -/
theorem dpRow_spec (sub : α → β → V) (emb : V → W) (Inv : σ → Prop)
    (cell : σ → α → β → W → W → W → W × σ) (a : α) (pb : β → Prop)
    (hcell : ∀ s b up left diag, Inv s → pb b →
      (cell s a b (emb up) (emb left) (emb diag)).1 = emb (scCell sub a b up left diag) ∧
      Inv (cell s a b (emb up) (emb left) (emb diag)).2)
    (xr : List α) :
    ∀ (bs yr : List β) (s : σ), Inv s → (∀ b ∈ bs, pb b) →
      (dpRow cell a bs ((levSC sub xr yr :: rowTail sub xr yr bs).map emb)
          (emb (levSC sub (a :: xr) yr)) s).1
        = (rowTail sub (a :: xr) yr bs).map emb ∧
      Inv (dpRow cell a bs ((levSC sub xr yr :: rowTail sub xr yr bs).map emb)
        (emb (levSC sub (a :: xr) yr)) s).2 := by
  intro bs
  induction bs with
  | nil =>
    intro yr s hs _
    simp [dpRow, rowTail, hs]
  | cons b bs ih =>
    intro yr s hs hb
    obtain ⟨c1, c2⟩ := hcell s b (levSC sub xr (b :: yr)) (levSC sub (a :: xr) yr)
      (levSC sub xr yr) hs (hb b (List.mem_cons_self _ _))
    have e3 : scCell sub a b (levSC sub xr (b :: yr)) (levSC sub (a :: xr) yr)
        (levSC sub xr yr) = levSC sub (a :: xr) (b :: yr) := by
      rw [levSC_cons_cons]; rfl
    rw [e3] at c1
    obtain ⟨i1, i2⟩ := ih (b :: yr) _ c2 (fun b' hb' => hb b' (List.mem_cons_of_mem _ hb'))
    simp only [rowTail, List.map_cons, dpRow]
    simp only [List.map_cons] at i1 i2
    rw [c1]
    exact ⟨by rw [i1], i2⟩

/-- The rows of the table: after the elements `as` have been processed on top of the
already processed `xr`, the row is the row of `as.reverse ++ xr`. -/
theorem dpRows_spec (sub : α → β → V) (emb : V → W) (Inv : σ → Prop)
    (cell : σ → α → β → W → W → W → W × σ) (ofIdx : Nat → W)
    (hIdx : ∀ i : Nat, ofIdx i = emb (i : V)) (pa : α → Prop) (pb : β → Prop)
    (hcell : ∀ s a b up left diag, Inv s → pa a → pb b →
      (cell s a b (emb up) (emb left) (emb diag)).1 = emb (scCell sub a b up left diag) ∧
      Inv (cell s a b (emb up) (emb left) (emb diag)).2)
    (bs : List β) (hbs : ∀ b ∈ bs, pb b) :
    ∀ (as xr : List α) (s : σ), Inv s → (∀ a ∈ as, pa a) →
      (dpRows cell ofIdx as (xr.length + 1) bs
          ((levSC sub xr [] :: rowTail sub xr [] bs).map emb) s).1
        = (levSC sub (as.reverse ++ xr) [] :: rowTail sub (as.reverse ++ xr) [] bs).map emb ∧
      Inv (dpRows cell ofIdx as (xr.length + 1) bs
          ((levSC sub xr [] :: rowTail sub xr [] bs).map emb) s).2 := by
  intro as
  induction as with
  | nil => intro xr s hs _; simp [dpRows, hs]
  | cons a as ih =>
    intro xr s hs ha
    have e0 : ofIdx (xr.length + 1) = emb (levSC sub (a :: xr) []) := by
      rw [hIdx]
      congr 1
      simp [levSC, levSCRow]
    obtain ⟨r1, r2⟩ := dpRow_spec sub emb Inv cell a pb
      (fun s b up left diag hs' hb' =>
        hcell s a b up left diag hs' (ha a (List.mem_cons_self _ _)) hb')
      xr bs [] s hs hbs
    simp only [dpRows]
    rw [e0, r1]
    have := ih (a :: xr) _ r2 (fun a' ha' => ha a' (List.mem_cons_of_mem _ ha'))
    simp only [List.length_cons, List.map_cons] at this
    simp only [List.reverse_cons, List.append_assoc, List.singleton_append, List.map_cons]
    exact this

/-- The whole table computes `levSC` on the reversed sequences. -/
theorem dpTable_spec (sub : α → β → V) (emb : V → W) (Inv : σ → Prop)
    (cell : σ → α → β → W → W → W → W × σ) (ofIdx : Nat → W)
    (hIdx : ∀ i : Nat, ofIdx i = emb (i : V)) (pa : α → Prop) (pb : β → Prop)
    (hcell : ∀ s a b up left diag, Inv s → pa a → pb b →
      (cell s a b (emb up) (emb left) (emb diag)).1 = emb (scCell sub a b up left diag) ∧
      Inv (cell s a b (emb up) (emb left) (emb diag)).2)
    (as : List α) (bs : List β) (has : ∀ a ∈ as, pa a) (hbs : ∀ b ∈ bs, pb b)
    (s : σ) (hs : Inv s) :
    (dpTable cell ofIdx as bs s).1 = emb (levSC sub as.reverse bs.reverse) ∧
    Inv (dpTable cell ofIdx as bs s).2 := by
  have e0 : (List.range (bs.length + 1)).map ofIdx
      = (levSC sub ([] : List α) [] :: rowTail sub ([] : List α) [] bs).map emb := by
    rw [rowTail_nil_eq, List.range_eq_range', List.range'_succ]
    simp [levSC, hIdx, Function.comp_def]
  obtain ⟨r1, r2⟩ := dpRows_spec sub emb Inv cell ofIdx hIdx pa pb hcell bs hbs as [] s hs has
  simp only [List.length_nil, Nat.zero_add, List.append_nil] at r1 r2
  unfold dpTable
  simp only
  rw [e0, r1]
  refine ⟨?_, r2⟩
  rw [List.getLastD_eq_getLast?, List.getLast?_map]
  have := rowTail_getLast sub as.reverse bs [] (0 : V)
  rw [List.getLastD_eq_getLast?] at this
  cases hl : (levSC sub as.reverse [] :: rowTail sub as.reverse [] bs).getLast? with
  | none => simp at hl
  | some v =>
    rw [hl] at this
    simp only [Option.getD_some] at this
    simp [hl, this]

end Table

section GenericTable

variable {σ α β V W : Type}

theorem tbl_cons_cons (g : α → β → V → V → V → V) (ofIdx : Nat → V) (a : α) (xs : List α)
    (b : β) (ys : List β) :
    tbl g ofIdx (a :: xs) (b :: ys)
      = g a b (tbl g ofIdx xs (b :: ys)) (tbl g ofIdx (a :: xs) ys) (tbl g ofIdx xs ys) :=
  rfl

theorem tbl_cons_nil (g : α → β → V → V → V → V) (ofIdx : Nat → V) (a : α) (xs : List α) :
    tbl g ofIdx (a :: xs) ([] : List β) = ofIdx (xs.length + 1) :=
  rfl

theorem tblTail_getLast (g : α → β → V → V → V → V) (ofIdx : Nat → V) (xr : List α) :
    ∀ (bs yr : List β) (d : V),
      (tbl g ofIdx xr yr :: tblTail g ofIdx xr yr bs).getLastD d
        = tbl g ofIdx xr (bs.reverse ++ yr) := by
  intro bs
  induction bs with
  | nil => intro yr d; simp [tblTail]
  | cons b bs ih =>
    intro yr d
    rw [tblTail, List.getLastD_cons, ih]
    simp

theorem tblTail_nil_eq (g : α → β → V → V → V → V) (ofIdx : Nat → V) :
    ∀ (bs yr : List β),
      tblTail g ofIdx ([] : List α) yr bs
        = (List.range' (yr.length + 1) bs.length).map ofIdx := by
  intro bs
  induction bs with
  | nil => intro yr; simp [tblTail]
  | cons b bs ih =>
    intro yr
    rw [tblTail, ih]
    simp [List.range'_succ, tbl]

/-- One row of a table: if `cell` computes `g` on embedded values and keeps the invariant of
the state, the loop over `j` turns row `i-1` into row `i`. -/
theorem dpRow_tbl (g : α → β → V → V → V → V) (ofIdx : Nat → V) (emb : V → W)
    (Inv : σ → Prop) (cell : σ → α → β → W → W → W → W × σ) (a : α) (pb : β → Prop)
    (hcell : ∀ s b up left diag, Inv s → pb b →
      (cell s a b (emb up) (emb left) (emb diag)).1 = emb (g a b up left diag) ∧
      Inv (cell s a b (emb up) (emb left) (emb diag)).2)
    (xr : List α) :
    ∀ (bs yr : List β) (s : σ), Inv s → (∀ b ∈ bs, pb b) →
      (dpRow cell a bs ((tbl g ofIdx xr yr :: tblTail g ofIdx xr yr bs).map emb)
          (emb (tbl g ofIdx (a :: xr) yr)) s).1
        = (tblTail g ofIdx (a :: xr) yr bs).map emb ∧
      Inv (dpRow cell a bs ((tbl g ofIdx xr yr :: tblTail g ofIdx xr yr bs).map emb)
        (emb (tbl g ofIdx (a :: xr) yr)) s).2 := by
  intro bs
  induction bs with
  | nil =>
    intro yr s hs _
    simp [dpRow, tblTail, hs]
  | cons b bs ih =>
    intro yr s hs hb
    obtain ⟨c1, c2⟩ := hcell s b (tbl g ofIdx xr (b :: yr)) (tbl g ofIdx (a :: xr) yr)
      (tbl g ofIdx xr yr) hs (hb b (List.mem_cons_self _ _))
    rw [← tbl_cons_cons g ofIdx a xr b yr] at c1
    obtain ⟨i1, i2⟩ := ih (b :: yr) _ c2 (fun b' hb' => hb b' (List.mem_cons_of_mem _ hb'))
    simp only [tblTail, List.map_cons, dpRow]
    simp only [List.map_cons] at i1 i2
    rw [c1]
    exact ⟨by rw [i1], i2⟩

/-- The rows of a table: after the elements `as` have been processed on top of the already
processed `xr`, the row is the row of `as.reverse ++ xr`. -/
theorem dpRows_tbl (g : α → β → V → V → V → V) (ofIdx : Nat → V) (emb : V → W)
    (Inv : σ → Prop) (cell : σ → α → β → W → W → W → W × σ) (ofIdx' : Nat → W)
    (hIdx : ∀ i : Nat, ofIdx' i = emb (ofIdx i)) (pa : α → Prop) (pb : β → Prop)
    (hcell : ∀ s a b up left diag, Inv s → pa a → pb b →
      (cell s a b (emb up) (emb left) (emb diag)).1 = emb (g a b up left diag) ∧
      Inv (cell s a b (emb up) (emb left) (emb diag)).2)
    (bs : List β) (hbs : ∀ b ∈ bs, pb b) :
    ∀ (as xr : List α) (s : σ), Inv s → (∀ a ∈ as, pa a) →
      (dpRows cell ofIdx' as (xr.length + 1) bs
          ((tbl g ofIdx xr [] :: tblTail g ofIdx xr [] bs).map emb) s).1
        = (tbl g ofIdx (as.reverse ++ xr) [] :: tblTail g ofIdx (as.reverse ++ xr) [] bs).map emb
        ∧
      Inv (dpRows cell ofIdx' as (xr.length + 1) bs
          ((tbl g ofIdx xr [] :: tblTail g ofIdx xr [] bs).map emb) s).2 := by
  intro as
  induction as with
  | nil => intro xr s hs _; simp [dpRows, hs]
  | cons a as ih =>
    intro xr s hs ha
    have e0 : ofIdx' (xr.length + 1) = emb (tbl g ofIdx (a :: xr) ([] : List β)) := by
      rw [hIdx, tbl_cons_nil]
    obtain ⟨r1, r2⟩ := dpRow_tbl g ofIdx emb Inv cell a pb
      (fun s b up left diag hs' hb' =>
        hcell s a b up left diag hs' (ha a (List.mem_cons_self _ _)) hb')
      xr bs [] s hs hbs
    simp only [dpRows]
    rw [e0, r1]
    have := ih (a :: xr) _ r2 (fun a' ha' => ha a' (List.mem_cons_of_mem _ ha'))
    simp only [List.length_cons, List.map_cons] at this
    simp only [List.reverse_cons, List.append_assoc, List.singleton_append, List.map_cons]
    exact this

/-- The whole table computes `tbl` on the reversed sequences. -/
theorem dpTable_tbl (g : α → β → V → V → V → V) (ofIdx : Nat → V) (emb : V → W)
    (Inv : σ → Prop) (cell : σ → α → β → W → W → W → W × σ) (ofIdx' : Nat → W)
    (hIdx : ∀ i : Nat, ofIdx' i = emb (ofIdx i)) (pa : α → Prop) (pb : β → Prop)
    (hcell : ∀ s a b up left diag, Inv s → pa a → pb b →
      (cell s a b (emb up) (emb left) (emb diag)).1 = emb (g a b up left diag) ∧
      Inv (cell s a b (emb up) (emb left) (emb diag)).2)
    (as : List α) (bs : List β) (has : ∀ a ∈ as, pa a) (hbs : ∀ b ∈ bs, pb b)
    (s : σ) (hs : Inv s) :
    (dpTable cell ofIdx' as bs s).1 = emb (tbl g ofIdx as.reverse bs.reverse) ∧
    Inv (dpTable cell ofIdx' as bs s).2 := by
  have e0 : (List.range (bs.length + 1)).map ofIdx'
      = (tbl g ofIdx ([] : List α) [] :: tblTail g ofIdx ([] : List α) [] bs).map emb := by
    rw [tblTail_nil_eq, List.range_eq_range', List.range'_succ]
    simp [tbl, hIdx, Function.comp_def]
  obtain ⟨r1, r2⟩ := dpRows_tbl g ofIdx emb Inv cell ofIdx' hIdx pa pb hcell bs hbs as [] s hs
    has
  simp only [List.length_nil, Nat.zero_add, List.append_nil] at r1 r2
  unfold dpTable
  simp only
  rw [e0, r1]
  refine ⟨?_, r2⟩
  rw [List.getLastD_eq_getLast?, List.getLast?_map]
  have := tblTail_getLast g ofIdx as.reverse bs [] (ofIdx 0)
  rw [List.getLastD_eq_getLast?] at this
  cases hl : (tbl g ofIdx as.reverse [] :: tblTail g ofIdx as.reverse [] bs).getLast? with
  | none => simp at hl
  | some v =>
    rw [hl] at this
    simp only [Option.getD_some] at this
    simp [hl, this]

end GenericTable

section Bounds

variable {α β V : Type} [LinearOrderedCommRing V]

theorem lev_nonneg (sub : α → β → V) (hsub : ∀ a b, 0 ≤ sub a b) :
    ∀ (xs : List α) (ys : List β), 0 ≤ lev sub xs ys := by
  intro xs
  induction xs with
  | nil => intro ys; rw [lev_nil]; exact Nat.cast_nonneg _
  | cons a xs ihx =>
    intro ys
    induction ys with
    | nil =>
      rw [lev_cons_nil]
      have : (0 : V) ≤ (xs.length : V) := Nat.cast_nonneg _
      linarith
    | cons b ys ihy =>
      rw [lev_cons_cons]
      have h1 := ihx (b :: ys)
      have h2 := ihx ys
      have h3 := hsub a b
      refine le_min (le_min ?_ ?_) ?_ <;> linarith

theorem lev_le_max (sub : α → β → V) (hsub : ∀ a b, sub a b ≤ 1) :
    ∀ (xs : List α) (ys : List β), lev sub xs ys ≤ ((max xs.length ys.length : Nat) : V) := by
  intro xs
  induction xs with
  | nil => intro ys; simp [lev_nil]
  | cons a xs ihx =>
    intro ys
    cases ys with
    | nil => rw [lev_cons_nil]; simp
    | cons b ys =>
      refine le_trans (lev_substitute_le sub a xs b ys) ?_
      have h1 := ihx ys
      have h2 := hsub a b
      have e : ((max (a :: xs).length (b :: ys).length : Nat) : V)
          = ((max xs.length ys.length : Nat) : V) + 1 := by
        simp only [List.length_cons, Nat.succ_max_succ]
        push_cast
        rfl
      rw [e]
      linarith

theorem lev_self_eq_zero (sub : α → α → V) (hsub : ∀ a b, 0 ≤ sub a b)
    (hself : ∀ a, sub a a = 0) : ∀ xs : List α, lev sub xs xs = 0 := by
  intro xs
  induction xs with
  | nil => simp [lev_nil]
  | cons a xs ih =>
    apply le_antisymm
    · have := lev_substitute_le sub a xs a xs
      rw [ih, hself, add_zero] at this
      exact this
    · exact lev_nonneg sub hsub _ _

end Bounds

theorem unitSub_nonneg {α V : Type} [DecidableEq α] [LinearOrderedCommRing V] (a b : α) :
    (0 : V) ≤ unitSub a b := by
  unfold unitSub; split <;> simp

theorem unitSub_le_one {α V : Type} [DecidableEq α] [LinearOrderedCommRing V] (a b : α) :
    (unitSub a b : V) ≤ 1 := by
  unfold unitSub; split <;> simp

theorem unitSub_eq_zero_iff {α V : Type} [DecidableEq α] [LinearOrderedCommRing V] (a b : α) :
    (unitSub a b : V) = 0 ↔ a = b := by
  unfold unitSub; split <;> simp [*]

theorem unitSub_comm {α V : Type} [DecidableEq α] [LinearOrderedCommRing V] (a b : α) :
    (unitSub a b : V) = unitSub b a := by
  unfold unitSub
  by_cases h : a = b
  · simp [h]
  · have h' : ¬ b = a := fun e => h e.symm
    simp [h, h']

/-- The recurrence `lev` with unit costs is the Levenshtein distance of Mathlib. -/
theorem lev_unitSub_eq_levenshtein {α : Type} [DecidableEq α] :
    ∀ (xs ys : List α),
      lev (unitSub : α → α → Int) xs ys
        = ((levenshtein Levenshtein.defaultCost xs ys : Nat) : Int) := by
  intro xs
  induction xs with
  | nil =>
    intro ys
    rw [lev_nil]
    induction ys with
    | nil => simp
    | cons b ys ih =>
      rw [levenshtein_nil_cons]
      simp only [List.length_cons, Levenshtein.defaultCost_insert]
      push_cast
      rw [← ih]
      ring
  | cons a xs ihx =>
    intro ys
    induction ys with
    | nil =>
      rw [lev_cons_nil, levenshtein_cons_nil]
      have := ihx []
      rw [lev_nil_right] at this
      simp only [Levenshtein.defaultCost_delete]
      push_cast
      rw [← this]
      ring
    | cons b ys ihy =>
      rw [lev_cons_cons, levenshtein_cons_cons, ihx, ihx, ihy]
      simp only [Levenshtein.defaultCost_delete, Levenshtein.defaultCost_insert,
        Levenshtein.defaultCost_substitute, unitSub]
      push_cast
      rw [min_assoc]
      congr 1
      · ring
      · congr 1
        · ring
        · split <;> simp [add_comm]

/-- The `int dp` table of `getNodeSimilarity` computes the unit-cost edit distance. -/
theorem opTable_eq_lev (ops1 ops2 : List String) :
    (dpTable opCell (fun i => (i : Int)) ops1 ops2 ()).1
      = lev (unitSub : String → String → Int) ops1 ops2 := by
  have h := (dpTable_spec (unitSub : String → String → Int) (fun v => v) (fun _ => True)
    opCell (fun i => (i : Int)) (fun _ => rfl) (fun _ => True) (fun _ => True)
    (by
      intro s a b up left diag _ _ _
      refine ⟨?_, trivial⟩
      simp only [opCell, scCell, unitSub_eq_zero_iff]
      split
      · rfl
      · next hne =>
        simp only [unitSub, hne, if_false]
        rw [min_add_add_right, min_add_add_right])
    ops1 ops2 (fun _ _ => trivial) (fun _ _ => trivial) () trivial).1
  rw [h, levSC_eq_lev _ (fun a b => unitSub_nonneg a b), lev_reverse]

/-! ## Rounding to binary64 -/

theorem rne_floor_le (x : ℚ) : ⌊x⌋ ≤ Dbl.rne x := by
  unfold Dbl.rne; split_ifs <;> omega

theorem rne_le_floor_succ (x : ℚ) : Dbl.rne x ≤ ⌊x⌋ + 1 := by
  unfold Dbl.rne; split_ifs <;> omega

theorem rne_intCast (n : ℤ) : Dbl.rne (n : ℚ) = n := by
  simp [Dbl.rne]

theorem rne_mono {x y : ℚ} (h : x ≤ y) : Dbl.rne x ≤ Dbl.rne y := by
  have hf : ⌊x⌋ ≤ ⌊y⌋ := Int.floor_mono h
  rcases lt_or_eq_of_le hf with hlt | heq
  · have h1 := rne_le_floor_succ x
    have h2 := rne_floor_le y
    omega
  · unfold Dbl.rne
    rw [heq]
    have hxy : x - (⌊y⌋ : ℚ) ≤ y - ⌊y⌋ := by linarith
    split_ifs <;> first | omega | (exfalso; linarith)

theorem rne_sub_abs (x : ℚ) : |(Dbl.rne x : ℚ) - x| ≤ 1 / 2 := by
  have h1 := Int.floor_le x
  have h2 := Int.lt_floor_add_one x
  unfold Dbl.rne
  split_ifs <;> rw [abs_le] <;> constructor <;> push_cast <;> linarith

theorem rne_add_lt_half (m : ℤ) {t : ℚ} (h0 : 0 ≤ t) (h1 : t < 1 / 2) :
    Dbl.rne ((m : ℚ) + t) = m := by
  have hf : ⌊(m : ℚ) + t⌋ = m := by
    rw [Int.floor_eq_iff]; constructor <;> linarith
  unfold Dbl.rne
  rw [hf]
  have e : (m : ℚ) + t - m = t := by ring
  rw [e, if_pos h1]

theorem rne_add_half_even (m : ℤ) (hm : m % 2 = 0) :
    Dbl.rne ((m : ℚ) + 1 / 2) = m := by
  have hf : ⌊(m : ℚ) + 1 / 2⌋ = m := by
    rw [Int.floor_eq_iff]; constructor <;> linarith
  unfold Dbl.rne
  rw [hf]
  have e : (m : ℚ) + 1 / 2 - m = 1 / 2 := by ring
  rw [e, if_neg (lt_irrefl _), if_neg (lt_irrefl _), if_pos hm]

theorem rne_up_tie {x : ℚ} (hx : x - ⌊x⌋ = 1 / 2) (hup : x < Dbl.rne x) :
    Dbl.rne x % 2 = 0 := by
  have h1 := Int.floor_le x
  unfold Dbl.rne at hup ⊢
  rw [hx] at hup ⊢
  simp only [lt_self_iff_false, if_false] at hup ⊢
  split_ifs at hup ⊢ with h
  · exfalso; linarith
  · omega


theorem log_eq_of_bounds {x : ℚ} {e : ℤ} (h1 : (2 : ℚ) ^ e ≤ x) (h2 : x < 2 ^ (e + 1)) :
    Int.log 2 x = e := by
  have hx : 0 < x := lt_of_lt_of_le (by positivity) h1
  have a1 : e ≤ Int.log 2 x := by
    rw [← Int.zpow_le_iff_le_log (by norm_num) hx]; exact_mod_cast h1
  have a2 : Int.log 2 x < e + 1 := by
    rw [← Int.lt_zpow_iff_log_lt (by norm_num) hx]; exact_mod_cast h2
  omega

theorem zpow_log_le {x : ℚ} (hx : 0 < x) : (2 : ℚ) ^ Int.log 2 x ≤ x := by
  have := Int.zpow_log_le_self (R := ℚ) (b := 2) (by norm_num) hx
  exact_mod_cast this

theorem lt_zpow_log_succ (x : ℚ) : x < (2 : ℚ) ^ (Int.log 2 x + 1) := by
  have := Int.lt_zpow_succ_log_self (R := ℚ) (b := 2) (by norm_num) x
  exact_mod_cast this

/-- Rounding of a positive number whose binade is known. -/
theorem round_of_bounds {x : ℚ} {e : ℤ} (h1 : (2 : ℚ) ^ e ≤ x) (h2 : x < 2 ^ (e + 1)) :
    Dbl.round x = (Dbl.rne (x / 2 ^ (e - 52)) : ℚ) * 2 ^ (e - 52) := by
  have hx : 0 < x := lt_of_lt_of_le (by positivity) h1
  unfold Dbl.round
  rw [if_neg (ne_of_gt hx), abs_of_pos hx, log_eq_of_bounds h1 h2]

theorem round_pos_eq {x : ℚ} (hx : 0 < x) :
    Dbl.round x = (Dbl.rne (x / 2 ^ (Int.log 2 x - 52)) : ℚ) * 2 ^ (Int.log 2 x - 52) :=
  round_of_bounds (zpow_log_le hx) (lt_zpow_log_succ x)

theorem round_zero : Dbl.round 0 = 0 := by simp [Dbl.round]

/-- The scaled significand of a number in the binade `e` lies in `[2^52, 2^53)`. -/
theorem scaled_bounds {x : ℚ} {e : ℤ} (h1 : (2 : ℚ) ^ e ≤ x) (h2 : x < 2 ^ (e + 1)) :
    (2 : ℚ) ^ (52 : ℕ) ≤ x / 2 ^ (e - 52) ∧ x / 2 ^ (e - 52) < (2 : ℚ) ^ (53 : ℕ) := by
  have hU : (0 : ℚ) < 2 ^ (e - 52) := by positivity
  have e1 : (2 : ℚ) ^ e = 2 ^ (52 : ℕ) * 2 ^ (e - 52) := by
    rw [← zpow_natCast, ← zpow_add₀ (by norm_num)]; congr 1; push_cast; ring
  have e2 : (2 : ℚ) ^ (e + 1) = 2 ^ (53 : ℕ) * 2 ^ (e - 52) := by
    rw [← zpow_natCast, ← zpow_add₀ (by norm_num)]; congr 1; push_cast; ring
  constructor
  · rw [le_div_iff₀ hU, ← e1]; exact h1
  · rw [div_lt_iff₀ hU, ← e2]; exact h2

theorem rne_scaled_bounds {x : ℚ} {e : ℤ} (h1 : (2 : ℚ) ^ e ≤ x) (h2 : x < 2 ^ (e + 1)) :
    (2 : ℤ) ^ (52 : ℕ) ≤ Dbl.rne (x / 2 ^ (e - 52)) ∧
    Dbl.rne (x / 2 ^ (e - 52)) ≤ (2 : ℤ) ^ (53 : ℕ) := by
  obtain ⟨a, b⟩ := scaled_bounds h1 h2
  constructor
  · have := rne_mono a
    rw [show ((2 : ℚ) ^ (52 : ℕ)) = (((2 : ℤ) ^ (52 : ℕ) : ℤ) : ℚ) by push_cast; rfl,
      rne_intCast] at this
    exact this
  · have := rne_mono (le_of_lt b)
    rw [show ((2 : ℚ) ^ (53 : ℕ)) = (((2 : ℤ) ^ (53 : ℕ) : ℤ) : ℚ) by push_cast; rfl,
      rne_intCast] at this
    exact this

/-- Rounding stays inside the closed binade. -/
theorem round_bounds {x : ℚ} {e : ℤ} (h1 : (2 : ℚ) ^ e ≤ x) (h2 : x < 2 ^ (e + 1)) :
    (2 : ℚ) ^ e ≤ Dbl.round x ∧ Dbl.round x ≤ 2 ^ (e + 1) := by
  have hU : (0 : ℚ) < 2 ^ (e - 52) := by positivity
  have e1 : (2 : ℚ) ^ e = 2 ^ (52 : ℕ) * 2 ^ (e - 52) := by
    rw [← zpow_natCast, ← zpow_add₀ (by norm_num)]; congr 1; push_cast; ring
  have e2 : (2 : ℚ) ^ (e + 1) = 2 ^ (53 : ℕ) * 2 ^ (e - 52) := by
    rw [← zpow_natCast, ← zpow_add₀ (by norm_num)]; congr 1; push_cast; ring
  obtain ⟨a, b⟩ := rne_scaled_bounds h1 h2
  rw [round_of_bounds h1 h2, e1, e2]
  constructor
  · apply mul_le_mul_of_nonneg_right _ (le_of_lt hU)
    exact_mod_cast a
  · apply mul_le_mul_of_nonneg_right _ (le_of_lt hU)
    exact_mod_cast b

theorem round_pos {x : ℚ} (hx : 0 < x) : 0 < Dbl.round x :=
  lt_of_lt_of_le (by positivity) (round_bounds (zpow_log_le hx) (lt_zpow_log_succ x)).1

theorem round_nonneg {x : ℚ} (hx : 0 ≤ x) : 0 ≤ Dbl.round x := by
  rcases eq_or_lt_of_le hx with h | h
  · rw [← h, round_zero]
  · exact le_of_lt (round_pos h)

/-- Rounding is monotone on the non-negative numbers. -/
theorem round_mono {x y : ℚ} (hx : 0 ≤ x) (hxy : x ≤ y) : Dbl.round x ≤ Dbl.round y := by
  rcases eq_or_lt_of_le hx with h | h
  · rw [← h, round_zero]; exact round_nonneg (le_trans hx hxy)
  · have hy : 0 < y := lt_of_lt_of_le h hxy
    have hl : Int.log 2 x ≤ Int.log 2 y := Int.log_mono_right h hxy
    rcases lt_or_eq_of_le hl with hlt | heq
    · have a := (round_bounds (zpow_log_le h) (lt_zpow_log_succ x)).2
      have b := (round_bounds (zpow_log_le hy) (lt_zpow_log_succ y)).1
      have c : (2 : ℚ) ^ (Int.log 2 x + 1) ≤ 2 ^ Int.log 2 y :=
        zpow_le_zpow_right₀ (by norm_num) (by omega)
      linarith
    · rw [round_pos_eq h, round_pos_eq hy, heq]
      apply mul_le_mul_of_nonneg_right _ (by positivity)
      have : x / 2 ^ (Int.log 2 y - 52) ≤ y / 2 ^ (Int.log 2 y - 52) :=
        div_le_div_of_nonneg_right hxy (by positivity)
      exact_mod_cast rne_mono this

/-- A number whose scaled significand is an integer is a value of the format. -/
theorem round_eq_self {x : ℚ} (n : ℤ) (h : x / 2 ^ (Int.log 2 |x| - 52) = n) :
    Dbl.round x = x := by
  unfold Dbl.round
  split
  · next h0 => exact h0.symm
  · rw [h, rne_intCast, ← h]
    field_simp

/-- The error of rounding is at most half a unit in the last place. -/
theorem round_err {x : ℚ} (hx : 0 ≤ x) : |Dbl.round x - x| ≤ x / 2 ^ (53 : ℕ) := by
  rcases eq_or_lt_of_le hx with h | h
  · rw [← h, round_zero]; simp
  · have hU : (0 : ℚ) < 2 ^ (Int.log 2 x - 52) := by positivity
    have e1 : (2 : ℚ) ^ Int.log 2 x = 2 ^ (52 : ℕ) * 2 ^ (Int.log 2 x - 52) := by
      rw [← zpow_natCast, ← zpow_add₀ (by norm_num)]; congr 1; push_cast; ring
    have hlo := zpow_log_le h
    rw [e1] at hlo
    have ha := rne_sub_abs (x / 2 ^ (Int.log 2 x - 52))
    have e2 : Dbl.round x - x
        = ((Dbl.rne (x / 2 ^ (Int.log 2 x - 52)) : ℚ) - x / 2 ^ (Int.log 2 x - 52))
          * 2 ^ (Int.log 2 x - 52) := by
      rw [round_pos_eq h]; field_simp
    rw [e2, abs_mul, abs_of_pos hU]
    calc |((Dbl.rne (x / 2 ^ (Int.log 2 x - 52)) : ℚ) - x / 2 ^ (Int.log 2 x - 52))|
          * 2 ^ (Int.log 2 x - 52)
        ≤ 1 / 2 * 2 ^ (Int.log 2 x - 52) := mul_le_mul_of_nonneg_right ha (le_of_lt hU)
      _ ≤ x / 2 ^ (53 : ℕ) := by
        rw [le_div_iff₀ (by positivity)]
        have : (1 : ℚ) / 2 * 2 ^ (Int.log 2 x - 52) * 2 ^ (53 : ℕ)
            = 2 ^ (52 : ℕ) * 2 ^ (Int.log 2 x - 52) := by ring
        rw [this]; exact hlo


/-- Natural numbers below `2^53` are values of the format. -/
theorem round_natCast {n : ℕ} (h : n < 2 ^ 53) : Dbl.round (n : ℚ) = n := by
  rcases Nat.eq_zero_or_pos n with h0 | h0
  · subst h0; simp [round_zero]
  · have hx : (0 : ℚ) < n := by exact_mod_cast h0
    have hl : Int.log 2 (n : ℚ) < 53 := by
      rw [← Int.lt_zpow_iff_log_lt (by norm_num) hx]
      norm_num
      exact h
    obtain ⟨k, hk⟩ : ∃ k : ℕ, Int.log 2 (n : ℚ) - 52 = -(k : ℤ) :=
      ⟨(52 - Int.log 2 (n : ℚ)).toNat, by omega⟩
    apply round_eq_self ((n * 2 ^ k : ℕ) : ℤ)
    rw [abs_of_pos hx, hk, zpow_neg, zpow_natCast]
    push_cast
    field_simp

/-- Adding one to a rounded natural number and rounding again does not pass the rounded
successor. -/
theorem round_round_succ (k : ℕ) :
    Dbl.round (Dbl.round (k : ℚ) + 1) ≤ Dbl.round ((k : ℚ) + 1) := by
  by_cases hk : k < 2 ^ 53
  · rw [round_natCast hk]
  · have hk2 : (2 : ℚ) ^ (53 : ℕ) ≤ (k : ℚ) := by
      norm_num
      exact not_lt.1 hk
    have hx : (0 : ℚ) < k := lt_of_lt_of_le (by positivity) hk2
    have h1 := zpow_log_le hx
    have h2 := lt_zpow_log_succ (k : ℚ)
    have he : (53 : ℤ) ≤ Int.log 2 (k : ℚ) := by
      rw [← Int.zpow_le_iff_le_log (by norm_num) hx]
      norm_num at hk2 ⊢
      exact hk2
    have hR0 := round_nonneg (le_of_lt hx)
    by_cases hR : Dbl.round (k : ℚ) ≤ k
    · exact round_mono (by linarith) (by linarith)
    · have hR := not_le.1 hR
      suffices hs : Dbl.round (Dbl.round (k : ℚ) + 1) = Dbl.round (k : ℚ) by
        rw [hs]; exact round_mono (le_of_lt hx) (by linarith)
      generalize he' : Int.log 2 (k : ℚ) = e at h1 h2 he
      have hReq : Dbl.round (k : ℚ) = (Dbl.rne ((k : ℚ) / 2 ^ (e - 52)) : ℚ) * 2 ^ (e - 52) :=
        round_of_bounds h1 h2
      obtain ⟨m1, m2⟩ := rne_scaled_bounds h1 h2
      obtain ⟨b1, b2⟩ := round_bounds h1 h2
      generalize hm : Dbl.rne ((k : ℚ) / 2 ^ (e - 52)) = m at hReq m1 m2
      have hU : (0 : ℚ) < 2 ^ (e - 52) := by positivity
      have hU2 : (2 : ℚ) ≤ 2 ^ (e - 52) := by
        have : (2 : ℚ) ^ (1 : ℤ) ≤ 2 ^ (e - 52) := zpow_le_zpow_right₀ (by norm_num) (by omega)
        simpa using this
      have e2 : (2 : ℚ) ^ (e + 1) = 2 ^ (53 : ℕ) * 2 ^ (e - 52) := by
        rw [← zpow_natCast, ← zpow_add₀ (by norm_num)]; congr 1; push_cast; ring
      rcases eq_or_lt_of_le m2 with hmax | hlt
      · -- the rounded value is the next power of two
        have hRp : Dbl.round (k : ℚ) = 2 ^ (e + 1) := by
          rw [hReq, hmax, e2]; push_cast; rfl
        have c1 : (2 : ℚ) ^ (e + 1) ≤ Dbl.round (k : ℚ) + 1 := by rw [hRp]; linarith
        have c2 : Dbl.round (k : ℚ) + 1 < 2 ^ (e + 1 + 1) := by
          rw [hRp, zpow_add_one₀ (by norm_num) (e + 1)]
          have : (1 : ℚ) < 2 ^ (e + 1) := by linarith
          linarith
        rw [round_of_bounds c1 c2]
        have e3 : (2 : ℚ) ^ (e + 1 - 52) = 2 * 2 ^ (e - 52) := by
          rw [show e + 1 - 52 = (e - 52) + 1 by ring, zpow_add_one₀ (by norm_num)]; ring
        have e4 : (Dbl.round (k : ℚ) + 1) / 2 ^ (e + 1 - 52)
            = (((2 : ℤ) ^ (52 : ℕ) : ℤ) : ℚ) + 1 / (2 * 2 ^ (e - 52)) := by
          rw [hRp, e2, e3]; push_cast; field_simp; ring
        rw [e4, rne_add_lt_half _ (by positivity)
          (by rw [div_lt_div_iff₀ (by positivity) (by positivity)]; linarith), hRp, e2, e3]
        push_cast; ring
      · have hm53 : (m : ℚ) ≤ 2 ^ (53 : ℕ) - 1 := by
          have : m ≤ 2 ^ (53 : ℕ) - 1 := by omega
          exact_mod_cast this
        have c1 : (2 : ℚ) ^ e ≤ Dbl.round (k : ℚ) + 1 := by linarith
        have c2 : Dbl.round (k : ℚ) + 1 < 2 ^ (e + 1) := by
          rw [hReq, e2]
          have := mul_le_mul_of_nonneg_right hm53 (le_of_lt hU)
          nlinarith
        rw [round_of_bounds c1 c2]
        have e4 : (Dbl.round (k : ℚ) + 1) / 2 ^ (e - 52) = (m : ℚ) + 1 / 2 ^ (e - 52) := by
          rw [hReq]; field_simp
        rw [e4]
        by_cases ht : (1 : ℚ) / 2 ^ (e - 52) < 1 / 2
        · rw [rne_add_lt_half _ (by positivity) ht, hReq]
        · -- a tie: the unit in the last place is two
          have hUeq : (2 : ℚ) ^ (e - 52) = 2 := by
            apply le_antisymm _ hU2
            by_contra hc
            apply ht
            rw [div_lt_div_iff₀ (by positivity) (by positivity)]
            linarith [not_le.1 hc]
          rw [hUeq] at hReq hm e4 ⊢
          have hup : (k : ℚ) / 2 < (Dbl.rne ((k : ℚ) / 2) : ℚ) := by
            rw [hm]; rw [hReq] at hR; linarith
          have hfrac : (k : ℚ) / 2 - ⌊(k : ℚ) / 2⌋ = 1 / 2 := by
            rcases Nat.even_or_odd' k with ⟨j, rfl | rfl⟩
            · exfalso
              have : ((2 * j : ℕ) : ℚ) / 2 = ((j : ℤ) : ℚ) := by push_cast; ring
              rw [this, rne_intCast] at hup
              exact lt_irrefl _ hup
            · have e5 : ((2 * j + 1 : ℕ) : ℚ) / 2 = ((j : ℤ) : ℚ) + 1 / 2 := by
                push_cast; ring
              have hf : ⌊((j : ℤ) : ℚ) + 1 / 2⌋ = (j : ℤ) := by
                rw [Int.floor_eq_iff]; constructor <;> linarith
              rw [e5, hf]; ring
          have hev := rne_up_tie hfrac hup
          rw [hm] at hev
          rw [rne_add_half_even m hev, hReq]

theorem round_one : Dbl.round 1 = 1 := by
  have := @round_natCast 1 (by norm_num)
  simpa using this

/-- Rounding does not pass a value of the format. -/
theorem round_le_of_le {x y : ℚ} (hx : 0 ≤ x) (hxy : x ≤ y) (hy : Dbl.round y = y) :
    Dbl.round x ≤ y := by
  rw [← hy]; exact round_mono hx hxy

theorem round_ge_of_ge {x y : ℚ} (hy : 0 ≤ y) (hxy : y ≤ x) (hyr : Dbl.round y = y) :
    y ≤ Dbl.round x := by
  rw [← hyr]; exact round_mono hy hxy

/-- Rounding a rounded number changes nothing. -/
theorem round_round {x : ℚ} (hx : 0 ≤ x) : Dbl.round (Dbl.round x) = Dbl.round x := by
  rcases eq_or_lt_of_le hx with h | h
  · rw [← h, round_zero, round_zero]
  · have h1 := zpow_log_le h
    have h2 := lt_zpow_log_succ x
    generalize Int.log 2 x = e at h1 h2
    obtain ⟨m1, m2⟩ := rne_scaled_bounds h1 h2
    obtain ⟨b1, b2⟩ := round_bounds h1 h2
    have hReq := round_of_bounds h1 h2
    generalize Dbl.rne (x / 2 ^ (e - 52)) = m at hReq m1 m2
    have hpos : 0 < Dbl.round x := lt_of_lt_of_le (by positivity) b1
    have hU : (0 : ℚ) < 2 ^ (e - 52) := by positivity
    have e2 : (2 : ℚ) ^ (e + 1) = 2 ^ (53 : ℕ) * 2 ^ (e - 52) := by
      rw [← zpow_natCast, ← zpow_add₀ (by norm_num)]; congr 1; push_cast; ring
    rcases eq_or_lt_of_le b2 with hmax | hlt
    · have hl : Int.log 2 (Dbl.round x) = e + 1 := by
        apply log_eq_of_bounds
        · rw [hmax]
        · rw [hmax]
          exact zpow_lt_zpow_right₀ (by norm_num) (by omega)
      apply round_eq_self ((2 : ℤ) ^ (52 : ℕ))
      rw [abs_of_pos hpos, hl, hmax]
      have e3 : (2 : ℚ) ^ (e + 1 - 52) = 2 * 2 ^ (e - 52) := by
        rw [show e + 1 - 52 = (e - 52) + 1 by ring, zpow_add_one₀ (by norm_num)]; ring
      rw [e2, e3]
      push_cast
      field_simp
      ring
    · have hl : Int.log 2 (Dbl.round x) = e := log_eq_of_bounds b1 hlt
      apply round_eq_self m
      rw [abs_of_pos hpos, hl, hReq]
      field_simp

/-! ## Node similarity and path similarity -/

theorem getNodeSimilarity_fresh (a b : Node) :
    getNodeSimilarity freshCache a b =
      if a.node_type ≠ b.node_type then (some 0, freshCache.store a.id b.id (some 0))
      else if a.selectNum ≠ b.selectNum then (some 0, freshCache.store a.id b.id (some 0))
      else
        (Dbl.sub (some 1) (Dbl.div (Dbl.ofInt (opDist a b))
            (Dbl.ofNat (max a.ops.length b.ops.length))),
          freshCache.store a.id b.id
            (Dbl.sub (some 1) (Dbl.div (Dbl.ofInt (opDist a b))
              (Dbl.ofNat (max a.ops.length b.ops.length))))) := by
  unfold getNodeSimilarity
  simp only [freshCache, opTable_eq_lev, opDist]

theorem round_natCast_ne_zero {n : ℕ} (h : n ≠ 0) : Dbl.round (n : ℚ) ≠ 0 := by
  have : (0 : ℚ) < n := by exact_mod_cast Nat.pos_of_ne_zero h
  exact ne_of_gt (round_pos this)

/-- The rounded quotient of a number by a positive number not below it lies in `[0, 1]`. -/
theorem round_div_range {x y : ℚ} (hx : 0 ≤ x) (hxy : x ≤ y) (hy : 0 < y) :
    0 ≤ Dbl.round (x / y) ∧ Dbl.round (x / y) ≤ 1 :=
  ⟨round_nonneg (div_nonneg hx (le_of_lt hy)),
    round_le_of_le (div_nonneg hx (le_of_lt hy)) ((div_le_one hy).2 hxy) round_one⟩

/-- One minus a number of `[0, 1]`, rounded, lies in `[0, 1]`. -/
theorem round_one_sub_range {q : ℚ} (h0 : 0 ≤ q) (h1 : q ≤ 1) :
    0 ≤ Dbl.round (1 - q) ∧ Dbl.round (1 - q) ≤ 1 :=
  ⟨round_nonneg (by linarith), round_le_of_le (by linarith) (by linarith) round_one⟩

/-- The value of the node similarity in closed form: the three operations of
`1.0 - (double)lcs / (double)max(m, n)` each round. -/
theorem nodeSim_eq (a b : Node) :
    nodeSim a b =
      if a.node_type ≠ b.node_type then some 0
      else if a.selectNum ≠ b.selectNum then some 0
      else if max a.ops.length b.ops.length = 0 then none
      else some (Dbl.round (1 - Dbl.round (Dbl.round ((opDist a b : Int) : ℚ) /
        Dbl.round ((max a.ops.length b.ops.length : Nat) : ℚ)))) := by
  unfold nodeSim
  rw [getNodeSimilarity_fresh]
  split
  · rfl
  · split
    · rfl
    · by_cases hm : max a.ops.length b.ops.length = 0
      · simp [Dbl.ofNat, Dbl.ofInt, Dbl.div, Dbl.sub, hm, round_zero]
      · simp only [Dbl.ofNat, Dbl.ofInt, Dbl.div, Dbl.sub, round_natCast_ne_zero hm, hm,
          if_false]

/-- A call of `getNodeSimilarity` on a cache that is right for the node lists `A` and `B`
returns the node similarity and leaves a cache that is right. -/
theorem getNodeSimilarity_cached {A B : List Node} {cache : SimCache}
    (hA : IdsDetermine A) (hB : IdsDetermine B) (hc : CacheOk A B cache)
    {a b : Node} (ha : a ∈ A) (hb : b ∈ B) :
    (getNodeSimilarity cache a b).1 = nodeSim a b ∧
    CacheOk A B (getNodeSimilarity cache a b).2 := by
  have hstore : CacheOk A B (cache.store a.id b.id (nodeSim a b)) := by
    intro a' ha' b' hb' v hv
    unfold SimCache.store at hv
    by_cases hk : a'.id = a.id ∧ b'.id = b.id
    · simp only [hk, and_self, if_true, Option.some.injEq] at hv
      rw [← hv, hA a' ha' a ha hk.1, hB b' hb' b hb hk.2]
    · simp only [hk, if_false] at hv
      exact hc a' ha' b' hb' v hv
  cases hlook : cache a.id b.id with
  | some v =>
    have := hc a ha b hb v hlook
    unfold getNodeSimilarity
    simp only [hlook]
    exact ⟨this, hc⟩
  | none =>
    have e : getNodeSimilarity cache a b
        = (nodeSim a b, cache.store a.id b.id (nodeSim a b)) := by
      unfold nodeSim
      rw [getNodeSimilarity_fresh]
      unfold getNodeSimilarity
      simp only [hlook, opTable_eq_lev, opDist]
      split
      · rfl
      · split <;> rfl
    rw [e]
    exact ⟨rfl, hstore⟩

theorem cacheOk_fresh (A B : List Node) : CacheOk A B freshCache := by
  intro a _ b _ v hv
  simp [freshCache] at hv

theorem opDist_nonneg (a b : Node) : 0 ≤ opDist a b :=
  lev_nonneg _ (fun x y => unitSub_nonneg x y) _ _

theorem opDist_le_max (a b : Node) :
    opDist a b ≤ ((max a.ops.length b.ops.length : Nat) : Int) :=
  lev_le_max _ (fun x y => unitSub_le_one x y) _ _

theorem opDist_comm (a b : Node) : opDist a b = opDist b a := by
  unfold opDist
  rw [← lev_swap (unitSub : String → String → Int) b.ops a.ops]
  congr 1
  funext x y
  exact unitSub_comm x y

/-- A defined node similarity lies between `0` and `1`. -/
theorem nodeSim_range {a b : Node} {s : ℚ} (h : nodeSim a b = some s) : 0 ≤ s ∧ s ≤ 1 := by
  rw [nodeSim_eq] at h
  split at h
  · simp only [Option.some.injEq] at h; subst h; norm_num
  · split at h
    · simp only [Option.some.injEq] at h; subst h; norm_num
    · split at h
      · simp at h
      · next hm =>
        simp only [Option.some.injEq] at h
        subst h
        have hpos : (0 : ℚ) < ((max a.ops.length b.ops.length : Nat) : ℚ) := by
          exact_mod_cast Nat.pos_of_ne_zero hm
        have h1 : (0 : ℚ) ≤ ((opDist a b : Int) : ℚ) := by exact_mod_cast opDist_nonneg a b
        have h2 : ((opDist a b : Int) : ℚ) ≤ ((max a.ops.length b.ops.length : Nat) : ℚ) := by
          exact_mod_cast opDist_le_max a b
        obtain ⟨q0, q1⟩ := round_div_range (round_nonneg h1) (round_mono h1 h2) (round_pos hpos)
        exact round_one_sub_range q0 q1

/-- The node similarity is a number as soon as one of the opcode sequences is non-empty. -/
theorem nodeSim_isSome {a b : Node} (h : a.ops ≠ [] ∨ b.ops ≠ []) :
    ∃ s, nodeSim a b = some s := by
  rw [nodeSim_eq]
  have hm : ¬ max a.ops.length b.ops.length = 0 := by
    intro h0
    have h1 : a.ops.length = 0 := by omega
    have h2 : b.ops.length = 0 := by omega
    rcases h with h | h
    · exact h (List.length_eq_zero.1 h1)
    · exact h (List.length_eq_zero.1 h2)
  by_cases h1 : a.node_type ≠ b.node_type
  · rw [if_pos h1]; exact ⟨_, rfl⟩
  · rw [if_neg h1]
    by_cases h2 : a.selectNum ≠ b.selectNum
    · rw [if_pos h2]; exact ⟨_, rfl⟩
    · rw [if_neg h2, if_neg hm]; exact ⟨_, rfl⟩

theorem nodeSimQ_of_some {a b : Node} {s : ℚ} (h : nodeSim a b = some s) : nodeSimQ a b = s := by
  simp [nodeSimQ, h]

theorem nodeSimQ_range (a b : Node) : 0 ≤ nodeSimQ a b ∧ nodeSimQ a b ≤ 1 := by
  unfold nodeSimQ
  cases h : nodeSim a b with
  | none => simp
  | some s => simpa using nodeSim_range h

theorem substCost_nonneg (a b : Node) : 0 ≤ substCost a b := by
  unfold substCost
  linarith [(nodeSimQ_range a b).2]

theorem substCost_le_one (a b : Node) : substCost a b ≤ 1 := by
  unfold substCost
  linarith [(nodeSimQ_range a b).1]

/-- Identical nodes with opcodes have similarity exactly `1`. -/
theorem nodeSim_of_same_ops {a b : Node} (h1 : a.node_type = b.node_type)
    (h2 : a.selectNum = b.selectNum) (h3 : a.ops = b.ops) (h4 : a.ops ≠ []) :
    nodeSim a b = some 1 := by
  rw [nodeSim_eq, if_neg (by simpa using h1), if_neg (by simpa using h2)]
  have hm : ¬ max a.ops.length b.ops.length = 0 := by
    intro h0
    have e1 : a.ops.length = 0 := by omega
    exact h4 (List.length_eq_zero.1 e1)
  rw [if_neg hm]
  have hd : opDist a b = 0 := by
    unfold opDist
    rw [← h3]
    exact lev_self_eq_zero _ (fun x y => unitSub_nonneg x y)
      (fun x => (unitSub_eq_zero_iff x x).2 rfl) _
  rw [hd]
  simp [round_zero, round_one]

theorem nodeSim_self {a : Node} (h : a.ops ≠ []) : nodeSim a a = some 1 :=
  nodeSim_of_same_ops rfl rfl rfl h

theorem dbl_min_some (x y : ℚ) : Dbl.min (some x) (some y) = some (Min.min x y) := by
  unfold Dbl.min Dbl.lt
  by_cases h : y < x
  · simp [h, min_eq_right (le_of_lt h)]
  · simp [h, min_eq_left (not_lt.1 h)]

theorem pathCell_cached {A B : List Node} {cache : SimCache}
    (hA : IdsDetermine A) (hB : IdsDetermine B) (hc : CacheOk A B cache)
    {a b : Node} (ha : a ∈ A) (hb : b ∈ B) (hdef : a.ops ≠ [] ∨ b.ops ≠ [])
    (up left diag : ℚ) :
    (pathCell cache a b (some up) (some left) (some diag)).1
      = some (dblCell a b up left diag) ∧
    CacheOk A B (pathCell cache a b (some up) (some left) (some diag)).2 := by
  obtain ⟨g1, g2⟩ := getNodeSimilarity_cached hA hB hc ha hb
  obtain ⟨s, hs⟩ := nodeSim_isSome hdef
  have hq : nodeSimQ a b = s := nodeSimQ_of_some hs
  unfold pathCell
  simp only [g1, hs]
  by_cases h1 : s = 1
  · refine ⟨?_, ?_⟩
    · simp [Dbl.eqq, h1, dblCell, hq]
    · simpa [Dbl.eqq, h1] using g2
  · refine ⟨?_, ?_⟩
    · simp only [Dbl.eqq, h1, dblCell, Dbl.add, Dbl.sub, hq, decide_False,
        Bool.false_eq_true, if_false]
      rw [dbl_min_some, dbl_min_some]
    · simpa [Dbl.eqq, h1] using g2

/-- The `double dp` table of `calculate`, run on a cache that is right for node lists holding
the two node sequences, ends with the number `dblDist P Q` in `dp[m][n]`; `calculate` returns
`1.0 - dp[m][n] / (double)max(m, n)` and leaves a cache that is right. -/
theorem calculate_cached {A B P Q : List Node} {cache : SimCache}
    (hA : IdsDetermine A) (hB : IdsDetermine B) (hc : CacheOk A B cache)
    (hPA : ∀ a ∈ P, a ∈ A) (hQB : ∀ b ∈ Q, b ∈ B)
    (hdef : ∀ a ∈ P, ∀ b ∈ Q, a.ops ≠ [] ∨ b.ops ≠ []) :
    (dpTable pathCell Dbl.ofNat P Q cache).1 = some (dblDist P Q) ∧
    (calculate cache P Q).1
      = Dbl.sub (some 1) (Dbl.div (some (dblDist P Q))
          (Dbl.ofNat (max P.length Q.length))) ∧
    CacheOk A B (calculate cache P Q).2 := by
  have hcell : ∀ (s : SimCache) (a b : Node) (up left diag : ℚ), CacheOk A B s →
      (a ∈ P ∧ ∀ b ∈ Q, a.ops ≠ [] ∨ b.ops ≠ []) → b ∈ Q →
      (pathCell s a b (some up) (some left) (some diag)).1
        = some (dblCell a b up left diag) ∧
      CacheOk A B (pathCell s a b (some up) (some left) (some diag)).2 := by
    intro s a b up left diag hs ha hb
    exact pathCell_cached hA hB hs (hPA a ha.1) (hQB b hb) (ha.2 b hb) up left diag
  obtain ⟨t1, t2⟩ := dpTable_tbl dblCell (fun i : Nat => Dbl.round (i : ℚ))
    (fun q : ℚ => (some q : Dbl)) (CacheOk A B)
    pathCell Dbl.ofNat (fun _ => rfl)
    (fun a => a ∈ P ∧ ∀ b ∈ Q, a.ops ≠ [] ∨ b.ops ≠ []) (fun b => b ∈ Q) hcell P Q
    (fun a ha => ⟨ha, hdef a ha⟩) (fun _ hb => hb) cache hc
  refine ⟨t1, ?_, t2⟩
  unfold calculate
  simp only
  rw [t1]
  rfl

theorem max_cast_ne_zero {P Q : List Node} (hne : P ≠ [] ∨ Q ≠ []) :
    ¬ ((max P.length Q.length : Nat) : ℚ) = 0 := by
  intro h
  have h0 : max P.length Q.length = 0 := by exact_mod_cast h
  have h1 : P.length = 0 := by omega
  have h2 : Q.length = 0 := by omega
  rcases hne with h | h
  · exact h (List.length_eq_zero.1 h1)
  · exact h (List.length_eq_zero.1 h2)

theorem max_length_ne_zero {P Q : List Node} (hne : P ≠ [] ∨ Q ≠ []) :
    max P.length Q.length ≠ 0 := by
  intro h
  exact max_cast_ne_zero hne (by exact_mod_cast h)

theorem calculate_value {A B P Q : List Node} {cache : SimCache}
    (hA : IdsDetermine A) (hB : IdsDetermine B) (hc : CacheOk A B cache)
    (hPA : ∀ a ∈ P, a ∈ A) (hQB : ∀ b ∈ Q, b ∈ B)
    (hdef : ∀ a ∈ P, ∀ b ∈ Q, a.ops ≠ [] ∨ b.ops ≠ [])
    (hne : P ≠ [] ∨ Q ≠ []) :
    (calculate cache P Q).1
      = some (Dbl.round (1 - Dbl.round (dblDist P Q /
          Dbl.round ((max P.length Q.length : Nat) : ℚ)))) := by
  rw [(calculate_cached hA hB hc hPA hQB hdef).2.1]
  simp only [Dbl.ofNat, Dbl.div, Dbl.sub, round_natCast_ne_zero (max_length_ne_zero hne),
    if_false]

/-! ## The numbers of the `double dp` table -/

theorem dblTbl_cons_cons (a : Node) (X : List Node) (b : Node) (Y : List Node) :
    dblTbl (a :: X) (b :: Y) = dblCell a b (dblTbl X (b :: Y)) (dblTbl (a :: X) Y) (dblTbl X Y) :=
  rfl

theorem dblTbl_nil (Y : List Node) : dblTbl [] Y = Dbl.round ((Y.length : Nat) : ℚ) :=
  rfl

theorem dblTbl_cons_nil (a : Node) (X : List Node) :
    dblTbl (a :: X) [] = Dbl.round (((X.length + 1 : Nat) : Nat) : ℚ) :=
  rfl

theorem round_cost_range (a b : Node) :
    0 ≤ Dbl.round (1 - nodeSimQ a b) ∧ Dbl.round (1 - nodeSimQ a b) ≤ 1 :=
  round_one_sub_range (nodeSimQ_range a b).1 (nodeSimQ_range a b).2

/-- Every cell of the table is non-negative. -/
theorem dblTbl_nonneg : ∀ (X Y : List Node), 0 ≤ dblTbl X Y := by
  intro X
  induction X with
  | nil => intro Y; rw [dblTbl_nil]; exact round_nonneg (Nat.cast_nonneg _)
  | cons a X ihx =>
    intro Y
    induction Y with
    | nil => rw [dblTbl_cons_nil]; exact round_nonneg (Nat.cast_nonneg _)
    | cons b Y ihy =>
      rw [dblTbl_cons_cons]
      unfold dblCell
      split
      · exact ihx Y
      · refine le_min (le_min ?_ ?_) ?_
        · exact round_nonneg (by linarith [ihx (b :: Y)])
        · exact round_nonneg (by linarith [ihy])
        · exact round_nonneg (by linarith [ihx Y, (round_cost_range a b).1])

/-- Every cell of the table is at most the converted larger index. -/
theorem dblTbl_le_max :
    ∀ (X Y : List Node), dblTbl X Y ≤ Dbl.round ((max X.length Y.length : Nat) : ℚ) := by
  intro X
  induction X with
  | nil => intro Y; rw [dblTbl_nil]; simp
  | cons a X ihx =>
    intro Y
    induction Y with
    | nil => rw [dblTbl_cons_nil]; simp
    | cons b Y _ =>
      have hmax : max (a :: X).length (b :: Y).length = max X.length Y.length + 1 := by
        simp only [List.length_cons]; omega
      have hle : Dbl.round ((max X.length Y.length : Nat) : ℚ)
          ≤ Dbl.round ((max (a :: X).length (b :: Y).length : Nat) : ℚ) := by
        rw [hmax]
        exact round_mono (Nat.cast_nonneg _) (by push_cast; linarith)
      rw [dblTbl_cons_cons]
      unfold dblCell
      split
      · exact le_trans (ihx Y) hle
      · apply le_trans (min_le_right _ _)
        have h0 := dblTbl_nonneg X Y
        have hc := round_cost_range a b
        calc Dbl.round (dblTbl X Y + Dbl.round (1 - nodeSimQ a b))
            ≤ Dbl.round (Dbl.round ((max X.length Y.length : Nat) : ℚ) + 1) :=
              round_mono (by linarith) (by linarith [ihx Y])
          _ ≤ Dbl.round (((max X.length Y.length : Nat) : ℚ) + 1) := round_round_succ _
          _ = Dbl.round ((max (a :: X).length (b :: Y).length : Nat) : ℚ) := by
              rw [hmax]; push_cast; rfl

/-- The table of a sequence against itself ends with `0`: the diagonal is taken at every
node. -/
theorem dblTbl_self : ∀ (X : List Node), (∀ a ∈ X, a.ops ≠ []) → dblTbl X X = 0 := by
  intro X
  induction X with
  | nil => intro _; rw [dblTbl_nil]; simp [round_zero]
  | cons a X ih =>
    intro hX
    rw [dblTbl_cons_cons]
    unfold dblCell
    rw [if_pos (nodeSimQ_of_some (nodeSim_self (hX a (List.mem_cons_self _ _))))]
    exact ih (fun x hx => hX x (List.mem_cons_of_mem _ hx))

theorem dblDist_nonneg (P Q : List Node) : 0 ≤ dblDist P Q :=
  dblTbl_nonneg _ _

theorem dblDist_le_max (P Q : List Node) :
    dblDist P Q ≤ Dbl.round ((max P.length Q.length : Nat) : ℚ) := by
  have := dblTbl_le_max P.reverse Q.reverse
  simpa [dblDist] using this

theorem dblDist_self {P : List Node} (h : ∀ a ∈ P, a.ops ≠ []) : dblDist P P = 0 :=
  dblTbl_self _ (fun a ha => h a (List.mem_reverse.1 ha))

/-- The value of `calculate` lies between `0` and `1`. -/
theorem calculate_range {A B P Q : List Node} {cache : SimCache}
    (hA : IdsDetermine A) (hB : IdsDetermine B) (hc : CacheOk A B cache)
    (hPA : ∀ a ∈ P, a ∈ A) (hQB : ∀ b ∈ Q, b ∈ B)
    (hdef : ∀ a ∈ P, ∀ b ∈ Q, a.ops ≠ [] ∨ b.ops ≠ [])
    (hne : P ≠ [] ∨ Q ≠ []) :
    ∃ s : ℚ, (calculate cache P Q).1 = some s ∧ 0 ≤ s ∧ s ≤ 1 := by
  refine ⟨_, calculate_value hA hB hc hPA hQB hdef hne, ?_⟩
  have hpos : (0 : ℚ) < ((max P.length Q.length : Nat) : ℚ) :=
    lt_of_le_of_ne (Nat.cast_nonneg _) (Ne.symm (max_cast_ne_zero hne))
  obtain ⟨q0, q1⟩ := round_div_range (dblDist_nonneg P Q) (dblDist_le_max P Q) (round_pos hpos)
  exact round_one_sub_range q0 q1

/-! ## The `double dp` table against the exact weighted edit distance -/

theorem round_abs_sub_le {x y e : ℚ} (hx : 0 ≤ x) (h : |x - y| ≤ e) :
    |Dbl.round x - y| ≤ e + x / 2 ^ (53 : ℕ) := by
  have h1 := round_err hx
  have h2 : Dbl.round x - y = (Dbl.round x - x) + (x - y) := by ring
  rw [h2]
  have := abs_add (Dbl.round x - x) (x - y)
  linarith

/-- With `N` below `2^53`, every cell of the `double dp` table whose two indices add up to
`k ≤ N` is at most `k` and differs from the exact table (the recurrence `levSC` with the
exact substitution costs) by at most `k * (N + 2) / 2^53`. -/
theorem dblTbl_error (N : ℕ) (hN : N < 2 ^ 53) :
    ∀ (X Y : List Node), X.length + Y.length ≤ N →
      dblTbl X Y ≤ ((X.length + Y.length : ℕ) : ℚ) ∧
      |dblTbl X Y - levSC substCost X Y|
        ≤ ((X.length + Y.length : ℕ) : ℚ) * ((N : ℚ) + 2) / 2 ^ (53 : ℕ) := by
  have hu : (0 : ℚ) < 2 ^ (53 : ℕ) := by positivity
  have hNq : (0 : ℚ) ≤ (N : ℚ) := Nat.cast_nonneg _
  have hfix : ∀ k : ℕ, k ≤ N → Dbl.round (k : ℚ) = k := fun k hk =>
    round_natCast (lt_of_le_of_lt hk hN)
  intro X
  induction X with
  | nil =>
    intro Y hY
    have e1 : dblTbl [] Y = (Y.length : ℚ) := by
      rw [dblTbl_nil]; exact hfix _ (by simpa using hY)
    have e2 : levSC substCost ([] : List Node) Y = (Y.length : ℚ) := rfl
    rw [e1, e2]
    simp only [List.length_nil, Nat.zero_add, sub_self, abs_zero, le_refl, true_and]
    positivity
  | cons a X ihx =>
    intro Y
    induction Y with
    | nil =>
      intro hY
      have e1 : dblTbl (a :: X) [] = ((X.length + 1 : ℕ) : ℚ) := by
        rw [dblTbl_cons_nil]; exact hfix _ (by simpa using hY)
      have e2 : levSC substCost (a :: X) ([] : List Node) = ((X.length + 1 : ℕ) : ℚ) := by
        simp [levSC, levSCRow]
      rw [e1, e2]
      simp only [List.length_cons, List.length_nil, Nat.add_zero, sub_self, abs_zero, le_refl,
        true_and]
      positivity
    | cons b Y ihy =>
      intro hY
      simp only [List.length_cons] at hY
      obtain ⟨u1, u2⟩ := ihx (b :: Y) (by simp only [List.length_cons]; omega)
      obtain ⟨l1, l2⟩ := ihy (by simp only [List.length_cons]; omega)
      obtain ⟨d1, d2⟩ := ihx Y (by omega)
      have hu0 := dblTbl_nonneg X (b :: Y)
      have hl0 := dblTbl_nonneg (a :: X) Y
      have hd0 := dblTbl_nonneg X Y
      simp only [List.length_cons] at u1 u2 l1 l2 ⊢
      push_cast at u1 u2 l1 l2 d1 d2 ⊢
      have hk : (X.length : ℚ) + 1 + ((Y.length : ℚ) + 1) ≤ N := by
        have : ((X.length + 1 + (Y.length + 1) : ℕ) : ℚ) ≤ (N : ℚ) := by exact_mod_cast hY
        push_cast at this
        exact this
      have hxl : (0 : ℚ) ≤ (X.length : ℚ) := Nat.cast_nonneg _
      have hyl : (0 : ℚ) ≤ (Y.length : ℚ) := Nat.cast_nonneg _
      rw [dblTbl_cons_cons, levSC_cons_cons]
      unfold dblCell
      by_cases hs : nodeSimQ a b = 1
      · have hc : substCost a b = 0 := by unfold substCost; rw [hs]; ring
        rw [if_pos hs, if_pos hc]
        refine ⟨by linarith, le_trans d2 ?_⟩
        apply div_le_div_of_nonneg_right _ (le_of_lt hu)
        rw [show ((X.length : ℚ) + 1 + ((Y.length : ℚ) + 1)) * ((N : ℚ) + 2)
          = ((X.length : ℚ) + (Y.length : ℚ)) * ((N : ℚ) + 2) + 2 * ((N : ℚ) + 2) by ring]
        linarith
      · have hc : ¬ substCost a b = 0 := by
          unfold substCost; intro h; apply hs; linarith
        rw [if_neg hs, if_neg hc]
        have hcr := round_cost_range a b
        have hc0 := substCost_nonneg a b
        have hc1 := substCost_le_one a b
        have hce : |Dbl.round (1 - nodeSimQ a b) - substCost a b|
            ≤ substCost a b / 2 ^ (53 : ℕ) := round_err hc0
        constructor
        · apply le_trans (min_le_left _ _)
          apply le_trans (min_le_left _ _)
          have hkk : Dbl.round (((X.length + 1 + (Y.length + 1) : ℕ) : ℕ) : ℚ)
              = ((X.length + 1 + (Y.length + 1) : ℕ) : ℚ) := hfix _ hY
          have := round_le_of_le (x := dblTbl X (b :: Y) + 1)
            (y := ((X.length + 1 + (Y.length + 1) : ℕ) : ℚ)) (by linarith)
            (by push_cast; linarith) hkk
          push_cast at this
          exact this
        · -- the three candidates, each against its exact counterpart
          have t1 : |Dbl.round (dblTbl X (b :: Y) + 1) - (levSC substCost X (b :: Y) + 1)|
              ≤ ((X.length : ℚ) + 1 + ((Y.length : ℚ) + 1)) * ((N : ℚ) + 2) / 2 ^ (53 : ℕ) := by
            have h0 : |dblTbl X (b :: Y) + 1 - (levSC substCost X (b :: Y) + 1)|
                ≤ ((X.length : ℚ) + ((Y.length : ℚ) + 1)) * ((N : ℚ) + 2) / 2 ^ (53 : ℕ) := by
              rw [show dblTbl X (b :: Y) + 1 - (levSC substCost X (b :: Y) + 1)
                = dblTbl X (b :: Y) - levSC substCost X (b :: Y) by ring]
              exact u2
            have := round_abs_sub_le (by linarith : (0 : ℚ) ≤ dblTbl X (b :: Y) + 1) h0
            apply le_trans this
            rw [← add_div]
            apply div_le_div_of_nonneg_right _ (le_of_lt hu)
            rw [show ((X.length : ℚ) + 1 + ((Y.length : ℚ) + 1)) * ((N : ℚ) + 2)
              = ((X.length : ℚ) + ((Y.length : ℚ) + 1)) * ((N : ℚ) + 2) + ((N : ℚ) + 2) by ring]
            linarith
          have t2 : |Dbl.round (dblTbl (a :: X) Y + 1) - (levSC substCost (a :: X) Y + 1)|
              ≤ ((X.length : ℚ) + 1 + ((Y.length : ℚ) + 1)) * ((N : ℚ) + 2) / 2 ^ (53 : ℕ) := by
            have h0 : |dblTbl (a :: X) Y + 1 - (levSC substCost (a :: X) Y + 1)|
                ≤ ((X.length : ℚ) + 1 + (Y.length : ℚ)) * ((N : ℚ) + 2) / 2 ^ (53 : ℕ) := by
              rw [show dblTbl (a :: X) Y + 1 - (levSC substCost (a :: X) Y + 1)
                = dblTbl (a :: X) Y - levSC substCost (a :: X) Y by ring]
              exact l2
            have := round_abs_sub_le (by linarith : (0 : ℚ) ≤ dblTbl (a :: X) Y + 1) h0
            apply le_trans this
            rw [← add_div]
            apply div_le_div_of_nonneg_right _ (le_of_lt hu)
            rw [show ((X.length : ℚ) + 1 + ((Y.length : ℚ) + 1)) * ((N : ℚ) + 2)
              = ((X.length : ℚ) + 1 + (Y.length : ℚ)) * ((N : ℚ) + 2) + ((N : ℚ) + 2) by ring]
            linarith
          have t3 : |Dbl.round (dblTbl X Y + Dbl.round (1 - nodeSimQ a b))
                - (levSC substCost X Y + substCost a b)|
              ≤ ((X.length : ℚ) + 1 + ((Y.length : ℚ) + 1)) * ((N : ℚ) + 2) / 2 ^ (53 : ℕ) := by
            have h0 : |dblTbl X Y + Dbl.round (1 - nodeSimQ a b)
                  - (levSC substCost X Y + substCost a b)|
                ≤ (((X.length : ℚ) + (Y.length : ℚ)) * ((N : ℚ) + 2) + 1) / 2 ^ (53 : ℕ) := by
              rw [show dblTbl X Y + Dbl.round (1 - nodeSimQ a b)
                  - (levSC substCost X Y + substCost a b)
                = (dblTbl X Y - levSC substCost X Y)
                  + (Dbl.round (1 - nodeSimQ a b) - substCost a b) by ring]
              apply le_trans (abs_add _ _)
              rw [add_div]
              have : substCost a b / 2 ^ (53 : ℕ) ≤ 1 / 2 ^ (53 : ℕ) :=
                div_le_div_of_nonneg_right hc1 (le_of_lt hu)
              linarith
            have := round_abs_sub_le
              (by linarith [hcr.1] : (0 : ℚ) ≤ dblTbl X Y + Dbl.round (1 - nodeSimQ a b)) h0
            apply le_trans this
            rw [← add_div]
            apply div_le_div_of_nonneg_right _ (le_of_lt hu)
            rw [show ((X.length : ℚ) + 1 + ((Y.length : ℚ) + 1)) * ((N : ℚ) + 2)
              = ((X.length : ℚ) + (Y.length : ℚ)) * ((N : ℚ) + 2) + 2 * ((N : ℚ) + 2) by ring]
            linarith [hcr.2]
          have m1 := abs_min_sub_min_le_max (Dbl.round (dblTbl X (b :: Y) + 1))
            (Dbl.round (dblTbl (a :: X) Y + 1)) (levSC substCost X (b :: Y) + 1)
            (levSC substCost (a :: X) Y + 1)
          have m2 := abs_min_sub_min_le_max
            (min (Dbl.round (dblTbl X (b :: Y) + 1)) (Dbl.round (dblTbl (a :: X) Y + 1)))
            (Dbl.round (dblTbl X Y + Dbl.round (1 - nodeSimQ a b)))
            (min (levSC substCost X (b :: Y) + 1) (levSC substCost (a :: X) Y + 1))
            (levSC substCost X Y + substCost a b)
          exact le_trans m2 (max_le (le_trans m1 (max_le t1 t2)) t3)

/-- The number in `dp[m][n]` against the exact weighted edit distance `lev substCost P Q`, for
`N = |P| + |Q| < 2^53`: they differ by at most `N * (N + 2) / 2^53`. -/
theorem dblDist_error (P Q : List Node) (hN : P.length + Q.length < 2 ^ 53) :
    |dblDist P Q - lev substCost P Q|
      ≤ ((P.length + Q.length : ℕ) : ℚ) * (((P.length + Q.length : ℕ) : ℚ) + 2)
        / 2 ^ (53 : ℕ) := by
  have := (dblTbl_error (P.length + Q.length) hN P.reverse Q.reverse (by simp)).2
  rw [levSC_eq_lev _ substCost_nonneg, lev_reverse] at this
  simpa [dblDist] using this

/-- The error of the value of `calculate`: with `N = |P| + |Q| < 2^53`, a value
`round (1 - round (D / round M))` with `D = dblDist P Q` and `M = max(|P|, |Q|) > 0` differs
from `1 - d / M`, `d` the exact weighted edit distance, by at most `(2 N + 6) / 2^53`. -/
theorem calculate_error (P Q : List Node) (hne : P ≠ [] ∨ Q ≠ [])
    (hN : P.length + Q.length < 2 ^ 53) :
    |Dbl.round (1 - Dbl.round (dblDist P Q / Dbl.round ((max P.length Q.length : Nat) : ℚ)))
        - (1 - lev substCost P Q / ((max P.length Q.length : Nat) : ℚ))|
      ≤ (2 * ((P.length + Q.length : ℕ) : ℚ) + 6) / 2 ^ (53 : ℕ) := by
  have hu : (0 : ℚ) < 2 ^ (53 : ℕ) := by positivity
  have hM53 : max P.length Q.length < 2 ^ 53 := by omega
  have hMpos : (0 : ℚ) < ((max P.length Q.length : Nat) : ℚ) :=
    lt_of_le_of_ne (Nat.cast_nonneg _) (Ne.symm (max_cast_ne_zero hne))
  have hD0 := dblDist_nonneg P Q
  have hD1 := dblDist_le_max P Q
  have hE := dblDist_error P Q hN
  rw [round_natCast hM53] at hD1 ⊢
  generalize dblDist P Q = D at hD0 hD1 hE ⊢
  generalize lev substCost P Q = d at hE ⊢
  have hNM : ((P.length + Q.length : ℕ) : ℚ) ≤ 2 * ((max P.length Q.length : Nat) : ℚ) := by
    have : P.length + Q.length ≤ 2 * max P.length Q.length := by omega
    exact_mod_cast this
  have hn0 : (0 : ℚ) ≤ ((P.length + Q.length : ℕ) : ℚ) := Nat.cast_nonneg _
  generalize ((max P.length Q.length : Nat) : ℚ) = M at hMpos hD1 hNM ⊢
  generalize ((P.length + Q.length : ℕ) : ℚ) = n at hE hNM hn0 ⊢
  have hq0 : 0 ≤ D / M := div_nonneg hD0 (le_of_lt hMpos)
  have hq1 : D / M ≤ 1 := (div_le_one hMpos).2 hD1
  obtain ⟨r0, r1⟩ := round_div_range hD0 hD1 hMpos
  have e1 := round_err hq0
  have e2 := round_err (by linarith : (0 : ℚ) ≤ 1 - Dbl.round (D / M))
  have e3 : |D / M - d / M| ≤ 2 * (n + 2) / 2 ^ (53 : ℕ) := by
    rw [← sub_div, abs_div, abs_of_pos hMpos, div_le_iff₀ hMpos]
    apply le_trans hE
    rw [div_mul_eq_mul_div]
    apply div_le_div_of_nonneg_right _ (le_of_lt hu)
    have hn2 : 0 ≤ n + 2 := by linarith
    have := mul_le_mul_of_nonneg_right hNM hn2
    linarith
  have e1' : |Dbl.round (D / M) - D / M| ≤ 1 / 2 ^ (53 : ℕ) :=
    le_trans e1 (div_le_div_of_nonneg_right hq1 (le_of_lt hu))
  have e2' : |Dbl.round (1 - Dbl.round (D / M)) - (1 - Dbl.round (D / M))| ≤ 1 / 2 ^ (53 : ℕ) :=
    le_trans e2 (div_le_div_of_nonneg_right (by linarith) (le_of_lt hu))
  have split3 : Dbl.round (1 - Dbl.round (D / M)) - (1 - d / M)
      = (Dbl.round (1 - Dbl.round (D / M)) - (1 - Dbl.round (D / M)))
        - (Dbl.round (D / M) - D / M) - (D / M - d / M) := by ring
  rw [split3]
  have a1 := abs_sub (Dbl.round (1 - Dbl.round (D / M)) - (1 - Dbl.round (D / M))
    - (Dbl.round (D / M) - D / M)) (D / M - d / M)
  have a2 := abs_sub (Dbl.round (1 - Dbl.round (D / M)) - (1 - Dbl.round (D / M)))
    (Dbl.round (D / M) - D / M)
  have e4 : (2 * n + 6) / 2 ^ (53 : ℕ)
      = 1 / 2 ^ (53 : ℕ) + 1 / 2 ^ (53 : ℕ) + 2 * (n + 2) / 2 ^ (53 : ℕ) := by ring
  rw [e4]
  linarith

/-! ## Similarity engine: C11 – C15 -/

/-- C11 (counterexample): the value of `calculate` is the result of binary64 operations and
not `1 - d / max(|P|, |Q|)`.  For the paths `entry, mid, tail` and `entry, mid, tail'`, where the
two last blocks share no opcode, the minimum cost of an edit script is `d = 1` and
`1 - d / 3 = 2/3`, but `calculate` returns `1.0 - 1.0 / 3.0`, which is the double
`6004799503160662 / 2^53` (`0.66666666666666674`).  Nor does the table hold the true distance:
for `entry, ret` against `entry', ret'` the minimum cost is the sum
`10508399130531157 / 2^53` of the two substitution costs, which is not a double, and
`dp[m][n]` holds the double below it. -/
theorem calculate_not_exact_distance :
    IsMinEditCost substCost [exEntry, exMid, exTail] [exEntry, exMid, exTailChanged] 1 ∧
    (calculate freshCache [exEntry, exMid, exTail] [exEntry, exMid, exTailChanged]).1
      = some (6004799503160662 / 9007199254740992) ∧
    (6004799503160662 / 9007199254740992 : ℚ)
      ≠ 1 - 1 / ((max [exEntry, exMid, exTail].length
          [exEntry, exMid, exTailChanged].length : Nat) : ℚ) ∧
    IsMinEditCost substCost [exEntry, exRet] [exEntryChanged, exRetChanged]
      (10508399130531157 / 9007199254740992) ∧
    (dpTable pathCell Dbl.ofNat [exEntry, exRet] [exEntryChanged, exRetChanged] freshCache).1
      = some (10508399130531156 / 9007199254740992) := by
  refine ⟨?_, by decide!, by norm_num, ?_, by decide!⟩
  · have h : lev substCost [exEntry, exMid, exTail] [exEntry, exMid, exTailChanged] = 1 := by
      decide!
    have := lev_isMin substCost [exEntry, exMid, exTail] [exEntry, exMid, exTailChanged]
    rw [h] at this
    exact this
  · have h : lev substCost [exEntry, exRet] [exEntryChanged, exRetChanged]
        = 10508399130531157 / 9007199254740992 := by
      decide!
    have := lev_isMin substCost [exEntry, exRet] [exEntryChanged, exRetChanged]
    rw [h] at this
    exact this

/-- C11 (amended): for paths `P` (new) and `Q` (old) with at least one node each and fewer
than `2^53` nodes together, `calculate(P, Q)` returns the double `v = fl(1 - fl(D / max))`,
where `max = max(|P|, |Q|)`, `fl` is rounding to binary64 and `D` is the number the `double dp`
table ends with.  With `d` the minimum total cost of an edit script turning the node sequence
of `P` into that of `Q`, insertion and deletion costing `1` and substitution
`1 - nodeSim(a, b)` (`nodeSim` a number for every pair), and `N = |P| + |Q|`: `D` differs from
`d` by at most `N (N + 2) / 2^53` and `v` from `1 - d / max` by at most `(2 N + 6) / 2^53`; so
the dynamic program, with its shortcut at `nodeSim == 1.0`, computes the weighted Levenshtein
distance up to the rounding of its operations.  The nodes of each path are nodes of one CFG
(ids determine nodes), every node pair has an opcode, and the cache holds only similarities of
such pairs, as it does when fresh. -/
theorem calculate_edit_distance (P Q : List Node) (cache : SimCache)
    (hPne : P ≠ []) (hQne : Q ≠ [])
    (hP : IdsDetermine P) (hQ : IdsDetermine Q) (hc : CacheOk P Q cache)
    (hdef : ∀ a ∈ P, ∀ b ∈ Q, a.ops ≠ [] ∨ b.ops ≠ [])
    (hlen : P.length + Q.length < 2 ^ 53) :
    (∀ a ∈ P, ∀ b ∈ Q, nodeSim a b = some (nodeSimQ a b) ∧
      substCost a b = 1 - nodeSimQ a b) ∧
    ∃ d D v : ℚ, IsMinEditCost substCost P Q d ∧
      (dpTable pathCell Dbl.ofNat P Q cache).1 = some D ∧
      |D - d| ≤ ((P.length + Q.length : ℕ) : ℚ) * (((P.length + Q.length : ℕ) : ℚ) + 2)
        / 2 ^ (53 : ℕ) ∧
      (calculate cache P Q).1 = some v ∧
      v = Dbl.round (1 - Dbl.round (D / ((max P.length Q.length : Nat) : ℚ))) ∧
      |v - (1 - d / ((max P.length Q.length : Nat) : ℚ))|
        ≤ (2 * ((P.length + Q.length : ℕ) : ℚ) + 6) / 2 ^ (53 : ℕ) := by
  have _ := hQne
  have hM53 : max P.length Q.length < 2 ^ 53 := by omega
  obtain ⟨t1, _, _⟩ := calculate_cached hP hQ hc (fun _ h => h) (fun _ h => h) hdef
  have hv := calculate_value hP hQ hc (fun _ h => h) (fun _ h => h) hdef (Or.inl hPne)
  have he := calculate_error P Q (Or.inl hPne) hlen
  rw [round_natCast hM53] at hv
  refine ⟨?_, lev substCost P Q, dblDist P Q, _, lev_isMin substCost P Q, t1,
    dblDist_error P Q hlen, hv, rfl, ?_⟩
  · intro a ha b hb
    obtain ⟨s, hs⟩ := nodeSim_isSome (hdef a ha b hb)
    exact ⟨by rw [hs, nodeSimQ_of_some hs], rfl⟩
  · rw [round_natCast hM53] at he
    exact he

theorem calculate_edit_distance_witness :
    [exEntry, exRet] ≠ [] ∧ [exEntry, exRet2] ≠ [] ∧
    IdsDetermine [exEntry, exRet] ∧ IdsDetermine [exEntry, exRet2] ∧
    CacheOk [exEntry, exRet] [exEntry, exRet2] freshCache ∧
    (∀ a ∈ [exEntry, exRet], ∀ b ∈ [exEntry, exRet2], a.ops ≠ [] ∨ b.ops ≠ []) ∧
    [exEntry, exRet].length + [exEntry, exRet2].length < 2 ^ 53 ∧
    (calculate freshCache [exEntry, exRet] [exEntry, exRet2]).1
      = some (7505999378950827 / 9007199254740992) ∧
    ((∀ a ∈ [exEntry, exRet], ∀ b ∈ [exEntry, exRet2], nodeSim a b = some (nodeSimQ a b) ∧
        substCost a b = 1 - nodeSimQ a b) ∧
      ∃ d D v : ℚ, IsMinEditCost substCost [exEntry, exRet] [exEntry, exRet2] d ∧
        (dpTable pathCell Dbl.ofNat [exEntry, exRet] [exEntry, exRet2] freshCache).1 = some D ∧
        |D - d| ≤ (([exEntry, exRet].length + [exEntry, exRet2].length : ℕ) : ℚ)
          * ((([exEntry, exRet].length + [exEntry, exRet2].length : ℕ) : ℚ) + 2)
          / 2 ^ (53 : ℕ) ∧
        (calculate freshCache [exEntry, exRet] [exEntry, exRet2]).1 = some v ∧
        v = Dbl.round (1 - Dbl.round
          (D / ((max [exEntry, exRet].length [exEntry, exRet2].length : Nat) : ℚ))) ∧
        |v - (1 - d / ((max [exEntry, exRet].length [exEntry, exRet2].length : Nat) : ℚ))|
          ≤ (2 * (([exEntry, exRet].length + [exEntry, exRet2].length : ℕ) : ℚ) + 6)
            / 2 ^ (53 : ℕ)) :=
  ⟨by decide, by decide, by decide, by decide, cacheOk_fresh _ _, by decide, by decide,
    by decide!,
    calculate_edit_distance [exEntry, exRet] [exEntry, exRet2] freshCache (by decide)
      (by decide) (by decide) (by decide) (cacheOk_fresh _ _) (by decide) (by decide)⟩

theorem round_intCast_of_nonneg {d : Int} (h0 : 0 ≤ d) (h1 : d < 2 ^ 53) :
    Dbl.round ((d : Int) : ℚ) = (d : ℚ) := by
  obtain ⟨n, rfl⟩ := Int.eq_ofNat_of_zero_le h0
  have hn : n < 2 ^ 53 := by exact_mod_cast h1
  have := round_natCast hn
  simpa using this

/-- The error of the node similarity: with both opcode counts below `2^53`, the value
`fl(1 - fl(d / max))` differs from `1 - d / max` by at most `2^-52`. -/
theorem nodeSim_error {d : Int} {M : ℕ} (h0 : 0 ≤ d) (hd : d ≤ (M : Int)) (hM : M ≠ 0) :
    |Dbl.round (1 - Dbl.round ((d : ℚ) / (M : ℚ))) - (1 - (d : ℚ) / (M : ℚ))|
      ≤ 1 / 2 ^ (52 : ℕ) := by
  have hu : (0 : ℚ) < 2 ^ (53 : ℕ) := by positivity
  have hMq : (0 : ℚ) < (M : ℚ) := by exact_mod_cast Nat.pos_of_ne_zero hM
  have hd0 : (0 : ℚ) ≤ (d : ℚ) := by exact_mod_cast h0
  have hdM : (d : ℚ) ≤ (M : ℚ) := by exact_mod_cast hd
  have hq0 : 0 ≤ (d : ℚ) / (M : ℚ) := div_nonneg hd0 (le_of_lt hMq)
  have hq1 : (d : ℚ) / (M : ℚ) ≤ 1 := (div_le_one hMq).2 hdM
  obtain ⟨r0, r1⟩ := round_div_range hd0 hdM hMq
  have e1 : |Dbl.round ((d : ℚ) / (M : ℚ)) - (d : ℚ) / (M : ℚ)| ≤ 1 / 2 ^ (53 : ℕ) :=
    le_trans (round_err hq0) (div_le_div_of_nonneg_right hq1 (le_of_lt hu))
  have e2 : |Dbl.round (1 - Dbl.round ((d : ℚ) / (M : ℚ)))
      - (1 - Dbl.round ((d : ℚ) / (M : ℚ)))| ≤ 1 / 2 ^ (53 : ℕ) :=
    le_trans (round_err (by linarith))
      (div_le_div_of_nonneg_right (by linarith) (le_of_lt hu))
  have split2 : Dbl.round (1 - Dbl.round ((d : ℚ) / (M : ℚ))) - (1 - (d : ℚ) / (M : ℚ))
      = (Dbl.round (1 - Dbl.round ((d : ℚ) / (M : ℚ))) - (1 - Dbl.round ((d : ℚ) / (M : ℚ))))
        - (Dbl.round ((d : ℚ) / (M : ℚ)) - (d : ℚ) / (M : ℚ)) := by ring
  rw [split2]
  have a1 := abs_sub
    (Dbl.round (1 - Dbl.round ((d : ℚ) / (M : ℚ))) - (1 - Dbl.round ((d : ℚ) / (M : ℚ))))
    (Dbl.round ((d : ℚ) / (M : ℚ)) - (d : ℚ) / (M : ℚ))
  have e3 : (1 : ℚ) / 2 ^ (52 : ℕ) = 1 / 2 ^ (53 : ℕ) + 1 / 2 ^ (53 : ℕ) := by norm_num
  rw [e3]
  linarith

/-- C12 (counterexample): the value of `getNodeSimilarity` is the result of binary64
operations and not `1 - d / max`: for the opcode sequences `load, ret` and `load, add, ret`
the distance is `d = 1` and `1 - d / 3 = 2/3`, but the call returns `1.0 - 1.0 / 3.0`, which
is the double `6004799503160662 / 2^53` (`0.66666666666666674`). -/
theorem getNodeSimilarity_not_exact :
    exRet.node_type = exRet2.node_type ∧ exRet.selectNum = exRet2.selectNum ∧
    IsMinEditCost (unitSub : String → String → Int) exRet.ops exRet2.ops 1 ∧
    (getNodeSimilarity freshCache exRet exRet2).1
      = some (6004799503160662 / 9007199254740992) ∧
    (6004799503160662 / 9007199254740992 : ℚ)
      ≠ 1 - ((1 : Int) : ℚ) / ((max exRet.ops.length exRet2.ops.length : Nat) : ℚ) := by
  refine ⟨by decide, by decide, ?_, by decide!, ?_⟩
  · have h : lev (unitSub : String → String → Int) exRet.ops exRet2.ops = 1 := by decide
    have := lev_isMin (unitSub : String → String → Int) exRet.ops exRet2.ops
    rw [h] at this
    exact this
  · have : ((max exRet.ops.length exRet2.ops.length : Nat) : ℚ) = 3 := by
      have h : max exRet.ops.length exRet2.ops.length = 3 := by decide
      rw [h]; norm_num
    rw [this]
    norm_num

/-- C12 (amended): on a fresh cache `getNodeSimilarity(a, b)` returns `0` when the two nodes
differ in kind or in `select_num`; otherwise, when at least one opcode sequence is non-empty,
it returns the double `1.0 - (double)d / (double)max(|ops_a|, |ops_b|)`, each operation
rounding to binary64, where `d` is the unit-cost Levenshtein distance of the two opcode
sequences (the minimum cost of an edit script, which is also the `levenshtein` of Mathlib);
with fewer than `2^53` opcodes in each sequence this double is `fl(1 - fl(d / max))` and
differs from `1 - d / max` by at most `2^-52`; for equal non-empty opcode sequences the value
is exactly `1`. -/
theorem getNodeSimilarity_fresh_spec (a b : Node) :
    ((a.node_type ≠ b.node_type ∨ a.selectNum ≠ b.selectNum) →
      (getNodeSimilarity freshCache a b).1 = some 0) ∧
    (a.node_type = b.node_type → a.selectNum = b.selectNum → (a.ops ≠ [] ∨ b.ops ≠ []) →
      ∃ d : Int, IsMinEditCost (unitSub : String → String → Int) a.ops b.ops d ∧
        d = ((levenshtein Levenshtein.defaultCost a.ops b.ops : Nat) : Int) ∧
        (getNodeSimilarity freshCache a b).1
          = Dbl.sub (some 1)
              (Dbl.div (Dbl.ofInt d) (Dbl.ofNat (max a.ops.length b.ops.length))) ∧
        (max a.ops.length b.ops.length < 2 ^ 53 →
          ∃ v : ℚ, (getNodeSimilarity freshCache a b).1 = some v ∧
            v = Dbl.round (1 - Dbl.round
              ((d : ℚ) / ((max a.ops.length b.ops.length : Nat) : ℚ))) ∧
            |v - (1 - (d : ℚ) / ((max a.ops.length b.ops.length : Nat) : ℚ))|
              ≤ 1 / 2 ^ (52 : ℕ))) ∧
    (a.node_type = b.node_type → a.selectNum = b.selectNum → a.ops = b.ops → a.ops ≠ [] →
      (getNodeSimilarity freshCache a b).1 = some 1) := by
  have hform := nodeSim_eq a b
  unfold nodeSim at hform
  refine ⟨?_, ?_, ?_⟩
  · intro h
    rw [hform]
    by_cases h1 : a.node_type ≠ b.node_type
    · rw [if_pos h1]
    · rw [if_neg h1]
      rcases h with h | h
      · exact absurd h h1
      · rw [if_pos h]
  · intro h1 h2 h3
    have hm : ¬ max a.ops.length b.ops.length = 0 := by
      intro h0
      have e1 : a.ops.length = 0 := by omega
      have e2 : b.ops.length = 0 := by omega
      rcases h3 with h | h
      · exact h (List.length_eq_zero.1 e1)
      · exact h (List.length_eq_zero.1 e2)
    refine ⟨opDist a b, lev_isMin _ _ _, lev_unitSub_eq_levenshtein _ _, ?_, ?_⟩
    · rw [getNodeSimilarity_fresh, if_neg (by simpa using h1), if_neg (by simpa using h2)]
    · intro hlen
      have hd53 : opDist a b < 2 ^ 53 := by
        have := opDist_le_max a b
        have h9 : ((max a.ops.length b.ops.length : Nat) : Int) < 2 ^ 53 := by
          exact_mod_cast hlen
        omega
      refine ⟨_, ?_, rfl, nodeSim_error (opDist_nonneg a b) (opDist_le_max a b) hm⟩
      rw [hform, if_neg (by simpa using h1), if_neg (by simpa using h2), if_neg hm,
        round_intCast_of_nonneg (opDist_nonneg a b) hd53, round_natCast hlen]
  · intro h1 h2 h3 h4
    exact nodeSim_of_same_ops h1 h2 h3 h4

theorem getNodeSimilarity_fresh_spec_witness :
    exRet.node_type = exRet2.node_type ∧ exRet.selectNum = exRet2.selectNum ∧
    (exRet.ops ≠ [] ∨ exRet2.ops ≠ []) ∧
    max exRet.ops.length exRet2.ops.length < 2 ^ 53 ∧
    (getNodeSimilarity freshCache exRet exRet2).1
      = some (6004799503160662 / 9007199254740992) ∧
    ∃ d : Int, IsMinEditCost (unitSub : String → String → Int) exRet.ops exRet2.ops d ∧
      d = ((levenshtein Levenshtein.defaultCost exRet.ops exRet2.ops : Nat) : Int) ∧
      (getNodeSimilarity freshCache exRet exRet2).1
        = Dbl.sub (some 1)
            (Dbl.div (Dbl.ofInt d) (Dbl.ofNat (max exRet.ops.length exRet2.ops.length))) ∧
      (max exRet.ops.length exRet2.ops.length < 2 ^ 53 →
        ∃ v : ℚ, (getNodeSimilarity freshCache exRet exRet2).1 = some v ∧
          v = Dbl.round (1 - Dbl.round
            ((d : ℚ) / ((max exRet.ops.length exRet2.ops.length : Nat) : ℚ))) ∧
          |v - (1 - (d : ℚ) / ((max exRet.ops.length exRet2.ops.length : Nat) : ℚ))|
            ≤ 1 / 2 ^ (52 : ℕ)) :=
  ⟨by decide, by decide, by decide, by decide, by decide!,
    (getNodeSimilarity_fresh_spec exRet exRet2).2.1 (by decide) (by decide) (by decide)⟩

/-- C13: every similarity value lies in `[0, 1]`: for nodes `a`, `b` with non-empty opcode
sequences `getNodeSimilarity(a, b)` is a number in `[0, 1]`, and for non-empty paths `P`, `Q`
over such nodes `calculate(P, Q)` is a number in `[0, 1]` (the cache holding only
similarities of pairs of nodes of the two CFGs, as it does when fresh). -/
theorem similarity_in_unit_interval (A B : List Node) (cache : SimCache)
    (hA : IdsDetermine A) (hB : IdsDetermine B) (hc : CacheOk A B cache)
    (hAops : ∀ a ∈ A, a.ops ≠ []) (hBops : ∀ b ∈ B, b.ops ≠ []) :
    (∀ a ∈ A, ∀ b ∈ B, ∃ s : ℚ, (getNodeSimilarity cache a b).1 = some s ∧ 0 ≤ s ∧ s ≤ 1) ∧
    (∀ P Q : List Node, P ≠ [] → Q ≠ [] → (∀ a ∈ P, a ∈ A) → (∀ b ∈ Q, b ∈ B) →
      ∃ s : ℚ, (calculate cache P Q).1 = some s ∧ 0 ≤ s ∧ s ≤ 1) := by
  have _ := hBops
  refine ⟨?_, ?_⟩
  · intro a ha b hb
    obtain ⟨s, hs⟩ := nodeSim_isSome (Or.inl (hAops a ha) : a.ops ≠ [] ∨ b.ops ≠ [])
    refine ⟨s, ?_, nodeSim_range hs⟩
    rw [(getNodeSimilarity_cached hA hB hc ha hb).1, hs]
  · intro P Q hP _ hPA hQB
    exact calculate_range hA hB hc hPA hQB (fun a ha _ _ => Or.inl (hAops a (hPA a ha)))
      (Or.inl hP)

theorem similarity_in_unit_interval_witness :
    IdsDetermine [exEntry, exRet] ∧ IdsDetermine [exEntry, exRet2] ∧
    CacheOk [exEntry, exRet] [exEntry, exRet2] freshCache ∧
    (∀ a ∈ [exEntry, exRet], a.ops ≠ []) ∧ (∀ b ∈ [exEntry, exRet2], b.ops ≠ []) ∧
    ((∀ a ∈ [exEntry, exRet], ∀ b ∈ [exEntry, exRet2],
        ∃ s : ℚ, (getNodeSimilarity freshCache a b).1 = some s ∧ 0 ≤ s ∧ s ≤ 1) ∧
      (∀ P Q : List Node, P ≠ [] → Q ≠ [] → (∀ a ∈ P, a ∈ [exEntry, exRet]) →
        (∀ b ∈ Q, b ∈ [exEntry, exRet2]) →
        ∃ s : ℚ, (calculate freshCache P Q).1 = some s ∧ 0 ≤ s ∧ s ≤ 1)) :=
  ⟨by decide, by decide, cacheOk_fresh _ _, by decide, by decide,
    similarity_in_unit_interval [exEntry, exRet] [exEntry, exRet2] freshCache (by decide)
      (by decide) (cacheOk_fresh _ _) (by decide) (by decide)⟩

/-- The value of `calculate` for a path against itself. -/
theorem calculate_self_eq {P : List Node} (hne : P ≠ []) (hops : ∀ a ∈ P, a.ops ≠ [])
    (hP : IdsDetermine P) :
    (calculate freshCache P P).1 = some 1 := by
  rw [calculate_value hP hP (cacheOk_fresh P P) (fun _ h => h) (fun _ h => h)
    (fun a ha _ _ => Or.inl (hops a ha)) (Or.inl hne), dblDist_self hops]
  simp [round_zero, round_one]

/-- C14: for a non-empty path `P` whose nodes have non-empty opcode sequences (nodes of one
CFG: ids determine nodes), `calculate(P, P)` on a fresh cache is exactly `1`. -/
theorem calculate_self (P : List Node) (hne : P ≠ []) (hops : ∀ a ∈ P, a.ops ≠ [])
    (hP : IdsDetermine P) :
    (calculate freshCache P P).1 = some 1 :=
  calculate_self_eq hne hops hP

theorem calculate_self_witness :
    [exEntry, exRet] ≠ [] ∧ (∀ a ∈ [exEntry, exRet], a.ops ≠ []) ∧
    IdsDetermine [exEntry, exRet] ∧
    (calculate freshCache [exEntry, exRet] [exEntry, exRet]).1 = some 1 :=
  ⟨by decide, by decide, by decide,
    calculate_self [exEntry, exRet] (by decide) (by decide) (by decide)⟩

/-- C15: node similarity is symmetric: for all nodes `a` and `b`, `getNodeSimilarity(a, b)`
on a fresh cache and `getNodeSimilarity(b, a)` on a fresh cache return the same value (both
NaN when both opcode sequences are empty and kind and `select_num` agree). -/
theorem getNodeSimilarity_symm (a b : Node) :
    (getNodeSimilarity freshCache a b).1 = (getNodeSimilarity freshCache b a).1 := by
  have h1 := nodeSim_eq a b
  have h2 := nodeSim_eq b a
  unfold nodeSim at h1 h2
  rw [h1, h2, opDist_comm a b, max_comm a.ops.length b.ops.length]
  by_cases ht : a.node_type = b.node_type
  · by_cases hs : a.selectNum = b.selectNum
    · simp [ht, hs]
    · have hs' : ¬ b.selectNum = a.selectNum := fun e => hs e.symm
      simp [ht, hs, hs']
  · have ht' : ¬ b.node_type = a.node_type := fun e => ht e.symm
    simp [ht, ht']

/-! ## Pairing: findMostSimilarPath and run (C16) -/

/-- On a list of similarity values the loop keeps the first maximum above the start value,
or the start state when no value lies above it. -/
theorem bestLoop_spec :
    ∀ (l : List (Int × Dbl)) (q0 : Int) (s0 : ℚ),
      ((∀ x ∈ l, ¬ Dbl.lt (some s0) x.2 = true) ∧ bestLoop l (q0, some s0) = (q0, some s0)) ∨
      (∃ sv : ℚ, s0 < sv ∧ (∀ x ∈ l, ∀ v : ℚ, x.2 = some v → v ≤ sv) ∧
        ∃ l1 xm l2, l = l1 ++ xm :: l2 ∧ bestLoop l (q0, some s0) = (xm.1, some sv) ∧
          xm.2 = some sv ∧ ∀ x ∈ l1, x.2 ≠ some sv) := by
  intro l
  induction l with
  | nil => intro q0 s0; left; exact ⟨by simp, rfl⟩
  | cons x rest ih =>
    intro q0 s0
    by_cases hlt : Dbl.lt (some s0) x.2 = true
    · -- `x` becomes the running maximum
      obtain ⟨xq, xs⟩ := x
      cases xs with
      | none => simp [Dbl.lt] at hlt
      | some v =>
        have hv : s0 < v := by simpa [Dbl.lt] using hlt
        have hstep : bestLoop ((xq, some v) :: rest) (q0, some s0)
            = bestLoop rest (xq, some v) := by
          simp only [bestLoop, hlt, if_true]
        right
        rcases ih xq v with ⟨hno, hres⟩ | ⟨sv, hsv, hmax, l1, xm, l2, e, hres, hxm, hl1⟩
        · refine ⟨v, hv, ?_, [], (xq, some v), rest, rfl, by rw [hstep, hres], rfl, by simp⟩
          intro y hy w hw
          rcases List.mem_cons.1 hy with rfl | hy
          · simp only [Option.some.injEq] at hw; exact le_of_eq hw.symm
          · have := hno y hy
            rw [hw] at this
            simp only [Dbl.lt, decide_eq_true_eq] at this
            exact not_lt.1 this
        · refine ⟨sv, lt_trans hv hsv, ?_, (xq, some v) :: l1, xm, l2, by simp [e],
            by rw [hstep, hres], hxm, ?_⟩
          · intro y hy w hw
            rcases List.mem_cons.1 hy with rfl | hy
            · simp only [Option.some.injEq] at hw; rw [← hw]; exact le_of_lt hsv
            · exact hmax y hy w hw
          · intro y hy
            rcases List.mem_cons.1 hy with rfl | hy
            · simp only [ne_eq, Option.some.injEq]; exact ne_of_lt hsv
            · exact hl1 y hy
    · have hstep : bestLoop (x :: rest) (q0, some s0) = bestLoop rest (q0, some s0) := by
        simp only [bestLoop, hlt]
        rfl
      rcases ih q0 s0 with ⟨hno, hres⟩ | ⟨sv, hsv, hmax, l1, xm, l2, e, hres, hxm, hl1⟩
      · left
        refine ⟨?_, by rw [hstep, hres]⟩
        intro y hy
        rcases List.mem_cons.1 hy with rfl | hy
        · exact hlt
        · exact hno y hy
      · right
        refine ⟨sv, hsv, ?_, x :: l1, xm, l2, by simp [e], by rw [hstep, hres], hxm, ?_⟩
        · intro y hy w hw
          rcases List.mem_cons.1 hy with rfl | hy
          · rw [hw] at hlt
            simp only [Dbl.lt, decide_eq_true_eq] at hlt
            exact le_trans (not_lt.1 hlt) (le_of_lt hsv)
          · exact hmax y hy w hw
        · intro y hy
          rcases List.mem_cons.1 hy with rfl | hy
          · intro hy'
            rw [hy'] at hlt
            simp only [Dbl.lt, decide_eq_true_eq] at hlt
            exact hlt hsv
          · exact hl1 y hy

theorem idsDetermine_subset {A P : List Node} (hA : IdsDetermine A) (hPA : ∀ a ∈ P, a ∈ A) :
    IdsDetermine P :=
  fun a ha a' ha' h => hA a (hPA a ha) a' (hPA a' ha') h

/-- On a cache that is right, `calculate` returns the path similarity. -/
theorem calculate_eq_pathSim {A B P Q : List Node} {cache : SimCache}
    (hA : IdsDetermine A) (hB : IdsDetermine B) (hc : CacheOk A B cache)
    (hPA : ∀ a ∈ P, a ∈ A) (hQB : ∀ b ∈ Q, b ∈ B)
    (hdef : ∀ a ∈ P, ∀ b ∈ Q, a.ops ≠ [] ∨ b.ops ≠ []) :
    (calculate cache P Q).1 = pathSim P Q ∧ CacheOk A B (calculate cache P Q).2 := by
  obtain ⟨_, c1, c2⟩ := calculate_cached hA hB hc hPA hQB hdef
  refine ⟨?_, c2⟩
  unfold pathSim
  rw [c1, (calculate_cached (idsDetermine_subset hA hPA) (idsDetermine_subset hB hQB)
    (cacheOk_fresh P Q) (fun _ h => h) (fun _ h => h) hdef).2.1]

theorem findMostSimilarLoop_cached {A B : List Node} (hA : IdsDetermine A)
    (hB : IdsDetermine B) (P : PathView) (hPA : ∀ a ∈ P.nodes, a ∈ A)
    (hPops : ∀ a ∈ P.nodes, a.ops ≠ []) :
    ∀ (olds : List PathView) (st : Int × Dbl) (cache : SimCache), CacheOk A B cache →
      (∀ Q ∈ olds, ∀ b ∈ Q.nodes, b ∈ B) →
      (findMostSimilarLoop P olds st cache).1
        = bestLoop (olds.map (fun Q => (Q.id_, pathSim P.nodes Q.nodes))) st ∧
      CacheOk A B (findMostSimilarLoop P olds st cache).2 := by
  intro olds
  induction olds with
  | nil => intro st cache hc _; exact ⟨rfl, hc⟩
  | cons Q rest ih =>
    intro st cache hc hQ
    obtain ⟨c1, c2⟩ := calculate_eq_pathSim hA hB hc hPA (hQ Q (List.mem_cons_self _ _))
      (fun a ha _ _ => Or.inl (hPops a ha))
    simp only [findMostSimilarLoop, List.map_cons, bestLoop, c1]
    split
    · exact ih _ _ c2 (fun Q' hQ' => hQ Q' (List.mem_cons_of_mem _ hQ'))
    · exact ih _ _ c2 (fun Q' hQ' => hQ Q' (List.mem_cons_of_mem _ hQ'))

theorem bestLoop_isBestMatch (olds : List PathView) (P : PathView) :
    IsBestMatch olds P
      (bestLoop (olds.map (fun Q => (Q.id_, pathSim P.nodes Q.nodes)))
        (INVALID_PATH_ID, some 0)) := by
  rcases bestLoop_spec (olds.map (fun Q => (Q.id_, pathSim P.nodes Q.nodes)))
    INVALID_PATH_ID 0 with ⟨hno, hres⟩ | ⟨sv, hsv, hmax, l1, xm, l2, e, hres, hxm, hl1⟩
  · refine ⟨?_, fun _ => hres⟩
    rintro ⟨Q, hQ, v, hv, hpos⟩
    exfalso
    have := hno (Q.id_, pathSim P.nodes Q.nodes) (List.mem_map_of_mem _ hQ)
    apply this
    simp [hv, Dbl.lt, hpos]
  · rw [hres]
    refine ⟨fun _ => ?_, ?_⟩
    · obtain ⟨m1, rest, hm1, e1, hrest⟩ := List.map_eq_append_iff.1 e
      obtain ⟨Qm, m2, hcons, hQm, hm2⟩ := List.map_eq_cons_iff.1 hrest
      subst hcons
      refine ⟨sv, rfl, hsv, ?_, m1, Qm, m2, hm1, by rw [← hQm], by rw [← hQm] at hxm; exact hxm,
        ?_⟩
      · intro Q hQ v hv
        exact hmax (Q.id_, pathSim P.nodes Q.nodes) (List.mem_map_of_mem _ hQ) v hv
      · intro Q hQ
        have := hl1 (Q.id_, pathSim P.nodes Q.nodes) (by rw [← e1]; exact List.mem_map_of_mem _ hQ)
        exact this
    · intro hall
      exfalso
      have hmem : xm ∈ olds.map (fun Q => (Q.id_, pathSim P.nodes Q.nodes)) := by
        rw [e]; simp
      obtain ⟨Q, hQ, hQe⟩ := List.mem_map.1 hmem
      have h0 := hall Q hQ
      rw [← hQe] at hxm
      simp only at hxm
      rw [h0] at hxm
      simp only [Option.some.injEq] at hxm
      rw [← hxm] at hsv
      exact lt_irrefl _ hsv

theorem mem_allNodes {paths : List PathView} {Q : PathView} (hQ : Q ∈ paths) :
    ∀ b ∈ Q.nodes, b ∈ allNodes paths := by
  intro b hb
  unfold allNodes
  exact List.mem_flatMap.2 ⟨Q, hQ, hb⟩

theorem run_spec_aux {A B : List Node} (hA : IdsDetermine A) (hB : IdsDetermine B)
    (olds : List PathView) (hQB : ∀ Q ∈ olds, ∀ b ∈ Q.nodes, b ∈ B) :
    ∀ (news : List PathView) (path_map : Int → Option (Int × Dbl)) (cache : SimCache),
      CacheOk A B cache → (∀ P ∈ news, ∀ a ∈ P.nodes, a ∈ A) →
      (∀ P ∈ news, ∀ a ∈ P.nodes, a.ops ≠ []) → (news.map PathView.id_).Nodup →
      (∀ P ∈ news, ∃ r, (SimilarityCalculator.run olds news path_map cache).1 P.id_ = some r ∧
        IsBestMatch olds P r) ∧
      (∀ k, (∀ P ∈ news, P.id_ ≠ k) →
        (SimilarityCalculator.run olds news path_map cache).1 k = path_map k) ∧
      CacheOk A B (SimilarityCalculator.run olds news path_map cache).2 := by
  intro news
  induction news with
  | nil =>
    intro path_map cache hc _ _ _
    exact ⟨by simp, fun _ _ => rfl, hc⟩
  | cons P rest ih =>
    intro path_map cache hc hPA hPops hnd
    obtain ⟨f1, f2⟩ := findMostSimilarLoop_cached hA hB P (hPA P (List.mem_cons_self _ _))
      (hPops P (List.mem_cons_self _ _)) olds (INVALID_PATH_ID, some 0) cache hc hQB
    have hbest : IsBestMatch olds P (findMostSimilarPath cache olds P).1 := by
      unfold findMostSimilarPath
      rw [f1]
      exact bestLoop_isBestMatch olds P
    simp only [List.map_cons, List.nodup_cons] at hnd
    obtain ⟨i1, i2, i3⟩ := ih
      (fun k => if k = P.id_ then some (findMostSimilarPath cache olds P).1 else path_map k)
      (findMostSimilarPath cache olds P).2 f2
      (fun P' hP' => hPA P' (List.mem_cons_of_mem _ hP'))
      (fun P' hP' => hPops P' (List.mem_cons_of_mem _ hP')) hnd.2
    simp only [SimilarityCalculator.run]
    refine ⟨?_, ?_, i3⟩
    · intro P' hP'
      rcases List.mem_cons.1 hP' with rfl | hP'
      · refine ⟨(findMostSimilarPath cache olds P').1, ?_, hbest⟩
        rw [i2 P'.id_ (fun R hR e => hnd.1 (e ▸ List.mem_map_of_mem _ hR))]
        simp
      · exact i1 P' hP'
    · intro k hk
      rw [i2 k (fun R hR => hk R (List.mem_cons_of_mem _ hR))]
      have : ¬ k = P.id_ := fun e => hk P (List.mem_cons_self _ _) e.symm
      simp [this]

/-- C16: for every new path `P` and every list of old paths, `findMostSimilarPath(P)`
returns the best match of `P` (`IsBestMatch`: the maximum similarity and the id of the first
old path attaining it when that maximum is above `0`, `(INVALID_PATH_ID, 0)` when there is no
old path or every similarity is `0`); `run`, started on an empty map, stores one such pair
under the id of every new path and nothing under any other key.  The nodes of each CFG are
determined by their ids, the new nodes have opcodes, the new path ids are distinct, and the
cache holds only similarities of (new, old) node pairs, as it does when fresh. -/
theorem findMostSimilarPath_spec (olds news : List PathView) (cache : SimCache)
    (hA : IdsDetermine (allNodes news)) (hB : IdsDetermine (allNodes olds))
    (hc : CacheOk (allNodes news) (allNodes olds) cache)
    (hops : ∀ P ∈ news, ∀ a ∈ P.nodes, a.ops ≠ [])
    (hnd : (news.map PathView.id_).Nodup) :
    (∀ P ∈ news, IsBestMatch olds P (findMostSimilarPath cache olds P).1) ∧
    (∀ P ∈ news, ∃ r,
      (SimilarityCalculator.run olds news (fun _ => none) cache).1 P.id_ = some r ∧
      IsBestMatch olds P r) ∧
    (∀ k, (∀ P ∈ news, P.id_ ≠ k) →
      (SimilarityCalculator.run olds news (fun _ => none) cache).1 k = none) := by
  have hQB : ∀ Q ∈ olds, ∀ b ∈ Q.nodes, b ∈ allNodes olds := fun Q hQ => mem_allNodes hQ
  have hPA : ∀ P ∈ news, ∀ a ∈ P.nodes, a ∈ allNodes news := fun P hP => mem_allNodes hP
  obtain ⟨r1, r2, _⟩ := run_spec_aux hA hB olds hQB news (fun _ => none) cache hc hPA hops hnd
  refine ⟨?_, r1, r2⟩
  intro P hP
  unfold findMostSimilarPath
  rw [(findMostSimilarLoop_cached hA hB P (hPA P hP) (hops P hP) olds _ cache hc hQB).1]
  exact bestLoop_isBestMatch olds P

theorem findMostSimilarPath_spec_witness :
    IdsDetermine (allNodes exNewPaths) ∧ IdsDetermine (allNodes exOldPaths) ∧
    CacheOk (allNodes exNewPaths) (allNodes exOldPaths) freshCache ∧
    (∀ P ∈ exNewPaths, ∀ a ∈ P.nodes, a.ops ≠ []) ∧
    (exNewPaths.map PathView.id_).Nodup ∧
    exOldPaths.map (fun Q => pathSim [exEntry, exRet] Q.nodes)
      = [some (3 / 4), some (7505999378950827 / 9007199254740992),
          some (7505999378950827 / 9007199254740992)] ∧
    exOldPaths.map (fun Q => pathSim [exNewLone] Q.nodes) = [some 0, some 0, some 0] ∧
    exNewPaths.map (fun P => (findMostSimilarPath freshCache exOldPaths P).1)
      = [(1, some (7505999378950827 / 9007199254740992)), (2, some 1),
          (INVALID_PATH_ID, some 0)] ∧
    [0, 1, 2, 3].map
        (SimilarityCalculator.run exOldPaths exNewPaths (fun _ => none) freshCache).1
      = [some (1, some (7505999378950827 / 9007199254740992)), some (2, some 1),
          some (INVALID_PATH_ID, some 0), none] ∧
    ((∀ P ∈ exNewPaths, IsBestMatch exOldPaths P (findMostSimilarPath freshCache exOldPaths P).1) ∧
      (∀ P ∈ exNewPaths, ∃ r,
        (SimilarityCalculator.run exOldPaths exNewPaths (fun _ => none) freshCache).1 P.id_
          = some r ∧ IsBestMatch exOldPaths P r) ∧
      (∀ k, (∀ P ∈ exNewPaths, P.id_ ≠ k) →
        (SimilarityCalculator.run exOldPaths exNewPaths (fun _ => none) freshCache).1 k = none)) :=
  ⟨by decide, by decide, cacheOk_fresh _ _, by decide, by decide, by decide!, by decide!,
    by decide!, by decide!,
    findMostSimilarPath_spec exOldPaths exNewPaths freshCache (by decide) (by decide)
      (cacheOk_fresh _ _) (by decide) (by decide)⟩


/-! ## Reusing test cases: `addTestCaseWithoutExpectation` and the selection loop -/

theorem getTestSuiteFromFile_executed (file : Option TestSuiteJson) :
    (getTestSuiteFromFile file).executed = false := by
  cases file <;> rfl

theorem mem_foldl_setInsert (ids : List Int) (s : List Int) (t : Int) :
    t ∈ ids.foldl setInsert s ↔ t ∈ s ∨ t ∈ ids := by
  induction ids generalizing s with
  | nil => simp
  | cons a ids ih =>
    rw [List.foldl_cons, ih]
    unfold setInsert
    by_cases ha : a ∈ s
    · rw [if_pos ha]
      constructor
      · rintro (h | h)
        · exact Or.inl h
        · exact Or.inr (List.mem_cons_of_mem _ h)
      · rintro (h | h)
        · exact Or.inl h
        · rcases List.mem_cons.1 h with h | h
          · exact Or.inl (h ▸ ha)
          · exact Or.inr h
    · rw [if_neg ha]
      simp only [List.mem_append, List.mem_singleton, List.mem_cons]
      tauto

theorem mem_foldl_setInsert_unless (full ids : List Int) (s : List Int) (t : Int) :
    t ∈ ids.foldl (fun s test_id => if test_id ∈ full then s else setInsert s test_id) s ↔
      t ∈ s ∨ (t ∈ ids ∧ t ∉ full) := by
  induction ids generalizing s with
  | nil => simp
  | cons a ids ih =>
    rw [List.foldl_cons, ih]
    by_cases ha : a ∈ full
    · rw [if_pos ha]
      constructor
      · rintro (h | ⟨h, hf⟩)
        · exact Or.inl h
        · exact Or.inr ⟨List.mem_cons_of_mem _ h, hf⟩
      · rintro (h | ⟨h, hf⟩)
        · exact Or.inl h
        · rcases List.mem_cons.1 h with h | h
          · exact absurd (h ▸ ha) hf
          · exact Or.inr ⟨h, hf⟩
    · rw [if_neg ha]
      unfold setInsert
      by_cases hs : a ∈ s
      · rw [if_pos hs]
        constructor
        · rintro (h | ⟨h, hf⟩)
          · exact Or.inl h
          · exact Or.inr ⟨List.mem_cons_of_mem _ h, hf⟩
        · rintro (h | ⟨h, hf⟩)
          · exact Or.inl h
          · rcases List.mem_cons.1 h with h | h
            · exact Or.inl (h ▸ hs)
            · exact Or.inr ⟨h, hf⟩
      · rw [if_neg hs]
        simp only [List.mem_append, List.mem_cons, List.mem_nil_iff, or_false]
        constructor
        · rintro ((h | h) | ⟨h, hf⟩)
          · exact Or.inl h
          · exact Or.inr ⟨Or.inl h, fun hf => ha (h ▸ hf)⟩
          · exact Or.inr ⟨Or.inr h, hf⟩
        · rintro (h | ⟨h | h, hf⟩)
          · exact Or.inl (Or.inl h)
          · exact Or.inl (Or.inr h)
          · exact Or.inr ⟨h, hf⟩

/-- Membership in the two sets after one iteration of the selection loop. -/
theorem reuseSelectStep_mem (ptm : Int → List Int) (st : List Int × List Int)
    (e : Int × (Int × Dbl)) (t : Int) :
    (t ∈ (reuseSelectStep ptm st e).1 ↔
      t ∈ st.1 ∨ (Dbl.lt SIMILARITY_THRESHOLD e.2.2 = true ∧ t ∈ ptm e.2.1)) ∧
    (t ∈ (reuseSelectStep ptm st e).2 ↔
      t ∈ st.2 ∨ (Dbl.lt SIMILARITY_THRESHOLD e.2.2 = false ∧ t ∈ ptm e.2.1 ∧ t ∉ st.1)) := by
  by_cases h : Dbl.lt SIMILARITY_THRESHOLD e.2.2 = true
  · simp only [reuseSelectStep, h, if_true, mem_foldl_setInsert]
    simp
  · have h' : Dbl.lt SIMILARITY_THRESHOLD e.2.2 = false := by simpa using h
    simp only [reuseSelectStep, h', Bool.false_eq_true, if_false, mem_foldl_setInsert_unless]
    simp

theorem reuseSelect_foldl_mono (ptm : Int → List Int) (entries : List (Int × (Int × Dbl)))
    (st : List Int × List Int) (t : Int) :
    (t ∈ st.1 → t ∈ (entries.foldl (reuseSelectStep ptm) st).1) ∧
    (t ∈ st.2 → t ∈ (entries.foldl (reuseSelectStep ptm) st).2) := by
  induction entries generalizing st with
  | nil => exact ⟨id, id⟩
  | cons e entries ih =>
    rw [List.foldl_cons]
    refine ⟨fun h => (ih _).1 ?_, fun h => (ih _).2 ?_⟩
    · exact ((reuseSelectStep_mem ptm st e t).1).2 (Or.inl h)
    · exact ((reuseSelectStep_mem ptm st e t).2).2 (Or.inl h)

/-- Every selected test is recorded under the old path of some entry. -/
theorem reuseSelect_foldl_origin (ptm : Int → List Int) (entries : List (Int × (Int × Dbl)))
    (st : List Int × List Int) (t : Int)
    (h : t ∈ (entries.foldl (reuseSelectStep ptm) st).1 ∨
      t ∈ (entries.foldl (reuseSelectStep ptm) st).2) :
    t ∈ st.1 ∨ t ∈ st.2 ∨ ∃ e ∈ entries, t ∈ ptm e.2.1 := by
  induction entries generalizing st with
  | nil => rcases h with h | h
           · exact Or.inl h
           · exact Or.inr (Or.inl h)
  | cons e entries ih =>
    rw [List.foldl_cons] at h
    rcases ih _ h with h1 | h2 | ⟨e', he', ht⟩
    · rcases ((reuseSelectStep_mem ptm st e t).1).1 h1 with h | ⟨_, h⟩
      · exact Or.inl h
      · exact Or.inr (Or.inr ⟨e, List.mem_cons_self _ _, h⟩)
    · rcases ((reuseSelectStep_mem ptm st e t).2).1 h2 with h | ⟨_, h, _⟩
      · exact Or.inr (Or.inl h)
      · exact Or.inr (Or.inr ⟨e, List.mem_cons_self _ _, h⟩)
    · exact Or.inr (Or.inr ⟨e', List.mem_cons_of_mem _ he', ht⟩)

/-- An entry above the threshold puts every test of its old path in the full-reuse set. -/
theorem reuseSelect_full (ptm : Int → List Int) (entries : List (Int × (Int × Dbl)))
    (st : List Int × List Int) (e : Int × (Int × Dbl)) (he : e ∈ entries)
    (hs : Dbl.lt SIMILARITY_THRESHOLD e.2.2 = true) (t : Int) (ht : t ∈ ptm e.2.1) :
    t ∈ (entries.foldl (reuseSelectStep ptm) st).1 := by
  induction entries generalizing st with
  | nil => cases he
  | cons e' entries ih =>
    rw [List.foldl_cons]
    rcases List.mem_cons.1 he with h | h
    · subst h
      exact (reuseSelect_foldl_mono ptm entries _ t).1
        (((reuseSelectStep_mem ptm st e t).1).2 (Or.inr ⟨hs, ht⟩))
    · exact ih _ h

/-- C20: for every suite `ts` and every test case `tc`, `addTestCaseWithoutExpectation(tc)`
appends exactly one test case `newTc` to the test cases of `ts` (those already there stay
as they were, and so do the other members of the suite); `newTc` has the inputs, the
description, the path id and the result of `tc`, as many outputs as `tc` with the same names
and types in the same order, and every expectation of `newTc` is the empty string. -/
theorem addTestCaseWithoutExpectation_spec (ts : TestSuite) (tc : TestCase) :
    ∃ newTc : TestCase,
      (ts.addTestCaseWithoutExpectation tc).testCases = ts.testCases ++ [newTc] ∧
      newTc.inputs = tc.inputs ∧
      newTc.outputs.length = tc.outputs.length ∧
      newTc.outputs.map OutputVar.name = tc.outputs.map OutputVar.name ∧
      newTc.outputs.map OutputVar.type = tc.outputs.map OutputVar.type ∧
      newTc.outputs.map OutputVar.expectation = List.replicate tc.outputs.length "" ∧
      newTc.description = tc.description ∧
      newTc.pathId = tc.pathId ∧
      newTc.result = tc.result ∧
      (ts.addTestCaseWithoutExpectation tc).srcFile = ts.srcFile ∧
      (ts.addTestCaseWithoutExpectation tc).funcName = ts.funcName ∧
      (ts.addTestCaseWithoutExpectation tc).description = ts.description ∧
      (ts.addTestCaseWithoutExpectation tc).executed = ts.executed ∧
      (ts.addTestCaseWithoutExpectation tc).coverage = ts.coverage := by
  refine ⟨{ tc with outputs := tc.outputs.map (fun output => { output with expectation := "" }) },
    rfl, rfl, ?_, ?_, ?_, ?_, rfl, rfl, rfl, rfl, rfl, rfl, rfl, rfl⟩
  · simp
  · simp [List.map_map, Function.comp_def]
  · simp [List.map_map, Function.comp_def]
  · simp only [List.map_map, Function.comp_def]
    induction tc.outputs with
    | nil => rfl
    | cons o os ih => simp [List.replicate_succ, ih]

theorem reuseIndexRun_invalid (results : List (List Char)) (i : Nat) (old_cfg : CFG)
    (ptm : Int → List Int) (h0 : ptm INVALID_PATH_ID = []) :
    (reuseIndexRun results i old_cfg ptm).2 INVALID_PATH_ID = [] := by
  induction results generalizing i old_cfg ptm with
  | nil => exact h0
  | cons res rest ih =>
    unfold reuseIndexRun
    by_cases h : (matchBestPathId old_cfg res).1 ≠ INVALID_PATH_ID
    · rw [if_pos h]
      apply ih
      unfold pushTest
      rw [if_neg (fun hk => h hk.symm)]
      exact h0
    · rw [if_neg h]
      exact ih _ _ _ h0

theorem reuseIndexRun_range (results : List (List Char)) (i : Nat) (old_cfg : CFG)
    (ptm : Int → List Int) (n : Nat) (hn : i + results.length ≤ n)
    (h0 : ∀ k, ∀ t ∈ ptm k, 0 ≤ t ∧ t < (n : Int)) :
    ∀ k, ∀ t ∈ (reuseIndexRun results i old_cfg ptm).2 k, 0 ≤ t ∧ t < (n : Int) := by
  induction results generalizing i old_cfg ptm with
  | nil => exact h0
  | cons res rest ih =>
    have hn' : i + 1 + rest.length ≤ n := by
      simp only [List.length_cons] at hn
      omega
    unfold reuseIndexRun
    by_cases h : (matchBestPathId old_cfg res).1 ≠ INVALID_PATH_ID
    · rw [if_pos h]
      apply ih _ _ _ hn'
      intro k t ht
      unfold pushTest at ht
      by_cases hk : k = (matchBestPathId old_cfg res).1
      · rw [if_pos hk] at ht
        rcases List.mem_append.1 ht with ht | ht
        · exact h0 _ t ht
        · rw [List.mem_singleton] at ht
          subst ht
          simp only [List.length_cons] at hn
          constructor
          · exact Int.natCast_nonneg i
          · exact_mod_cast (by omega : i < n)
      · rw [if_neg hk] at ht
        exact h0 _ t ht
    · rw [if_neg h]
      exact ih _ _ _ hn' h0

/-- The old suite is always run: a loaded suite never has `executed` set. -/
theorem reuseTestSuite_select_engine (eng : ReuseEngine) (env : ReuseEnv) :
    (reuseTestSuite.select eng env).engine =
      { eng with
        old_suite := computeCoverage (getTestSuiteFromFile env.file) env.oldResults
          env.oldTesterCfg
        old_cfg := (reuseIndexRun env.oldResults 0 eng.old_cfg eng.path_test_map).1
        path_test_map := (reuseIndexRun env.oldResults 0 eng.old_cfg eng.path_test_map).2 } := by
  simp [reuseTestSuite.select, getTestSuiteFromFile_executed]

theorem reuseTestSuite_select_sets (eng : ReuseEngine) (env : ReuseEnv) :
    ((reuseTestSuite.select eng env).reused_test_ids,
      (reuseTestSuite.select eng env).reused_without_exep_test_ids) =
      reuseSelect (reuseTestSuite.select eng env).engine.path_test_map eng.path_map := by
  simp [reuseTestSuite.select, getTestSuiteFromFile_executed]

/-- The function `computeCoverage` changes `result` and `pathId` only. -/
theorem computeCoverageLoop_content (cfg : CFG) (outputs : List (List Char))
    (tcs : List TestCase) (cnt : List (Int × Int)) :
    List.Forall₂ (fun a b : TestCase => b.inputs = a.inputs ∧ b.outputs = a.outputs ∧
      b.description = a.description) tcs (computeCoverageLoop cfg outputs tcs cnt).1 := by
  have hrefl : ∀ l : List TestCase, List.Forall₂ (fun a b : TestCase =>
      b.inputs = a.inputs ∧ b.outputs = a.outputs ∧ b.description = a.description) l l := by
    intro l
    induction l with
    | nil => exact List.Forall₂.nil
    | cons a l ih => exact List.Forall₂.cons ⟨rfl, rfl, rfl⟩ ih
  induction outputs generalizing tcs cnt with
  | nil =>
    unfold computeCoverageLoop
    exact hrefl tcs
  | cons output outputs ih =>
    cases tcs with
    | nil =>
      unfold computeCoverageLoop
      exact List.Forall₂.nil
    | cons tc tcs =>
      unfold computeCoverageLoop
      refine List.Forall₂.cons ?_ (ih _ _)
      unfold computeCoverageStep
      simp only []
      split
      · exact ⟨rfl, rfl, rfl⟩
      · split
        · exact ⟨rfl, rfl, rfl⟩
        · exact ⟨rfl, rfl, rfl⟩

theorem forall2_getElem {α : Type} {R : α → α → Prop} {l₁ l₂ : List α}
    (h : List.Forall₂ R l₁ l₂) (n : Nat) (a : α) (ha : l₁[n]? = some a) :
    ∃ b, l₂[n]? = some b ∧ R a b := by
  induction h generalizing n with
  | nil => simp at ha
  | cons hab _ ih =>
    cases n with
    | zero =>
      simp only [List.getElem?_cons_zero, Option.some.injEq] at ha
      subst ha
      exact ⟨_, by simp, hab⟩
    | succ n =>
      simp only [List.getElem?_cons_succ] at ha
      obtain ⟨b, hb, hr⟩ := ih n ha
      exact ⟨b, by simpa using hb, hr⟩

theorem forall2_mem {α : Type} {R : α → α → Prop} {l₁ l₂ : List α}
    (h : List.Forall₂ R l₁ l₂) (a : α) (ha : a ∈ l₁) : ∃ b ∈ l₂, R a b := by
  induction h with
  | nil => cases ha
  | cons hab _ ih =>
    rcases List.mem_cons.1 ha with ha | ha
    · subst ha
      exact ⟨_, List.mem_cons_self _ _, hab⟩
    · obtain ⟨b, hb, hr⟩ := ih ha
      exact ⟨b, List.mem_cons_of_mem _ hb, hr⟩

theorem getTestCase_of_range (ts : TestSuite) (t : Int) (h0 : 0 ≤ t)
    (h1 : t < (ts.testCases.length : Int)) : ∃ tc, ts.getTestCase t = some tc := by
  unfold TestSuite.getTestCase
  rw [if_pos ⟨h0, h1⟩]
  have : t.toNat < ts.testCases.length := by omega
  exact ⟨ts.testCases[t.toNat], by simp [this]⟩

theorem getTestCase_mem (ts : TestSuite) (t : Int) (tc : TestCase)
    (h : ts.getTestCase t = some tc) : tc ∈ ts.testCases := by
  unfold TestSuite.getTestCase at h
  split at h
  · obtain ⟨hlt, he⟩ := List.getElem?_eq_some_iff.1 h
    exact he ▸ List.getElem_mem hlt
  · cases h

/-- Running a suite keeps the inputs, outputs and description of each test case. -/
theorem computeCoverage_getTestCase (ts : TestSuite) (outputs : List (List Char)) (cfg : CFG)
    (t : Int) (tc : TestCase) (h : ts.getTestCase t = some tc) :
    ∃ tc', (computeCoverage ts outputs cfg).getTestCase t = some tc' ∧
      tc'.inputs = tc.inputs ∧ tc'.outputs = tc.outputs ∧ tc'.description = tc.description := by
  have hF := computeCoverageLoop_content cfg outputs ts.testCases []
  have hlen := hF.length_eq
  unfold TestSuite.getTestCase at h ⊢
  split at h
  · rename_i hr
    obtain ⟨b, hb, hR⟩ := forall2_getElem hF _ _ h
    refine ⟨b, ?_, hR⟩
    have hr' : 0 ≤ t ∧ t < ((computeCoverage ts outputs cfg).testCases.length : Int) := by
      simp only [computeCoverage]
      rw [← hlen]
      exact hr
    rw [if_pos hr']
    exact hb
  · cases h

theorem reuseAddLoop_spec (old : TestSuite) (ids : List Int) (s : TestSuite)
    (h : ∀ t ∈ ids, ∃ tc, old.getTestCase t = some tc) :
    ∃ s', reuseAddLoop old ids s = some s' ∧
      s'.testCases = s.testCases ++ ids.filterMap old.getTestCase := by
  induction ids generalizing s with
  | nil => exact ⟨s, rfl, by simp⟩
  | cons t ids ih =>
    obtain ⟨tc, htc⟩ := h t (List.mem_cons_self _ _)
    obtain ⟨s', hs', he⟩ := ih (s.addTestCase tc) (fun t' ht' => h t' (List.mem_cons_of_mem _ ht'))
    refine ⟨s', ?_, ?_⟩
    · unfold reuseAddLoop
      rw [htc]
      exact hs'
    · rw [he]
      simp [TestSuite.addTestCase, List.filterMap_cons, htc]

theorem reuseAddWithoutLoop_spec (old : TestSuite) (ids : List Int) (s : TestSuite)
    (h : ∀ t ∈ ids, ∃ tc, old.getTestCase t = some tc) :
    ∃ s', reuseAddWithoutLoop old ids s = some s' ∧
      s'.testCases = s.testCases ++ (ids.filterMap old.getTestCase).map
        (fun tc => { tc with outputs := tc.outputs.map (fun output =>
          { output with expectation := "" }) }) := by
  induction ids generalizing s with
  | nil => exact ⟨s, rfl, by simp⟩
  | cons t ids ih =>
    obtain ⟨tc, htc⟩ := h t (List.mem_cons_self _ _)
    obtain ⟨s', hs', he⟩ := ih (s.addTestCaseWithoutExpectation tc)
      (fun t' ht' => h t' (List.mem_cons_of_mem _ ht'))
    refine ⟨s', ?_, ?_⟩
    · unfold reuseAddWithoutLoop
      rw [htc]
      exact hs'
    · rw [he]
      simp [TestSuite.addTestCaseWithoutExpectation, List.filterMap_cons, htc]

/-- In the branch for an executed suite a test case whose stored path id is
`INVALID_PATH_ID` is recorded under the key `INVALID_PATH_ID`: the loop has no guard. -/
theorem reuseIndexExecuted_records_invalid (tc : TestCase) (h : tc.pathId = INVALID_PATH_ID) :
    reuseIndexExecuted [tc] 0 (fun _ => []) INVALID_PATH_ID = [0] := by
  simp [reuseIndexExecuted, pushTest, h]

/-- Two entries for the same old path, the first at or below the threshold and the second
above it: every test of that old path lands in both sets. -/
theorem reuseSelect_both (ptm : Int → List Int) (p1 p2 q : Int) (s1 s2 : Dbl) (t : Int)
    (h1 : Dbl.lt SIMILARITY_THRESHOLD s1 = false) (h2 : Dbl.lt SIMILARITY_THRESHOLD s2 = true)
    (ht : t ∈ ptm q) :
    t ∈ (reuseSelect ptm [(p1, (q, s1)), (p2, (q, s2))]).1 ∧
    t ∈ (reuseSelect ptm [(p1, (q, s1)), (p2, (q, s2))]).2 := by
  unfold reuseSelect
  simp only [List.foldl_cons, List.foldl_nil]
  constructor
  · exact ((reuseSelectStep_mem ptm _ (p2, (q, s2)) t).1).2 (Or.inr ⟨h2, ht⟩)
  · refine ((reuseSelectStep_mem ptm _ (p2, (q, s2)) t).2).2 (Or.inl ?_)
    refine ((reuseSelectStep_mem ptm _ (p1, (q, s1)) t).2).2 (Or.inr ⟨h1, ht, ?_⟩)
    simp

/-- C17 (fails in the code): with the reuse map `exReuseMap` (new paths `0` and `2` paired
with old path `0` at similarity `0.2`, new path `1` paired with old path `0` at `0.9`) and
test `0` recorded under old path `0`, the selection loop of `reuseTestSuite` ends with test
`0` in the full-reuse set and in the inputs-only set, both when the entries are processed by
ascending and when they are processed by descending new path id. -/
theorem reuseSelect_not_disjoint :
    reuseSelect exPathTestMap exReuseMap = ([0], [0]) ∧
    reuseSelect exPathTestMap exReuseMap.reverse = ([0], [0]) := by
  have hlo : Dbl.lt SIMILARITY_THRESHOLD (some (Dbl.round (2 / 10))) = false := by decide!
  have hhi : Dbl.lt SIMILARITY_THRESHOLD (some (Dbl.round (9 / 10))) = true := by decide!
  constructor
  · simp [reuseSelect, exReuseMap, reuseSelectStep, hlo, hhi, exPathTestMap, setInsert]
  · simp [reuseSelect, exReuseMap, reuseSelectStep, hlo, hhi, exPathTestMap, setInsert]

/-- C18: for every suite file (whatever its `executed` key says: `from_json` does not read
it, so the old suite is always run afresh) and every engine whose path-test map has nothing
under `INVALID_PATH_ID`, an entry of the reuse map whose best old path is `INVALID_PATH_ID`
leaves both sets as they are, whatever their state; and every test of the full-reuse set or
of the inputs-only set is recorded in the path-test map under an old path that is the
non-`INVALID` best match of some new path. -/
theorem reuseTestSuite_invalid_reuses_nothing (eng : ReuseEngine) (env : ReuseEnv)
    (h0 : eng.path_test_map INVALID_PATH_ID = []) :
    (∀ e ∈ eng.path_map, e.2.1 = INVALID_PATH_ID → ∀ st,
      reuseSelectStep (reuseTestSuite.select eng env).engine.path_test_map st e = st) ∧
    (∀ t, t ∈ (reuseTestSuite.select eng env).reused_test_ids ∨
        t ∈ (reuseTestSuite.select eng env).reused_without_exep_test_ids →
      ∃ e ∈ eng.path_map, e.2.1 ≠ INVALID_PATH_ID ∧
        t ∈ (reuseTestSuite.select eng env).engine.path_test_map e.2.1) := by
  have hinv : (reuseTestSuite.select eng env).engine.path_test_map INVALID_PATH_ID = [] := by
    rw [reuseTestSuite_select_engine]
    exact reuseIndexRun_invalid _ _ _ _ h0
  constructor
  · intro e _ he st
    unfold reuseSelectStep
    simp only [he, hinv, List.foldl_nil]
    split <;> rfl
  · intro t ht
    have hs := reuseTestSuite_select_sets eng env
    have h1 : (reuseTestSuite.select eng env).reused_test_ids =
        (reuseSelect (reuseTestSuite.select eng env).engine.path_test_map eng.path_map).1 := by
      rw [← hs]
    have h2 : (reuseTestSuite.select eng env).reused_without_exep_test_ids =
        (reuseSelect (reuseTestSuite.select eng env).engine.path_test_map eng.path_map).2 := by
      rw [← hs]
    rw [h1, h2] at ht
    rcases reuseSelect_foldl_origin _ _ _ t ht with h | h | ⟨e, he, hte⟩
    · cases h
    · cases h
    · refine ⟨e, he, ?_, hte⟩
      intro hq
      rw [hq, hinv] at hte
      cases hte

theorem reuseTestSuite_invalid_reuses_nothing_witness :
    exReuseEngine.path_test_map INVALID_PATH_ID = [] ∧
    (∀ e ∈ exReuseEngine.path_map, e.2.1 = INVALID_PATH_ID → ∀ st,
      reuseSelectStep (reuseTestSuite.select exReuseEngine exReuseEnv).engine.path_test_map
        st e = st) ∧
    (∀ t, t ∈ (reuseTestSuite.select exReuseEngine exReuseEnv).reused_test_ids ∨
        t ∈ (reuseTestSuite.select exReuseEngine exReuseEnv).reused_without_exep_test_ids →
      ∃ e ∈ exReuseEngine.path_map, e.2.1 ≠ INVALID_PATH_ID ∧
        t ∈ (reuseTestSuite.select exReuseEngine exReuseEnv).engine.path_test_map e.2.1) :=
  ⟨rfl, reuseTestSuite_invalid_reuses_nothing exReuseEngine exReuseEnv rfl⟩

/-- C19: on a freshly constructed engine, with one executor output per old test case,
`reuseTestSuite` builds the new suite (no `getTestCase` aborts), and for every entry
`(p, (q, s))` of the reuse map with `s > SIMILARITY_THRESHOLD` every test index `t` recorded
under `q` in the path-test map is in the full-reuse set, is a valid index of the loaded old
suite, and the new suite holds a test case with the inputs, the outputs (expectations
included) and the description of old test case `t`, both right after it was added and after
the new suite has been executed.  The comparison is strict: an entry whose similarity equals
the threshold adds nothing to the full-reuse set. -/
theorem reuseTestSuite_full_reuse (eng : ReuseEngine) (env : ReuseEnv) (new_suite : TestSuite)
    (hfresh : eng.path_test_map = fun _ => [])
    (hlen : env.oldResults.length = (getTestSuiteFromFile env.file).testCases.length)
    (hfull : ∀ l, (env.fullOrder l).Perm l)
    (hwo : ∀ l, (env.inputsOnlyOrder l).Perm l) :
    (∃ built, reuseTestSuite.build eng env new_suite = some built ∧
      ∀ e ∈ eng.path_map, Dbl.lt SIMILARITY_THRESHOLD e.2.2 = true →
        ∀ t ∈ (reuseTestSuite.select eng env).engine.path_test_map e.2.1,
          t ∈ (reuseTestSuite.select eng env).reused_test_ids ∧
          ∃ tcOld tcNew tcRun,
            (getTestSuiteFromFile env.file).getTestCase t = some tcOld ∧
            tcNew ∈ built.testCases ∧ tcNew.inputs = tcOld.inputs ∧
            tcNew.outputs = tcOld.outputs ∧ tcNew.description = tcOld.description ∧
            tcRun ∈ (computeCoverage built env.newResults env.newTesterCfg).testCases ∧
            tcRun.inputs = tcOld.inputs ∧ tcRun.outputs = tcOld.outputs ∧
            tcRun.description = tcOld.description) ∧
    (∀ (ptm : Int → List Int) (st : List Int × List Int) (p q : Int),
      (reuseSelectStep ptm st (p, (q, SIMILARITY_THRESHOLD))).1 = st.1) := by
  have hs := reuseTestSuite_select_sets eng env
  have h1 : (reuseTestSuite.select eng env).reused_test_ids =
      (reuseSelect (reuseTestSuite.select eng env).engine.path_test_map eng.path_map).1 := by
    rw [← hs]
  have h2 : (reuseTestSuite.select eng env).reused_without_exep_test_ids =
      (reuseSelect (reuseTestSuite.select eng env).engine.path_test_map eng.path_map).2 := by
    rw [← hs]
  have hold : (reuseTestSuite.select eng env).engine.old_suite =
      computeCoverage (getTestSuiteFromFile env.file) env.oldResults env.oldTesterCfg := by
    rw [reuseTestSuite_select_engine]
  -- every recorded index is a valid index of the loaded suite
  have hrange : ∀ k, ∀ t ∈ (reuseTestSuite.select eng env).engine.path_test_map k,
      0 ≤ t ∧ t < ((getTestSuiteFromFile env.file).testCases.length : Int) := by
    rw [reuseTestSuite_select_engine]
    apply reuseIndexRun_range _ _ _ _ _ (by omega)
    intro k t ht
    rw [hfresh] at ht
    cases ht
  have hget : ∀ k, ∀ t ∈ (reuseTestSuite.select eng env).engine.path_test_map k,
      ∃ tcOld tc, (getTestSuiteFromFile env.file).getTestCase t = some tcOld ∧
        (reuseTestSuite.select eng env).engine.old_suite.getTestCase t = some tc ∧
        tc.inputs = tcOld.inputs ∧ tc.outputs = tcOld.outputs ∧
        tc.description = tcOld.description := by
    intro k t ht
    obtain ⟨hr0, hr1⟩ := hrange k t ht
    obtain ⟨tcOld, hOld⟩ := getTestCase_of_range _ t hr0 hr1
    obtain ⟨tc, htc, hc⟩ := computeCoverage_getTestCase _ env.oldResults env.oldTesterCfg t
      tcOld hOld
    exact ⟨tcOld, tc, hOld, by rw [hold]; exact htc, hc⟩
  have hsel : ∀ t, t ∈ (reuseTestSuite.select eng env).reused_test_ids ∨
      t ∈ (reuseTestSuite.select eng env).reused_without_exep_test_ids →
      ∃ tc, (reuseTestSuite.select eng env).engine.old_suite.getTestCase t = some tc := by
    intro t ht
    rw [h1, h2] at ht
    rcases reuseSelect_foldl_origin _ _ _ t ht with h | h | ⟨e, _, hte⟩
    · cases h
    · cases h
    · obtain ⟨_, tc, _, htc, _⟩ := hget _ t hte
      exact ⟨tc, htc⟩
  constructor
  · obtain ⟨s1, hs1, he1⟩ := reuseAddLoop_spec (reuseTestSuite.select eng env).engine.old_suite
      (env.fullOrder (reuseTestSuite.select eng env).reused_test_ids)
      { new_suite with
        description := "new test suite reused from old test suite for function " ++ eng.funcName
        funcName := eng.funcName
        srcFile := eng.newSrcFile }
      (fun t ht => hsel t (Or.inl ((hfull _).mem_iff.1 ht)))
    obtain ⟨s2, hs2, he2⟩ := reuseAddWithoutLoop_spec
      (reuseTestSuite.select eng env).engine.old_suite
      (env.inputsOnlyOrder (reuseTestSuite.select eng env).reused_without_exep_test_ids) s1
      (fun t ht => hsel t (Or.inr ((hwo _).mem_iff.1 ht)))
    refine ⟨s2, ?_, ?_⟩
    · unfold reuseTestSuite.build
      simp only [hs1, hs2]
    · intro e he hse t ht
      have htfull : t ∈ (reuseTestSuite.select eng env).reused_test_ids := by
        rw [h1]
        exact reuseSelect_full _ _ _ e he hse t ht
      refine ⟨htfull, ?_⟩
      obtain ⟨tcOld, tc, hOld, htc, hi, ho, hd⟩ := hget _ t ht
      have hmem : tc ∈ s2.testCases := by
        rw [he2, he1]
        apply List.mem_append_left
        apply List.mem_append_right
        exact List.mem_filterMap.2 ⟨t, (hfull _).mem_iff.2 htfull, htc⟩
      obtain ⟨tcRun, hRun, hri, hro, hrd⟩ := forall2_mem
        (computeCoverageLoop_content env.newTesterCfg env.newResults s2.testCases []) tc hmem
      exact ⟨tcOld, tc, tcRun, hOld, hmem, hi, ho, hd, hRun, hri.trans hi, hro.trans ho,
        hrd.trans hd⟩
  · intro ptm st p q
    have hlt : Dbl.lt SIMILARITY_THRESHOLD SIMILARITY_THRESHOLD = false := by
      simp [Dbl.lt, SIMILARITY_THRESHOLD]
    simp [reuseSelectStep, hlt]

theorem reuseTestSuite_full_reuse_witness :
    (exReuseEngine.path_test_map = fun _ => []) ∧
    exReuseEnv.oldResults.length = (getTestSuiteFromFile exReuseEnv.file).testCases.length ∧
    (∃ built, reuseTestSuite.build exReuseEngine exReuseEnv TestSuite.default = some built ∧
      ∀ e ∈ exReuseEngine.path_map, Dbl.lt SIMILARITY_THRESHOLD e.2.2 = true →
        ∀ t ∈ (reuseTestSuite.select exReuseEngine exReuseEnv).engine.path_test_map e.2.1,
          t ∈ (reuseTestSuite.select exReuseEngine exReuseEnv).reused_test_ids ∧
          ∃ tcOld tcNew tcRun,
            (getTestSuiteFromFile exReuseEnv.file).getTestCase t = some tcOld ∧
            tcNew ∈ built.testCases ∧ tcNew.inputs = tcOld.inputs ∧
            tcNew.outputs = tcOld.outputs ∧ tcNew.description = tcOld.description ∧
            tcRun ∈ (computeCoverage built exReuseEnv.newResults
              exReuseEnv.newTesterCfg).testCases ∧
            tcRun.inputs = tcOld.inputs ∧ tcRun.outputs = tcOld.outputs ∧
            tcRun.description = tcOld.description) ∧
    (∀ (ptm : Int → List Int) (st : List Int × List Int) (p q : Int),
      (reuseSelectStep ptm st (p, (q, SIMILARITY_THRESHOLD))).1 = st.1) :=
  ⟨rfl, rfl, reuseTestSuite_full_reuse exReuseEngine exReuseEnv TestSuite.default rfl rfl
    (fun _ => List.Perm.refl _) (fun _ => List.Perm.refl _)⟩

/-! ## Executing a suite and loading a suite: C29, C30 -/

theorem exReuseNoMatch_selected :
    (reuseTestSuite.select exReuseEngine exReuseEnvNoMatch).reused_test_ids = [0] ∧
    (reuseTestSuite.select exReuseEngine exReuseEnvNoMatch).reused_without_exep_test_ids = [] := by
  have hs := reuseTestSuite_select_sets exReuseEngine exReuseEnvNoMatch
  have hp0 : (reuseTestSuite.select exReuseEngine exReuseEnvNoMatch).engine.path_test_map 0
      = [0] := by decide
  have hpi : (reuseTestSuite.select exReuseEngine exReuseEnvNoMatch).engine.path_test_map
      INVALID_PATH_ID = [] := by decide
  have hhi : Dbl.lt SIMILARITY_THRESHOLD (some (Dbl.round (9 / 10))) = true := by decide!
  have hlo : Dbl.lt SIMILARITY_THRESHOLD (some 0) = false := by decide!
  have hv : reuseSelect (reuseTestSuite.select exReuseEngine exReuseEnvNoMatch).engine.path_test_map
      exReuseEngine.path_map = ([0], []) := by
    have hpm : exReuseEngine.path_map
        = [(0, (0, some (Dbl.round (9 / 10)))), (1, (INVALID_PATH_ID, some 0))] := rfl
    rw [hpm]
    generalize (reuseTestSuite.select exReuseEngine exReuseEnvNoMatch).engine.path_test_map = ptm
      at hp0 hpi
    simp [reuseSelect, reuseSelectStep, hhi, hlo, hp0, hpi, setInsert]
  rw [hv] at hs
  exact ⟨congrArg Prod.fst hs, congrArg Prod.snd hs⟩

/-- C29 (fails in the code): `computeCoverage` does not touch `pathId` when the output of a
test case matches no path: the iteration of its loop only stores the result string.  In the
run `exReuseEnvNoMatch` of `reuseTestSuite` the reused test carries path id `0` from the old
suite, its output `0000` has neither an exact nor a subset match among the paths of the new
CFG, and after the run it still has `pathId = 0`, so that `newPathCoverInfo[0]` is set. -/
theorem computeCoverage_keeps_stale_pathId :
    (∀ (cfg : CFG) (output : List Char) (tc : TestCase) (pathTestCnt : List (Int × Int)),
      matchPathId cfg (removeBlanks output) = INVALID_PATH_ID →
      matchPathIds cfg (removeBlanks output) = [] →
      computeCoverageStep cfg output tc pathTestCnt =
        ({ tc with result := removeBlanks output }, pathTestCnt)) ∧
    matchPathId diamondCFG (removeBlanks "0000".toList) = INVALID_PATH_ID ∧
    matchPathIds diamondCFG (removeBlanks "0000".toList) = [] ∧
    (reuseTestSuite exReuseEngine exReuseEnvNoMatch TestSuite.default).map
      (fun r => (r.1.testCases.map TestCase.pathId, r.2)) = some ([0], [true, false]) := by
  refine ⟨?_, by decide, by decide, ?_⟩
  · intro cfg output tc cnt h1 h2
    simp [computeCoverageStep, h1, h2]
  · obtain ⟨h1, h2⟩ := exReuseNoMatch_selected
    have hb : reuseTestSuite.build exReuseEngine exReuseEnvNoMatch TestSuite.default =
        (match reuseAddLoop (reuseTestSuite.select exReuseEngine exReuseEnvNoMatch).engine.old_suite
            (exReuseEnvNoMatch.fullOrder
              (reuseTestSuite.select exReuseEngine exReuseEnvNoMatch).reused_test_ids)
            { TestSuite.default with
              description := "new test suite reused from old test suite for function " ++
                exReuseEngine.funcName
              funcName := exReuseEngine.funcName
              srcFile := exReuseEngine.newSrcFile } with
          | none => none
          | some s1 =>
            reuseAddWithoutLoop
              (reuseTestSuite.select exReuseEngine exReuseEnvNoMatch).engine.old_suite
              (exReuseEnvNoMatch.inputsOnlyOrder
                (reuseTestSuite.select exReuseEngine exReuseEnvNoMatch).reused_without_exep_test_ids)
              s1) := rfl
    rw [h1, h2] at hb
    unfold reuseTestSuite
    rw [hb]
    decide

/-- C30 (fails in the code): `from_json` applied to the JSON of `to_json(ts)` restores
`srcFile`, `funcName`, `description`, `coverage` and, for every test case in order, its
inputs, outputs, description and path id, but it never reads the key `executed`: the loaded
suite has `executed = false` whatever `ts.executed` was.  For `exExecutedSuite`, written with
`executed = true`, the file is loaded with `isExecuted() = false`, so `reuseTestSuite` runs
the suite again instead of using the recorded path ids. -/
theorem from_json_to_json_drops_executed :
    (∀ ts : TestSuite,
      (TestSuite.from_json (TestSuite.to_json ts)).executed = false ∧
      (TestSuite.from_json (TestSuite.to_json ts)).srcFile = ts.srcFile ∧
      (TestSuite.from_json (TestSuite.to_json ts)).funcName = ts.funcName ∧
      (TestSuite.from_json (TestSuite.to_json ts)).description = ts.description ∧
      (TestSuite.from_json (TestSuite.to_json ts)).coverage = ts.coverage ∧
      (TestSuite.from_json (TestSuite.to_json ts)).testCases =
        ts.testCases.map (fun tc => { tc with result := [] })) ∧
    exExecutedSuite.executed = true ∧
    (getTestSuiteFromFile (some (TestSuite.to_json exExecutedSuite))).executed = false := by
  refine ⟨?_, rfl, rfl⟩
  intro ts
  refine ⟨rfl, rfl, rfl, rfl, rfl, ?_⟩
  simp [TestSuite.from_json, TestSuite.to_json, TestCase.from_json, TestCase.to_json,
    List.map_map, Function.comp_def]

/-! ## Paths that differ in one opcode of one block: C22 -/

theorem nodeSim_of_agree {a b : Node} (h : Node.Agree a b) (hops : a.ops ≠ []) :
    nodeSim a b = some 1 :=
  nodeSim_of_same_ops h.1 h.2.1 h.2.2 hops

/-- Blocks that agree pairwise are passed along the diagonal of the table. -/
theorem dblTbl_agree_append :
    ∀ (X Y : List Node), List.Forall₂ Node.Agree X Y → (∀ a ∈ X, a.ops ≠ []) →
      ∀ (X' Y' : List Node), dblTbl (X ++ X') (Y ++ Y') = dblTbl X' Y' := by
  intro X Y h
  induction h with
  | nil => intro _ X' Y'; rfl
  | cons hab _ ih =>
    intro hops X' Y'
    rw [List.cons_append, List.cons_append, dblTbl_cons_cons]
    unfold dblCell
    rw [if_pos (nodeSimQ_of_some (nodeSim_of_agree hab (hops _ (List.mem_cons_self _ _))))]
    exact ih (fun x hx => hops x (List.mem_cons_of_mem _ hx)) X' Y'

theorem round_half : Dbl.round (1 / 2) = 1 / 2 := by decide!

theorem round_two : Dbl.round 2 = 2 := by
  have := @round_natCast 2 (by norm_num)
  simpa using this

theorem round_threshold_lt_half : Dbl.round (35 / 100) < 1 / 2 := by decide!

/-- The similarity of two blocks of the same kind and `select_num` whose opcode sequences
are at unit-cost edit distance `1`: the double `1.0 - 1.0 / (double)M`. -/
theorem nodeSim_one_opcode {a b : Node} (ht : a.node_type = b.node_type)
    (hs : a.selectNum = b.selectNum) (hd : opDist a b = 1) :
    nodeSim a b = some (Dbl.round (1 - Dbl.round
      (1 / Dbl.round ((max a.ops.length b.ops.length : Nat) : ℚ)))) ∧
    1 ≤ max a.ops.length b.ops.length := by
  have hmax : 1 ≤ max a.ops.length b.ops.length := by
    have := opDist_le_max a b
    rw [hd] at this
    exact_mod_cast this
  refine ⟨?_, hmax⟩
  rw [nodeSim_eq]
  have hm : ¬ max a.ops.length b.ops.length = 0 := by omega
  simp [ht, hs, hm, hd, round_one]

/-- With fewer than `2^53` opcodes that similarity is below `1`. -/
theorem nodeSim_one_opcode_lt_one {M : ℕ} (h1 : 1 ≤ M) (h53 : M < 2 ^ 53) :
    Dbl.round (1 - Dbl.round (1 / Dbl.round (M : ℚ))) < 1 := by
  rw [round_natCast h53]
  have hM : (0 : ℚ) < (M : ℚ) := by exact_mod_cast h1
  have hM2 : (M : ℚ) ≤ 2 ^ (53 : ℕ) := by
    have : M ≤ 2 ^ 53 := le_of_lt h53
    exact_mod_cast this
  have hq : (1 : ℚ) / 2 ^ (53 : ℕ) ≤ 1 / (M : ℚ) :=
    one_div_le_one_div_of_le hM hM2
  have hr : Dbl.round ((1 : ℚ) / 2 ^ (53 : ℕ)) = 1 / 2 ^ (53 : ℕ) := by
    have b1 : (2 : ℚ) ^ (-53 : ℤ) ≤ 1 / 2 ^ (53 : ℕ) := by norm_num
    have b2 : (1 : ℚ) / 2 ^ (53 : ℕ) < 2 ^ ((-53 : ℤ) + 1) := by norm_num
    rw [round_of_bounds b1 b2]
    have e1 : (1 : ℚ) / 2 ^ (53 : ℕ) / 2 ^ ((-53 : ℤ) - 52)
        = (((2 : ℤ) ^ (52 : ℕ) : ℤ) : ℚ) := by norm_num
    rw [e1, rne_intCast]
    norm_num
  have hq2 : (1 : ℚ) / 2 ^ (53 : ℕ) ≤ Dbl.round (1 / (M : ℚ)) :=
    round_ge_of_ge (by positivity) hq hr
  have hq3 : Dbl.round (1 / (M : ℚ)) ≤ 1 :=
    round_le_of_le (by positivity) ((div_le_one hM).2 (by exact_mod_cast h1)) round_one
  have hr2 : Dbl.round (1 - (1 : ℚ) / 2 ^ (53 : ℕ)) = 1 - 1 / 2 ^ (53 : ℕ) := by
    have b1 : (2 : ℚ) ^ (-1 : ℤ) ≤ 1 - 1 / 2 ^ (53 : ℕ) := by norm_num
    have b2 : (1 : ℚ) - 1 / 2 ^ (53 : ℕ) < 2 ^ ((-1 : ℤ) + 1) := by norm_num
    rw [round_of_bounds b1 b2]
    have e1 : ((1 : ℚ) - 1 / 2 ^ (53 : ℕ)) / 2 ^ ((-1 : ℤ) - 52)
        = (((2 : ℤ) ^ (53 : ℕ) - 1 : ℤ) : ℚ) := by norm_num
    rw [e1, rne_intCast]
    norm_num
  have := round_le_of_le (x := 1 - Dbl.round (1 / (M : ℚ))) (y := 1 - (1 : ℚ) / 2 ^ (53 : ℕ))
    (by linarith) (by linarith) hr2
  have hpos : (0 : ℚ) < 1 / 2 ^ (53 : ℕ) := by positivity
  linarith

/-- With at least two opcodes that similarity is at least `1/2`. -/
theorem nodeSim_one_opcode_ge_half {M : ℕ} (h2 : 2 ≤ M) :
    1 / 2 ≤ Dbl.round (1 - Dbl.round (1 / Dbl.round (M : ℚ))) := by
  have hM2 : (2 : ℚ) ≤ Dbl.round (M : ℚ) :=
    round_ge_of_ge (by norm_num) (by exact_mod_cast h2) round_two
  have hq : 1 / Dbl.round (M : ℚ) ≤ 1 / 2 := one_div_le_one_div_of_le (by norm_num) hM2
  have hq0 : 0 ≤ 1 / Dbl.round (M : ℚ) := by
    apply div_nonneg (by norm_num); linarith
  have hq2 : Dbl.round (1 / Dbl.round (M : ℚ)) ≤ 1 / 2 := round_le_of_le hq0 hq round_half
  exact round_ge_of_ge (by norm_num) (by linarith) round_half

/-- Two paths of equal length whose blocks agree except at one position, where the node
similarity is `s < 1`: the table ends with the rounded cost `fl(1 - s)`. -/
theorem dblDist_one_block_differs {P₁ P₂ Q₁ Q₂ : List Node} {a b : Node}
    (h₁ : List.Forall₂ Node.Agree P₁ Q₁) (h₂ : List.Forall₂ Node.Agree P₂ Q₂)
    (hops : ∀ x ∈ P₁ ++ a :: P₂, x.ops ≠ []) (hne : nodeSimQ a b ≠ 1) :
    dblDist (P₁ ++ a :: P₂) (Q₁ ++ b :: Q₂) = Dbl.round (1 - nodeSimQ a b) := by
  have hr₁ : List.Forall₂ Node.Agree P₁.reverse Q₁.reverse := List.rel_reverse h₁
  have hr₂ : List.Forall₂ Node.Agree P₂.reverse Q₂.reverse := List.rel_reverse h₂
  have ho₁ : ∀ x ∈ P₁.reverse, x.ops ≠ [] := fun x hx =>
    hops x (List.mem_append_left _ (List.mem_reverse.1 hx))
  have ho₂ : ∀ x ∈ P₂.reverse, x.ops ≠ [] := fun x hx =>
    hops x (List.mem_append_right _ (List.mem_cons_of_mem _ (List.mem_reverse.1 hx)))
  have hdiag : dblTbl P₁.reverse Q₁.reverse = 0 := by
    have := dblTbl_agree_append _ _ hr₁ ho₁ [] []
    simp only [List.append_nil] at this
    rw [this, dblTbl_nil]
    simp [round_zero]
  unfold dblDist
  rw [show (P₁ ++ a :: P₂).reverse = P₂.reverse ++ a :: P₁.reverse by simp,
    show (Q₁ ++ b :: Q₂).reverse = Q₂.reverse ++ b :: Q₁.reverse by simp,
    dblTbl_agree_append _ _ hr₂ ho₂, dblTbl_cons_cons]
  unfold dblCell
  rw [if_neg hne, hdiag, zero_add, round_round (by linarith [(nodeSimQ_range a b).2])]
  have hc := round_cost_range a b
  have hu : 1 ≤ Dbl.round (dblTbl P₁.reverse (b :: Q₁.reverse) + 1) :=
    round_ge_of_ge (by norm_num) (by linarith [dblTbl_nonneg P₁.reverse (b :: Q₁.reverse)])
      round_one
  have hl : 1 ≤ Dbl.round (dblTbl (a :: P₁.reverse) Q₁.reverse + 1) :=
    round_ge_of_ge (by norm_num) (by linarith [dblTbl_nonneg (a :: P₁.reverse) Q₁.reverse])
      round_one
  exact min_eq_right (le_min (le_trans hc.2 hu) (le_trans hc.2 hl))

theorem threshold_lt_of_half_le {s : ℚ} (h : 1 / 2 ≤ s) :
    Dbl.lt SIMILARITY_THRESHOLD (some s) = true := by
  simp only [Dbl.lt, SIMILARITY_THRESHOLD, decide_eq_true_eq]
  exact lt_of_lt_of_le round_threshold_lt_half h

theorem reuseSelectStep_above (ptm : Int → List Int) (st : List Int × List Int) (p q : Int)
    (s : Dbl) (h : Dbl.lt SIMILARITY_THRESHOLD s = true) :
    (∀ t ∈ ptm q, t ∈ (reuseSelectStep ptm st (p, (q, s))).1) ∧
    (reuseSelectStep ptm st (p, (q, s))).2 = st.2 := by
  refine ⟨fun t ht => ((reuseSelectStep_mem ptm st (p, (q, s)) t).1).2 (Or.inr ⟨h, ht⟩), ?_⟩
  simp [reuseSelectStep, h]

/-- The path similarity of two paths that differ in one opcode of one block, and its lower
bound. -/
theorem calculate_one_block_differs {P₁ P₂ Q₁ Q₂ : List Node} {a b : Node} {cache : SimCache}
    (h₁ : List.Forall₂ Node.Agree P₁ Q₁) (h₂ : List.Forall₂ Node.Agree P₂ Q₂)
    (ht : a.node_type = b.node_type) (hs : a.selectNum = b.selectNum) (hd : opDist a b = 1)
    (hM53 : max a.ops.length b.ops.length < 2 ^ 53)
    (hops : ∀ x ∈ P₁ ++ a :: P₂, x.ops ≠ [])
    (hP : IdsDetermine (P₁ ++ a :: P₂)) (hQ : IdsDetermine (Q₁ ++ b :: Q₂))
    (hc : CacheOk (P₁ ++ a :: P₂) (Q₁ ++ b :: Q₂) cache) :
    (dpTable pathCell Dbl.ofNat (P₁ ++ a :: P₂) (Q₁ ++ b :: Q₂) cache).1
      = some (Dbl.round (1 - nodeSimQ a b)) ∧
    (calculate cache (P₁ ++ a :: P₂) (Q₁ ++ b :: Q₂)).1
      = some (Dbl.round (1 - Dbl.round (Dbl.round (1 - nodeSimQ a b) /
          Dbl.round (((P₁ ++ a :: P₂).length : Nat) : ℚ)))) ∧
    (2 ≤ max a.ops.length b.ops.length * (P₁ ++ a :: P₂).length →
      1 / 2 ≤ Dbl.round (1 - Dbl.round (Dbl.round (1 - nodeSimQ a b) /
          Dbl.round (((P₁ ++ a :: P₂).length : Nat) : ℚ)))) := by
  obtain ⟨hsim, hM⟩ := nodeSim_one_opcode ht hs hd
  have hsq := nodeSimQ_of_some hsim
  have hlt1 := nodeSim_one_opcode_lt_one hM hM53
  have hne : nodeSimQ a b ≠ 1 := by rw [hsq]; exact ne_of_lt hlt1
  have hlen : (P₁ ++ a :: P₂).length = (Q₁ ++ b :: Q₂).length := by
    simp [h₁.length_eq, h₂.length_eq]
  have hD := dblDist_one_block_differs h₁ h₂ hops hne
  obtain ⟨t1, _, _⟩ := calculate_cached hP hQ hc (fun _ h => h) (fun _ h => h)
    (fun x hx _ _ => Or.inl (hops x hx))
  have hv := calculate_value hP hQ hc (fun _ h => h) (fun _ h => h)
    (fun x hx _ _ => Or.inl (hops x hx)) (Or.inl (by simp))
  rw [hD] at t1 hv
  rw [← hlen, max_self] at hv
  refine ⟨t1, hv, ?_⟩
  intro h2
  have hc0 := round_cost_range a b
  have hn1 : 1 ≤ (P₁ ++ a :: P₂).length := by
    rw [List.length_append, List.length_cons]; omega
  have hnq : (1 : ℚ) ≤ Dbl.round (((P₁ ++ a :: P₂).length : Nat) : ℚ) :=
    round_ge_of_ge (by norm_num) (by exact_mod_cast hn1) round_one
  have hquot : Dbl.round (1 - nodeSimQ a b) /
      Dbl.round (((P₁ ++ a :: P₂).length : Nat) : ℚ) ≤ 1 / 2 := by
    rw [div_le_iff₀ (by linarith)]
    by_cases hn2 : 2 ≤ (P₁ ++ a :: P₂).length
    · have : (2 : ℚ) ≤ Dbl.round (((P₁ ++ a :: P₂).length : Nat) : ℚ) :=
        round_ge_of_ge (by norm_num) (by exact_mod_cast hn2) round_two
      linarith [hc0.2]
    · have hMM : 2 ≤ max a.ops.length b.ops.length := by
        have hn : (P₁ ++ a :: P₂).length = 1 := by omega
        rw [hn] at h2
        omega
      have hhalf := nodeSim_one_opcode_ge_half hMM
      rw [← hsq] at hhalf
      have : Dbl.round (1 - nodeSimQ a b) ≤ 1 / 2 :=
        round_le_of_le (by linarith [(nodeSimQ_range a b).2]) (by linarith) round_half
      linarith
  have hq0 : 0 ≤ Dbl.round (1 - nodeSimQ a b) /
      Dbl.round (((P₁ ++ a :: P₂).length : Nat) : ℚ) :=
    div_nonneg hc0.1 (by linarith)
  have hq2 := round_le_of_le hq0 hquot round_half
  exact round_ge_of_ge (by norm_num) (by linarith) round_half

/-- C22 (counterexample): the new path `[exEntry, exRetSub]` and the old path
`[exEntry, exRet2]` have the same length and agree block by block except for the returning
block, whose opcode sequences `load, sub, ret` and `load, add, ret` differ in exactly one
opcode.  The similarity of that block pair is the double `6004799503160662 / 2^53`
(`0.66666666666666674`), below `1`, but the path similarity is the double
`7505999378950827 / 2^53` (`0.83333333333333337`), which is not below the threshold `0.35`
but above it, and the selection step for the pair puts the tests of the old path in the
full-reuse set and none in the inputs-only set. -/
theorem one_opcode_differs_not_below_threshold :
    [exEntry, exRetSub].length = [exEntry, exRet2].length ∧
    Node.Agree exEntry exEntry ∧
    exRetSub.node_type = exRet2.node_type ∧ exRetSub.selectNum = exRet2.selectNum ∧
    opDist exRetSub exRet2 = 1 ∧
    nodeSim exRetSub exRet2 = some (6004799503160662 / 9007199254740992) ∧
    (calculate freshCache [exEntry, exRetSub] [exEntry, exRet2]).1
      = some (7505999378950827 / 9007199254740992) ∧
    Dbl.lt (calculate freshCache [exEntry, exRetSub] [exEntry, exRet2]).1
      SIMILARITY_THRESHOLD = false ∧
    Dbl.lt SIMILARITY_THRESHOLD
      (calculate freshCache [exEntry, exRetSub] [exEntry, exRet2]).1 = true ∧
    reuseSelectStep exPathTestMap ([], [])
      (0, (0, (calculate freshCache [exEntry, exRetSub] [exEntry, exRet2]).1)) = ([0], []) := by
  have hv : (calculate freshCache [exEntry, exRetSub] [exEntry, exRet2]).1
      = some (7505999378950827 / 9007199254740992) := by decide!
  have hhi : Dbl.lt SIMILARITY_THRESHOLD (some (7505999378950827 / 9007199254740992)) = true := by
    decide!
  refine ⟨rfl, by decide, rfl, rfl, by decide, by decide!, hv, ?_, ?_, ?_⟩
  · rw [hv]; decide!
  · rw [hv]; exact hhi
  · rw [hv]
    simp [reuseSelectStep, hhi, exPathTestMap, setInsert]

/-- C22 (amended): if a new path `P₁ ++ a :: P₂` and an old path `Q₁ ++ b :: Q₂` have the
same length and their corresponding blocks agree in kind, `select_num` and opcodes, except
that the opcode sequences of `a` and `b` are at edit distance `1` (one opcode differs; fewer
than `2^53` opcodes), then `nodeSim(a, b)` is the double `s = 1.0 - 1.0 / M`, which is below
`1` (`M` the larger opcode count), the table of `calculate` ends with the cost `1.0 - s`, and
the path similarity is the double `1.0 - (1.0 - s) / n` for paths of `n` blocks.  Unless the
path is a single block with a single opcode this is at least `1/2`, hence above the threshold
`0.35`: the selection step for the pair then puts every test of the old path in the
full-reuse set and leaves the inputs-only set as it is. -/
theorem one_opcode_differs_similarity {P₁ P₂ Q₁ Q₂ : List Node} {a b : Node}
    {cache : SimCache}
    (h₁ : List.Forall₂ Node.Agree P₁ Q₁) (h₂ : List.Forall₂ Node.Agree P₂ Q₂)
    (ht : a.node_type = b.node_type) (hs : a.selectNum = b.selectNum) (hd : opDist a b = 1)
    (hM53 : max a.ops.length b.ops.length < 2 ^ 53)
    (hops : ∀ x ∈ P₁ ++ a :: P₂, x.ops ≠ [])
    (hP : IdsDetermine (P₁ ++ a :: P₂)) (hQ : IdsDetermine (Q₁ ++ b :: Q₂))
    (hc : CacheOk (P₁ ++ a :: P₂) (Q₁ ++ b :: Q₂) cache) :
    (P₁ ++ a :: P₂).length = (Q₁ ++ b :: Q₂).length ∧
    ∃ s v : ℚ,
      s = Dbl.round (1 - Dbl.round (1 / ((max a.ops.length b.ops.length : Nat) : ℚ))) ∧
      nodeSim a b = some s ∧ s < 1 ∧
      (dpTable pathCell Dbl.ofNat (P₁ ++ a :: P₂) (Q₁ ++ b :: Q₂) cache).1
        = some (Dbl.round (1 - s)) ∧
      v = Dbl.round (1 - Dbl.round (Dbl.round (1 - s) /
          Dbl.round (((P₁ ++ a :: P₂).length : Nat) : ℚ))) ∧
      (calculate cache (P₁ ++ a :: P₂) (Q₁ ++ b :: Q₂)).1 = some v ∧
      (2 ≤ max a.ops.length b.ops.length * (P₁ ++ a :: P₂).length →
        1 / 2 ≤ v ∧
        Dbl.lt SIMILARITY_THRESHOLD (calculate cache (P₁ ++ a :: P₂) (Q₁ ++ b :: Q₂)).1
          = true ∧
        ∀ (ptm : Int → List Int) (st : List Int × List Int) (p q : Int),
          (∀ t ∈ ptm q, t ∈ (reuseSelectStep ptm st
            (p, (q, (calculate cache (P₁ ++ a :: P₂) (Q₁ ++ b :: Q₂)).1))).1) ∧
          (reuseSelectStep ptm st
            (p, (q, (calculate cache (P₁ ++ a :: P₂) (Q₁ ++ b :: Q₂)).1))).2 = st.2) := by
  obtain ⟨hsim, hM⟩ := nodeSim_one_opcode ht hs hd
  have hsq := nodeSimQ_of_some hsim
  have hlt1 := nodeSim_one_opcode_lt_one hM hM53
  obtain ⟨c1, c2, c3⟩ := calculate_one_block_differs h₁ h₂ ht hs hd hM53 hops hP hQ hc
  rw [hsq] at c1 c2 c3
  rw [round_natCast hM53] at hsim hlt1 c1 c2 c3
  refine ⟨by simp [h₁.length_eq, h₂.length_eq], _, _, rfl, hsim, hlt1, c1, rfl, c2, ?_⟩
  intro h2
  have hlt : Dbl.lt SIMILARITY_THRESHOLD
      (calculate cache (P₁ ++ a :: P₂) (Q₁ ++ b :: Q₂)).1 = true := by
    rw [c2]
    exact threshold_lt_of_half_le (c3 h2)
  exact ⟨c3 h2, hlt, fun ptm st p q => reuseSelectStep_above ptm st p q _ hlt⟩

theorem one_opcode_differs_similarity_witness :
    List.Forall₂ Node.Agree [exEntry] [exEntry] ∧
    exRetSub.node_type = exRet2.node_type ∧ exRetSub.selectNum = exRet2.selectNum ∧
    opDist exRetSub exRet2 = 1 ∧
    max exRetSub.ops.length exRet2.ops.length < 2 ^ 53 ∧
    (∀ x ∈ [exEntry] ++ exRetSub :: [], x.ops ≠ []) ∧
    IdsDetermine ([exEntry] ++ exRetSub :: []) ∧ IdsDetermine ([exEntry] ++ exRet2 :: []) ∧
    2 ≤ max exRetSub.ops.length exRet2.ops.length * ([exEntry] ++ exRetSub :: []).length ∧
    (([exEntry] ++ exRetSub :: []).length = ([exEntry] ++ exRet2 :: []).length ∧
    ∃ s v : ℚ,
      s = Dbl.round (1 - Dbl.round
        (1 / ((max exRetSub.ops.length exRet2.ops.length : Nat) : ℚ))) ∧
      nodeSim exRetSub exRet2 = some s ∧ s < 1 ∧
      (dpTable pathCell Dbl.ofNat ([exEntry] ++ exRetSub :: []) ([exEntry] ++ exRet2 :: [])
        freshCache).1 = some (Dbl.round (1 - s)) ∧
      v = Dbl.round (1 - Dbl.round (Dbl.round (1 - s) /
          Dbl.round ((([exEntry] ++ exRetSub :: []).length : Nat) : ℚ))) ∧
      (calculate freshCache ([exEntry] ++ exRetSub :: []) ([exEntry] ++ exRet2 :: [])).1
        = some v ∧
      (2 ≤ max exRetSub.ops.length exRet2.ops.length * ([exEntry] ++ exRetSub :: []).length →
        1 / 2 ≤ v ∧
        Dbl.lt SIMILARITY_THRESHOLD
          (calculate freshCache ([exEntry] ++ exRetSub :: []) ([exEntry] ++ exRet2 :: [])).1
            = true ∧
        ∀ (ptm : Int → List Int) (st : List Int × List Int) (p q : Int),
          (∀ t ∈ ptm q, t ∈ (reuseSelectStep ptm st (p, (q,
            (calculate freshCache ([exEntry] ++ exRetSub :: [])
              ([exEntry] ++ exRet2 :: [])).1))).1) ∧
          (reuseSelectStep ptm st (p, (q,
            (calculate freshCache ([exEntry] ++ exRetSub :: [])
              ([exEntry] ++ exRet2 :: [])).1))).2 = st.2)) :=
  ⟨List.Forall₂.cons (by decide) List.Forall₂.nil, rfl, rfl, by decide, by decide, by decide,
    by decide, by decide, by decide,
    one_opcode_differs_similarity (List.Forall₂.cons (by decide) List.Forall₂.nil)
      List.Forall₂.nil rfl rfl (by decide) (by decide) (by decide) (by decide) (by decide)
      (cacheOk_fresh _ _)⟩

/-! ## Identical CFGs: C21 -/

theorem pathSim_self {P : List Node} (hne : P ≠ []) (hops : ∀ a ∈ P, a.ops ≠ [])
    (hP : IdsDetermine P) : pathSim P P = some 1 := by
  unfold pathSim
  exact calculate_self_eq hne hops hP

theorem pathSim_le_one {P Q : List Node} (hne : P ≠ []) (hops : ∀ a ∈ P, a.ops ≠ [])
    (hP : IdsDetermine P) (hQ : IdsDetermine Q) {v : ℚ} (h : pathSim P Q = some v) :
    v ≤ 1 := by
  obtain ⟨s, hs, _, h1⟩ := calculate_range hP hQ (cacheOk_fresh P Q) (fun _ h => h)
    (fun _ h => h) (fun a ha _ _ => Or.inl (hops a ha)) (Or.inl hne)
  unfold pathSim at h
  rw [hs] at h
  cases h
  exact h1

theorem matchBestLoop_mem (cnt : Int → Option Int) (l : List Int) (st : Int × Int) :
    (∀ pid, matchBestLoop cnt l st = Except.error pid → pid ∈ l) ∧
    (∀ st', matchBestLoop cnt l st = Except.ok st' → st'.2 = st.2 ∨ st'.2 ∈ l) := by
  obtain ⟨h1, h2⟩ := matchBestLoop_spec cnt l st
  constructor
  · intro pid h
    obtain ⟨l1, l2, hl, _⟩ := h1 pid h
    rw [hl]
    simp
  · intro st' h
    rcases (h2 st' h).2 with ⟨he, _⟩ | ⟨l1, l2, hl, _⟩
    · exact Or.inl (by rw [he])
    · right
      rw [hl]
      simp

/-- What `matchBestPathId` returns is `INVALID_PATH_ID` or the id of a stored path, and the
call changes the counters only. -/
theorem matchBestPathId_id (cfg : CFG)
    (hmap : ∀ mask id, cfg.pathIdMap mask = some id → ∃ p ∈ cfg.paths, p.id_ = id)
    (mask : List Char) :
    ((matchBestPathId cfg mask).1 = INVALID_PATH_ID ∨
      ∃ p ∈ cfg.paths, p.id_ = (matchBestPathId cfg mask).1) ∧
    (matchBestPathId cfg mask).2.paths = cfg.paths ∧
    (matchBestPathId cfg mask).2.pathIdMap = cfg.pathIdMap := by
  have hmp : matchPathId cfg mask = INVALID_PATH_ID ∨
      ∃ p ∈ cfg.paths, p.id_ = matchPathId cfg mask := by
    unfold matchPathId
    cases h : cfg.pathIdMap mask with
    | none => exact Or.inl rfl
    | some id => exact Or.inr (hmap mask id h)
  have hids : ∀ x ∈ matchPathIds cfg mask, ∃ p ∈ cfg.paths, p.id_ = x := by
    intro x hx
    obtain ⟨p, hp, _, he⟩ := (mem_matchPathIds cfg mask x).1 hx
    exact ⟨p, hp, he⟩
  unfold matchBestPathId
  simp only []
  split
  · rename_i h
    refine ⟨?_, rfl, rfl⟩
    rcases hmp with h' | h'
    · exact absurd h' h.1
    · exact Or.inr h'
  · split
    · exact ⟨Or.inl rfl, rfl, rfl⟩
    · obtain ⟨m1, m2⟩ := matchBestLoop_mem cfg.pathTestCntMap (matchPathIds cfg mask)
        (INT32_MAX, matchPathId cfg mask)
      split
      · rename_i pid hpid
        exact ⟨Or.inr (hids pid (m1 pid hpid)), rfl, rfl⟩
      · rename_i st hst
        refine ⟨?_, rfl, rfl⟩
        rcases m2 st hst with h' | h'
        · simp only at h'
          rw [h']
          exact hmp
        · exact Or.inr (hids _ h')

/-- Every key under which the run-afresh loop records a test is the id of an old path. -/
theorem reuseIndexRun_keys (paths : List Path) (results : List (List Char)) :
    ∀ (i : Nat) (old_cfg : CFG) (ptm : Int → List Int),
      old_cfg.paths = paths →
      (∀ mask id, old_cfg.pathIdMap mask = some id → ∃ p ∈ old_cfg.paths, p.id_ = id) →
      (∀ k, ∀ t ∈ ptm k, ∃ p ∈ paths, p.id_ = k) →
      ∀ k, ∀ t ∈ (reuseIndexRun results i old_cfg ptm).2 k, ∃ p ∈ paths, p.id_ = k := by
  induction results with
  | nil => intro i old_cfg ptm _ _ h0; exact h0
  | cons res rest ih =>
    intro i old_cfg ptm hp hmap h0
    obtain ⟨hid, hpaths, hpm⟩ := matchBestPathId_id old_cfg hmap res
    have hmap' : ∀ mask id, (matchBestPathId old_cfg res).2.pathIdMap mask = some id →
        ∃ p ∈ (matchBestPathId old_cfg res).2.paths, p.id_ = id := by
      rw [hpaths, hpm]
      exact hmap
    unfold reuseIndexRun
    by_cases h : (matchBestPathId old_cfg res).1 ≠ INVALID_PATH_ID
    · rw [if_pos h]
      apply ih _ _ _ (hpaths.trans hp) hmap'
      intro k t ht
      unfold pushTest at ht
      by_cases hk : k = (matchBestPathId old_cfg res).1
      · rcases hid with h' | ⟨p, hpm', he⟩
        · exact absurd h' h
        · exact ⟨p, hp ▸ hpm', he.trans hk.symm⟩
      · rw [if_neg hk] at ht
        exact h0 k t ht
    · rw [if_neg h]
      exact ih _ _ _ (hpaths.trans hp) hmap' h0

theorem mem_pathViews {nodes : List Node} {cfg : CFG} {p : Path} (hp : p ∈ cfg.paths) :
    ∃ P ∈ CFG.pathViews nodes cfg, P.id_ = p.id_ := by
  refine ⟨{ id_ := p.id_, nodes := p.nodes.filterMap (fun i => nodes[i]?) }, ?_, rfl⟩
  unfold CFG.pathViews
  exact List.mem_map.2 ⟨p, hp, rfl⟩

theorem pathViews_ids (nodes : List Node) (cfg : CFG) :
    (CFG.pathViews nodes cfg).map PathView.id_ = cfg.paths.map Path.id_ := by
  simp [CFG.pathViews, List.map_map, Function.comp_def]

/-- A new path that is also an old path is paired at similarity `1`. -/
theorem isBestMatch_of_mem {paths : List PathView} {P : PathView} {r : Int × Dbl}
    (hA : IdsDetermine (allNodes paths)) (hops : ∀ P ∈ paths, ∀ a ∈ P.nodes, a.ops ≠ [])
    (hne : ∀ P ∈ paths, P.nodes ≠ []) (hP : P ∈ paths) (hr : IsBestMatch paths P r) :
    r.2 = some 1 ∧ ∃ Q ∈ paths, r.1 = Q.id_ ∧ pathSim P.nodes Q.nodes = some 1 := by
  have hPd : IdsDetermine P.nodes :=
    idsDetermine_subset hA (fun a ha => mem_allNodes hP a ha)
  have hself := pathSim_self (hne P hP) (hops P hP) hPd
  obtain ⟨sv, hsv, _, hmax, l1, Qm, l2, hsplit, hid, hQm, _⟩ :=
    hr.1 ⟨P, hP, 1, hself, by norm_num⟩
  have hQmem : Qm ∈ paths := by rw [hsplit]; simp
  have h1 : 1 ≤ sv := hmax P hP 1 hself
  have h2 : sv ≤ 1 := pathSim_le_one (hne P hP) (hops P hP) hPd
    (idsDetermine_subset hA (fun a ha => mem_allNodes hQmem a ha)) hQm
  have hsv1 : sv = 1 := le_antisymm h2 h1
  subst hsv1
  exact ⟨hsv, Qm, hQmem, hid, hQm⟩

theorem exSwitchPaths_eq :
    exSwitchPaths =
      [{ id_ := 0, nodes := [exSwitchNodes.get ⟨0, by decide⟩, exSwitchNodes.get ⟨2, by decide⟩,
          exSwitchNodes.get ⟨3, by decide⟩] },
       { id_ := 1, nodes := [exSwitchNodes.get ⟨0, by decide⟩, exSwitchNodes.get ⟨2, by decide⟩,
          exSwitchNodes.get ⟨3, by decide⟩] },
       { id_ := 2, nodes := [exSwitchNodes.get ⟨0, by decide⟩, exSwitchNodes.get ⟨1, by decide⟩,
          exSwitchNodes.get ⟨3, by decide⟩] }] := by
  decide

/-- In the switch example no new path is paired with old path `1`: old path `0` has the same
blocks and comes first. -/
theorem exSwitch_no_pair_with_one (P : PathView) (hP : P ∈ exSwitchPaths) (r : Int × Dbl)
    (hr : IsBestMatch exSwitchPaths P r) : r.1 ≠ 1 := by
  have hA : IdsDetermine (allNodes exSwitchPaths) := by decide
  have hops : ∀ P ∈ exSwitchPaths, ∀ a ∈ P.nodes, a.ops ≠ [] := by decide
  have hne : ∀ P ∈ exSwitchPaths, P.nodes ≠ [] := by decide
  have hPd : IdsDetermine P.nodes :=
    idsDetermine_subset hA (fun a ha => mem_allNodes hP a ha)
  have hself := pathSim_self (hne P hP) (hops P hP) hPd
  obtain ⟨sv, _, _, _, l1, Qm, l2, hsplit, hid, hQm, hbefore⟩ :=
    hr.1 ⟨P, hP, 1, hself, by norm_num⟩
  intro h1
  rw [hid] at h1
  rw [exSwitchPaths_eq] at hsplit
  rcases l1 with _ | ⟨x, _ | ⟨y, _ | ⟨z, l⟩⟩⟩
  · simp only [List.nil_append, List.cons.injEq] at hsplit
    rw [← hsplit.1] at h1
    exact absurd h1 (by decide)
  · simp only [List.cons_append, List.nil_append, List.cons.injEq] at hsplit
    obtain ⟨hx, hq, _⟩ := hsplit
    apply hbefore x (List.mem_cons_self _ _)
    rw [← hQm, ← hx, ← hq]
  · simp only [List.cons_append, List.nil_append, List.cons.injEq] at hsplit
    rw [← hsplit.2.2.1] at h1
    exact absurd h1 (by decide)
  · simp at hsplit

/-- C21 (fails in the code): the old and the new version are the same function, whose entry
block ends in a `switch` with two cases sharing block `2`, so that `dfsWithoutLoops`
enumerates the path `0, 2, 3` twice (old paths `0` and `1`).  The execution of the one old
test matches: `matchBestPathId` returns path `1`, and the test is recorded under old
path `1`.  The reuse map computed by `SimilarityCalculator::run` pairs every new path with
an old path, but none with old path `1` (new path `1` is paired with old path `0`, the first
at similarity `1`), and the test ends in neither the full-reuse nor the inputs-only set: a
matched test of an unchanged function is not reused at all. -/
theorem identical_cfg_test_not_reused :
    exSwitchEngine.new_cfg.paths = exSwitchEngine.old_cfg.paths ∧
    dfsWithoutLoops [[1, 2, 2], [3], [3], []] 10 = some [[0, 2, 3], [0, 2, 3], [0, 1, 3]] ∧
    (matchBestPathId exSwitchEngine.old_cfg "1011".toList).1 = 1 ∧
    (reuseTestSuite.select exSwitchEngine exSwitchEnv).engine.path_test_map 1 = [0] ∧
    (∀ P ∈ exSwitchPaths, ∃ r, r ∈ exSwitchEngine.path_map ∧ r.1 = P.id_) ∧
    (∀ r ∈ exSwitchEngine.path_map, r.2.1 ≠ 1) ∧
    0 ∉ (reuseTestSuite.select exSwitchEngine exSwitchEnv).reused_test_ids ∧
    0 ∉ (reuseTestSuite.select exSwitchEngine exSwitchEnv).reused_without_exep_test_ids := by
  have hA : IdsDetermine (allNodes exSwitchPaths) := by decide
  have hops : ∀ P ∈ exSwitchPaths, ∀ a ∈ P.nodes, a.ops ≠ [] := by decide
  have hnd : (exSwitchPaths.map PathView.id_).Nodup := by decide
  obtain ⟨hrun, _, _⟩ := run_spec_aux hA hA exSwitchPaths (fun Q hQ => mem_allNodes hQ)
    exSwitchPaths (fun _ => none) freshCache (cacheOk_fresh _ _)
    (fun P hP => mem_allNodes hP) hops hnd
  have hkeys : ∀ k ∈ ([0, 1, 2] : List Int), ∃ P ∈ exSwitchPaths, P.id_ = k := by decide
  have hentries : ∀ r ∈ exSwitchEngine.path_map, r.2.1 ≠ 1 := by
    intro e he
    have he' : e ∈ pathMapEntries
        (SimilarityCalculator.run exSwitchPaths exSwitchPaths (fun _ => none) freshCache).1
        [0, 1, 2] := he
    unfold pathMapEntries at he'
    obtain ⟨k, hk, hke⟩ := List.mem_filterMap.1 he'
    obtain ⟨P, hP, hPk⟩ := hkeys k hk
    obtain ⟨r, hr, hbest⟩ := hrun P hP
    rw [hPk] at hr
    rw [hr] at hke
    simp only [Option.map_some', Option.some.injEq] at hke
    rw [← hke]
    exact exSwitch_no_pair_with_one P hP r hbest
  have hptm : ∀ k, (reuseTestSuite.select exSwitchEngine exSwitchEnv).engine.path_test_map k =
      if k = 1 then [0] else [] := by
    intro k
    rw [reuseTestSuite_select_engine]
    have hm : (matchBestPathId exSwitchEngine.old_cfg "1011".toList).1 = 1 := by decide
    show (reuseIndexRun ["1011".toList] 0 exSwitchEngine.old_cfg (fun _ => [])).2 k = _
    unfold reuseIndexRun
    rw [if_pos (by rw [hm]; decide)]
    unfold reuseIndexRun
    simp only [pushTest, hm]
    rfl
  have hnot : ∀ t, ¬ (t ∈ (reuseTestSuite.select exSwitchEngine exSwitchEnv).reused_test_ids ∨
      t ∈ (reuseTestSuite.select exSwitchEngine exSwitchEnv).reused_without_exep_test_ids) := by
    intro t ht
    have hs := reuseTestSuite_select_sets exSwitchEngine exSwitchEnv
    have h1 : (reuseTestSuite.select exSwitchEngine exSwitchEnv).reused_test_ids =
        (reuseSelect (reuseTestSuite.select exSwitchEngine exSwitchEnv).engine.path_test_map
          exSwitchEngine.path_map).1 := by rw [← hs]
    have h2 : (reuseTestSuite.select exSwitchEngine exSwitchEnv).reused_without_exep_test_ids =
        (reuseSelect (reuseTestSuite.select exSwitchEngine exSwitchEnv).engine.path_test_map
          exSwitchEngine.path_map).2 := by rw [← hs]
    rw [h1, h2] at ht
    rcases reuseSelect_foldl_origin _ _ _ t ht with h | h | ⟨e, he, hte⟩
    · cases h
    · cases h
    · rw [hptm] at hte
      by_cases hk : e.2.1 = 1
      · exact hentries e he hk
      · rw [if_neg hk] at hte
        cases hte
  refine ⟨rfl, by decide, by decide, ?_, ?_, hentries, fun h => hnot 0 (Or.inl h),
    fun h => hnot 0 (Or.inr h)⟩
  · rw [hptm]
    rfl
  · intro P hP
    obtain ⟨r, hr, _⟩ := hrun P hP
    refine ⟨(P.id_, r), ?_, rfl⟩
    show (P.id_, r) ∈ pathMapEntries
      (SimilarityCalculator.run exSwitchPaths exSwitchPaths (fun _ => none) freshCache).1
      [0, 1, 2]
    unfold pathMapEntries
    refine List.mem_filterMap.2 ⟨P.id_, ?_, by rw [hr]; rfl⟩
    have : ∀ P ∈ exSwitchPaths, P.id_ ∈ ([0, 1, 2] : List Int) := by decide
    exact this P hP

/-- The entries visited are the entries of the map when the keys visited are the ids of the
new paths. -/
theorem mem_pathMapEntries_run {A B : List Node} (hA : IdsDetermine A) (hB : IdsDetermine B)
    {olds news : List PathView} {cache : SimCache} {keys : List Int}
    (hQB : ∀ Q ∈ olds, ∀ b ∈ Q.nodes, b ∈ B) (hc : CacheOk A B cache)
    (hPA : ∀ P ∈ news, ∀ a ∈ P.nodes, a ∈ A) (hops : ∀ P ∈ news, ∀ a ∈ P.nodes, a.ops ≠ [])
    (hnd : (news.map PathView.id_).Nodup)
    (hkeys : ∀ P ∈ news, P.id_ ∈ keys) (p : Int) (r : Int × Dbl) :
    (p, r) ∈ pathMapEntries (SimilarityCalculator.run olds news (fun _ => none) cache).1 keys ↔
      (SimilarityCalculator.run olds news (fun _ => none) cache).1 p = some r := by
  obtain ⟨_, hnone, _⟩ := run_spec_aux hA hB olds hQB news (fun _ => none) cache hc hPA hops hnd
  unfold pathMapEntries
  rw [List.mem_filterMap]
  constructor
  · rintro ⟨k, _, hk⟩
    cases hv : (SimilarityCalculator.run olds news (fun _ => none) cache).1 k with
    | none => rw [hv] at hk; cases hk
    | some v =>
      rw [hv] at hk
      simp only [Option.map_some', Option.some.injEq, Prod.mk.injEq] at hk
      rw [← hk.1, ← hk.2]
      exact hv
  · intro h
    refine ⟨p, ?_, by rw [h]; rfl⟩
    by_contra hp
    have := hnone p (fun P hP he => hp (he ▸ hkeys P hP))
    rw [h] at this
    cases this

/-- Identical CFGs without tied paths: the old and the new CFG are identical (the same nodes
and the same enumerated paths), every block has an opcode and every path a block, the engine
is fresh and its reuse map is the one computed by `SimilarityCalculator::run`.  Then every
new path is paired with an old path at similarity `1`.  If moreover no two paths with
different ids have similarity `1`, every new path is paired with the old path of the same id,
and every old test that `reuseTestSuite` records in the path-test map (its execution matched
an old path) is placed in the full-reuse set. -/
theorem identical_cfg_full_reuse (nodes : List Node) (eng : ReuseEngine) (env : ReuseEnv)
    (cache : SimCache)
    (hcfg : eng.old_cfg.Consistent)
    (hfresh : eng.path_test_map = fun _ => [])
    (hA : IdsDetermine (allNodes (CFG.pathViews nodes eng.old_cfg)))
    (hops : ∀ P ∈ CFG.pathViews nodes eng.old_cfg, ∀ a ∈ P.nodes, a.ops ≠ [])
    (hne : ∀ P ∈ CFG.pathViews nodes eng.old_cfg, P.nodes ≠ [])
    (hc : CacheOk (allNodes (CFG.pathViews nodes eng.old_cfg))
      (allNodes (CFG.pathViews nodes eng.old_cfg)) cache)
    (hpm : ∀ p r, (p, r) ∈ eng.path_map ↔
      (SimilarityCalculator.run (CFG.pathViews nodes eng.old_cfg)
        (CFG.pathViews nodes eng.old_cfg) (fun _ => none) cache).1 p = some r) :
    (∀ P ∈ CFG.pathViews nodes eng.old_cfg, ∃ Q ∈ CFG.pathViews nodes eng.old_cfg,
      (P.id_, (Q.id_, some 1)) ∈ eng.path_map ∧ pathSim P.nodes Q.nodes = some 1) ∧
    ((∀ P ∈ CFG.pathViews nodes eng.old_cfg, ∀ Q ∈ CFG.pathViews nodes eng.old_cfg,
        pathSim P.nodes Q.nodes = some 1 → P.id_ = Q.id_) →
      (∀ P ∈ CFG.pathViews nodes eng.old_cfg, (P.id_, (P.id_, some 1)) ∈ eng.path_map) ∧
      ∀ k, ∀ t ∈ (reuseTestSuite.select eng env).engine.path_test_map k,
        t ∈ (reuseTestSuite.select eng env).reused_test_ids) := by
  have hnd : ((CFG.pathViews nodes eng.old_cfg).map PathView.id_).Nodup := by
    rw [pathViews_ids, hcfg.2.1]
    exact (List.nodup_range _).map (fun a b h => by exact_mod_cast h)
  obtain ⟨hrun, _, _⟩ := run_spec_aux hA hA (CFG.pathViews nodes eng.old_cfg)
    (fun Q hQ => mem_allNodes hQ) (CFG.pathViews nodes eng.old_cfg) (fun _ => none) cache hc
    (fun P hP => mem_allNodes hP) hops hnd
  have hpair : ∀ P ∈ CFG.pathViews nodes eng.old_cfg, ∃ Q ∈ CFG.pathViews nodes eng.old_cfg,
      (P.id_, (Q.id_, some 1)) ∈ eng.path_map ∧ pathSim P.nodes Q.nodes = some 1 := by
    intro P hP
    obtain ⟨r, hr, hbest⟩ := hrun P hP
    obtain ⟨h2, Q, hQ, h1, hsim⟩ := isBestMatch_of_mem hA hops hne hP hbest
    refine ⟨Q, hQ, (hpm _ _).2 ?_, hsim⟩
    rw [hr, ← h1, ← h2]
  refine ⟨hpair, ?_⟩
  intro htie
  have hsame : ∀ P ∈ CFG.pathViews nodes eng.old_cfg,
      (P.id_, (P.id_, some 1)) ∈ eng.path_map := by
    intro P hP
    obtain ⟨Q, hQ, hmem, hsim⟩ := hpair P hP
    rw [htie P hP Q hQ hsim]
    rw [htie P hP Q hQ hsim] at hmem
    exact hmem
  refine ⟨hsame, ?_⟩
  intro k t ht
  have hs := reuseTestSuite_select_sets eng env
  have h1 : (reuseTestSuite.select eng env).reused_test_ids =
      (reuseSelect (reuseTestSuite.select eng env).engine.path_test_map eng.path_map).1 := by
    rw [← hs]
  have hkey : ∃ p ∈ eng.old_cfg.paths, p.id_ = k := by
    rw [reuseTestSuite_select_engine] at ht
    refine reuseIndexRun_keys eng.old_cfg.paths env.oldResults 0 eng.old_cfg eng.path_test_map
      rfl ?_ ?_ k t ht
    · intro mask id h
      obtain ⟨p, hp, he, _⟩ := hcfg.2.2.2.1 mask id h
      exact ⟨p, hp, he⟩
    · intro k' t' ht'
      rw [hfresh] at ht'
      cases ht'
  obtain ⟨p, hp, hpk⟩ := hkey
  obtain ⟨P, hP, hPid⟩ := @mem_pathViews nodes _ _ hp
  have hentry := hsame P hP
  rw [hPid, hpk] at hentry
  rw [h1]
  exact reuseSelect_full _ _ _ (k, (k, some 1)) hentry
    (threshold_lt_of_half_le (by norm_num)) t ht

/-- The diamond as old and new version: no two paths are tied, both new paths are paired
with the old path of the same id at similarity `1`, and every recorded test is in the
full-reuse set. -/
theorem identical_cfg_full_reuse_diamond :
    (∀ P ∈ CFG.pathViews exDiamondNodes exDiamondEngine.old_cfg,
      ∀ Q ∈ CFG.pathViews exDiamondNodes exDiamondEngine.old_cfg,
      pathSim P.nodes Q.nodes = some 1 → P.id_ = Q.id_) ∧
    (∀ P ∈ CFG.pathViews exDiamondNodes exDiamondEngine.old_cfg,
      (P.id_, (P.id_, some 1)) ∈ exDiamondEngine.path_map) ∧
    ∀ k, ∀ t ∈ (reuseTestSuite.select exDiamondEngine exReuseEnv).engine.path_test_map k,
      t ∈ (reuseTestSuite.select exDiamondEngine exReuseEnv).reused_test_ids := by
  have hno : ∀ P ∈ CFG.pathViews exDiamondNodes exDiamondEngine.old_cfg,
      ∀ Q ∈ CFG.pathViews exDiamondNodes exDiamondEngine.old_cfg,
      pathSim P.nodes Q.nodes = some 1 → P.id_ = Q.id_ := by decide!
  exact ⟨hno,
    (identical_cfg_full_reuse exDiamondNodes exDiamondEngine exReuseEnv freshCache
      (analyzingPaths_consistent diamondCFG_analyzed).1 rfl (by decide) (by decide) (by decide)
      (cacheOk_fresh _ _)
      (mem_pathMapEntries_run (A := allNodes (CFG.pathViews exDiamondNodes diamondCFG))
        (B := allNodes (CFG.pathViews exDiamondNodes diamondCFG)) (by decide) (by decide)
        (fun Q hQ => mem_allNodes hQ) (cacheOk_fresh _ _) (fun P hP => mem_allNodes hP)
        (by decide) (by decide) (by decide))).2 hno⟩

/-! ## The rolling-hash index: what the buckets hold -/

theorem hash_lt_M (A h x : Nat) : RollingHashIndex.hash A h x < RollingHashIndex.M :=
  Nat.mod_lt _ (by decide)

theorem updateHash_eq_queryHash (A : Nat) (seq : List Nat) (i l : Nat) :
    updateHash A seq i l = queryHash A seq i l := by
  unfold updateHash queryHash
  have : (fun h x => RollingHashIndex.hash A h x % RollingHashIndex.M) =
      RollingHashIndex.hash A := by
    funext h x
    exact Nat.mod_eq_of_lt (hash_lt_M A h x)
  rw [this]

theorem window_length {seq : List Nat} {i l : Nat} (h : i + l ≤ seq.length) :
    (window seq i l).length = l := by
  unfold window
  rw [List.length_take, List.length_drop]
  omega

theorem window_isInfix (seq : List Nat) (i l : Nat) : window seq i l <:+: seq := by
  unfold window
  exact (List.take_prefix _ _).isInfix.trans (List.drop_suffix _ _).isInfix

theorem isInfix_iff_window (w seq : List Nat) :
    w <:+: seq ↔ ∃ i, i + w.length ≤ seq.length ∧ window seq i w.length = w := by
  constructor
  · rintro ⟨s, t, rfl⟩
    refine ⟨s.length, by simp, ?_⟩
    unfold window
    simp
  · rintro ⟨i, _, h⟩
    rw [← h]
    exact window_isInfix seq i _

theorem indexPush_bucketOf (A : Nat) (seqs : List (List Nat)) (T : List (Nat × Nat × Nat))
    (t : Nat × Nat × Nat) :
    indexPush (bucketOf A seqs T) (tripleHash A seqs t) t.2.1 = bucketOf A seqs (T ++ [t]) := by
  funext k
  unfold indexPush bucketOf
  by_cases hk : k = tripleHash A seqs t
  · subst hk
    have hd : ∀ (b : List Nat),
        (if b = [] then (none : Option (List Nat)) else some b).getD [] = b := by
      intro b
      by_cases hb : b = []
      · simp [hb]
      · simp [hb]
    simp only [if_true, hd, List.filter_append, List.map_append, List.filter_cons,
      List.filter_nil, decide_True, List.map_cons, List.map_nil]
    simp
  · have hk' : ¬ tripleHash A seqs t = k := fun e => hk e.symm
    have hf : (T ++ [t]).filter (fun t => tripleHash A seqs t = k) =
        T.filter (fun t => tripleHash A seqs t = k) := by
      rw [List.filter_append]
      simp [hk']
    rw [if_neg hk, hf]

theorem updateIndexWindows_bucketOf (A l idx : Nat) (seq : List Nat) (seqs : List (List Nat))
    (hseq : seqs.getD idx [] = seq) :
    ∀ (is : List Nat) (T : List (Nat × Nat × Nat)),
      updateIndexWindows A l idx seq is (bucketOf A seqs T) =
        bucketOf A seqs (T ++ is.map (fun i => (l, idx, i))) := by
  intro is
  induction is with
  | nil => intro T; simp [updateIndexWindows]
  | cons i is ih =>
    intro T
    unfold updateIndexWindows
    have h := indexPush_bucketOf A seqs T (l, idx, i)
    have hh : tripleHash A seqs (l, idx, i) = updateHash A seq i l := by
      rw [updateHash_eq_queryHash]
      show queryHash A (seqs.getD idx []) i l = _
      rw [hseq]
    rw [hh] at h
    simp only at h
    rw [h, ih]
    simp

theorem updateIndexSeqs_bucketOf (A l : Nat) (seqs : List (List Nat)) :
    ∀ (rest : List (List Nat)) (idx : Nat) (T : List (Nat × Nat × Nat)),
      seqs.drop idx = rest →
      updateIndexSeqs A l rest idx (bucketOf A seqs T) =
        bucketOf A seqs (T ++ levelTriples l rest idx) := by
  intro rest
  induction rest with
  | nil => intro idx T _; simp [updateIndexSeqs, levelTriples]
  | cons seq rest ih =>
    intro idx T hdrop
    have hseq : seqs.getD idx [] = seq := by
      have : (seqs.drop idx)[0]? = some seq := by rw [hdrop]; simp
      rw [List.getElem?_drop] at this
      simp only [Nat.add_zero] at this
      simp [List.getD_eq_getElem?_getD, this]
    have hrest : seqs.drop (idx + 1) = rest := by
      rw [← List.drop_drop, hdrop]
      rfl
    unfold updateIndexSeqs levelTriples
    by_cases hlen : seq.length < l
    · rw [if_pos hlen, if_pos hlen, ih (idx + 1) T hrest]
      simp
    · rw [if_neg hlen, if_neg hlen, updateIndexWindows_bucketOf A l idx seq seqs hseq,
        ih (idx + 1) _ hrest]
      simp

theorem mem_levelTriples (l : Nat) :
    ∀ (rest : List (List Nat)) (idx0 : Nat) (t : Nat × Nat × Nat),
      t ∈ levelTriples l rest idx0 ↔
        t.1 = l ∧ idx0 ≤ t.2.1 ∧ t.2.1 - idx0 < rest.length ∧
          t.2.2 + l ≤ (rest.getD (t.2.1 - idx0) []).length := by
  intro rest
  induction rest with
  | nil => intro idx0 t; simp [levelTriples]
  | cons seq rest ih =>
    intro idx0 t
    obtain ⟨l', idx, i⟩ := t
    unfold levelTriples
    rw [List.mem_append, ih]
    simp only
    constructor
    · rintro (h | ⟨h1, h2, h3, h4⟩)
      · by_cases hlen : seq.length < l
        · rw [if_pos hlen] at h
          cases h
        · rw [if_neg hlen] at h
          obtain ⟨i', hi', he⟩ := List.mem_map.1 h
          rw [List.mem_range] at hi'
          simp only [Prod.mk.injEq] at he
          obtain ⟨e1, e2, e3⟩ := he
          subst e1 e2 e3
          refine ⟨rfl, le_refl _, by simp, ?_⟩
          simp only [Nat.sub_self, List.getD_cons_zero]
          omega
      · refine ⟨h1, by omega, by simp only [List.length_cons]; omega, ?_⟩
        have : idx - idx0 = (idx - (idx0 + 1)) + 1 := by omega
        rw [this, List.getD_cons_succ]
        exact h4
    · rintro ⟨h1, h2, h3, h4⟩
      by_cases hidx : idx = idx0
      · left
        subst hidx
        simp only [Nat.sub_self, List.getD_cons_zero] at h4
        have hlen : ¬ seq.length < l := by omega
        rw [if_neg hlen]
        refine List.mem_map.2 ⟨i, List.mem_range.2 (by omega), ?_⟩
        rw [h1]
      · right
        have : idx - idx0 = (idx - (idx0 + 1)) + 1 := by omega
        rw [this, List.getD_cons_succ] at h4
        simp only [List.length_cons] at h3
        exact ⟨h1, by omega, by omega, h4⟩

theorem nodup_levelTriples (l : Nat) :
    ∀ (rest : List (List Nat)) (idx0 : Nat), (levelTriples l rest idx0).Nodup := by
  intro rest
  induction rest with
  | nil => intro idx0; simp [levelTriples]
  | cons seq rest ih =>
    intro idx0
    unfold levelTriples
    rw [List.nodup_append]
    refine ⟨?_, ih _, ?_⟩
    · by_cases hlen : seq.length < l
      · rw [if_pos hlen]
        exact List.nodup_nil
      · rw [if_neg hlen]
        exact (List.nodup_range _).map (fun a b h => by simpa using h)
    · intro t h1 h2
      have h2' := (mem_levelTriples l rest (idx0 + 1) t).1 h2
      by_cases hlen : seq.length < l
      · rw [if_pos hlen] at h1
        cases h1
      · rw [if_neg hlen] at h1
        obtain ⟨i', _, he⟩ := List.mem_map.1 h1
        rw [← he] at h2'
        simp only at h2'
        omega

theorem mem_allTriples (seqs : List (List Nat)) (hl : Nat) (t : Nat × Nat × Nat) :
    t ∈ allTriples seqs hl ↔
      2 ≤ t.1 ∧ t.1 ≤ hl ∧ t.2.1 < seqs.length ∧ t.2.2 + t.1 ≤ (seqs.getD t.2.1 []).length := by
  unfold allTriples
  rw [List.mem_flatMap]
  constructor
  · rintro ⟨l, hl', ht⟩
    rw [List.mem_range'_1] at hl'
    obtain ⟨h1, _, h3, h4⟩ := (mem_levelTriples l seqs 0 t).1 ht
    simp only [Nat.sub_zero] at h3 h4
    rw [h1]
    exact ⟨hl'.1, by omega, h3, h4⟩
  · rintro ⟨h1, h2, h3, h4⟩
    refine ⟨t.1, ?_, (mem_levelTriples t.1 seqs 0 t).2 ⟨rfl, Nat.zero_le _, ?_, ?_⟩⟩
    · rw [List.mem_range'_1]
      omega
    · simpa using h3
    · simpa using h4

theorem nodup_allTriples (seqs : List (List Nat)) (hl : Nat) : (allTriples seqs hl).Nodup := by
  unfold allTriples
  rw [List.nodup_flatMap]
  refine ⟨fun l _ => nodup_levelTriples l seqs 0, ?_⟩
  have hn : (List.range' 2 (hl - 1)).Nodup := List.nodup_range' _ _
  refine List.Pairwise.imp ?_ hn
  intro a b hab t ha hb
  have h1 := ((mem_levelTriples a seqs 0 t).1 ha).1
  have h2 := ((mem_levelTriples b seqs 0 t).1 hb).1
  exact hab (h1.symm.trans h2)

theorem allTriples_succ (seqs : List (List Nat)) (hl : Nat) (h : 1 ≤ hl) :
    allTriples seqs (hl + 1) = allTriples seqs hl ++ levelTriples (hl + 1) seqs 0 := by
  unfold allTriples
  have : hl + 1 - 1 = (hl - 1) + 1 := by omega
  rw [this, List.range'_concat]
  simp only [List.flatMap_append, List.flatMap_cons, List.flatMap_nil, List.append_nil]
  have h2 : 2 + 1 * (hl - 1) = hl + 1 := by omega
  rw [h2]

/-- One call of `updateIndex` on an index that holds the windows of lengths up to
`hash_len`. -/
theorem updateIndex_spec (r : RollingHashIndex) (len : Nat) (h1 : 1 ≤ r.hash_len)
    (hidx : r.index = bucketOf r.A r.sequences (allTriples r.sequences r.hash_len)) :
    (r.updateIndex len).sequences = r.sequences ∧ (r.updateIndex len).A = r.A ∧
    (r.updateIndex len).hash_len = (if r.hash_len ≥ len then r.hash_len else r.hash_len + 1) ∧
    (r.updateIndex len).index =
      bucketOf r.A r.sequences (allTriples r.sequences (r.updateIndex len).hash_len) := by
  unfold RollingHashIndex.updateIndex
  by_cases h : r.hash_len ≥ len
  · rw [if_pos h, if_pos h]
    exact ⟨rfl, rfl, rfl, hidx⟩
  · rw [if_neg h, if_neg h]
    refine ⟨rfl, rfl, rfl, ?_⟩
    show updateIndexSeqs r.A (r.hash_len + 1) r.sequences 0 r.index = _
    rw [hidx, updateIndexSeqs_bucketOf r.A (r.hash_len + 1) r.sequences r.sequences 0 _ rfl,
      allTriples_succ _ _ h1]

theorem new_inv (seqs : List (List Nat)) (A : Nat) :
    (RollingHashIndex.new seqs A).Inv seqs A := by
  unfold RollingHashIndex.new
  obtain ⟨h1, h2, h3, h4⟩ := updateIndex_spec
    { A := A, index := fun _ => none, sequences := seqs, hash_len := 1 } 2 (le_refl _)
    (by funext h; simp [bucketOf, allTriples])
  refine ⟨h1, h2, ?_, h4⟩
  rw [h3]
  exact le_refl 2

theorem updateIndex_inv {r : RollingHashIndex} {seqs : List (List Nat)} {A : Nat}
    (h : r.Inv seqs A) (len : Nat) :
    (r.updateIndex len).Inv seqs A ∧ r.hash_len ≤ (r.updateIndex len).hash_len ∧
    (r.hash_len + 1 ≥ len → len ≤ (r.updateIndex len).hash_len) := by
  obtain ⟨hs, hA, h2, hidx⟩ := h
  subst hs hA
  obtain ⟨e1, e2, e3, e4⟩ := updateIndex_spec r len (by omega) hidx
  refine ⟨⟨e1, e2, ?_, ?_⟩, ?_, ?_⟩
  · rw [e3]; split <;> omega
  · rw [e4]
  · rw [e3]; split <;> omega
  · intro hlen
    rw [e3]; split <;> omega

theorem filter_map_singleton {α β : Type} {T : List α} (hT : T.Nodup) (p : α → Bool)
    (f : α → β) (y : β) :
    (((T.filter p).map f).length = 1 ∧ ((T.filter p).map f).head? = some y) ↔
      ∃ t ∈ T, p t = true ∧ f t = y ∧ ∀ t' ∈ T, p t' = true → t' = t := by
  constructor
  · rintro ⟨hlen, hhead⟩
    rw [List.length_map] at hlen
    obtain ⟨t, ht⟩ := List.length_eq_one.1 hlen
    rw [ht] at hhead
    simp only [List.map_cons, List.map_nil, List.head?_cons, Option.some.injEq] at hhead
    have hmem : t ∈ T.filter p := by rw [ht]; simp
    rw [List.mem_filter] at hmem
    refine ⟨t, hmem.1, hmem.2, hhead, ?_⟩
    intro t' ht' hp'
    have : t' ∈ T.filter p := List.mem_filter.2 ⟨ht', hp'⟩
    rw [ht] at this
    simpa using this
  · rintro ⟨t, ht, hp, hf, hall⟩
    have hF : (T.filter p).Nodup := hT.filter _
    have hmem : t ∈ T.filter p := List.mem_filter.2 ⟨ht, hp⟩
    have hall' : ∀ x ∈ T.filter p, x = t := fun x hx =>
      hall x (List.mem_filter.1 hx).1 (List.mem_filter.1 hx).2
    have hFe : T.filter p = [t] := by
      cases hc : T.filter p with
      | nil => rw [hc] at hmem; cases hmem
      | cons x xs =>
        rw [hc] at hF hall'
        have hx : x = t := hall' x (List.mem_cons_self _ _)
        have hxs : xs = [] := by
          apply List.eq_nil_iff_forall_not_mem.2
          intro y hy
          have hy' : y = t := hall' y (List.mem_cons_of_mem _ hy)
          have := (List.nodup_cons.1 hF).1
          rw [hx, ← hy'] at this
          exact this hy
        rw [hx, hxs]
    rw [hFe]
    simp [hf]

theorem uniqueBucket_iff {r : RollingHashIndex} {seqs : List (List Nat)} {A : Nat}
    (hr : r.Inv seqs A) (h id : Nat) :
    UniqueBucket r.index h id ↔
      ∃ t ∈ allTriples seqs r.hash_len, tripleHash A seqs t = h ∧ t.2.1 = id ∧
        ∀ t' ∈ allTriples seqs r.hash_len, tripleHash A seqs t' = h → t' = t := by
  obtain ⟨_, _, _, hidx⟩ := hr
  have key := filter_map_singleton (nodup_allTriples seqs r.hash_len)
    (fun t => decide (tripleHash A seqs t = h)) (fun t => t.2.1) id
  simp only [decide_eq_true_eq] at key
  rw [← key]
  unfold UniqueBucket
  rw [hidx]
  unfold bucketOf
  constructor
  · rintro ⟨b, hb, h1, h2⟩
    split at hb
    · cases hb
    · simp only [Option.some.injEq] at hb
      rw [hb]
      exact ⟨h1, h2⟩
  · rintro ⟨h1, h2⟩
    refine ⟨_, ?_, h1, h2⟩
    rw [if_neg]
    intro hnil
    rw [hnil] at h1
    cases h1

theorem index_ne_none {r : RollingHashIndex} {seqs : List (List Nat)} {A : Nat}
    (hr : r.Inv seqs A) {t : Nat × Nat × Nat} (ht : t ∈ allTriples seqs r.hash_len) :
    r.index (tripleHash A seqs t) ≠ none := by
  obtain ⟨_, _, _, hidx⟩ := hr
  rw [hidx]
  unfold bucketOf
  rw [if_neg]
  · simp
  · intro hnil
    have : t.2.1 ∈ ((allTriples seqs r.hash_len).filter
        (fun t' => tripleHash A seqs t' = tripleHash A seqs t)).map (fun t => t.2.1) :=
      List.mem_map.2 ⟨t, List.mem_filter.2 ⟨ht, by simp⟩, rfl⟩
    rw [hnil] at this
    cases this

theorem mem_allWindows {seqs : List (List Nat)} {idx j l : Nat} (hidx : idx < seqs.length)
    (hl : 2 ≤ l) (hj : j + l ≤ (seqs.getD idx []).length) :
    window (seqs.getD idx []) j l ∈ allWindows seqs := by
  unfold allWindows
  rw [List.mem_flatMap]
  refine ⟨seqs.getD idx [], ?_, ?_⟩
  · rw [List.getD_eq_getElem _ _ hidx]
    exact List.getElem_mem _
  · rw [List.mem_flatMap]
    refine ⟨l, ?_, List.mem_map.2 ⟨j, List.mem_range.2 (by omega), rfl⟩⟩
    rw [List.mem_range'_1]
    omega

theorem mem_allWindows_iff (seqs : List (List Nat)) (w : List Nat) :
    w ∈ allWindows seqs ↔ 2 ≤ w.length ∧ ∃ seq ∈ seqs, w <:+: seq := by
  unfold allWindows
  simp only [List.mem_flatMap, List.mem_map, List.mem_range, List.mem_range'_1]
  constructor
  · rintro ⟨seq, hseq, l, hl, j, hj, rfl⟩
    refine ⟨?_, seq, hseq, window_isInfix seq j l⟩
    rw [window_length (by omega)]
    exact hl.1
  · rintro ⟨h2, seq, hseq, hw⟩
    obtain ⟨i, hi, he⟩ := (isInfix_iff_window w seq).1 hw
    exact ⟨seq, hseq, w.length, by omega, i, by omega, he⟩

/-- A window whose bucket passes the test is contained in no other path, collisions or
not. -/
theorem uniqueBucket_absent {r : RollingHashIndex} {seqs : List (List Nat)} {A : Nat}
    (hr : r.Inv seqs A) {id i l : Nat} (h2 : 2 ≤ l) (hl : l ≤ r.hash_len)
    (hi : i + l ≤ (seqs.getD id []).length)
    (hu : UniqueBucket r.index (queryHash A (seqs.getD id []) i l) id) :
    AbsentElsewhere seqs id (window (seqs.getD id []) i l) := by
  obtain ⟨t, _, _, htid, hall⟩ := (uniqueBucket_iff hr _ _).1 hu
  intro idx hidx hne hin
  obtain ⟨j, hj, hw⟩ := (isInfix_iff_window _ _).1 hin
  rw [window_length hi] at hj hw
  have hmem : (l, idx, j) ∈ allTriples seqs r.hash_len :=
    (mem_allTriples seqs r.hash_len _).2 ⟨h2, hl, hidx, hj⟩
  have hh : tripleHash A seqs (l, idx, j) = queryHash A (seqs.getD id []) i l := by
    unfold tripleHash queryHash
    simp only
    rw [hw]
  have := hall _ hmem hh
  rw [← this] at htid
  exact hne htid

/-- Without collisions the test succeeds exactly on the windows that occur once. -/
theorem uniqueBucket_iff_occursOnce {r : RollingHashIndex} {seqs : List (List Nat)} {A : Nat}
    (hr : r.Inv seqs A) (hinj : HashInjective A seqs) {id i l : Nat} (hid : id < seqs.length)
    (h2 : 2 ≤ l) (hl : l ≤ r.hash_len) (hi : i + l ≤ (seqs.getD id []).length) :
    UniqueBucket r.index (queryHash A (seqs.getD id []) i l) id ↔ OccursOnce seqs id i l := by
  have ht0 : (l, id, i) ∈ allTriples seqs r.hash_len :=
    (mem_allTriples seqs r.hash_len _).2 ⟨h2, hl, hid, hi⟩
  rw [uniqueBucket_iff hr]
  constructor
  · rintro ⟨t, _, _, _, hall⟩ idx j hidx hj hw
    have hmem : (l, idx, j) ∈ allTriples seqs r.hash_len :=
      (mem_allTriples seqs r.hash_len _).2 ⟨h2, hl, hidx, hj⟩
    have hh : tripleHash A seqs (l, idx, j) = queryHash A (seqs.getD id []) i l := by
      unfold tripleHash queryHash
      simp only
      rw [hw]
    have e1 := hall _ hmem hh
    have e2 := hall _ ht0 rfl
    have e3 : (l, idx, j) = (l, id, i) := e1.trans e2.symm
    simp only [Prod.mk.injEq, true_and] at e3
    exact e3
  · intro hocc
    refine ⟨(l, id, i), ht0, rfl, rfl, ?_⟩
    rintro ⟨l', idx, j⟩ hmem hh
    obtain ⟨h2', _, hidx, hj⟩ := (mem_allTriples seqs r.hash_len _).1 hmem
    simp only at h2' hidx hj
    have hw : window (seqs.getD idx []) j l' = window (seqs.getD id []) i l :=
      hinj _ (mem_allWindows hidx h2' hj) _ (mem_allWindows hid h2 hi) hh
    have hll : l' = l := by
      have := congrArg List.length hw
      rwa [window_length hj, window_length hi] at this
    subst hll
    obtain ⟨e1, e2⟩ := hocc idx j hidx hj hw
    rw [e1, e2]

/-! ## The rolling-hash index: what a query returns -/

/-- The inner loop of a query over the positions `a, …, a + b - 1`. -/
theorem querySubSeqWindows_spec (A : Nat) (index : Nat → Option (List Nat)) (seq : List Nat)
    (id l : Nat) :
    ∀ (b a : Nat),
      (querySubSeqWindows A index seq id l (List.range' a b) = none →
        ∀ i, a ≤ i → i < a + b → ¬ UniqueBucket index (queryHash A seq i l) id) ∧
      (querySubSeqWindows A index seq id l (List.range' a b) = some SubSeqReturn.notFound →
        ∃ i, a ≤ i ∧ i < a + b ∧ index (queryHash A seq i l) = none) ∧
      (∀ S, querySubSeqWindows A index seq id l (List.range' a b) = some (SubSeqReturn.found S) →
        ∃ i, a ≤ i ∧ i < a + b ∧ S = window seq i l ∧
          UniqueBucket index (queryHash A seq i l) id ∧
          ∀ i', a ≤ i' → i' < i → ¬ UniqueBucket index (queryHash A seq i' l) id) ∧
      querySubSeqWindows A index seq id l (List.range' a b) ≠ some SubSeqReturn.exhausted := by
  intro b
  induction b with
  | zero =>
    intro a
    simp only [List.range'_zero, querySubSeqWindows]
    refine ⟨fun _ i h1 h2 => by omega, fun h => (by cases h), fun S h => (by cases h),
      fun h => (by cases h)⟩
  | succ b ih =>
    intro a
    obtain ⟨ih1, ih2, ih3, ih4⟩ := ih (a + 1)
    rw [List.range'_succ]
    unfold querySubSeqWindows
    cases hb : index (queryHash A seq a l) with
    | none =>
      simp only
      refine ⟨fun h => (by cases h), fun _ => ⟨a, le_refl _, by omega, hb⟩, fun S h => (by cases h),
        fun h => (by cases h)⟩
    | some bucket =>
      simp only
      by_cases hc : bucket.length = 1 ∧ bucket.head? = some id
      · rw [if_pos hc]
        refine ⟨fun h => (by cases h), fun h => (by cases h), ?_, fun h => (by cases h)⟩
        intro S hS
        simp only [Option.some.injEq, SubSeqReturn.found.injEq] at hS
        exact ⟨a, le_refl _, by omega, hS.symm, ⟨bucket, hb, hc.1, hc.2⟩,
          fun i' h1 h2 => by omega⟩
      · rw [if_neg hc]
        have hna : ¬ UniqueBucket index (queryHash A seq a l) id := by
          rintro ⟨b', hb', h1, h2⟩
          rw [hb] at hb'
          cases hb'
          exact hc ⟨h1, h2⟩
        refine ⟨?_, ?_, ?_, ih4⟩
        · intro h i hi1 hi2
          by_cases hia : i = a
          · rw [hia]; exact hna
          · exact ih1 h i (by omega) (by omega)
        · intro h
          obtain ⟨i, h1, h2, h3⟩ := ih2 h
          exact ⟨i, by omega, by omega, h3⟩
        · intro S h
          obtain ⟨i, h1, h2, h3, h4, h5⟩ := ih3 S h
          refine ⟨i, by omega, by omega, h3, h4, ?_⟩
          intro i' hi1 hi2
          by_cases hia : i' = a
          · rw [hia]; exact hna
          · exact h5 i' (by omega) hi2

/-- The outer loop of a query over the lengths `s, …, s + k - 1`, on an index that holds
the windows of length `s`. -/
theorem querySubSeqLoop_spec (seqs : List (List Nat)) (A id : Nat) (hid : id < seqs.length) :
    ∀ (k s : Nat) (r : RollingHashIndex), r.Inv seqs A → 2 ≤ s → s ≤ r.hash_len →
      (k ≠ 0 → s + k ≤ (seqs.getD id []).length + 1) →
      (querySubSeqLoop (seqs.getD id []) id (List.range' s k) r).2.Inv seqs A ∧
      (querySubSeqLoop (seqs.getD id []) id (List.range' s k) r).1 ≠ SubSeqReturn.notFound ∧
      (∀ S, (querySubSeqLoop (seqs.getD id []) id (List.range' s k) r).1 = SubSeqReturn.found S →
        ∃ l i, s ≤ l ∧ l < s + k ∧ i + l ≤ (seqs.getD id []).length ∧
          S = window (seqs.getD id []) i l ∧ PassesAt seqs A id i l ∧
          (∀ i', i' < i → FailsAt seqs A id i' l) ∧
          ∀ l' i', s ≤ l' → l' < l → i' + l' ≤ (seqs.getD id []).length →
            FailsAt seqs A id i' l') ∧
      ((querySubSeqLoop (seqs.getD id []) id (List.range' s k) r).1 = SubSeqReturn.exhausted →
        ∀ l' i', s ≤ l' → l' < s + k → i' + l' ≤ (seqs.getD id []).length →
          FailsAt seqs A id i' l') := by
  intro k
  induction k with
  | zero =>
    intro s r hr _ _ _
    simp only [List.range'_zero, querySubSeqLoop]
    refine ⟨hr, fun h => (by cases h), fun S h => (by cases h),
      fun _ l' i' h1 h2 => by omega⟩
  | succ k ih =>
    intro s r hr h2 hs hk
    have hsn : s ≤ (seqs.getD id []).length := by
      have := hk (by omega)
      omega
    have hA : r.A = A := hr.2.1
    obtain ⟨w1, w2, w3, w4⟩ := querySubSeqWindows_spec A r.index (seqs.getD id []) id s
      ((seqs.getD id []).length - s + 1) 0
    rw [List.range'_succ]
    unfold querySubSeqLoop
    rw [hA, List.range_eq_range']
    cases hw : querySubSeqWindows A r.index (seqs.getD id []) id s
        (List.range' 0 ((seqs.getD id []).length - s + 1)) with
    | some ret =>
      simp only
      cases ret with
      | notFound =>
        exfalso
        obtain ⟨i, _, hi, hnone⟩ := w2 hw
        have hmem : (s, id, i) ∈ allTriples seqs r.hash_len :=
          (mem_allTriples seqs r.hash_len _).2 ⟨h2, hs, hid, by simp only; omega⟩
        exact index_ne_none hr hmem hnone
      | exhausted => exact absurd hw w4
      | found S =>
        refine ⟨hr, fun h => (by cases h), ?_, fun h => (by cases h)⟩
        intro S' hS'
        simp only [SubSeqReturn.found.injEq] at hS'
        subst hS'
        obtain ⟨i, _, hi, hS, hu, hbefore⟩ := w3 S hw
        refine ⟨s, i, le_refl _, by omega, by omega, hS, ⟨r, hr, hs, hu⟩, ?_, ?_⟩
        · intro i' hi'
          exact ⟨r, hr, hs, hbefore i' (Nat.zero_le _) hi'⟩
        · intro l' i' h1 h2'
          omega
    | none =>
      simp only
      obtain ⟨hr', _, hge⟩ := updateIndex_inv hr (s + 1)
      have hs' : s + 1 ≤ (r.updateIndex (s + 1)).hash_len := hge (by omega)
      obtain ⟨i1, i2, i3, i4⟩ := ih (s + 1) (r.updateIndex (s + 1)) hr' (by omega) hs'
        (fun hk0 => by have := hk (by omega); omega)
      have hfail : ∀ i', i' + s ≤ (seqs.getD id []).length → FailsAt seqs A id i' s :=
        fun i' hi' => ⟨r, hr, hs, w1 hw i' (Nat.zero_le _) (by omega)⟩
      refine ⟨i1, i2, ?_, ?_⟩
      · intro S hS
        obtain ⟨l, i, h1, h2', h3, h4, h5, h6, h7⟩ := i3 S hS
        refine ⟨l, i, by omega, by omega, h3, h4, h5, h6, ?_⟩
        intro l' i' hl1 hl2 hi'
        by_cases hls : l' = s
        · rw [hls]; rw [hls] at hi'; exact hfail i' hi'
        · exact h7 l' i' (by omega) hl2 hi'
      · intro he l' i' hl1 hl2 hi'
        by_cases hls : l' = s
        · rw [hls]; rw [hls] at hi'; exact hfail i' hi'
        · exact i4 he l' i' (by omega) (by omega) hi'

/-- A query on an index in a reachable state: it returns, never through "Not found", and
the index stays in a reachable state. -/
theorem getShortestUniqueSubSeq_spec {r : RollingHashIndex} {seqs : List (List Nat)} {A : Nat}
    (hr : r.Inv seqs A) (id : Int) (h0 : 0 ≤ id) (h1 : id < seqs.length) :
    ∃ ret r', r.getShortestUniqueSubSeq id = some (ret, r') ∧ r'.Inv seqs A ∧
      ret ≠ SubSeqReturn.notFound ∧
      (∀ S, ret = SubSeqReturn.found S →
        ∃ l i, 2 ≤ l ∧ i + l ≤ (seqs.getD id.toNat []).length ∧
          S = window (seqs.getD id.toNat []) i l ∧ PassesAt seqs A id.toNat i l ∧
          (∀ i', i' < i → FailsAt seqs A id.toNat i' l) ∧
          ∀ l' i', 2 ≤ l' → l' < l → i' + l' ≤ (seqs.getD id.toNat []).length →
            FailsAt seqs A id.toNat i' l') ∧
      (ret = SubSeqReturn.exhausted →
        ∀ l' i', 2 ≤ l' → i' + l' ≤ (seqs.getD id.toNat []).length →
          FailsAt seqs A id.toNat i' l') := by
  have hs : r.sequences = seqs := hr.1
  have hid : id.toNat < seqs.length := by omega
  obtain ⟨q1, q2, q3, q4⟩ := querySubSeqLoop_spec seqs A id.toNat hid
    ((seqs.getD id.toNat []).length - 1) 2 r hr (le_refl _) hr.2.2.1 (fun _ => by omega)
  refine ⟨_, _, ?_, q1, q2, ?_, ?_⟩
  · unfold RollingHashIndex.getShortestUniqueSubSeq
    rw [hs, if_pos ⟨h0, h1⟩]
  · intro S hS
    obtain ⟨l, i, a1, _, a3, a4, a5, a6, a7⟩ := q3 S hS
    exact ⟨l, i, a1, a3, a4, a5, a6, a7⟩
  · intro he l' i' hl hi
    exact q4 he l' i' hl (by omega) hi

theorem afterQueries_inv {seqs : List (List Nat)} {A : Nat} :
    ∀ (qs : List Int) (r r' : RollingHashIndex), r.Inv seqs A →
      r.afterQueries qs = some r' → r'.Inv seqs A := by
  intro qs
  induction qs with
  | nil =>
    intro r r' hr h
    simp only [RollingHashIndex.afterQueries, Option.some.injEq] at h
    rw [← h]; exact hr
  | cons id qs ih =>
    intro r r' hr h
    unfold RollingHashIndex.afterQueries at h
    cases hq : r.getShortestUniqueSubSeq id with
    | none => rw [hq] at h; cases h
    | some res =>
      rw [hq] at h
      simp only at h
      have hs : r.sequences = seqs := hr.1
      have hvalid : 0 ≤ id ∧ id < seqs.length := by
        unfold RollingHashIndex.getShortestUniqueSubSeq at hq
        rw [hs] at hq
        by_contra hn
        rw [if_neg hn] at hq
        cases hq
      obtain ⟨ret, r₁, he, hinv, _⟩ := getShortestUniqueSubSeq_spec hr id hvalid.1 hvalid.2
      rw [he] at hq
      cases hq
      exact ih _ _ hinv h

/-! ## The rolling-hash index: C23, C24, C25 -/

theorem occursOnce_iff_absent {seqs : List (List Nat)} {id i l : Nat}
    (hi : i + l ≤ (seqs.getD id []).length)
    (hrep : ∀ j, j + l ≤ (seqs.getD id []).length →
      window (seqs.getD id []) j l = window (seqs.getD id []) i l → j = i) :
    OccursOnce seqs id i l ↔ AbsentElsewhere seqs id (window (seqs.getD id []) i l) := by
  constructor
  · intro hocc idx hidx hne hin
    obtain ⟨j, hj, hw⟩ := (isInfix_iff_window _ _).1 hin
    rw [window_length hi] at hj hw
    exact hne (hocc idx j hidx hj hw).1
  · intro habs idx j hidx hj hw
    by_cases hne : idx = id
    · subst hne
      exact ⟨rfl, hrep j hj hw⟩
    · exfalso
      apply habs idx hidx hne
      rw [← hw]
      exact window_isInfix _ _ _

/-- C23: on an index built by the constructor over any list of paths and any hash base,
after any earlier queries, a query for a valid path id returns; if it returns a non-empty
sequence `S`, then `S` is a contiguous window of the queried path and no other path of the
list contains `S` as a contiguous subsequence.  No assumption on the hash is made. -/
theorem getShortestUniqueSubSeq_sound (seqs : List (List Nat)) (A : Nat) (qs : List Int)
    (r : RollingHashIndex) (id : Int)
    (hq : (RollingHashIndex.new seqs A).afterQueries qs = some r)
    (h0 : 0 ≤ id) (h1 : id < seqs.length) :
    ∃ ret r', r.getShortestUniqueSubSeq id = some (ret, r') ∧
      (ret.value ≠ [] →
        (∃ i, i + ret.value.length ≤ (seqs.getD id.toNat []).length ∧
          window (seqs.getD id.toNat []) i ret.value.length = ret.value) ∧
        ret.value <:+: seqs.getD id.toNat [] ∧
        ∀ q, q < seqs.length → q ≠ id.toNat → ¬ ret.value <:+: seqs.getD q []) := by
  have hr := afterQueries_inv qs _ r (new_inv seqs A) hq
  obtain ⟨ret, r', he, _, _, hfound, _⟩ := getShortestUniqueSubSeq_spec hr id h0 h1
  refine ⟨ret, r', he, ?_⟩
  intro hne
  cases ret with
  | notFound => exact absurd rfl hne
  | exhausted => exact absurd rfl hne
  | found S =>
    obtain ⟨l, i, h2, hi, hS, ⟨r₁, hr₁, hl, hu⟩, _⟩ := hfound S rfl
    have hlen : S.length = l := by rw [hS]; exact window_length hi
    simp only [SubSeqReturn.value]
    refine ⟨⟨i, by omega, by rw [hlen]; exact hS.symm⟩, ?_, ?_⟩
    · rw [hS]; exact window_isInfix _ _ _
    · rw [hS]
      exact uniqueBucket_absent hr₁ h2 hl hi hu

theorem getShortestUniqueSubSeq_sound_witness :
    (RollingHashIndex.new exSeqsE6 5).afterQueries [] = some (RollingHashIndex.new exSeqsE6 5) ∧
    (0 : Int) ≤ 0 ∧ (0 : Int) < exSeqsE6.length ∧
    ∃ ret r', (RollingHashIndex.new exSeqsE6 5).getShortestUniqueSubSeq 0 = some (ret, r') ∧
      (ret.value ≠ [] →
        (∃ i, i + ret.value.length ≤ (exSeqsE6.getD (0 : Int).toNat []).length ∧
          window (exSeqsE6.getD (0 : Int).toNat []) i ret.value.length = ret.value) ∧
        ret.value <:+: exSeqsE6.getD (0 : Int).toNat [] ∧
        ∀ q, q < exSeqsE6.length → q ≠ (0 : Int).toNat → ¬ ret.value <:+: exSeqsE6.getD q []) :=
  ⟨rfl, by decide, by decide,
    getShortestUniqueSubSeq_sound exSeqsE6 5 [] (RollingHashIndex.new exSeqsE6 5) 0 rfl
      (by decide) (by decide)⟩

/-- C24 (counterexample): for the paths `[0,1,2,1,2,3]` and `[0,1,3]` (base `4`, distinct
windows have distinct hashes) the query for path `0` returns `[2,1]`, although the window
`[1,2]`, of the same length and further to the left, occurs in no other path: `[1,2]` occurs
twice in path `0`, so its bucket holds two entries and fails the test `size() == 1`. -/
theorem shortest_unique_skips_repeated_window :
    HashInjective 4 exSeqsRepeat ∧
    ((RollingHashIndex.new exSeqsRepeat 4).getShortestUniqueSubSeq 0).map
      (fun x => x.1.value) = some [2, 1] ∧
    window (exSeqsRepeat.getD 0 []) 1 2 = [1, 2] ∧
    window (exSeqsRepeat.getD 0 []) 2 2 = [2, 1] ∧
    window (exSeqsRepeat.getD 0 []) 3 2 = [1, 2] ∧
    AbsentElsewhere exSeqsRepeat 0 [1, 2] ∧
    (RollingHashIndex.new exSeqsRepeat 4).index (queryHash 4 (exSeqsRepeat.getD 0 []) 1 2)
      = some [0, 0] := by
  refine ⟨by decide, by decide, rfl, rfl, rfl, ?_, by decide⟩
  intro idx h1 h2
  have : idx = 1 := by
    simp only [exSeqsRepeat, List.length_cons, List.length_nil] at h1
    omega
  subst this
  decide

/-- C24 (amended): assuming distinct windows have distinct hashes, a query for a valid path
id `p` returns, and if it returns a non-empty `S`, then `S` is the leftmost among the
shortest windows of length at least `2` of path `p` that occur exactly once in the whole
list (at one position of `p` and in no other path): no window of `p` that is shorter, or of
the same length and further left, occurs exactly once.  When no window repeats inside
path `p`, these are the windows that occur in no other path.  For the paths `[0,1,2,3]` and
`[0,1,4,3]` the result for the first path is `[1,2]`. -/
theorem getShortestUniqueSubSeq_leftmost_shortest (seqs : List (List Nat)) (A : Nat)
    (qs : List Int) (r : RollingHashIndex) (id : Int)
    (hinj : HashInjective A seqs)
    (hq : (RollingHashIndex.new seqs A).afterQueries qs = some r)
    (h0 : 0 ≤ id) (h1 : id < seqs.length) :
    (∃ ret r', r.getShortestUniqueSubSeq id = some (ret, r') ∧
      (ret.value ≠ [] →
        ∃ l i, 2 ≤ l ∧ i + l ≤ (seqs.getD id.toNat []).length ∧
          ret.value = window (seqs.getD id.toNat []) i l ∧
          OccursOnce seqs id.toNat i l ∧
          (∀ i', i' < i → ¬ OccursOnce seqs id.toNat i' l) ∧
          (∀ l' i', 2 ≤ l' → l' < l → i' + l' ≤ (seqs.getD id.toNat []).length →
            ¬ OccursOnce seqs id.toNat i' l') ∧
          ((∀ l' i' j', i' + l' ≤ (seqs.getD id.toNat []).length →
              j' + l' ≤ (seqs.getD id.toNat []).length →
              window (seqs.getD id.toNat []) j' l' = window (seqs.getD id.toNat []) i' l' →
              j' = i') →
            AbsentElsewhere seqs id.toNat ret.value ∧
            (∀ i', i' < i →
              ¬ AbsentElsewhere seqs id.toNat (window (seqs.getD id.toNat []) i' l)) ∧
            ∀ l' i', 2 ≤ l' → l' < l → i' + l' ≤ (seqs.getD id.toNat []).length →
              ¬ AbsentElsewhere seqs id.toNat (window (seqs.getD id.toNat []) i' l')))) ∧
    ((RollingHashIndex.new exSeqsE6 5).getShortestUniqueSubSeq 0).map
      (fun x => x.1.value) = some [1, 2] := by
  refine ⟨?_, by decide⟩
  have hr := afterQueries_inv qs _ r (new_inv seqs A) hq
  have hid : id.toNat < seqs.length := by omega
  obtain ⟨ret, r', he, _, _, hfound, _⟩ := getShortestUniqueSubSeq_spec hr id h0 h1
  refine ⟨ret, r', he, ?_⟩
  intro hne
  cases ret with
  | notFound => exact absurd rfl hne
  | exhausted => exact absurd rfl hne
  | found S =>
    obtain ⟨l, i, h2, hi, hS, ⟨r₁, hr₁, hl, hu⟩, hleft, hshort⟩ := hfound S rfl
    simp only [SubSeqReturn.value]
    have hocc : OccursOnce seqs id.toNat i l :=
      (uniqueBucket_iff_occursOnce hr₁ hinj hid h2 hl hi).1 hu
    have hleft' : ∀ i', i' < i → ¬ OccursOnce seqs id.toNat i' l := by
      intro i' hi'
      obtain ⟨r₂, hr₂, hl₂, hnu⟩ := hleft i' hi'
      exact fun h => hnu ((uniqueBucket_iff_occursOnce hr₂ hinj hid h2 hl₂ (by omega)).2 h)
    have hshort' : ∀ l' i', 2 ≤ l' → l' < l → i' + l' ≤ (seqs.getD id.toNat []).length →
        ¬ OccursOnce seqs id.toNat i' l' := by
      intro l' i' hl1 hl2 hi'
      obtain ⟨r₂, hr₂, hl₂, hnu⟩ := hshort l' i' hl1 hl2 hi'
      exact fun h => hnu ((uniqueBucket_iff_occursOnce hr₂ hinj hid hl1 hl₂ hi').2 h)
    refine ⟨l, i, h2, hi, hS, hocc, hleft', hshort', ?_⟩
    intro hrep
    refine ⟨?_, ?_, ?_⟩
    · rw [hS]
      exact (occursOnce_iff_absent hi (fun j hj hw => hrep l i j hi hj hw)).1 hocc
    · intro i' hi' habs
      exact hleft' i' hi'
        ((occursOnce_iff_absent (by omega) (fun j hj hw => hrep l i' j (by omega) hj hw)).2 habs)
    · intro l' i' hl1 hl2 hi' habs
      exact hshort' l' i' hl1 hl2 hi'
        ((occursOnce_iff_absent hi' (fun j hj hw => hrep l' i' j hi' hj hw)).2 habs)

theorem getShortestUniqueSubSeq_leftmost_shortest_witness :
    HashInjective 4 exSeqsRepeat ∧
    (RollingHashIndex.new exSeqsRepeat 4).afterQueries [] =
      some (RollingHashIndex.new exSeqsRepeat 4) ∧
    (0 : Int) ≤ 0 ∧ (0 : Int) < exSeqsRepeat.length ∧
    ((∃ ret r', (RollingHashIndex.new exSeqsRepeat 4).getShortestUniqueSubSeq 0
        = some (ret, r') ∧
      (ret.value ≠ [] →
        ∃ l i, 2 ≤ l ∧ i + l ≤ (exSeqsRepeat.getD (0 : Int).toNat []).length ∧
          ret.value = window (exSeqsRepeat.getD (0 : Int).toNat []) i l ∧
          OccursOnce exSeqsRepeat (0 : Int).toNat i l ∧
          (∀ i', i' < i → ¬ OccursOnce exSeqsRepeat (0 : Int).toNat i' l) ∧
          (∀ l' i', 2 ≤ l' → l' < l →
            i' + l' ≤ (exSeqsRepeat.getD (0 : Int).toNat []).length →
            ¬ OccursOnce exSeqsRepeat (0 : Int).toNat i' l') ∧
          ((∀ l' i' j', i' + l' ≤ (exSeqsRepeat.getD (0 : Int).toNat []).length →
              j' + l' ≤ (exSeqsRepeat.getD (0 : Int).toNat []).length →
              window (exSeqsRepeat.getD (0 : Int).toNat []) j' l' =
                window (exSeqsRepeat.getD (0 : Int).toNat []) i' l' →
              j' = i') →
            AbsentElsewhere exSeqsRepeat (0 : Int).toNat ret.value ∧
            (∀ i', i' < i → ¬ AbsentElsewhere exSeqsRepeat (0 : Int).toNat
              (window (exSeqsRepeat.getD (0 : Int).toNat []) i' l)) ∧
            ∀ l' i', 2 ≤ l' → l' < l →
              i' + l' ≤ (exSeqsRepeat.getD (0 : Int).toNat []).length →
              ¬ AbsentElsewhere exSeqsRepeat (0 : Int).toNat
                (window (exSeqsRepeat.getD (0 : Int).toNat []) i' l')))) ∧
    ((RollingHashIndex.new exSeqsE6 5).getShortestUniqueSubSeq 0).map
      (fun x => x.1.value) = some [1, 2]) :=
  ⟨by decide, rfl, by decide, by decide,
    getShortestUniqueSubSeq_leftmost_shortest exSeqsRepeat 4 []
      (RollingHashIndex.new exSeqsRepeat 4) 0 (by decide) rfl (by decide) (by decide)⟩

/-- C25: assuming distinct windows have distinct hashes, a query for a valid path id `p`
returns, and it returns the empty sequence if and only if path `p` has no contiguous window
of a length between `2` and `|p|` that is absent from every other path; that is the case if
and only if `p` has fewer than two nodes or some other path contains the whole of `p` as a
contiguous subsequence. -/
theorem getShortestUniqueSubSeq_empty_iff (seqs : List (List Nat)) (A : Nat) (qs : List Int)
    (r : RollingHashIndex) (id : Int)
    (hinj : HashInjective A seqs)
    (hq : (RollingHashIndex.new seqs A).afterQueries qs = some r)
    (h0 : 0 ≤ id) (h1 : id < seqs.length) :
    ∃ ret r', r.getShortestUniqueSubSeq id = some (ret, r') ∧
      (ret.value = [] ↔
        ¬ ∃ l i, 2 ≤ l ∧ i + l ≤ (seqs.getD id.toNat []).length ∧
          AbsentElsewhere seqs id.toNat (window (seqs.getD id.toNat []) i l)) ∧
      ((¬ ∃ l i, 2 ≤ l ∧ i + l ≤ (seqs.getD id.toNat []).length ∧
          AbsentElsewhere seqs id.toNat (window (seqs.getD id.toNat []) i l)) ↔
        ((seqs.getD id.toNat []).length < 2 ∨
          ∃ q, q < seqs.length ∧ q ≠ id.toNat ∧ seqs.getD id.toNat [] <:+: seqs.getD q [])) := by
  have hr := afterQueries_inv qs _ r (new_inv seqs A) hq
  have hid : id.toNat < seqs.length := by omega
  have hwhole : window (seqs.getD id.toNat []) 0 (seqs.getD id.toNat []).length =
      seqs.getD id.toNat [] := by
    unfold window
    simp
  have hsecond : (¬ ∃ l i, 2 ≤ l ∧ i + l ≤ (seqs.getD id.toNat []).length ∧
        AbsentElsewhere seqs id.toNat (window (seqs.getD id.toNat []) i l)) ↔
      ((seqs.getD id.toNat []).length < 2 ∨
        ∃ q, q < seqs.length ∧ q ≠ id.toNat ∧ seqs.getD id.toNat [] <:+: seqs.getD q []) := by
    constructor
    · intro hno
      by_contra hcon
      push_neg at hcon
      obtain ⟨hlen, hnoq⟩ := hcon
      apply hno
      refine ⟨(seqs.getD id.toNat []).length, 0, hlen, by omega, ?_⟩
      rw [hwhole]
      intro q hq1 hq2 hin
      exact hnoq q hq1 hq2 hin
    · rintro (hlen | ⟨q, hq1, hq2, hin⟩)
      · rintro ⟨l, i, h2, hi, _⟩
        omega
      · rintro ⟨l, i, _, _, habs⟩
        exact habs q hq1 hq2 ((window_isInfix _ i l).trans hin)
  obtain ⟨ret, r', he, _, hnf, hfound, hexh⟩ := getShortestUniqueSubSeq_spec hr id h0 h1
  refine ⟨ret, r', he, ?_, hsecond⟩
  constructor
  · intro hempty
    rintro ⟨l₀, i₀, h2, hi₀, habs⟩
    -- the whole of `p` is then absent from every other path and occurs once
    have hn2 : 2 ≤ (seqs.getD id.toNat []).length := by omega
    have hoccW : OccursOnce seqs id.toNat 0 (seqs.getD id.toNat []).length := by
      intro idx j hidx hj hw
      by_cases hne : idx = id.toNat
      · subst hne
        exact ⟨rfl, by omega⟩
      · exfalso
        apply habs idx hidx hne
        refine (window_isInfix _ i₀ l₀).trans ?_
        rw [hwhole] at hw
        rw [← hw]
        exact window_isInfix _ _ _
    cases ret with
    | notFound => exact hnf rfl
    | found S =>
      obtain ⟨l, i, hl2, hi, hS, _⟩ := hfound S rfl
      simp only [SubSeqReturn.value] at hempty
      have := congrArg List.length hS
      rw [hempty, window_length hi] at this
      simp only [List.length_nil] at this
      omega
    | exhausted =>
      obtain ⟨r₂, hr₂, hl₂, hnu⟩ := hexh rfl (seqs.getD id.toNat []).length 0 hn2 (by omega)
      exact hnu ((uniqueBucket_iff_occursOnce hr₂ hinj hid hn2 hl₂ (by omega)).2 hoccW)
  · intro hno
    cases ret with
    | notFound => rfl
    | exhausted => rfl
    | found S =>
      exfalso
      obtain ⟨l, i, h2, hi, hS, ⟨r₁, hr₁, hl, hu⟩, _⟩ := hfound S rfl
      exact hno ⟨l, i, h2, hi, uniqueBucket_absent hr₁ h2 hl hi hu⟩

theorem getShortestUniqueSubSeq_empty_iff_witness :
    HashInjective 5 exSeqsE6 ∧
    (RollingHashIndex.new exSeqsE6 5).afterQueries [] = some (RollingHashIndex.new exSeqsE6 5) ∧
    (0 : Int) ≤ 1 ∧ (1 : Int) < exSeqsE6.length ∧
    ∃ ret r', (RollingHashIndex.new exSeqsE6 5).getShortestUniqueSubSeq 1 = some (ret, r') ∧
      (ret.value = [] ↔
        ¬ ∃ l i, 2 ≤ l ∧ i + l ≤ (exSeqsE6.getD (1 : Int).toNat []).length ∧
          AbsentElsewhere exSeqsE6 (1 : Int).toNat
            (window (exSeqsE6.getD (1 : Int).toNat []) i l)) ∧
      ((¬ ∃ l i, 2 ≤ l ∧ i + l ≤ (exSeqsE6.getD (1 : Int).toNat []).length ∧
          AbsentElsewhere exSeqsE6 (1 : Int).toNat
            (window (exSeqsE6.getD (1 : Int).toNat []) i l)) ↔
        ((exSeqsE6.getD (1 : Int).toNat []).length < 2 ∨
          ∃ q, q < exSeqsE6.length ∧ q ≠ (1 : Int).toNat ∧
            exSeqsE6.getD (1 : Int).toNat [] <:+: exSeqsE6.getD q [])) :=
  ⟨by decide, rfl, by decide, by decide,
    getShortestUniqueSubSeq_empty_iff exSeqsE6 5 [] (RollingHashIndex.new exSeqsE6 5) 1
      (by decide) rfl (by decide) (by decide)⟩

/-! ## The instrumenter: which calls `setPathToInstrument` inserts -/

theorem mem_exitBlocksInsert (s : List Nat) (x b : Nat) :
    b ∈ exitBlocksInsert s x ↔ b ∈ s ∨ b = x := by
  unfold exitBlocksInsert
  by_cases h : x ∈ s
  · rw [if_pos h]
    constructor
    · exact Or.inl
    · rintro (h' | h')
      · exact h'
      · rw [h']; exact h
  · rw [if_neg h]
    simp

theorem nodup_exitBlocksInsert {s : List Nat} (hs : s.Nodup) (x : Nat) :
    (exitBlocksInsert s x).Nodup := by
  unfold exitBlocksInsert
  by_cases h : x ∈ s
  · rw [if_pos h]; exact hs
  · rw [if_neg h]
    rw [List.nodup_append]
    refine ⟨hs, List.nodup_singleton x, ?_⟩
    intro a ha hx
    rw [List.mem_singleton] at hx
    exact h (hx ▸ ha)

theorem exitFold_spec (nextId : Nat) :
    ∀ (successors : List Nat) (E : List Nat), E.Nodup →
      (successors.foldl
        (fun s succ => if succ ≠ nextId then exitBlocksInsert s succ else s) E).Nodup ∧
      ∀ b, b ∈ successors.foldl
          (fun s succ => if succ ≠ nextId then exitBlocksInsert s succ else s) E ↔
        b ∈ E ∨ (b ∈ successors ∧ b ≠ nextId) := by
  intro successors
  induction successors with
  | nil => intro E hE; simp [hE]
  | cons x xs ih =>
    intro E hE
    rw [List.foldl_cons]
    by_cases hx : x ≠ nextId
    · rw [if_pos hx]
      obtain ⟨h1, h2⟩ := ih _ (nodup_exitBlocksInsert hE x)
      refine ⟨h1, fun b => ?_⟩
      rw [h2, mem_exitBlocksInsert]
      constructor
      · rintro ((h | h) | ⟨h, h'⟩)
        · exact Or.inl h
        · exact Or.inr ⟨h ▸ List.mem_cons_self _ _, h ▸ hx⟩
        · exact Or.inr ⟨List.mem_cons_of_mem _ h, h'⟩
      · rintro (h | ⟨h, h'⟩)
        · exact Or.inl (Or.inl h)
        · rcases List.mem_cons.1 h with h | h
          · exact Or.inl (Or.inr h)
          · exact Or.inr ⟨h, h'⟩
    · rw [if_neg hx]
      obtain ⟨h1, h2⟩ := ih _ hE
      refine ⟨h1, fun b => ?_⟩
      rw [h2]
      have hx' : x = nextId := by simpa using hx
      constructor
      · rintro (h | ⟨h, h'⟩)
        · exact Or.inl h
        · exact Or.inr ⟨List.mem_cons_of_mem _ h, h'⟩
      · rintro (h | ⟨h, h'⟩)
        · exact Or.inl h
        · rcases List.mem_cons.1 h with h | h
          · exact absurd (h.trans hx') h'
          · exact Or.inr ⟨h, h'⟩

theorem offPath_cons_cons (cfg : CFG) (u nextId : Nat) (rest : List Nat) (b : Nat) :
    OffPath cfg (u :: nextId :: rest) b ↔
      (b ∈ succs cfg.edges u ∧ b ≠ nextId) ∨ OffPath cfg (nextId :: rest) b := by
  unfold OffPath
  constructor
  · rintro ⟨i, hi, h1, h2⟩
    cases i with
    | zero => exact Or.inl ⟨by simpa using h1, by simpa using h2⟩
    | succ i =>
      right
      refine ⟨i, by simpa using hi, ?_, ?_⟩
      · simpa using h1
      · simpa using h2
  · rintro (⟨h1, h2⟩ | ⟨i, hi, h1, h2⟩)
    · exact ⟨0, by simp, by simpa using h1, by simpa using h2⟩
    · refine ⟨i + 1, by simpa using hi, ?_, ?_⟩
      · simpa using h1
      · simpa using h2

/-- The exit loop returns when the nodes of the path are blocks of the function, with the
set grown by the off-path successors. -/
theorem exitBlocksLoop_spec (cfg : CFG) :
    ∀ (seq : List Nat) (E : List Nat), (∀ u ∈ seq, u < cfg.size) → E.Nodup →
      ∃ E', exitBlocksLoop cfg seq E = some E' ∧ E'.Nodup ∧
        ∀ b, b ∈ E' ↔ b ∈ E ∨ OffPath cfg seq b
  | [], E, _, hE => ⟨E, rfl, hE, fun b => by
      simp only [OffPath, List.length_nil]
      constructor
      · exact Or.inl
      · rintro (h | ⟨i, hi, _⟩)
        · exact h
        · omega⟩
  | [u], E, _, hE => ⟨E, rfl, hE, fun b => by
      simp only [OffPath, List.length_singleton]
      constructor
      · exact Or.inl
      · rintro (h | ⟨i, hi, _⟩)
        · exact h
        · omega⟩
  | u :: nextId :: rest, E, hseq, hE => by
    have hu : u < cfg.size := hseq u (List.mem_cons_self _ _)
    obtain ⟨f1, f2⟩ := exitFold_spec nextId (succs cfg.edges u) E hE
    obtain ⟨E', h1, h2, h3⟩ := exitBlocksLoop_spec cfg (nextId :: rest) _
      (fun x hx => hseq x (List.mem_cons_of_mem _ hx)) f1
    refine ⟨E', ?_, h2, fun b => ?_⟩
    · unfold exitBlocksLoop getBlockSuccessors
      rw [if_pos hu]
      exact h1
    · rw [h3, f2, offPath_cons_cons]
      tauto

theorem exitCalls_spec :
    ∀ (L : List Nat) (c : Nat → List InstrCall) (b : Nat),
      (L.foldl (fun c bbId => insertCall c bbId (InstrCall.conditional_exit 0)) c) b =
        List.replicate (L.count b) (InstrCall.conditional_exit 0) ++ c b := by
  intro L
  induction L with
  | nil => intro c b; simp
  | cons x L ih =>
    intro c b
    rw [List.foldl_cons, ih]
    unfold insertCall
    by_cases hb : b = x
    · subst hb
      simp only [if_true, List.count_cons_self]
      rw [List.replicate_succ', List.append_assoc]
      rfl
    · rw [if_neg hb, List.count_cons_of_ne hb]

theorem triggerLoop_spec (size : Nat) :
    ∀ (S : List Nat) (i : Nat) (c : Nat → List InstrCall) (b : Nat),
      ((triggerLoop size S i c) b).filter (fun x => !x.isTrigger) =
        (c b).filter (fun x => !x.isTrigger) ∧
      ((triggerLoop size S i c) b).countP InstrCall.isTrigger =
        (c b).countP InstrCall.isTrigger + S.count b ∧
      ∀ x, x ∈ (triggerLoop size S i c) b ↔
        x ∈ c b ∨ ∃ j, j < S.length ∧ S.getD j 0 = b ∧
          x = InstrCall.trigger (triggerMask (i + j) size) := by
  intro S
  induction S with
  | nil =>
    intro i c b
    simp [triggerLoop]
  | cons s S ih =>
    intro i c b
    obtain ⟨h1, h2, h3⟩ := ih (i + 1) (insertCall c s (InstrCall.trigger (triggerMask i size))) b
    unfold triggerLoop
    refine ⟨?_, ?_, ?_⟩
    · rw [h1]
      unfold insertCall
      by_cases hb : b = s
      · rw [if_pos hb]
        simp [InstrCall.isTrigger]
      · rw [if_neg hb]
    · rw [h2]
      unfold insertCall
      by_cases hb : b = s
      · rw [if_pos hb, hb]
        simp [InstrCall.isTrigger]
        omega
      · rw [if_neg hb, List.count_cons_of_ne hb]
    · intro x
      rw [h3]
      unfold insertCall
      constructor
      · rintro (h | ⟨j, hj, hs, hx⟩)
        · by_cases hb : b = s
          · rw [if_pos hb] at h
            rcases List.mem_cons.1 h with h | h
            · exact Or.inr ⟨0, by simp, by simp [hb], by simpa using h⟩
            · exact Or.inl h
          · rw [if_neg hb] at h
            exact Or.inl h
        · refine Or.inr ⟨j + 1, by simpa using hj, by simpa using hs, ?_⟩
          rw [hx]
          congr 2
          omega
      · rintro (h | ⟨j, hj, hs, hx⟩)
        · left
          by_cases hb : b = s
          · rw [if_pos hb]; exact List.mem_cons_of_mem _ h
          · rw [if_neg hb]; exact h
        · cases j with
          | zero =>
            left
            have hb : b = s := by simpa using hs.symm
            rw [if_pos hb, hx]
            simp
          | succ j =>
            right
            refine ⟨j, by simpa using hj, by simpa using hs, ?_⟩
            rw [hx]
            congr 2
            omega

/-- What `setPathToInstrument` does on a freshly constructed instrumenter for a valid path
with a non-empty unique subsequence `S`: it returns `true`; the calls other than triggers
are one `conditional_exit(0)` in each off-path successor; the triggers are one call per
position of `S`. -/
theorem setPathToInstrument_fresh (cfg : CFG) (exitOrder : List Nat → List Nat) (pathId : Int)
    (res : SubSeqReturn × RollingHashIndex)
    (h0 : 0 ≤ pathId) (h1 : pathId < cfg.paths.length)
    (hnodes : ∀ u ∈ (cfg.paths.map Path.nodes).getD pathId.toNat [], u < cfg.size)
    (hq : (PathInstrument.new cfg).rollingHashIndex.getShortestUniqueSubSeq pathId = some res)
    (hne : res.1.value ≠ [])
    (hperm : ∀ l, (exitOrder l).Perm l) :
    ∃ self', (PathInstrument.new cfg).setPathToInstrument exitOrder pathId = some (true, self') ∧
      (∀ b, OffPath cfg ((cfg.paths.map Path.nodes).getD pathId.toNat []) b →
        (self'.calls b).filter (fun x => !x.isTrigger) = [InstrCall.conditional_exit 0]) ∧
      (∀ b, ¬ OffPath cfg ((cfg.paths.map Path.nodes).getD pathId.toNat []) b →
        (self'.calls b).filter (fun x => !x.isTrigger) = []) ∧
      (∀ b, (self'.calls b).countP InstrCall.isTrigger = res.1.value.count b) ∧
      (∀ b m, InstrCall.trigger m ∈ self'.calls b ↔
        ∃ j, j < res.1.value.length ∧ res.1.value.getD j 0 = b ∧
          m = triggerMask j res.1.value.length) := by
  obtain ⟨E, hE, hEnd, hEmem⟩ := exitBlocksLoop_spec cfg
    ((cfg.paths.map Path.nodes).getD pathId.toNat []) [] hnodes List.nodup_nil
  have hvalid : ¬ (pathId < 0 ∨ pathId ≥ (PathInstrument.new cfg).cfg.paths.length) := by
    show ¬ (pathId < 0 ∨ pathId ≥ cfg.paths.length)
    omega
  have hemp : res.1.value.isEmpty = false := by
    cases hv : res.1.value with
    | nil => exact absurd hv hne
    | cons a l => rfl
  have hE' : exitBlocksLoop (PathInstrument.new cfg).cfg
      (((PathInstrument.new cfg).cfg.paths.map Path.nodes).getD pathId.toNat [])
      (PathInstrument.new cfg).exitBlocks = some E := hE
  refine ⟨{ PathInstrument.new cfg with
      rollingHashIndex := res.2, exitBlocks := E,
      calls := (exitOrder E).foldl
        (fun c bbId => insertCall c bbId (InstrCall.conditional_exit 0))
        (triggerLoop res.1.value.length res.1.value 0 (fun _ => [])) }, ?_, ?_, ?_, ?_, ?_⟩
  · unfold PathInstrument.setPathToInstrument
    rw [if_neg hvalid, hq]
    simp only [hemp, hE']
    rfl
  all_goals simp only
  · intro b hb
    rw [exitCalls_spec, List.filter_append,
      (triggerLoop_spec res.1.value.length res.1.value 0 (fun _ => []) b).1]
    have hcount : (exitOrder E).count b = 1 := by
      rw [(hperm E).count_eq]
      exact List.count_eq_one_of_mem hEnd ((hEmem b).2 (Or.inr hb))
    rw [hcount]
    rfl
  · intro b hb
    rw [exitCalls_spec, List.filter_append,
      (triggerLoop_spec res.1.value.length res.1.value 0 (fun _ => []) b).1]
    have hcount : (exitOrder E).count b = 0 := by
      rw [(hperm E).count_eq]
      apply List.count_eq_zero_of_not_mem
      intro hmem
      rcases (hEmem b).1 hmem with h | h
      · cases h
      · exact hb h
    rw [hcount]
    rfl
  · intro b
    rw [exitCalls_spec, List.countP_append,
      (triggerLoop_spec res.1.value.length res.1.value 0 (fun _ => []) b).2.1]
    have : (List.replicate ((exitOrder E).count b) (InstrCall.conditional_exit 0)).countP
        InstrCall.isTrigger = 0 := by
      rw [List.countP_eq_zero]
      intro x hx
      rw [(List.mem_replicate.1 hx).2]
      simp [InstrCall.isTrigger]
    rw [this]
    simp
  · intro b m
    rw [exitCalls_spec, List.mem_append,
      (triggerLoop_spec res.1.value.length res.1.value 0 (fun _ => []) b).2.2]
    constructor
    · rintro (h | h | ⟨j, hj, hs, hx⟩)
      · have := (List.mem_replicate.1 h).2
        cases this
      · cases h
      · refine ⟨j, hj, hs, ?_⟩
        simp only [InstrCall.trigger.injEq, Nat.zero_add] at hx
        exact hx
    · rintro ⟨j, hj, hs, hx⟩
      exact Or.inr (Or.inr ⟨j, hj, hs, by rw [hx, Nat.zero_add]⟩)

theorem triggerMask_values (k : Nat) (hk : 2 ≤ k) :
    triggerMask 0 k = 1 ∧ triggerMask (k - 1) k = 2 ∧
    (∀ j, 0 < j → j < k - 1 → triggerMask j k = 3) ∧
    ∀ j, j < k → (((triggerMask j k).testBit 0 = true ↔ j ≠ k - 1) ∧
      ((triggerMask j k).testBit 1 = true ↔ j ≠ 0)) := by
  refine ⟨?_, ?_, ?_, ?_⟩
  · unfold triggerMask
    have : (0 : Nat) ≠ k - 1 := by omega
    simp [this]
  · unfold triggerMask
    have : k - 1 ≠ 0 := by omega
    simp [this]
  · intro j h1 h2
    unfold triggerMask
    have a : j ≠ 0 := by omega
    have b : j ≠ k - 1 := by omega
    simp [a, b]
  · intro j _
    by_cases a : j = 0
    · subst a
      have b : (0 : Nat) ≠ k - 1 := by omega
      have hm : triggerMask 0 k = 1 := by simp [triggerMask, b]
      rw [hm]
      exact ⟨⟨fun _ => b, fun _ => by decide⟩, ⟨fun h => absurd h (by decide),
        fun h => absurd rfl h⟩⟩
    · by_cases b : j = k - 1
      · have hk1 : k - 1 ≠ 0 := by omega
        have hm : triggerMask j k = 2 := by
          rw [b]
          simp [triggerMask, hk1]
        rw [hm]
        exact ⟨⟨fun h => absurd h (by decide), fun h => absurd b h⟩,
          ⟨fun _ => a, fun _ => by decide⟩⟩
      · have hm : triggerMask j k = 3 := by simp [triggerMask, a, b]
        rw [hm]
        exact ⟨⟨fun _ => b, fun _ => by decide⟩, ⟨fun _ => a, fun _ => by decide⟩⟩

/-- The unique subsequence returned on a fresh index has at least two nodes. -/
theorem fresh_subSeq_length (cfg : CFG) (pathId : Int)
    (res : SubSeqReturn × RollingHashIndex)
    (hq : (PathInstrument.new cfg).rollingHashIndex.getShortestUniqueSubSeq pathId = some res)
    (hne : res.1.value ≠ []) : 2 ≤ res.1.value.length := by
  have hinv := new_inv (cfg.paths.map Path.nodes) cfg.size
  have hq' : (RollingHashIndex.new (cfg.paths.map Path.nodes) cfg.size).getShortestUniqueSubSeq
      pathId = some res := hq
  have hvalid : 0 ≤ pathId ∧ pathId < (cfg.paths.map Path.nodes).length := by
    unfold RollingHashIndex.getShortestUniqueSubSeq at hq'
    rw [hinv.1] at hq'
    by_contra hn
    rw [if_neg hn] at hq'
    cases hq'
  obtain ⟨ret, r', he, _, _, hfound, _⟩ :=
    getShortestUniqueSubSeq_spec hinv pathId hvalid.1 hvalid.2
  rw [he] at hq'
  cases hq'
  cases ret with
  | notFound => exact absurd rfl hne
  | exhausted => exact absurd rfl hne
  | found S =>
    obtain ⟨l, i, h2, hi, hS, _⟩ := hfound S rfl
    simp only [SubSeqReturn.value]
    rw [hS, window_length hi]
    exact h2

/-! ## The instrumenter: C26, C27, C28 -/

theorem query_value_of_map {r : RollingHashIndex} {id : Int} {S : List Nat}
    (h : (r.getShortestUniqueSubSeq id).map (fun x => x.1.value) = some S) :
    ∃ res, r.getShortestUniqueSubSeq id = some res ∧ res.1.value = S := by
  cases hq : r.getShortestUniqueSubSeq id with
  | none => rw [hq] at h; cases h
  | some res =>
    rw [hq] at h
    simp only [Option.map_some', Option.some.injEq] at h
    exact ⟨res, rfl, h⟩

theorem exE6_paths : exE6CFG.paths.map Path.nodes = [[0, 1, 2, 3], [0, 1, 4, 3]] := by
  decide

theorem exE6_query :
    ∃ res, (PathInstrument.new exE6CFG).rollingHashIndex.getShortestUniqueSubSeq 0 = some res ∧
      res.1.value = [1, 2] :=
  query_value_of_map (by decide)

theorem exLoop_paths :
    exLoopCFG.paths.map Path.nodes =
      [[0, 1, 2, 1, 5], [0, 1, 2, 1, 5, 4, 1, 5], [0, 1, 3, 2, 1, 5],
        [0, 1, 3, 2, 1, 5, 4, 1, 5], [0, 1, 5]] := by
  decide

theorem exLoop_query :
    ∃ res, (PathInstrument.new exLoopCFG).rollingHashIndex.getShortestUniqueSubSeq 1 = some res ∧
      res.1.value = [1, 2, 1, 5, 4] := by
  have hsize : exLoopCFG.size = 6 := by decide
  have hidx : (PathInstrument.new exLoopCFG).rollingHashIndex =
      RollingHashIndex.new (exLoopCFG.paths.map Path.nodes) exLoopCFG.size := rfl
  rw [hidx, exLoop_paths, hsize]
  exact query_value_of_map (by decide)

theorem mem_of_filter_eq {l : List InstrCall} {x : InstrCall} (hx : x.isTrigger = false) :
    x ∈ l ↔ x ∈ l.filter (fun c => !c.isTrigger) := by
  rw [List.mem_filter]
  simp [hx]

theorem count_eq_count_filter (l : List InstrCall) (x : InstrCall)
    (hx : x.isTrigger = false) :
    l.count x = (l.filter (fun c => !c.isTrigger)).count x := by
  induction l with
  | nil => rfl
  | cons a l ih =>
    rw [List.filter_cons]
    by_cases ha : a.isTrigger = true
    · have hne : a ≠ x := by
        intro e
        rw [e, hx] at ha
        cases ha
      simp only [ha, Bool.not_true, Bool.false_eq_true, if_false]
      rw [List.count_cons_of_ne (fun e => hne e.symm), ih]
    · have ha' : a.isTrigger = false := by simpa using ha
      simp only [ha', Bool.not_false, if_true, List.count_cons, ih]

/-- C26: on a freshly constructed `PathInstrument`, for a valid path `p` with node sequence
`seq` (its nodes blocks of the function) for which a unique subsequence exists,
`setPathToInstrument(p)` returns `true`, and the blocks that receive a call of
`conditional_exit` are exactly the off-path successors
`{ s : for some i < |seq| - 1, s is a successor of seq[i] and s ≠ seq[i+1] }`: each of them
receives exactly one call, with argument `0`, and no other block receives one.  For the
paths `[0,1,2,3]` and `[0,1,4,3]` and target path `0` the set is `{4}`. -/
theorem setPathToInstrument_exit_calls (cfg : CFG) (exitOrder : List Nat → List Nat)
    (pathId : Int) (res : SubSeqReturn × RollingHashIndex)
    (h0 : 0 ≤ pathId) (h1 : pathId < cfg.paths.length)
    (hnodes : ∀ u ∈ (cfg.paths.map Path.nodes).getD pathId.toNat [], u < cfg.size)
    (hq : (PathInstrument.new cfg).rollingHashIndex.getShortestUniqueSubSeq pathId = some res)
    (hne : res.1.value ≠ [])
    (hperm : ∀ l, (exitOrder l).Perm l) :
    (∃ self', (PathInstrument.new cfg).setPathToInstrument exitOrder pathId = some (true, self') ∧
      (∀ b, OffPath cfg ((cfg.paths.map Path.nodes).getD pathId.toNat []) b →
        (self'.calls b).count (InstrCall.conditional_exit 0) = 1 ∧
        ∀ a, InstrCall.conditional_exit a ∈ self'.calls b → a = 0) ∧
      (∀ b, ¬ OffPath cfg ((cfg.paths.map Path.nodes).getD pathId.toNat []) b →
        ∀ a, InstrCall.conditional_exit a ∉ self'.calls b)) ∧
    exE6CFG.paths.map Path.nodes = [[0, 1, 2, 3], [0, 1, 4, 3]] ∧
    ((PathInstrument.new exE6CFG).setPathToInstrument id 0).map
      (fun x => (x.1, x.2.exitBlocks,
        [0, 1, 2, 3, 4].map (fun b => (x.2.calls b).filter (fun c => !c.isTrigger)))) =
      some (true, [4], [[], [], [], [], [InstrCall.conditional_exit 0]]) := by
  refine ⟨?_, exE6_paths, by decide⟩
  obtain ⟨self', hs, ha, hb, _, _⟩ :=
    setPathToInstrument_fresh cfg exitOrder pathId res h0 h1 hnodes hq hne hperm
  refine ⟨self', hs, ?_, ?_⟩
  · intro b hoff
    have hf := ha b hoff
    constructor
    · rw [count_eq_count_filter (self'.calls b) (InstrCall.conditional_exit 0) rfl, hf]
      rfl
    · intro a hmem
      rw [mem_of_filter_eq (x := InstrCall.conditional_exit a) rfl, hf] at hmem
      simpa using hmem
  · intro b hoff a hmem
    rw [mem_of_filter_eq (x := InstrCall.conditional_exit a) rfl, hb b hoff] at hmem
    cases hmem

theorem setPathToInstrument_exit_calls_witness :
    ∃ res, (0 : Int) ≤ 0 ∧ (0 : Int) < exE6CFG.paths.length ∧
      (∀ u ∈ (exE6CFG.paths.map Path.nodes).getD (0 : Int).toNat [], u < exE6CFG.size) ∧
      (PathInstrument.new exE6CFG).rollingHashIndex.getShortestUniqueSubSeq 0 = some res ∧
      res.1.value ≠ [] ∧
      ((∃ self', (PathInstrument.new exE6CFG).setPathToInstrument id 0 = some (true, self') ∧
        (∀ b, OffPath exE6CFG ((exE6CFG.paths.map Path.nodes).getD (0 : Int).toNat []) b →
          (self'.calls b).count (InstrCall.conditional_exit 0) = 1 ∧
          ∀ a, InstrCall.conditional_exit a ∈ self'.calls b → a = 0) ∧
        (∀ b, ¬ OffPath exE6CFG ((exE6CFG.paths.map Path.nodes).getD (0 : Int).toNat []) b →
          ∀ a, InstrCall.conditional_exit a ∉ self'.calls b)) ∧
      exE6CFG.paths.map Path.nodes = [[0, 1, 2, 3], [0, 1, 4, 3]] ∧
      ((PathInstrument.new exE6CFG).setPathToInstrument id 0).map
        (fun x => (x.1, x.2.exitBlocks,
          [0, 1, 2, 3, 4].map (fun b => (x.2.calls b).filter (fun c => !c.isTrigger)))) =
        some (true, [4], [[], [], [], [], [InstrCall.conditional_exit 0]])) := by
  obtain ⟨res, hq, hv⟩ := exE6_query
  have hne : res.1.value ≠ [] := by rw [hv]; decide
  exact ⟨res, by decide, by decide, by decide, hq, hne,
    setPathToInstrument_exit_calls exE6CFG id 0 res (by decide) (by decide) (by decide) hq hne
      (fun _ => List.Perm.refl _)⟩

/-- C27: on a freshly constructed `PathInstrument`, for a valid target path whose unique
subsequence is `S = [s_0, …, s_(k-1)]` (then `k ≥ 2`), `setPathToInstrument` returns `true`
and inserts for each position `i` a trigger call in block `s_i` with the argument
`triggerMask i k`, whose bit `0` is set iff `i` is not the last position and whose bit `1`
is set iff `i` is not the first position: `1` for the first node, `2` for the last, `3` for
every inner node.  No other trigger call is inserted. -/
theorem setPathToInstrument_trigger_masks (cfg : CFG) (exitOrder : List Nat → List Nat)
    (pathId : Int) (res : SubSeqReturn × RollingHashIndex)
    (h0 : 0 ≤ pathId) (h1 : pathId < cfg.paths.length)
    (hnodes : ∀ u ∈ (cfg.paths.map Path.nodes).getD pathId.toNat [], u < cfg.size)
    (hq : (PathInstrument.new cfg).rollingHashIndex.getShortestUniqueSubSeq pathId = some res)
    (hne : res.1.value ≠ [])
    (hperm : ∀ l, (exitOrder l).Perm l) :
    2 ≤ res.1.value.length ∧
    (∃ self', (PathInstrument.new cfg).setPathToInstrument exitOrder pathId = some (true, self') ∧
      (∀ i, i < res.1.value.length →
        InstrCall.trigger (triggerMask i res.1.value.length) ∈
          self'.calls (res.1.value.getD i 0)) ∧
      (∀ b m, InstrCall.trigger m ∈ self'.calls b →
        ∃ i, i < res.1.value.length ∧ res.1.value.getD i 0 = b ∧
          m = triggerMask i res.1.value.length)) ∧
    (∀ i, i < res.1.value.length →
      ((triggerMask i res.1.value.length).testBit 0 = true ↔ i ≠ res.1.value.length - 1) ∧
      ((triggerMask i res.1.value.length).testBit 1 = true ↔ i ≠ 0)) ∧
    triggerMask 0 res.1.value.length = 1 ∧
    triggerMask (res.1.value.length - 1) res.1.value.length = 2 ∧
    (∀ i, 0 < i → i < res.1.value.length - 1 → triggerMask i res.1.value.length = 3) := by
  have hk := fresh_subSeq_length cfg pathId res hq hne
  obtain ⟨m0, m1, m2, m3⟩ := triggerMask_values res.1.value.length hk
  obtain ⟨self', hs, _, _, _, hd⟩ :=
    setPathToInstrument_fresh cfg exitOrder pathId res h0 h1 hnodes hq hne hperm
  refine ⟨hk, ⟨self', hs, ?_, ?_⟩, m3, m0, m1, m2⟩
  · intro i hi
    exact (hd _ _).2 ⟨i, hi, rfl, rfl⟩
  · intro b m hmem
    exact (hd b m).1 hmem

theorem setPathToInstrument_trigger_masks_witness :
    ∃ res, (0 : Int) ≤ 0 ∧ (0 : Int) < exE6CFG.paths.length ∧
      (∀ u ∈ (exE6CFG.paths.map Path.nodes).getD (0 : Int).toNat [], u < exE6CFG.size) ∧
      (PathInstrument.new exE6CFG).rollingHashIndex.getShortestUniqueSubSeq 0 = some res ∧
      res.1.value ≠ [] ∧
      (2 ≤ res.1.value.length ∧
      (∃ self', (PathInstrument.new exE6CFG).setPathToInstrument id 0 = some (true, self') ∧
        (∀ i, i < res.1.value.length →
          InstrCall.trigger (triggerMask i res.1.value.length) ∈
            self'.calls (res.1.value.getD i 0)) ∧
        (∀ b m, InstrCall.trigger m ∈ self'.calls b →
          ∃ i, i < res.1.value.length ∧ res.1.value.getD i 0 = b ∧
            m = triggerMask i res.1.value.length)) ∧
      (∀ i, i < res.1.value.length →
        ((triggerMask i res.1.value.length).testBit 0 = true ↔ i ≠ res.1.value.length - 1) ∧
        ((triggerMask i res.1.value.length).testBit 1 = true ↔ i ≠ 0)) ∧
      triggerMask 0 res.1.value.length = 1 ∧
      triggerMask (res.1.value.length - 1) res.1.value.length = 2 ∧
      (∀ i, 0 < i → i < res.1.value.length - 1 → triggerMask i res.1.value.length = 3)) := by
  obtain ⟨res, hq, hv⟩ := exE6_query
  have hne : res.1.value ≠ [] := by rw [hv]; decide
  exact ⟨res, by decide, by decide, by decide, hq, hne,
    setPathToInstrument_trigger_masks exE6CFG id 0 res (by decide) (by decide) (by decide) hq
      hne (fun _ => List.Perm.refl _)⟩

/-- C28 (counterexample): for the loop CFG `exLoopCFG` the enumerator yields the path
`0, 1, 2, 1, 5, 4, 1, 5` as path `1`; its unique subsequence is `S = [1, 2, 1, 5, 4]`, in
which block `1` occurs twice, and on a fresh instrumenter `setPathToInstrument(1)` inserts
two trigger calls in block `1`. -/
theorem trigger_twice_in_repeated_block :
    exLoopCFG.paths.map Path.nodes =
      [[0, 1, 2, 1, 5], [0, 1, 2, 1, 5, 4, 1, 5], [0, 1, 3, 2, 1, 5],
        [0, 1, 3, 2, 1, 5, 4, 1, 5], [0, 1, 5]] ∧
    ∃ res self',
      (PathInstrument.new exLoopCFG).rollingHashIndex.getShortestUniqueSubSeq 1 = some res ∧
      res.1.value = [1, 2, 1, 5, 4] ∧
      (PathInstrument.new exLoopCFG).setPathToInstrument id 1 = some (true, self') ∧
      (self'.calls 1).countP InstrCall.isTrigger = 2 := by
  refine ⟨exLoop_paths, ?_⟩
  obtain ⟨res, hq, hv⟩ := exLoop_query
  have hne : res.1.value ≠ [] := by rw [hv]; decide
  have hnodes : ∀ u ∈ (exLoopCFG.paths.map Path.nodes).getD (1 : Int).toNat [],
      u < exLoopCFG.size := by
    rw [exLoop_paths]
    have hsize : exLoopCFG.size = 6 := by decide
    rw [hsize]
    decide
  have hlen : (1 : Int) < exLoopCFG.paths.length := by
    have := congrArg List.length exLoop_paths
    rw [List.length_map] at this
    rw [this]
    decide
  obtain ⟨self', hs, _, _, hc, _⟩ := setPathToInstrument_fresh exLoopCFG id 1 res (by decide)
    hlen hnodes hq hne (fun _ => List.Perm.refl _)
  refine ⟨res, self', hq, hv, hs, ?_⟩
  rw [hc 1, hv]
  decide

/-- C28 (amended): on a freshly constructed `PathInstrument`, for a valid target path with a
non-empty unique subsequence `S`, `setPathToInstrument` returns `true` and every block `b`
has received as many trigger calls as `b` occurs in `S`: none if `b` is not a node of `S`,
and exactly one for every node of `S` when `S` has no repeated node. -/
theorem setPathToInstrument_trigger_count (cfg : CFG) (exitOrder : List Nat → List Nat)
    (pathId : Int) (res : SubSeqReturn × RollingHashIndex)
    (h0 : 0 ≤ pathId) (h1 : pathId < cfg.paths.length)
    (hnodes : ∀ u ∈ (cfg.paths.map Path.nodes).getD pathId.toNat [], u < cfg.size)
    (hq : (PathInstrument.new cfg).rollingHashIndex.getShortestUniqueSubSeq pathId = some res)
    (hne : res.1.value ≠ [])
    (hperm : ∀ l, (exitOrder l).Perm l) :
    ∃ self', (PathInstrument.new cfg).setPathToInstrument exitOrder pathId = some (true, self') ∧
      (∀ b, (self'.calls b).countP InstrCall.isTrigger = res.1.value.count b) ∧
      (∀ b, b ∉ res.1.value → (self'.calls b).countP InstrCall.isTrigger = 0) ∧
      (res.1.value.Nodup → ∀ b ∈ res.1.value,
        (self'.calls b).countP InstrCall.isTrigger = 1) := by
  obtain ⟨self', hs, _, _, hc, _⟩ :=
    setPathToInstrument_fresh cfg exitOrder pathId res h0 h1 hnodes hq hne hperm
  refine ⟨self', hs, hc, ?_, ?_⟩
  · intro b hb
    rw [hc b]
    exact List.count_eq_zero_of_not_mem hb
  · intro hnd b hb
    rw [hc b]
    exact List.count_eq_one_of_mem hnd hb

theorem setPathToInstrument_trigger_count_witness :
    ∃ res, (0 : Int) ≤ 0 ∧ (0 : Int) < exE6CFG.paths.length ∧
      (∀ u ∈ (exE6CFG.paths.map Path.nodes).getD (0 : Int).toNat [], u < exE6CFG.size) ∧
      (PathInstrument.new exE6CFG).rollingHashIndex.getShortestUniqueSubSeq 0 = some res ∧
      res.1.value ≠ [] ∧
      ∃ self', (PathInstrument.new exE6CFG).setPathToInstrument id 0 = some (true, self') ∧
        (∀ b, (self'.calls b).countP InstrCall.isTrigger = res.1.value.count b) ∧
        (∀ b, b ∉ res.1.value → (self'.calls b).countP InstrCall.isTrigger = 0) ∧
        (res.1.value.Nodup → ∀ b ∈ res.1.value,
          (self'.calls b).countP InstrCall.isTrigger = 1) := by
  obtain ⟨res, hq, hv⟩ := exE6_query
  have hne : res.1.value ≠ [] := by rw [hv]; decide
  exact ⟨res, by decide, by decide, by decide, hq, hne,
    setPathToInstrument_trigger_count exE6CFG id 0 res (by decide) (by decide) (by decide) hq
      hne (fun _ => List.Perm.refl _)⟩

/-! ## The rolling-hash index: C40 -/

/-- An index in a reachable state with `hash_len ≥ l` holds every window of length `l` of
every sequence: the bucket of its hash exists and lists the sequence. -/
theorem index_holds {r : RollingHashIndex} {seqs : List (List Nat)} {A : Nat}
    (hr : r.Inv seqs A) {l idx j : Nat} (h2 : 2 ≤ l) (hl : l ≤ r.hash_len)
    (hidx : idx < seqs.length) (hj : j + l ≤ (seqs.getD idx []).length) :
    ∃ b, r.index (queryHash A (seqs.getD idx []) j l) = some b ∧ idx ∈ b := by
  have hmem : (l, idx, j) ∈ allTriples seqs r.hash_len :=
    (mem_allTriples seqs r.hash_len _).2 ⟨h2, hl, hidx, hj⟩
  obtain ⟨_, _, _, hi⟩ := hr
  have hin : idx ∈ ((allTriples seqs r.hash_len).filter
      (fun t => tripleHash A seqs t = queryHash A (seqs.getD idx []) j l)).map
        (fun t => t.2.1) :=
    List.mem_map.2 ⟨(l, idx, j), List.mem_filter.2 ⟨hmem, by simp [tripleHash]⟩, rfl⟩
  rw [hi]
  unfold bucketOf
  rw [if_neg]
  · exact ⟨_, rfl, hin⟩
  · intro hnil
    rw [hnil] at hin
    cases hin

/-- Every round of a query runs on an index in a reachable state whose `hash_len` is at
least the length looked up. -/
theorem querySubSeqRounds_spec (seqs : List (List Nat)) (A : Nat) (seq : List Nat) (id : Nat) :
    ∀ (k s : Nat) (r : RollingHashIndex), r.Inv seqs A → 2 ≤ s → s ≤ r.hash_len →
      ∀ lr ∈ querySubSeqRounds seq id (List.range' s k) r,
        lr.2.Inv seqs A ∧ 2 ≤ lr.1 ∧ lr.1 ≤ lr.2.hash_len := by
  intro k
  induction k with
  | zero =>
    intro s r _ _ _ lr hlr
    simp [querySubSeqRounds] at hlr
  | succ k ih =>
    intro s r hr h2 hs lr hlr
    rw [List.range'_succ] at hlr
    unfold querySubSeqRounds at hlr
    rcases List.mem_cons.1 hlr with rfl | hlr
    · exact ⟨hr, h2, hs⟩
    · cases hw : querySubSeqWindows r.A r.index seq id s (List.range (seq.length - s + 1)) with
      | some ret =>
        rw [hw] at hlr
        cases hlr
      | none =>
        rw [hw] at hlr
        obtain ⟨hr', _, hge⟩ := updateIndex_inv hr (s + 1)
        exact ih (s + 1) (r.updateIndex (s + 1)) hr' (by omega) (hge (by omega)) lr hlr

/-- C40: on an index built by the constructor, after any earlier queries, a query for a
valid path id returns, and not through the "Not found" return; in every round of its loop,
with window length `l` and the index as it is in that round, `hash_len ≥ l` and the index
holds every window of length `l` of every sequence (the bucket of its hash is present and
lists the sequence), in particular every window of the queried path that is looked up. -/
theorem getShortestUniqueSubSeq_never_notFound (seqs : List (List Nat)) (A : Nat)
    (qs : List Int) (r : RollingHashIndex) (id : Int)
    (hq : (RollingHashIndex.new seqs A).afterQueries qs = some r)
    (h0 : 0 ≤ id) (h1 : id < seqs.length) :
    (∃ ret r', r.getShortestUniqueSubSeq id = some (ret, r') ∧
      ret ≠ SubSeqReturn.notFound) ∧
    ∀ lr ∈ querySubSeqRounds (seqs.getD id.toNat []) id.toNat
        (List.range' 2 ((seqs.getD id.toNat []).length - 1)) r,
      lr.1 ≤ lr.2.hash_len ∧
      ∀ idx j, idx < seqs.length → j + lr.1 ≤ (seqs.getD idx []).length →
        ∃ b, lr.2.index (queryHash lr.2.A (seqs.getD idx []) j lr.1) = some b ∧ idx ∈ b := by
  have hr : r.Inv seqs A := afterQueries_inv qs _ r (new_inv seqs A) hq
  constructor
  · obtain ⟨ret, r', he, _, hnf, _⟩ := getShortestUniqueSubSeq_spec hr id h0 h1
    exact ⟨ret, r', he, hnf⟩
  · intro lr hlr
    obtain ⟨hinv, h2, hl⟩ := querySubSeqRounds_spec seqs A _ _ _ 2 r hr (le_refl _) hr.2.2.1
      lr hlr
    refine ⟨hl, fun idx j hidx hj => ?_⟩
    rw [hinv.2.1]
    exact index_holds hinv h2 hl hidx hj

theorem getShortestUniqueSubSeq_never_notFound_witness :
    (RollingHashIndex.new exSeqsE6 5).afterQueries [0, 1] = some exIndexAfterQueries ∧
    (0 : Int) ≤ 1 ∧ (1 : Int) < exSeqsE6.length ∧
    ((∃ ret r', exIndexAfterQueries.getShortestUniqueSubSeq 1 = some (ret, r') ∧
      ret ≠ SubSeqReturn.notFound) ∧
    ∀ lr ∈ querySubSeqRounds (exSeqsE6.getD (1 : Int).toNat []) (1 : Int).toNat
        (List.range' 2 ((exSeqsE6.getD (1 : Int).toNat []).length - 1)) exIndexAfterQueries,
      lr.1 ≤ lr.2.hash_len ∧
      ∀ idx j, idx < exSeqsE6.length → j + lr.1 ≤ (exSeqsE6.getD idx []).length →
        ∃ b, lr.2.index (queryHash lr.2.A (exSeqsE6.getD idx []) j lr.1) = some b ∧
          idx ∈ b) :=
  ⟨rfl, by decide, by decide,
    getShortestUniqueSubSeq_never_notFound exSeqsE6 5 [0, 1] exIndexAfterQueries 1 rfl
      (by decide) (by decide)⟩

/-- The exit set that `setPathToInstrument` leaves on a freshly constructed instrumenter is
the set of off-path successors of the target path. -/
theorem setPathToInstrument_fresh_exitBlocks (cfg : CFG) (exitOrder : List Nat → List Nat)
    (pathId : Int) (res : SubSeqReturn × RollingHashIndex)
    (h0 : 0 ≤ pathId) (h1 : pathId < cfg.paths.length)
    (hnodes : ∀ u ∈ (cfg.paths.map Path.nodes).getD pathId.toNat [], u < cfg.size)
    (hq : (PathInstrument.new cfg).rollingHashIndex.getShortestUniqueSubSeq pathId = some res)
    (hne : res.1.value ≠ []) :
    ∃ self', (PathInstrument.new cfg).setPathToInstrument exitOrder pathId = some (true, self') ∧
      ∀ b, b ∈ self'.exitBlocks ↔
        OffPath cfg ((cfg.paths.map Path.nodes).getD pathId.toNat []) b := by
  obtain ⟨E, hE, _, hEmem⟩ := exitBlocksLoop_spec cfg
    ((cfg.paths.map Path.nodes).getD pathId.toNat []) [] hnodes List.nodup_nil
  have hvalid : ¬ (pathId < 0 ∨ pathId ≥ (PathInstrument.new cfg).cfg.paths.length) := by
    show ¬ (pathId < 0 ∨ pathId ≥ cfg.paths.length)
    omega
  have hemp : res.1.value.isEmpty = false := by
    cases hv : res.1.value with
    | nil => exact absurd hv hne
    | cons a l => rfl
  have hE' : exitBlocksLoop (PathInstrument.new cfg).cfg
      (((PathInstrument.new cfg).cfg.paths.map Path.nodes).getD pathId.toNat [])
      (PathInstrument.new cfg).exitBlocks = some E := hE
  refine ⟨{ PathInstrument.new cfg with
      rollingHashIndex := res.2, exitBlocks := E,
      calls := (exitOrder E).foldl
        (fun c bbId => insertCall c bbId (InstrCall.conditional_exit 0))
        (triggerLoop res.1.value.length res.1.value 0 (fun _ => [])) }, ?_, ?_⟩
  · unfold PathInstrument.setPathToInstrument
    rw [if_neg hvalid, hq]
    simp only [hemp, hE']
    rfl
  · intro b
    simp only
    rw [hEmem b]
    simp

/-- C39 (counterexample): in the CFG of an `if` without `else` (`0 → 1`, `0 → 2`, `1 → 2`)
the target path `[0, 1, 2]` gets the exit set `{2}`: block `2` is a successor of block `0`
other than the next node `1`, and it lies on the path. -/
theorem exit_set_contains_path_node :
    exIfCFG.paths.map Path.nodes = [[0, 2], [0, 1, 2]] ∧
    ((PathInstrument.new exIfCFG).setPathToInstrument id 1).map
      (fun x => (x.1, x.2.exitBlocks)) = some (true, [2]) ∧
    2 ∈ (exIfCFG.paths.map Path.nodes).getD 1 [] := by
  decide

/-- C39 (amended): on a freshly constructed `PathInstrument`, for a valid target path `seq`
(its nodes blocks of the function) for which a unique subsequence exists,
`setPathToInstrument` returns `true` and the exit set it computes is exactly the set of
off-path successors `{ s : for some i < |seq| - 1, s is a successor of seq[i] and
s ≠ seq[i+1] }`; this set holds no node of `seq` exactly when no node of `seq` has an edge to
a node of `seq` other than its next node. -/
theorem setPathToInstrument_exit_set (cfg : CFG) (exitOrder : List Nat → List Nat)
    (pathId : Int) (res : SubSeqReturn × RollingHashIndex)
    (h0 : 0 ≤ pathId) (h1 : pathId < cfg.paths.length)
    (hnodes : ∀ u ∈ (cfg.paths.map Path.nodes).getD pathId.toNat [], u < cfg.size)
    (hq : (PathInstrument.new cfg).rollingHashIndex.getShortestUniqueSubSeq pathId = some res)
    (hne : res.1.value ≠ []) :
    ∃ self', (PathInstrument.new cfg).setPathToInstrument exitOrder pathId = some (true, self') ∧
      (∀ b, b ∈ self'.exitBlocks ↔
        OffPath cfg ((cfg.paths.map Path.nodes).getD pathId.toNat []) b) ∧
      ((∀ b ∈ self'.exitBlocks, b ∉ (cfg.paths.map Path.nodes).getD pathId.toNat []) ↔
        NoChord cfg ((cfg.paths.map Path.nodes).getD pathId.toNat [])) := by
  obtain ⟨self', hs, hmem⟩ :=
    setPathToInstrument_fresh_exitBlocks cfg exitOrder pathId res h0 h1 hnodes hq hne
  refine ⟨self', hs, hmem, ?_⟩
  constructor
  · intro hd i hi b hb hsucc
    by_contra hne'
    exact hd b ((hmem b).2 ⟨i, hi, hsucc, hne'⟩) hb
  · intro hc b hb hin
    obtain ⟨i, hi, hsucc, hne'⟩ := (hmem b).1 hb
    exact hne' (hc i hi b hin hsucc)

theorem setPathToInstrument_exit_set_witness :
    ∃ res, (0 : Int) ≤ 0 ∧ (0 : Int) < exE6CFG.paths.length ∧
      (∀ u ∈ (exE6CFG.paths.map Path.nodes).getD (0 : Int).toNat [], u < exE6CFG.size) ∧
      (PathInstrument.new exE6CFG).rollingHashIndex.getShortestUniqueSubSeq 0 = some res ∧
      res.1.value ≠ [] ∧
      ∃ self', (PathInstrument.new exE6CFG).setPathToInstrument id 0 = some (true, self') ∧
        (∀ b, b ∈ self'.exitBlocks ↔
          OffPath exE6CFG ((exE6CFG.paths.map Path.nodes).getD (0 : Int).toNat []) b) ∧
        ((∀ b ∈ self'.exitBlocks,
            b ∉ (exE6CFG.paths.map Path.nodes).getD (0 : Int).toNat []) ↔
          NoChord exE6CFG ((exE6CFG.paths.map Path.nodes).getD (0 : Int).toNat [])) := by
  obtain ⟨res, hq, hv⟩ := exE6_query
  have hne : res.1.value ≠ [] := by rw [hv]; decide
  exact ⟨res, by decide, by decide, by decide, hq, hne,
    setPathToInstrument_exit_set exE6CFG id 0 res (by decide) (by decide) (by decide) hq hne⟩
/-! ## The similarity cache: C36 -/

/-- A run of calls on a cache that is right for the node lists `A` and `B` returns the node
similarities and leaves a cache that is right. -/
theorem getNodeSimilarityCalls_cached {A B : List Node} (hA : IdsDetermine A)
    (hB : IdsDetermine B) :
    ∀ (calls : List (Node × Node)) (cache : SimCache), CacheOk A B cache →
      (∀ c ∈ calls, c.1 ∈ A ∧ c.2 ∈ B) →
      (getNodeSimilarityCalls calls cache).1 = calls.map (fun c => nodeSim c.1 c.2) ∧
      CacheOk A B (getNodeSimilarityCalls calls cache).2 := by
  intro calls
  induction calls with
  | nil =>
    intro cache hc _
    exact ⟨rfl, hc⟩
  | cons c rest ih =>
    intro cache hc hcalls
    obtain ⟨hcA, hcB⟩ := hcalls c (List.mem_cons_self _ _)
    obtain ⟨e1, e2⟩ := getNodeSimilarity_cached hA hB hc hcA hcB
    obtain ⟨i1, i2⟩ := ih (getNodeSimilarity cache c.1 c.2).2 e2
      (fun c' hc' => hcalls c' (List.mem_cons_of_mem _ hc'))
    simp only [getNodeSimilarityCalls, List.map_cons]
    exact ⟨by rw [e1, i1], i2⟩

/-- C36: for every sequence of `getNodeSimilarity` calls on one `SimilarityStrategy`, started
with its empty cache, in which every first argument is a node of the list `A` and every
second argument a node of the list `B`, where within each list the id determines the node
(the nodes of one CFG carry the ids `0, 1, 2, …`): the value returned by each call is the
value computed for its two arguments without a cache entry (`nodeSim`, the computation on an
empty cache), whose closed form is `0` for different node types or select numbers and the
double `1.0 - (double)d / (double)max(m, n)` otherwise, each of the three operations and the
two conversions rounding to binary64. -/
theorem getNodeSimilarity_memo_transparent (A B : List Node) (hA : IdsDetermine A)
    (hB : IdsDetermine B) (calls : List (Node × Node))
    (hcalls : ∀ c ∈ calls, c.1 ∈ A ∧ c.2 ∈ B) :
    (getNodeSimilarityCalls calls freshCache).1 =
      calls.map (fun c => (getNodeSimilarity freshCache c.1 c.2).1) ∧
    ∀ c ∈ calls, (getNodeSimilarity freshCache c.1 c.2).1 =
      if c.1.node_type ≠ c.2.node_type then some 0
      else if c.1.selectNum ≠ c.2.selectNum then some 0
      else if max c.1.ops.length c.2.ops.length = 0 then none
      else some (Dbl.round (1 - Dbl.round (Dbl.round ((opDist c.1 c.2 : Int) : ℚ) /
        Dbl.round ((max c.1.ops.length c.2.ops.length : Nat) : ℚ)))) :=
  ⟨(getNodeSimilarityCalls_cached hA hB calls freshCache (cacheOk_fresh A B) hcalls).1,
    fun c _ => nodeSim_eq c.1 c.2⟩

theorem getNodeSimilarity_memo_transparent_witness :
    IdsDetermine [exEntry, exRet] ∧ IdsDetermine [exEntry, exRet2] ∧
    (∀ c ∈ [(exEntry, exEntry), (exRet, exRet2), (exEntry, exEntry), (exRet, exRet2)],
      c.1 ∈ [exEntry, exRet] ∧ c.2 ∈ [exEntry, exRet2]) ∧
    ((getNodeSimilarityCalls
        [(exEntry, exEntry), (exRet, exRet2), (exEntry, exEntry), (exRet, exRet2)]
        freshCache).1 =
      [(exEntry, exEntry), (exRet, exRet2), (exEntry, exEntry), (exRet, exRet2)].map
        (fun c => (getNodeSimilarity freshCache c.1 c.2).1) ∧
    ∀ c ∈ [(exEntry, exEntry), (exRet, exRet2), (exEntry, exEntry), (exRet, exRet2)],
      (getNodeSimilarity freshCache c.1 c.2).1 =
        if c.1.node_type ≠ c.2.node_type then some 0
        else if c.1.selectNum ≠ c.2.selectNum then some 0
        else if max c.1.ops.length c.2.ops.length = 0 then none
        else some (Dbl.round (1 - Dbl.round (Dbl.round ((opDist c.1 c.2 : Int) : ℚ) /
          Dbl.round ((max c.1.ops.length c.2.ops.length : Nat) : ℚ))))) :=
  ⟨by decide, by decide, by decide,
    getNodeSimilarity_memo_transparent [exEntry, exRet] [exEntry, exRet2] (by decide)
      (by decide) _ (by decide)⟩
/-! ## The bitmask map keeps the last id: C32 -/

theorem path_id_lt {cfg : CFG} (hc : cfg.Consistent) {p : Path} (hp : p ∈ cfg.paths) :
    p.id_ < (cfg.paths.length : Int) := by
  obtain ⟨_, c2, _⟩ := hc
  have : p.id_ ∈ cfg.paths.map Path.id_ := List.mem_map_of_mem _ hp
  rw [c2] at this
  simp only [List.mem_map, List.mem_range] at this
  obtain ⟨i, hi, he⟩ := this
  rw [← he]
  exact_mod_cast hi

theorem init_lastWins (size : Nat) (edges : List (List Nat)) (loop_map : List (Nat × Loop)) :
    (CFG.init size edges loop_map).LastWins := by
  intro mask id h
  simp [CFG.init] at h

theorem addPath_lastWins {cfg cfg' : CFG} {idPath : List Nat} (hc : cfg.Consistent)
    (hl : cfg.LastWins) (h : addPath cfg idPath = some cfg') : cfg'.LastWins := by
  unfold addPath at h
  cases hp : Path.new cfg.pathCount cfg.size idPath with
  | none => rw [hp] at h; simp at h
  | some p =>
    rw [hp] at h
    simp only [Option.some.injEq] at h
    subst h
    have hid : p.id_ = (cfg.paths.length : Int) := by
      rw [(Path.new_some hp).1, hc.1]
    intro mask id hm q hq hqm
    simp only at hm hq
    by_cases hk : mask = p.to_string
    · rw [if_pos hk] at hm
      simp only [Option.some.injEq] at hm
      rcases List.mem_append.1 hq with hq | hq
      · have := path_id_lt hc hq
        omega
      · simp only [List.mem_singleton] at hq
        rw [hq, hm]
    · rw [if_neg hk] at hm
      rcases List.mem_append.1 hq with hq | hq
      · exact hl mask id hm q hq hqm
      · simp only [List.mem_singleton] at hq
        rw [hq] at hqm
        exact absurd hqm.symm hk

theorem addPath_fold_lastWins :
    ∀ (idPaths : List (List Nat)) (cfg cfg' : CFG), cfg.Consistent → cfg.LastWins →
      idPaths.foldlM addPath cfg = some cfg' → cfg'.LastWins := by
  intro idPaths
  induction idPaths with
  | nil =>
    intro cfg cfg' _ hl h
    simp at h
    subst h
    exact hl
  | cons x rest ih =>
    intro cfg cfg' hc hl h
    simp only [List.foldlM_cons] at h
    cases h1 : addPath cfg x with
    | none => rw [h1] at h; simp at h
    | some c1 =>
      rw [h1] at h
      have h : List.foldlM addPath c1 rest = some cfg' := h
      exact ih c1 cfg' (addPath_consistent hc h1).1 (addPath_lastWins hc hl h1) h

theorem analyzingPaths_lastWins {size : Nat} {edges : List (List Nat)}
    {loop_map : List (Nat × Loop)} {fuel : Nat} {cfg : CFG}
    (h : analyzingPaths (CFG.init size edges loop_map) fuel = some cfg) : cfg.LastWins := by
  unfold analyzingPaths at h
  split at h
  · simp at h
  · next idPaths _ =>
    exact addPath_fold_lastWins idPaths _ _ (init_consistent size edges loop_map)
      (init_lastWins size edges loop_map) h

/-- C32 (counterexample): for `while (a) { if (b) break; }` the enumerated sequences
`[0, 1, 2, 3]` (id `0`) and `[0, 1, 2, 1, 3]` (id `1`) have the same bitmask string `1111`,
and `matchPathId` on it returns `1`, the id of the second of them, not the smaller id `0`. -/
theorem pathIdMap_keeps_second_of_two :
    exBreakCFG.paths.map (fun p => (p.id_, p.nodes, p.to_string)) =
      [(0, [0, 1, 2, 3], ['1', '1', '1', '1']), (1, [0, 1, 2, 1, 3], ['1', '1', '1', '1']),
        (2, [0, 1, 3], ['1', '1', '0', '1'])] ∧
    matchPathId exBreakCFG ['1', '1', '1', '1'] = 1 := by
  decide

/-- C32 (amended): on an analysed CFG the path ids are the positions in enumeration order,
and for every enumerated path `p`, `matchPathId` on the bitmask string of `p` returns the id
of an enumerated path with that bitmask string that is at least the id of every enumerated
path with that bitmask string: the map keeps the id of the last of them. -/
theorem pathIdMap_last_wins (size : Nat) (edges : List (List Nat))
    (loop_map : List (Nat × Loop)) (fuel : Nat) (cfg : CFG)
    (h : analyzingPaths (CFG.init size edges loop_map) fuel = some cfg) :
    cfg.paths.map Path.id_ = (List.range cfg.paths.length).map (fun (i : Nat) => (i : Int)) ∧
    ∀ p ∈ cfg.paths, ∃ q ∈ cfg.paths, q.to_string = p.to_string ∧
      matchPathId cfg p.to_string = q.id_ ∧
      ∀ q' ∈ cfg.paths, q'.to_string = p.to_string → q'.id_ ≤ q.id_ := by
  have hc := (analyzingPaths_consistent h).1
  have hl := analyzingPaths_lastWins h
  refine ⟨hc.2.1, fun p hp => ?_⟩
  obtain ⟨_, _, _, c4, c5⟩ := hc
  cases hm : cfg.pathIdMap p.to_string with
  | none => exact absurd hm (c5 p hp)
  | some id =>
    obtain ⟨q, hq, hqid, hqs⟩ := c4 _ _ hm
    refine ⟨q, hq, hqs, ?_, ?_⟩
    · unfold matchPathId
      rw [hm, hqid]
    · intro q' hq' hs
      rw [hqid]
      exact hl _ _ hm q' hq' hs

theorem pathIdMap_last_wins_witness :
    analyzingPaths (CFG.init 4 [[1], [2, 3], [3, 1], []]
      [(1, { blocks := [1, 2], exitBlocks := [3] })]) 10 = some exBreakCFG ∧
    (exBreakCFG.paths.map Path.id_ =
      (List.range exBreakCFG.paths.length).map (fun (i : Nat) => (i : Int)) ∧
    ∀ p ∈ exBreakCFG.paths, ∃ q ∈ exBreakCFG.paths, q.to_string = p.to_string ∧
      matchPathId exBreakCFG p.to_string = q.id_ ∧
      ∀ q' ∈ exBreakCFG.paths, q'.to_string = p.to_string → q'.id_ ≤ q.id_) :=
  ⟨rfl, pathIdMap_last_wins 4 [[1], [2, 3], [3, 1], []]
    [(1, { blocks := [1, 2], exitBlocks := [3] })] 10 exBreakCFG rfl⟩

theorem setBit_fold_lt :
    ∀ (ids : List Nat) (m m' : pathMask),
      ids.foldlM (fun m node_id => pathMask.setBit m node_id) m = some m' →
      ∀ x ∈ ids, x < m.length := by
  intro ids
  induction ids with
  | nil => intro m m' _ x hx; cases hx
  | cons a rest ih =>
    intro m m' h x hx
    simp only [List.foldlM_cons] at h
    by_cases ha : a < m.length
    · have hs : pathMask.setBit m a = some (m.set a true) := by
        unfold pathMask.setBit; rw [if_pos ha]
      rw [hs] at h
      have h : List.foldlM (fun m node_id => pathMask.setBit m node_id) (m.set a true) rest
          = some m' := h
      rcases List.mem_cons.1 hx with rfl | hx
      · exact ha
      · have := ih _ _ h x hx
        simpa using this
    · have hs : pathMask.setBit m a = none := by
        unfold pathMask.setBit; rw [if_neg ha]
      rw [hs] at h
      cases h

theorem Path.new_nodes_lt {count n : Nat} {ids : List Nat} {p : Path}
    (h : Path.new count n ids = some p) : ∀ x ∈ ids, x < n := by
  unfold Path.new at h
  cases hm : ids.foldlM (fun m node_id => pathMask.setBit m node_id) (pathMask.ofNum n) with
  | none => rw [hm] at h; cases h
  | some m =>
    have := setBit_fold_lt ids _ _ hm
    simpa [pathMask.ofNum] using this

/-- The paths stored by the loop of `analyzingPaths` carry the enumerated node sequences, in
order, and every node of them is a block of the function. -/
theorem addPath_fold_nodes :
    ∀ (idPaths : List (List Nat)) (cfg cfg' : CFG),
      idPaths.foldlM addPath cfg = some cfg' →
      cfg'.paths.map Path.nodes = cfg.paths.map Path.nodes ++ idPaths ∧
      ∀ q ∈ idPaths, ∀ x ∈ q, x < cfg.size := by
  intro idPaths
  induction idPaths with
  | nil =>
    intro cfg cfg' h
    simp at h
    subst h
    simp
  | cons a rest ih =>
    intro cfg cfg' h
    simp only [List.foldlM_cons] at h
    cases h1 : addPath cfg a with
    | none => rw [h1] at h; simp at h
    | some c1 =>
      rw [h1] at h
      have h : List.foldlM addPath c1 rest = some cfg' := h
      obtain ⟨i1, i2⟩ := ih c1 cfg' h
      unfold addPath at h1
      cases hp : Path.new cfg.pathCount cfg.size a with
      | none => rw [hp] at h1; simp at h1
      | some p =>
        rw [hp] at h1
        simp only [Option.some.injEq] at h1
        subst h1
        simp only [List.map_append, List.map_cons, List.map_nil] at i1 i2
        refine ⟨?_, ?_⟩
        · rw [i1, (Path.new_some hp).2.1]
          simp
        · intro q hq x hx
          rcases List.mem_cons.1 hq with rfl | hq
          · exact Path.new_nodes_lt hp x hx
          · exact i2 q hq x hx

/-- The paths of an analysed CFG are the node sequences returned by the enumerator of its
regime. -/
theorem analyzingPaths_nodes {size : Nat} {edges : List (List Nat)}
    {loop_map : List (Nat × Loop)} {fuel : Nat} {cfg : CFG}
    (h : analyzingPaths (CFG.init size edges loop_map) fuel = some cfg) :
    (if loop_map.isEmpty then dfsWithoutLoops edges fuel
      else dfsWithLoops (CFG.init size edges loop_map) fuel) =
        some (cfg.paths.map Path.nodes) ∧
    ∀ p ∈ cfg.paths, ∀ x ∈ p.nodes, x < size := by
  unfold analyzingPaths at h
  split at h
  · simp at h
  · next idPaths hid =>
    obtain ⟨e1, e2⟩ := addPath_fold_nodes idPaths _ _ h
    have e1 : cfg.paths.map Path.nodes = idPaths := by simpa [CFG.init] using e1
    refine ⟨?_, ?_⟩
    · rw [e1]
      exact hid
    · intro p hp x hx
      have : p.nodes ∈ idPaths := by rw [← e1]; exact List.mem_map_of_mem _ hp
      exact e2 _ this x hx

/-- C31 (counterexample): a function whose entry block branches to a block ending in
`unreachable` (block `1`) and to the returning block `2` has no loop; the enumerator returns
the paths `[0, 1]` and `[0, 2]`, and the first ends at block `1`, not at the last block `2`. -/
theorem acyclic_path_ends_before_last_block :
    dfsWithoutLoops exAbortEdges 5 = some [[0, 1], [0, 2]] ∧
    ((analyzingPaths (CFG.init 3 exAbortEdges []) 5).map
      (fun cfg => cfg.paths.map (fun p => (p.nodes, p.nodes.getLast?, cfg.size - 1)))) =
      some [([0, 1], some 1, 2), ([0, 2], some 2, 2)] := by
  decide

/-- C31 (amended): every path of an analysed CFG ends, in the loop-aware regime, at the
function's last basic block (node `size - 1`), and in the acyclic regime at a block without
successors; so in the acyclic regime too it ends at the last block when the last block is
the only block of the function without successors. -/
theorem enumerated_paths_end (size : Nat) (edges : List (List Nat))
    (loop_map : List (Nat × Loop)) (fuel : Nat) (cfg : CFG)
    (h : analyzingPaths (CFG.init size edges loop_map) fuel = some cfg) :
    ∀ p ∈ cfg.paths,
      (loop_map ≠ [] → p.nodes.getLast? = some (size - 1)) ∧
      (loop_map = [] → ∃ x, x < size ∧ p.nodes.getLast? = some x ∧ succs edges x = []) ∧
      (loop_map = [] → (∀ x, x < size → succs edges x = [] → x = size - 1) →
        p.nodes.getLast? = some (size - 1)) := by
  intro p hp
  obtain ⟨hen, hlt⟩ := analyzingPaths_nodes h
  have hmem : p.nodes ∈ cfg.paths.map Path.nodes := List.mem_map_of_mem _ hp
  have hacyc : loop_map = [] →
      ∃ x, x < size ∧ p.nodes.getLast? = some x ∧ succs edges x = [] := by
    intro hl
    subst hl
    simp only [List.isEmpty_nil, if_true] at hen
    obtain ⟨_, ⟨x, hx, hs⟩, _⟩ := dfsLoop_inv edges fuel [[0]] [] _
      (by
        intro q hq
        simp at hq
        subst hq
        exact ⟨rfl, by simp [IsWalk]⟩)
      (by intro q hq; simp at hq) hen p.nodes hmem
    exact ⟨x, hlt p hp x (List.mem_of_getLast?_eq_some hx), hx, hs⟩
  refine ⟨?_, hacyc, ?_⟩
  · intro hl
    have hne : loop_map.isEmpty = false := by
      cases loop_map with
      | nil => exact absurd rfl hl
      | cons a l => rfl
    rw [hne] at hen
    simp only [Bool.false_eq_true, if_false] at hen
    unfold dfsWithLoops at hen
    rcases dfsHelper_ok edges loop_map fuel [size - 1] 0 none [0] [] _ hen
      (by simp) rfl p.nodes hmem with h1 | ⟨_, x, hx, h2⟩
    · simp at h1
    · simp only [List.mem_singleton] at hx
      subst hx
      exact h2
  · intro hl hall
    obtain ⟨x, hx, hlast, hs⟩ := hacyc hl
    rw [hlast, hall x hx hs]

theorem enumerated_paths_end_witness :
    analyzingPaths (CFG.init 4 diamondEdges []) 3 = some diamondCFG ∧
    ∀ p ∈ diamondCFG.paths,
      (([] : List (Nat × Loop)) ≠ [] → p.nodes.getLast? = some (4 - 1)) ∧
      (([] : List (Nat × Loop)) = [] →
        ∃ x, x < 4 ∧ p.nodes.getLast? = some x ∧ succs diamondEdges x = []) ∧
      (([] : List (Nat × Loop)) = [] →
        (∀ x, x < 4 → succs diamondEdges x = [] → x = 4 - 1) →
        p.nodes.getLast? = some (4 - 1)) :=
  ⟨diamondCFG_analyzed, enumerated_paths_end 4 diamondEdges [] 3 diamondCFG diamondCFG_analyzed⟩

/-! ## The hash of a sequence: C34 -/

theorem polyValue_snoc (A : Nat) (s : List Nat) (x : Nat) :
    polyValue A (s ++ [x]) = (polyValue A s + 1) * A + (x + 1) := by
  simp [polyValue, List.foldl_append]

theorem polyValue_lt_snoc (A : Nat) (s : List Nat) (x : Nat) (hA : 1 ≤ A) :
    polyValue A s < polyValue A (s ++ [x]) := by
  rw [polyValue_snoc]
  have : polyValue A s + 1 ≤ (polyValue A s + 1) * A := Nat.le_mul_of_pos_right _ hA
  omega

/-- Below the modulus the reductions of `hash` change nothing: the folded hash is the
unreduced value. -/
theorem foldl_hash_eq_polyValue (A : Nat) (hA : 1 ≤ A) :
    ∀ s : List Nat, polyValue A s < RollingHashIndex.M →
      s.foldl (RollingHashIndex.hash A) 0 = polyValue A s ∧
      s.foldl (fun h x => RollingHashIndex.hash A h x % RollingHashIndex.M) 0
        = polyValue A s := by
  intro s
  induction s using List.reverseRecOn with
  | nil => intro _; exact ⟨rfl, rfl⟩
  | append_singleton s x ih =>
    intro hlt
    have hprev : polyValue A s < RollingHashIndex.M :=
      lt_trans (polyValue_lt_snoc A s x hA) hlt
    obtain ⟨i1, i2⟩ := ih hprev
    have hM : RollingHashIndex.M < 2 ^ 64 := by decide
    rw [polyValue_snoc] at hlt
    have e : RollingHashIndex.hash A (polyValue A s) x = (polyValue A s + 1) * A + (x + 1) := by
      unfold RollingHashIndex.hash
      rw [Nat.mod_eq_of_lt (lt_trans hlt hM), Nat.mod_eq_of_lt hlt]
    constructor
    · rw [List.foldl_append, i1, polyValue_snoc]
      simp only [List.foldl_cons, List.foldl_nil]
      exact e
    · rw [List.foldl_append, i2, polyValue_snoc]
      simp only [List.foldl_cons, List.foldl_nil]
      rw [e, Nat.mod_eq_of_lt hlt]

theorem polyValue_step_inj {A h₁ h₂ x y : Nat} (hx : x < A) (hy : y < A)
    (h : (h₁ + 1) * A + (x + 1) = (h₂ + 1) * A + (y + 1)) : h₁ = h₂ ∧ x = y := by
  have key : ∀ a b u v : Nat, u < A → v < A → a < b →
      (a + 1) * A + (u + 1) ≠ (b + 1) * A + (v + 1) := by
    intro a b u v hu _ hab he
    have h1 : (a + 2) * A ≤ (b + 1) * A := Nat.mul_le_mul_right A (by omega)
    have h2 : (a + 2) * A = (a + 1) * A + A := by ring
    omega
  rcases Nat.lt_trichotomy h₁ h₂ with hlt | heq | hgt
  · exact absurd h (key h₁ h₂ x y hx hy hlt)
  · subst heq
    exact ⟨rfl, by omega⟩
  · exact absurd h.symm (key h₂ h₁ y x hy hx hgt)

/-- The unreduced value determines the sequence, whatever the two lengths. -/
theorem polyValue_injective (A : Nat) :
    ∀ s t : List Nat, (∀ x ∈ s, x < A) → (∀ x ∈ t, x < A) →
      polyValue A s = polyValue A t → s = t := by
  intro s
  induction s using List.reverseRecOn with
  | nil =>
    intro t _ _ h
    cases t using List.reverseRecOn with
    | nil => rfl
    | append_singleton t y =>
      rw [polyValue_snoc] at h
      have : polyValue A [] = 0 := rfl
      omega
  | append_singleton s x ih =>
    intro t hs ht h
    cases t using List.reverseRecOn with
    | nil =>
      rw [polyValue_snoc] at h
      have : polyValue A [] = 0 := rfl
      omega
    | append_singleton t y =>
      rw [polyValue_snoc, polyValue_snoc] at h
      obtain ⟨h1, h2⟩ := polyValue_step_inj (hs x (by simp)) (ht y (by simp)) h
      rw [ih t (fun z hz => hs z (by simp [hz])) (fun z hz => ht z (by simp [hz])) h1, h2]

/-- C34: for every hash base `A ≥ 1` and any two item sequences, of any lengths, whose items
all lie in `[0, A)` and whose unreduced polynomial values are below `M = 10^9 + 7`: if
folding `hash` from `0` over the two sequences gives equal hashes, the sequences are equal.
The same holds for the fold of `updateIndex`, which applies `% M` once more at each step. -/
theorem hash_fold_injective (A : Nat) (hA : 1 ≤ A) (s t : List Nat)
    (hs : ∀ x ∈ s, x < A) (ht : ∀ x ∈ t, x < A)
    (hsM : polyValue A s < RollingHashIndex.M) (htM : polyValue A t < RollingHashIndex.M) :
    (s.foldl (RollingHashIndex.hash A) 0 = t.foldl (RollingHashIndex.hash A) 0 → s = t) ∧
    (s.foldl (fun h x => RollingHashIndex.hash A h x % RollingHashIndex.M) 0 =
      t.foldl (fun h x => RollingHashIndex.hash A h x % RollingHashIndex.M) 0 → s = t) := by
  obtain ⟨a1, a2⟩ := foldl_hash_eq_polyValue A hA s hsM
  obtain ⟨b1, b2⟩ := foldl_hash_eq_polyValue A hA t htM
  constructor
  · intro h
    rw [a1, b1] at h
    exact polyValue_injective A s t hs ht h
  · intro h
    rw [a2, b2] at h
    exact polyValue_injective A s t hs ht h

theorem hash_fold_injective_witness :
    1 ≤ 5 ∧ (∀ x ∈ [0, 0, 4], x < 5) ∧ (∀ x ∈ [0, 4], x < 5) ∧
    polyValue 5 [0, 0, 4] < RollingHashIndex.M ∧ polyValue 5 [0, 4] < RollingHashIndex.M ∧
    ((([0, 0, 4] : List Nat).foldl (RollingHashIndex.hash 5) 0 =
        ([0, 4] : List Nat).foldl (RollingHashIndex.hash 5) 0 → [0, 0, 4] = [0, 4]) ∧
    (([0, 0, 4] : List Nat).foldl
        (fun h x => RollingHashIndex.hash 5 h x % RollingHashIndex.M) 0 =
      ([0, 4] : List Nat).foldl
        (fun h x => RollingHashIndex.hash 5 h x % RollingHashIndex.M) 0 →
      [0, 0, 4] = [0, 4])) :=
  ⟨by decide, by decide, by decide, by decide, by decide,
    hash_fold_injective 5 (by decide) [0, 0, 4] [0, 4] (by decide) (by decide) (by decide)
      (by decide)⟩
/-! ## Balanced counters: C37 -/

/-- On a consistent CFG whose counters do not overflow, a call of `matchBestPathId` either
finds no subset match and changes nothing, or increments the counter of a subset-matching
path whose counter is smallest among the subset matches, and returns its id. -/
theorem matchBestPathId_min_step (cfg : CFG) (hc : cfg.Consistent)
    (hk : CountersOk cfg.pathTestCntMap) (mask : List Char) :
    ((∀ p ∈ cfg.paths, ¬ MaskSubset p.to_string mask) ∧
      matchBestPathId cfg mask = (INVALID_PATH_ID, cfg)) ∨
    ∃ r ∈ cfg.paths, MaskSubset r.to_string mask ∧
      matchBestPathId cfg mask =
        (r.id_, { cfg with pathTestCntMap := incrCnt cfg.pathTestCntMap r.id_ }) ∧
      ∀ q ∈ cfg.paths, MaskSubset q.to_string mask →
        cntOf cfg.pathTestCntMap r.id_ ≤ cntOf cfg.pathTestCntMap q.id_ := by
  rcases matchBestPathId_cases cfg hc hk mask with ⟨h1, h2, h3⟩ | ⟨_, h2, h3⟩ |
    ⟨_, p, hp, hs, h3, h4⟩
  · right
    rcases matchPathId_cases cfg hc mask with ⟨hinv, _⟩ | ⟨_, p, hp, hid, hstr⟩
    · exact absurd hinv h1
    · refine ⟨p, hp, by rw [hstr]; exact maskSubset_refl _, by rw [hid]; exact h3, ?_⟩
      intro q _ _
      rw [hid, cntOf_none h2]
      exact cntOf_nonneg hk _
  · exact Or.inl ⟨h2, h3⟩
  · right
    refine ⟨p, hp, hs, h3, ?_⟩
    intro q hq hqs
    rcases h4 q hq hqs with h | ⟨h, _⟩
    · exact le_of_lt h
    · exact le_of_eq h

theorem cntOf_incrCnt (cnt : Int → Option Int) (k j : Int) :
    cntOf (incrCnt cnt k) j = if j = k then cntOf cnt k + 1 else cntOf cnt j := by
  by_cases h : j = k
  · subst h
    rw [if_pos rfl]
    exact cntOf_some (incrCnt_self cnt j)
  · rw [if_neg h]
    unfold cntOf
    rw [incrCnt_other cnt h]

/-- The state after `n` consecutive calls with one mask, while `n` stays within the range of
the `int` counters: the CFG is still consistent with the same paths, every stored counter
lies in `[1, n]`, and the counters of the subset matches are balanced. -/
theorem matchBestRepeat_inv (cfg : CFG) (hc : cfg.Consistent)
    (hfresh : cfg.pathTestCntMap = fun _ => none) (mask : List Char) :
    ∀ n : Nat, (n : Int) ≤ INT32_MAX →
      (matchBestRepeat cfg mask n).Consistent ∧
      (matchBestRepeat cfg mask n).paths = cfg.paths ∧
      (∀ k c, (matchBestRepeat cfg mask n).pathTestCntMap k = some c → 1 ≤ c ∧ c ≤ (n : Int)) ∧
      ∀ p ∈ cfg.paths, ∀ q ∈ cfg.paths, MaskSubset p.to_string mask →
        MaskSubset q.to_string mask →
        cntOf (matchBestRepeat cfg mask n).pathTestCntMap p.id_ ≤
          cntOf (matchBestRepeat cfg mask n).pathTestCntMap q.id_ + 1 := by
  intro n
  induction n with
  | zero =>
    intro _
    refine ⟨hc, rfl, ?_, ?_⟩
    · intro k c h
      simp only [matchBestRepeat] at h
      rw [hfresh] at h
      cases h
    · intro p _ q _ _ _
      simp only [matchBestRepeat]
      rw [hfresh]
      simp [cntOf]
  | succ n ih =>
    intro hn
    have hn' : (n : Int) < INT32_MAX := by
      have : ((n + 1 : Nat) : Int) = (n : Int) + 1 := by push_cast; rfl
      omega
    obtain ⟨ic, ip, ik, ib⟩ := ih (le_of_lt hn')
    have hok : CountersOk (matchBestRepeat cfg mask n).pathTestCntMap := by
      intro k c h
      have := ik k c h
      exact ⟨this.1, by omega⟩
    show (matchBestPathId (matchBestRepeat cfg mask n) mask).2.Consistent ∧
      (matchBestPathId (matchBestRepeat cfg mask n) mask).2.paths = cfg.paths ∧
      (∀ k c, (matchBestPathId (matchBestRepeat cfg mask n) mask).2.pathTestCntMap k = some c →
        1 ≤ c ∧ c ≤ ((n + 1 : Nat) : Int)) ∧
      ∀ p ∈ cfg.paths, ∀ q ∈ cfg.paths, MaskSubset p.to_string mask →
        MaskSubset q.to_string mask →
        cntOf (matchBestPathId (matchBestRepeat cfg mask n) mask).2.pathTestCntMap p.id_ ≤
          cntOf (matchBestPathId (matchBestRepeat cfg mask n) mask).2.pathTestCntMap q.id_ + 1
    rcases matchBestPathId_min_step _ ic hok mask with ⟨_, he⟩ | ⟨r, hr, hrs, he, hmin⟩
    · rw [he]
      refine ⟨ic, ip, ?_, ib⟩
      intro k c h
      have := ik k c h
      exact ⟨this.1, by push_cast; omega⟩
    · rw [he]
      rw [ip] at hr hmin
      refine ⟨ic, ip, ?_, ?_⟩
      · intro k c h
        simp only at h
        by_cases hkr : k = r.id_
        · rw [hkr, incrCnt_self] at h
          simp only [Option.some.injEq] at h
          have h0 := cntOf_nonneg hok r.id_
          have hle : cntOf (matchBestRepeat cfg mask n).pathTestCntMap r.id_ ≤ (n : Int) := by
            cases hv : (matchBestRepeat cfg mask n).pathTestCntMap r.id_ with
            | none => rw [cntOf_none hv]; omega
            | some d => rw [cntOf_some hv]; exact (ik _ _ hv).2
          constructor
          · omega
          · push_cast; omega
        · rw [incrCnt_other _ hkr] at h
          have := ik k c h
          exact ⟨this.1, by push_cast; omega⟩
      · intro p hp q hq hps hqs
        simp only
        rw [cntOf_incrCnt, cntOf_incrCnt]
        have b1 := ib p hp q hq hps hqs
        have b2 := ib p hp r hr hps hrs
        have m1 := hmin q hq hqs
        by_cases h1 : p.id_ = r.id_
        · rw [if_pos h1]
          by_cases h2 : q.id_ = r.id_
          · rw [if_pos h2]; omega
          · rw [if_neg h2]; omega
        · rw [if_neg h1]
          by_cases h2 : q.id_ = r.id_
          · rw [if_pos h2]; omega
          · rw [if_neg h2]; omega

/-- C37: starting from a freshly analysed CFG, after `n` consecutive calls of
`matchBestPathId` with one and the same mask, `n` within the range of the `int` counters
(`n ≤ INT32_MAX`), the counters of any two paths whose bitmasks are subsets of that mask
differ by at most one, a never-counted path counting as `0`. -/
theorem matchBestPathId_balanced (size : Nat) (edges : List (List Nat))
    (loop_map : List (Nat × Loop)) (fuel : Nat) (cfg : CFG)
    (h : analyzingPaths (CFG.init size edges loop_map) fuel = some cfg)
    (mask : List Char) (n : Nat) (hn : (n : Int) ≤ INT32_MAX) :
    ∀ p ∈ cfg.paths, ∀ q ∈ cfg.paths, MaskSubset p.to_string mask →
      MaskSubset q.to_string mask →
      |cntOf (matchBestRepeat cfg mask n).pathTestCntMap p.id_ -
        cntOf (matchBestRepeat cfg mask n).pathTestCntMap q.id_| ≤ 1 := by
  have hc := (analyzingPaths_consistent h).1
  have hfresh : cfg.pathTestCntMap = fun _ => none := by
    unfold analyzingPaths at h
    split at h
    · simp at h
    · next idPaths _ =>
      exact (addPath_fold_consistent idPaths _ _ (init_consistent size edges loop_map) h).2.2.2
  intro p hp q hq hps hqs
  obtain ⟨_, _, _, hb⟩ := matchBestRepeat_inv cfg hc hfresh mask n hn
  have h1 := hb p hp q hq hps hqs
  have h2 := hb q hq p hp hqs hps
  rw [abs_le]
  constructor <;> omega

theorem matchBestPathId_balanced_witness :
    analyzingPaths (CFG.init 4 diamondEdges []) 3 = some diamondCFG ∧
    ((3 : Nat) : Int) ≤ INT32_MAX ∧
    ∀ p ∈ diamondCFG.paths, ∀ q ∈ diamondCFG.paths,
      MaskSubset p.to_string ['1', '1', '1', '1'] →
      MaskSubset q.to_string ['1', '1', '1', '1'] →
      |cntOf (matchBestRepeat diamondCFG ['1', '1', '1', '1'] 3).pathTestCntMap p.id_ -
        cntOf (matchBestRepeat diamondCFG ['1', '1', '1', '1'] 3).pathTestCntMap q.id_| ≤ 1 :=
  ⟨diamondCFG_analyzed, by decide,
    matchBestPathId_balanced 4 diamondEdges [] 3 diamondCFG diamondCFG_analyzed
      ['1', '1', '1', '1'] 3 (by decide)⟩

theorem lookup_map_incr (id k : Int) :
    ∀ L : List (Int × Int),
      (L.map (fun e => if e.1 = id then (e.1, e.2 + 1) else e)).lookup k =
        (L.lookup k).map (fun v => if k = id then v + 1 else v) := by
  intro L
  induction L with
  | nil => rfl
  | cons e L ih =>
    obtain ⟨a, b⟩ := e
    by_cases hka : k = a
    · subst hka
      by_cases hid : k = id
      · simp [hid]
      · simp [hid]
    · have hne : (k == a) = false := by simpa using hka
      by_cases hid : a = id
      · simp only [List.map_cons, hid, if_true]
        rw [List.lookup_cons, List.lookup_cons]
        have hne' : (k == id) = false := by rw [← hid]; exact hne
        simp only [hne', hne]
        simpa [hid] using ih
      · simp only [List.map_cons, hid, if_false]
        rw [List.lookup_cons, List.lookup_cons]
        simp only [hne]
        exact ih

/-- The statement `pathTestCnt[id]++` on the local map of `computeCoverage` is the statement
`pathTestCntMap[id]++` on the member of the CFG. -/
theorem lookup_cntIncr (L : List (Int × Int)) (id k : Int) :
    (cntIncr L id).lookup k = incrCnt (fun j => L.lookup j) id k := by
  unfold cntIncr incrCnt
  cases hl : L.lookup id with
  | some c =>
    simp only [Option.isSome_some, if_true, Option.getD_some]
    rw [lookup_map_incr]
    by_cases hk : k = id
    · subst hk
      simp [hl]
    · simp only [hk, if_false]
      cases L.lookup k <;> rfl
  | none =>
    simp only [Option.isSome_none, Bool.false_eq_true, if_false, Option.getD_none]
    rw [List.lookup_append]
    by_cases hk : k = id
    · subst hk
      simp [hl]
    · have hne : (k == id) = false := by simpa using hk
      simp only [hk, if_false]
      rw [List.lookup_cons]
      simp only [hne, List.lookup_nil, Option.or_none]

/-- The minimum loops of `computeCoverage` and `matchBestPathId` run in step: they take the
early exit together, and at the end they hold the same minimum and, once some counter was
below the initial minimum, the same id. -/
theorem coverageMinLoop_matchBestLoop (L : List (Int × Int)) (cnt : Int → Option Int)
    (hsim : ∀ k, L.lookup k = cnt k) :
    ∀ (ids : List Int) (m a b : Int),
      (∀ pid, matchBestLoop cnt ids (m, b) = Except.error pid →
        (coverageMinLoop L ids (m, a)).2 = pid) ∧
      (∀ st, matchBestLoop cnt ids (m, b) = Except.ok st →
        (st.1 < m ∧ (coverageMinLoop L ids (m, a)).2 = st.2) ∨
        (st.1 = m ∧ st.2 = b ∧ (coverageMinLoop L ids (m, a)).2 = a)) := by
  intro ids
  induction ids with
  | nil =>
    intro m a b
    refine ⟨fun pid h => ?_, fun st h => ?_⟩
    · simp [matchBestLoop] at h
    · simp only [matchBestLoop, Except.ok.injEq] at h
      subst h
      exact Or.inr ⟨rfl, rfl, rfl⟩
  | cons x rest ih =>
    intro m a b
    cases hx : cnt x with
    | none =>
      have hL : L.lookup x = none := by rw [hsim, hx]
      refine ⟨fun pid h => ?_, fun st h => ?_⟩
      · simp only [matchBestLoop, hx, Except.error.injEq] at h
        simp only [coverageMinLoop, hL]
        exact h
      · simp [matchBestLoop, hx] at h
    | some c =>
      have hL : L.lookup x = some c := by rw [hsim, hx]
      by_cases hcm : c < m
      · obtain ⟨i1, i2⟩ := ih c x x
        refine ⟨fun pid h => ?_, fun st h => ?_⟩
        · simp only [matchBestLoop, hx, if_pos hcm] at h
          simp only [coverageMinLoop, hL, if_pos hcm]
          exact i1 pid h
        · simp only [matchBestLoop, hx, if_pos hcm] at h
          simp only [coverageMinLoop, hL, if_pos hcm]
          rcases i2 st h with ⟨h1, h2⟩ | ⟨h1, h2, h3⟩
          · exact Or.inl ⟨by omega, h2⟩
          · exact Or.inl ⟨by omega, by rw [h3, h2]⟩
      · obtain ⟨i1, i2⟩ := ih m a b
        refine ⟨fun pid h => ?_, fun st h => ?_⟩
        · simp only [matchBestLoop, hx, if_neg hcm] at h
          simp only [coverageMinLoop, hL, if_neg hcm]
          exact i1 pid h
        · simp only [matchBestLoop, hx, if_neg hcm] at h
          simp only [coverageMinLoop, hL, if_neg hcm]
          exact i2 st h

/-- One test case of `computeCoverage` against one call of `matchBestPathId`, on the same
counters (all below `INT32_MAX`) and a mask without blanks: the counters afterwards are the
same, and when some path is a subset match the path id assigned is the value returned. -/
theorem computeCoverageStep_matchBestPathId (cfg₀ cfg : CFG) (mask : List Char)
    (tc : TestCase) (L : List (Int × Int))
    (hp : cfg.paths = cfg₀.paths) (hm : cfg.pathIdMap = cfg₀.pathIdMap)
    (hsim : ∀ k, L.lookup k = cfg.pathTestCntMap k)
    (hbound : ∀ k c, cfg.pathTestCntMap k = some c → c < INT32_MAX)
    (hws : removeBlanks mask = mask) :
    (matchBestPathId cfg mask).2.paths = cfg₀.paths ∧
    (matchBestPathId cfg mask).2.pathIdMap = cfg₀.pathIdMap ∧
    (∀ k, (computeCoverageStep cfg₀ mask tc L).2.lookup k =
      (matchBestPathId cfg mask).2.pathTestCntMap k) ∧
    (matchPathIds cfg₀ mask ≠ [] →
      (computeCoverageStep cfg₀ mask tc L).1.pathId = (matchBestPathId cfg mask).1) ∧
    (∀ k, cntOf (matchBestPathId cfg mask).2.pathTestCntMap k ≤
      cntOf cfg.pathTestCntMap k + 1) := by
  have e1 : matchPathId cfg mask = matchPathId cfg₀ mask := by
    unfold matchPathId; rw [hm]
  have e2 : matchPathIds cfg mask = matchPathIds cfg₀ mask := by
    unfold matchPathIds; rw [hp]
  have hsimf : (fun j => L.lookup j) = cfg.pathTestCntMap := funext hsim
  have hincr : ∀ id k, (cntIncr L id).lookup k = incrCnt cfg.pathTestCntMap id k := by
    intro id k
    rw [lookup_cntIncr, hsimf]
  have hle : ∀ id k, cntOf (incrCnt cfg.pathTestCntMap id) k ≤
      cntOf cfg.pathTestCntMap k + 1 := by
    intro id k
    rw [cntOf_incrCnt]
    split
    · next h => rw [h]
    · omega
  unfold computeCoverageStep matchBestPathId
  simp only [hws, e1, e2]
  by_cases hfirst : matchPathId cfg₀ mask ≠ INVALID_PATH_ID ∧
      (cfg.pathTestCntMap (matchPathId cfg₀ mask)).isNone = true
  · have hfirst' : matchPathId cfg₀ mask ≠ INVALID_PATH_ID ∧
        (L.lookup (matchPathId cfg₀ mask)).isNone = true := by
      rw [hsim]; exact hfirst
    rw [if_pos hfirst, if_pos hfirst']
    exact ⟨hp, hm, hincr _, fun _ => rfl, hle _⟩
  · have hfirst' : ¬ (matchPathId cfg₀ mask ≠ INVALID_PATH_ID ∧
        (L.lookup (matchPathId cfg₀ mask)).isNone = true) := by
      rw [hsim]; exact hfirst
    rw [if_neg hfirst, if_neg hfirst']
    cases hids : matchPathIds cfg₀ mask with
    | nil =>
      simp only [List.isEmpty_nil, if_true]
      exact ⟨hp, hm, hsim, fun h => absurd rfl h, fun k => by omega⟩
    | cons x rest =>
      simp only [List.isEmpty_cons, Bool.false_eq_true, if_false]
      obtain ⟨s1, s2⟩ := coverageMinLoop_matchBestLoop L cfg.pathTestCntMap hsim (x :: rest)
        INT32_MAX INVALID_PATH_ID (matchPathId cfg₀ mask)
      obtain ⟨_, t2⟩ := matchBestLoop_spec cfg.pathTestCntMap (x :: rest)
        (INT32_MAX, matchPathId cfg₀ mask)
      cases hloop : matchBestLoop cfg.pathTestCntMap (x :: rest)
          (INT32_MAX, matchPathId cfg₀ mask) with
      | error pid =>
        simp only
        rw [s1 pid hloop]
        exact ⟨hp, hm, hincr _, fun _ => rfl, hle _⟩
      | ok st =>
        simp only
        have hlt : st.1 < INT32_MAX := by
          obtain ⟨hall, hcase⟩ := t2 st hloop
          rcases hcase with ⟨_, hge⟩ | ⟨_, _, _, _, h, _⟩
          · obtain ⟨c, hc, _⟩ := hall x (List.mem_cons_self _ _)
            have h1 := hge x (List.mem_cons_self _ _) c hc
            have h2 := hbound x c hc
            simp only at h1
            omega
          · exact h
        rcases s2 st hloop with ⟨_, h2⟩ | ⟨h1, _, _⟩
        · rw [h2]
          exact ⟨hp, hm, hincr _, fun _ => rfl, hle _⟩
        · omega

/-- The whole loop of `computeCoverage` against a run of `matchBestPathId` calls on the same
masks, as long as the counters stay below `INT32_MAX`. -/
theorem computeCoverageLoop_matchBestRun (cfg₀ : CFG) :
    ∀ (masks : List (List Char)) (tcs : List TestCase) (L : List (Int × Int)) (cfg : CFG),
      cfg.paths = cfg₀.paths → cfg.pathIdMap = cfg₀.pathIdMap →
      (∀ k, L.lookup k = cfg.pathTestCntMap k) →
      (∀ k, cntOf cfg.pathTestCntMap k + (masks.length : Int) ≤ INT32_MAX) →
      (∀ m ∈ masks, removeBlanks m = m) →
      ∀ (i : Nat) (mask : List Char) (tc : TestCase), masks[i]? = some mask →
        (computeCoverageLoop cfg₀ masks tcs L).1[i]? = some tc →
        matchPathIds cfg₀ mask ≠ [] → (matchBestRun masks cfg)[i]? = some tc.pathId := by
  intro masks
  induction masks with
  | nil =>
    intro tcs L cfg _ _ _ _ _ i mask tc hm
    simp at hm
  | cons m rest ih =>
    intro tcs L cfg hp hm hsim hbound hws i mask tc hmi hti hne
    cases tcs with
    | nil =>
      simp [computeCoverageLoop] at hti
    | cons t tcs =>
      have hb : ∀ k c, cfg.pathTestCntMap k = some c → c < INT32_MAX := by
        intro k c h
        have := hbound k
        rw [cntOf_some h] at this
        simp only [List.length_cons] at this
        push_cast at this
        omega
      obtain ⟨a1, a2, a3, a4, a5⟩ := computeCoverageStep_matchBestPathId cfg₀ cfg m t L hp hm
        hsim hb (hws m (List.mem_cons_self _ _))
      simp only [computeCoverageLoop] at hti
      simp only [matchBestRun]
      cases i with
      | zero =>
        simp only [List.getElem?_cons_zero, Option.some.injEq] at hmi hti ⊢
        subst hmi
        rw [← hti]
        exact (a4 hne).symm
      | succ j =>
        simp only [List.getElem?_cons_succ] at hmi hti ⊢
        refine ih tcs _ _ a1 a2 a3 ?_ (fun m' hm' => hws m' (List.mem_cons_of_mem _ hm'))
          j mask tc hmi hti hne
        intro k
        have h1 := a5 k
        have h2 := hbound k
        simp only [List.length_cons] at h2
        push_cast at h2
        omega

theorem removeBlanks_of_no_blank {m : List Char} (h : ∀ c ∈ m, isspace c = false) :
    removeBlanks m = m := by
  unfold removeBlanks
  rw [List.filter_eq_self]
  intro c hc
  simp [h c hc]

/-- C35: for every CFG with fresh counters and every list of at most `INT32_MAX` execution
masks without white space (the range of the `int` counters), the path id that
`computeCoverage` assigns to test case `i`, when some path bitmask is a subset of mask `i`,
is the value returned by call `i` of `matchBestPathId` in a run over the same masks in the
same order. -/
theorem computeCoverage_agrees_matchBestPathId (cfg : CFG)
    (hfresh : cfg.pathTestCntMap = fun _ => none) (testSuite : TestSuite)
    (masks : List (List Char)) (hws : ∀ m ∈ masks, ∀ c ∈ m, isspace c = false)
    (hlen : (masks.length : Int) ≤ INT32_MAX) (i : Nat) (mask : List Char) (tc : TestCase)
    (hm : masks[i]? = some mask)
    (ht : (computeCoverage testSuite masks cfg).testCases[i]? = some tc)
    (hsub : ∃ p ∈ cfg.paths, MaskSubset p.to_string mask) :
    (matchBestRun masks cfg)[i]? = some tc.pathId := by
  apply computeCoverageLoop_matchBestRun cfg masks testSuite.testCases [] cfg rfl rfl
    (fun k => by rw [hfresh]; rfl)
    (fun k => by rw [hfresh]; simpa [cntOf] using hlen)
    (fun m hm' => removeBlanks_of_no_blank (hws m hm')) i mask tc hm ht
  obtain ⟨p, hp, hs⟩ := hsub
  intro hnil
  have : p.id_ ∈ matchPathIds cfg mask := (mem_matchPathIds cfg mask p.id_).2 ⟨p, hp, hs, rfl⟩
  rw [hnil] at this
  cases this

theorem computeCoverage_agrees_matchBestPathId_witness :
    diamondCFG.pathTestCntMap = (fun _ => none) ∧
    (∀ m ∈ exCoverageMasks, ∀ c ∈ m, isspace c = false) ∧
    (exCoverageMasks.length : Int) ≤ INT32_MAX ∧
    exCoverageMasks[1]? = some ['1', '1', '1', '1'] ∧
    (computeCoverage exCoverageSuite exCoverageMasks diamondCFG).testCases[1]? =
      some exCoveredCase ∧
    (∃ p ∈ diamondCFG.paths, MaskSubset p.to_string ['1', '1', '1', '1']) ∧
    (matchBestRun exCoverageMasks diamondCFG)[1]? = some exCoveredCase.pathId :=
  ⟨rfl, by decide, by decide, by decide, by decide, by decide,
    computeCoverage_agrees_matchBestPathId diamondCFG rfl exCoverageSuite exCoverageMasks
      (by decide) (by decide) 1 ['1', '1', '1', '1'] exCoveredCase (by decide) (by decide)
      (by decide)⟩

/-! ## Bitmasks of the paths of an acyclic CFG: C38 -/

theorem transGen_irrefl (edges : List (List Nat)) (hac : Acyclic edges) (a : Nat) :
    ¬ Relation.TransGen (IsEdge edges) a a := by
  intro h
  have h' : Relation.TransGen (Function.swap (IsEdge edges)) a a := Relation.transGen_swap.2 h
  obtain ⟨w, hw, hwalk, hlast⟩ := walk_of_transGen edges h'
  exact hac a w hw hwalk hlast

theorem walk_pairwise (edges : List (List Nat)) {p : List Nat} (h : IsWalk edges p) :
    p.Pairwise (Relation.TransGen (IsEdge edges)) := by
  have hc : List.Chain' (Relation.TransGen (IsEdge edges)) p :=
    List.Chain'.imp (fun _ _ hab => Relation.TransGen.single hab) h
  exact List.chain'_iff_pairwise.1 hc

/-- In an acyclic CFG a walk is determined by the set of its nodes. -/
theorem walks_eq_of_same_nodes (edges : List (List Nat)) (hac : Acyclic edges)
    {p q : List Nat} (hp : IsWalk edges p) (hq : IsWalk edges q)
    (hmem : ∀ x, x ∈ p ↔ x ∈ q) : p = q := by
  have pp := walk_pairwise edges hp
  have pq := walk_pairwise edges hq
  have hne : ∀ a b : Nat, Relation.TransGen (IsEdge edges) a b → a ≠ b := by
    intro a b hab he
    subst he
    exact transGen_irrefl edges hac a hab
  have ndp : p.Nodup := pp.imp (fun {a b} hab => hne a b hab)
  have ndq : q.Nodup := pq.imp (fun {a b} hab => hne a b hab)
  haveI : IsAntisymm Nat (Relation.TransGen (IsEdge edges)) :=
    ⟨fun a _ h1 h2 => absurd (h1.trans h2) (transGen_irrefl edges hac a)⟩
  exact List.eq_of_perm_of_sorted ((List.perm_ext_iff_of_nodup ndp ndq).2 hmem) pp pq

theorem Path.new_mask {count n : Nat} {ids : List Nat} {p : Path}
    (h : Path.new count n ids = some p) :
    ∀ i, i < n → p.to_string[i]? = some (if i ∈ ids then '1' else '0') := by
  have hlt := Path.new_nodes_lt h
  obtain ⟨m', h1, _, h3⟩ := setBit_fold n ids (pathMask.ofNum n) (by simp [pathMask.ofNum]) hlt
  have hp : p = { id_ := (count : Int), nodes := ids, total_nodes := n, mask := m' } := by
    simp only [Path.new, h1, Option.map_some', Option.some.injEq] at h
    exact h.symm
  intro i hi
  rw [hp]
  simp only [Path.to_string, pathMask.to_string, List.getElem?_map, h3 i hi]
  by_cases hm : i ∈ ids <;> simp [hm, pathMask.ofNum, List.getD_eq_getElem?_getD, hi]

theorem addPath_fold_masksOk :
    ∀ (idPaths : List (List Nat)) (cfg cfg' : CFG), cfg.MasksOk →
      idPaths.foldlM addPath cfg = some cfg' → cfg'.MasksOk := by
  intro idPaths
  induction idPaths with
  | nil =>
    intro cfg cfg' hm h
    simp at h
    subst h
    exact hm
  | cons a rest ih =>
    intro cfg cfg' hm h
    simp only [List.foldlM_cons] at h
    cases h1 : addPath cfg a with
    | none => rw [h1] at h; simp at h
    | some c1 =>
      rw [h1] at h
      have h : List.foldlM addPath c1 rest = some cfg' := h
      refine ih c1 cfg' ?_ h
      unfold addPath at h1
      cases hp : Path.new cfg.pathCount cfg.size a with
      | none => rw [hp] at h1; simp at h1
      | some p =>
        rw [hp] at h1
        simp only [Option.some.injEq] at h1
        subst h1
        intro q hq
        rcases List.mem_append.1 hq with hq | hq
        · exact hm q hq
        · simp only [List.mem_singleton] at hq
          subst hq
          have hn : q.nodes = a := (Path.new_some hp).2.1
          rw [hn]
          exact ⟨Path.new_nodes_lt hp, Path.new_mask hp⟩

theorem analyzingPaths_masksOk {size : Nat} {edges : List (List Nat)}
    {loop_map : List (Nat × Loop)} {fuel : Nat} {cfg : CFG}
    (h : analyzingPaths (CFG.init size edges loop_map) fuel = some cfg) : cfg.MasksOk := by
  unfold analyzingPaths at h
  split at h
  · simp at h
  · next idPaths _ =>
    exact addPath_fold_masksOk idPaths _ _ (by intro p hp; simp [CFG.init] at hp) h

/-- Two stored paths with the same bitmask string have the same set of nodes. -/
theorem same_nodes_of_same_mask {cfg : CFG} (hm : cfg.MasksOk) {p q : Path}
    (hp : p ∈ cfg.paths) (hq : q ∈ cfg.paths) (hs : p.to_string = q.to_string) :
    ∀ x, x ∈ p.nodes ↔ x ∈ q.nodes := by
  have key : ∀ a b : Path, a ∈ cfg.paths → b ∈ cfg.paths → a.to_string = b.to_string →
      ∀ x, x ∈ a.nodes → x ∈ b.nodes := by
    intro a b ha hb hab x hx
    have hlt := (hm a ha).1 x hx
    have h1 := (hm a ha).2 x hlt
    have h2 := (hm b hb).2 x hlt
    rw [hab, h2, if_pos hx] at h1
    by_contra hnot
    rw [if_neg hnot] at h1
    simp at h1
  exact fun x => ⟨key p q hp hq hs x, key q p hq hp hs.symm x⟩

/-- On an acyclic CFG without repeated successors the enumeration returns no node sequence
twice. -/
theorem dfsWithoutLoops_nodup (edges : List (List Nat)) (hac : Acyclic edges)
    (hnd : ∀ u, (succs edges u).Nodup) {fuel : Nat} {paths : List (List Nat)}
    (h : dfsWithoutLoops edges fuel = some paths) : paths.Nodup := by
  obtain ⟨k, O, hO, n, _⟩ := drains_all edges hac hnd 0 [0] rfl [] []
  have hk : dfsWithoutLoops edges k = some O := by
    unfold dfsWithoutLoops
    have := hO 0
    simp only [Nat.add_zero, List.nil_append] at this
    rw [this]
    simp [dfsLoop]
  have e1 := dfsWithoutLoops_mono edges (Nat.le_max_left fuel k) h
  have e2 := dfsWithoutLoops_mono edges (Nat.le_max_right fuel k) hk
  rw [e1] at e2
  simp only [Option.some.injEq] at e2
  rw [e2]
  exact n

/-- C38: on the analysed CFG of a function without loops whose graph is acyclic and in which
no node lists the same successor twice, no node sequence is enumerated twice, any two stored
paths with the same bitmask string are the same path (distinct paths have distinct bitmask
strings), and `matchPathId(P.bitmask) = P.id` for every stored path `P`. -/
theorem acyclic_bitmasks_injective (size : Nat) (edges : List (List Nat)) (fuel : Nat)
    (cfg : CFG) (hac : Acyclic edges) (hnd : ∀ u, (succs edges u).Nodup)
    (h : analyzingPaths (CFG.init size edges []) fuel = some cfg) :
    dfsWithoutLoops edges fuel = some (cfg.paths.map Path.nodes) ∧
    (cfg.paths.map Path.nodes).Nodup ∧
    (∀ p ∈ cfg.paths, ∀ q ∈ cfg.paths, p.to_string = q.to_string → p = q) ∧
    (∀ p ∈ cfg.paths, matchPathId cfg p.to_string = p.id_) := by
  obtain ⟨hen, _⟩ := analyzingPaths_nodes h
  simp only [List.isEmpty_nil, if_true] at hen
  have hnodup := dfsWithoutLoops_nodup edges hac hnd hen
  have hm := analyzingPaths_masksOk h
  have hwalk : ∀ p ∈ cfg.paths, IsWalk edges p.nodes := by
    intro p hp
    exact (dfsLoop_inv edges fuel [[0]] [] _
      (by
        intro q hq
        simp at hq
        subst hq
        exact ⟨rfl, by simp [IsWalk]⟩)
      (by intro q hq; simp at hq) hen p.nodes (List.mem_map_of_mem _ hp)).2.2
  have hinj : ∀ p ∈ cfg.paths, ∀ q ∈ cfg.paths, p.to_string = q.to_string → p = q := by
    intro p hp q hq hs
    have hn : p.nodes = q.nodes :=
      walks_eq_of_same_nodes edges hac (hwalk p hp) (hwalk q hq)
        (same_nodes_of_same_mask hm hp hq hs)
    exact List.inj_on_of_nodup_map hnodup hp hq hn
  refine ⟨hen, hnodup, hinj, ?_⟩
  intro p hp
  obtain ⟨_, _, _, c4, c5⟩ := (analyzingPaths_consistent h).1
  cases hmp : cfg.pathIdMap p.to_string with
  | none => exact absurd hmp (c5 p hp)
  | some id =>
    obtain ⟨q, hq, hqid, hqs⟩ := c4 _ _ hmp
    unfold matchPathId
    rw [hmp]
    simp only
    rw [← hqid, hinj q hq p hp hqs]

theorem acyclic_bitmasks_injective_witness :
    Acyclic diamondEdges ∧ (∀ u, (succs diamondEdges u).Nodup) ∧
    analyzingPaths (CFG.init 4 diamondEdges []) 3 = some diamondCFG ∧
    (dfsWithoutLoops diamondEdges 3 = some (diamondCFG.paths.map Path.nodes) ∧
    (diamondCFG.paths.map Path.nodes).Nodup ∧
    (∀ p ∈ diamondCFG.paths, ∀ q ∈ diamondCFG.paths, p.to_string = q.to_string → p = q) ∧
    (∀ p ∈ diamondCFG.paths, matchPathId diamondCFG p.to_string = p.id_)) :=
  ⟨acyclic_of_increasing _ diamond_increasing, diamond_nodup, diamondCFG_analyzed,
    acyclic_bitmasks_injective 4 diamondEdges 3 diamondCFG
      (acyclic_of_increasing _ diamond_increasing) diamond_nodup diamondCFG_analyzed⟩
/-! ## `buildGraph` and `select_num`: C33 -/

theorem mem_of_getElem?_some {α : Type} {l : List α} {i : Nat} {a : α} (h : l[i]? = some a) :
    a ∈ l := by
  obtain ⟨hlt, he⟩ := List.getElem?_eq_some_iff.1 h
  exact he ▸ List.getElem_mem hlt

theorem updateNode_length (nodes : List Node) (k : Nat) (f : Node → Node) :
    (updateNode nodes k f).length = nodes.length := by
  unfold updateNode
  split <;> simp

theorem updateNode_getElem? (nodes : List Node) (k : Nat) (f : Node → Node) (t : Nat) :
    (updateNode nodes k f)[t]? = if t = k then (nodes[t]?).map f else nodes[t]? := by
  unfold updateNode
  cases hk : nodes[k]? with
  | none =>
    simp only
    by_cases htk : t = k
    · rw [if_pos htk, htk, hk]; rfl
    · rw [if_neg htk]
  | some n =>
    simp only
    by_cases htk : t = k
    · subst htk
      rw [if_pos rfl, hk]
      have hlt : t < nodes.length := by
        by_contra hge
        rw [List.getElem?_eq_none (by omega)] at hk
        cases hk
      simp [List.getElem?_set, hlt]
    · rw [if_neg htk, List.getElem?_set_ne (fun h => htk h.symm)]

/-- The loop that sets the select numbers leaves every node that is not a target as it is,
and leaves on a target the last index at which it is listed, plus one; no other field
changes. -/
theorem setSelectNumLoop_spec :
    ∀ (succBlocks : List Nat) (i : Nat) (nodes : List Node),
      (setSelectNumLoop succBlocks i nodes).length = nodes.length ∧
      ∀ t n', (setSelectNumLoop succBlocks i nodes)[t]? = some n' →
        ∃ n, nodes[t]? = some n ∧ n'.successors = n.successors ∧
          ((t ∉ succBlocks ∧ n'.selectNum = n.selectNum) ∨
            ∃ j, succBlocks[j]? = some t ∧ (∀ k, j < k → succBlocks[k]? ≠ some t) ∧
              n'.selectNum = ((i + j : Nat) : Int) + 1) := by
  intro succBlocks
  induction succBlocks with
  | nil =>
    intro i nodes
    refine ⟨rfl, fun t n' h => ⟨n', h, rfl, Or.inl ⟨by simp, rfl⟩⟩⟩
  | cons s rest ih =>
    intro i nodes
    obtain ⟨l1, l2⟩ := ih (i + 1)
      (updateNode nodes s (fun n => { n with selectNum := (i : Int) + 1 }))
    refine ⟨by rw [setSelectNumLoop, l1, updateNode_length], fun t n' h => ?_⟩
    rw [setSelectNumLoop] at h
    obtain ⟨n₁, hn₁, hs₁, hcase⟩ := l2 t n' h
    rw [updateNode_getElem?] at hn₁
    by_cases hts : t = s
    · rw [if_pos hts] at hn₁
      cases hn : nodes[t]? with
      | none => rw [hn] at hn₁; cases hn₁
      | some n =>
        rw [hn] at hn₁
        simp only [Option.map_some', Option.some.injEq] at hn₁
        subst hn₁
        refine ⟨n, rfl, hs₁, Or.inr ?_⟩
        rcases hcase with ⟨hnot, hsel⟩ | ⟨j, hj, hlast, hsel⟩
        · refine ⟨0, by simp [hts], ?_, by simpa using hsel⟩
          intro k hk hk'
          cases k with
          | zero => omega
          | succ k' =>
            simp only [List.getElem?_cons_succ] at hk'
            exact hnot (mem_of_getElem?_some hk')
        · refine ⟨j + 1, by simpa using hj, ?_, ?_⟩
          · intro k hk hk'
            cases k with
            | zero => omega
            | succ k' =>
              simp only [List.getElem?_cons_succ] at hk'
              exact hlast k' (by omega) hk'
          · rw [hsel]
            congr 2
            omega
    · rw [if_neg hts] at hn₁
      refine ⟨n₁, hn₁, hs₁, ?_⟩
      rcases hcase with ⟨hnot, hsel⟩ | ⟨j, hj, hlast, hsel⟩
      · exact Or.inl ⟨by simp [hts, hnot], hsel⟩
      · right
        refine ⟨j + 1, by simpa using hj, ?_, ?_⟩
        · intro k hk hk'
          cases k with
          | zero => omega
          | succ k' =>
            simp only [List.getElem?_cons_succ] at hk'
            exact hlast k' (by omega) hk'
        · rw [hsel]
          congr 2
          omega

/-- One round of the loop of `buildGraph` on a block that was not visited before: the
nodes. -/
theorem buildGraphNodes_spec (func : List BasicBlock) (nodes : List Node)
    (b : Nat) (nb : Node) (hb : nodes[b]? = some nb) (hfresh : nb.successors = []) :
    NodesAfterVisit func nodes b (buildGraphNodes func nodes b) := by
  have hsucc : (((updateNode nodes b
      (fun node => { node with successors := node.successors ++ termSuccs func b }))[b]?).map
        Node.successors).getD [] = termSuccs func b := by
    rw [updateNode_getElem?, if_pos rfl, hb]
    simp [hfresh]
  have hnodes1 : ∀ t n₁, (updateNode nodes b
      (fun node => { node with successors := node.successors ++ termSuccs func b }))[t]?
        = some n₁ →
      ∃ n, nodes[t]? = some n ∧
        n₁.successors = (if t = b then termSuccs func b else n.successors) ∧
        n₁.selectNum = n.selectNum := by
    intro t n₁ h
    rw [updateNode_getElem?] at h
    by_cases htb : t = b
    · subst htb
      rw [if_pos rfl, hb] at h
      simp only [Option.map_some', Option.some.injEq] at h
      subst h
      exact ⟨nb, hb, by simp [hfresh], rfl⟩
    · rw [if_neg htb] at h
      exact ⟨n₁, h, by rw [if_neg htb], rfl⟩
  -- a second write to node `b` that keeps `successors` and `selectNum`
  have hnodes2 : ∀ f : Node → Node, (∀ n, (f n).successors = n.successors) →
      (∀ n, (f n).selectNum = n.selectNum) →
      ∀ t n₂, (updateNode (updateNode nodes b
        (fun node => { node with successors := node.successors ++ termSuccs func b })) b f)[t]?
          = some n₂ →
      ∃ n, nodes[t]? = some n ∧
        n₂.successors = (if t = b then termSuccs func b else n.successors) ∧
        n₂.selectNum = n.selectNum := by
    intro f hf1 hf2 t n₂ h
    rw [updateNode_getElem?] at h
    by_cases htb : t = b
    · rw [if_pos htb] at h
      cases h1 : (updateNode nodes b
          (fun node => { node with successors := node.successors ++ termSuccs func b }))[t]?
        with
      | none => rw [h1] at h; cases h
      | some n₁ =>
        rw [h1] at h
        simp only [Option.map_some', Option.some.injEq] at h
        subst h
        obtain ⟨n, hn, hs, hsel⟩ := hnodes1 t n₁ h1
        exact ⟨n, hn, by rw [hf1, hs], by rw [hf2, hsel]⟩
    · rw [if_neg htb] at h
      exact hnodes1 t n₂ h
  unfold buildGraphNodes
  simp only [hsucc]
  by_cases hE : (termSuccs func b).isEmpty = true
  · rw [if_pos hE]
    have hnil : termSuccs func b = [] := List.isEmpty_iff.1 hE
    refine ⟨by rw [updateNode_length, updateNode_length], fun t n' h => ?_⟩
    obtain ⟨n, hn, hs, hsel⟩ := hnodes2
      (fun node => { node with node_type := NODE_TYPE.NODE_EXIT })
      (fun _ => rfl) (fun _ => rfl) t n' h
    exact ⟨n, hn, hs, Or.inl ⟨by rw [hnil]; simp, hsel⟩⟩
  · rw [if_neg hE]
    by_cases hB : (termSuccs func b).length > 1
    · rw [if_pos hB]
      obtain ⟨l1, l2⟩ := setSelectNumLoop_spec (termSuccs func b) 0
        (updateNode (updateNode nodes b
          (fun node => { node with successors := node.successors ++ termSuccs func b })) b
          (fun node => if node.node_type = NODE_TYPE.NODE_NORMAL
            then { node with node_type := NODE_TYPE.NODE_BRANCH } else node))
      refine ⟨by rw [l1, updateNode_length, updateNode_length], fun t n' h => ?_⟩
      obtain ⟨n₂, hn₂, hs₂, hcase⟩ := l2 t n' h
      obtain ⟨n, hn, hs, hsel⟩ := hnodes2
        (fun node => if node.node_type = NODE_TYPE.NODE_NORMAL
          then { node with node_type := NODE_TYPE.NODE_BRANCH } else node)
        (fun n => by by_cases h : n.node_type = NODE_TYPE.NODE_NORMAL <;> simp [h])
        (fun n => by by_cases h : n.node_type = NODE_TYPE.NODE_NORMAL <;> simp [h]) t n₂ hn₂
      refine ⟨n, hn, by rw [hs₂, hs], ?_⟩
      rcases hcase with ⟨hnot, hsel'⟩ | ⟨j, hj, hlast, hsel'⟩
      · exact Or.inl ⟨fun hh => hnot hh.2, by rw [hsel', hsel]⟩
      · exact Or.inr ⟨hB, j, hj, hlast, by rw [hsel']; simp⟩
    · rw [if_neg hB]
      refine ⟨updateNode_length _ _ _, fun t n' h => ?_⟩
      obtain ⟨n, hn, hs, hsel⟩ := hnodes1 t n' h
      exact ⟨n, hn, hs, Or.inl ⟨fun hh => hB hh.1, hsel⟩⟩

/-- One round of the loop of `buildGraph` on a block that was not visited before: the
state. -/
theorem buildGraphStep_spec (func : List BasicBlock) (st : List Node × List (List Nat))
    (b : Nat) (nb : Node) (hb : st.1[b]? = some nb) (hfresh : nb.successors = []) :
    NodesAfterVisit func st.1 b (buildGraphStep func st b).1 ∧
    (buildGraphStep func st b).2 = st.2.set b (termSuccs func b) := by
  have hspec := buildGraphNodes_spec func st.1 b nb hb hfresh
  refine ⟨hspec, ?_⟩
  have hblt : b < st.1.length := by
    by_contra hge
    rw [List.getElem?_eq_none (by omega)] at hb
    cases hb
  have hlt2 : b < (buildGraphNodes func st.1 b).length := by rw [hspec.1]; exact hblt
  obtain ⟨n, _, hs, _⟩ := hspec.2 b _ (List.getElem?_eq_getElem hlt2)
  rw [if_pos rfl] at hs
  show st.2.set b ((((buildGraphNodes func st.1 b)[b]?).map Node.successors).getD []) = _
  rw [List.getElem?_eq_getElem hlt2]
  simp only [Option.map_some', Option.getD_some]
  rw [hs]

theorem initNodes_spec :
    ∀ (func : List BasicBlock) (bbId : Nat) (headers : List Nat),
      (initNodes func bbId headers).length = func.length ∧
      ∀ n ∈ initNodes func bbId headers, n.successors = [] ∧ n.selectNum = 0 := by
  intro func
  induction func with
  | nil =>
    intro bbId headers
    exact ⟨rfl, fun n hn => by cases hn⟩
  | cons block rest ih =>
    intro bbId headers
    obtain ⟨i1, i2⟩ := ih (bbId + 1) headers
    refine ⟨by simp [initNodes, i1], fun n hn => ?_⟩
    simp only [initNodes, List.mem_cons] at hn
    rcases hn with rfl | hn
    · exact ⟨rfl, rfl⟩
    · exact i2 n hn

theorem initGraphState_inv (func : List BasicBlock) (headers : List Nat) :
    BuildGraphInv func func.length [] (initGraphState func headers) := by
  obtain ⟨i1, i2⟩ := initNodes_spec func 0 headers
  refine ⟨i1, by simp [initGraphState], fun b hb => (by cases hb), fun t n h => ?_⟩
  obtain ⟨h1, h2⟩ := i2 n (mem_of_getElem?_some h)
  refine ⟨by simp [h1], Or.inl ⟨h2, fun b hb => by cases hb⟩⟩

theorem buildGraphStep_inv (func : List BasicBlock) (N : Nat) (V : List Nat)
    (st : List Node × List (List Nat)) (b : Nat) (hinv : BuildGraphInv func N V st)
    (hb : b < N) (hbV : b ∉ V) :
    BuildGraphInv func N (b :: V) (buildGraphStep func st b) := by
  obtain ⟨h1, h2, h3, h4⟩ := hinv
  have hblt : b < st.1.length := by omega
  have hnb : st.1[b]? = some st.1[b] := List.getElem?_eq_getElem hblt
  have hfresh : (st.1[b]).successors = [] := by
    rw [(h4 b _ hnb).1, if_neg hbV]
  obtain ⟨⟨k1, k2⟩, k3⟩ := buildGraphStep_spec func st b _ hnb hfresh
  refine ⟨by rw [k1, h1], by rw [k3, List.length_set, h2], ?_, ?_⟩
  · intro b' hb'
    rw [k3]
    by_cases he : b' = b
    · subst he
      simp [List.getElem?_set, h2, hb]
    · rw [List.getElem?_set_ne (fun h => he h.symm)]
      rcases List.mem_cons.1 hb' with h | h
      · exact absurd h he
      · exact h3 b' h
  · intro t n' h
    obtain ⟨n, hn, hs, hcase⟩ := k2 t n' h
    obtain ⟨g1, g2⟩ := h4 t n hn
    constructor
    · rw [hs]
      by_cases htb : t = b
      · subst htb
        simp
      · rw [if_neg htb, g1]
        simp [htb]
    · rcases hcase with ⟨hnot, hsel⟩ | ⟨hbr, j, hj, hlast, hsel⟩
      · rcases g2 with ⟨z, hall⟩ | ⟨b', hb'V, hbr, j, hj, hlast, hsel0⟩
        · refine Or.inl ⟨by rw [hsel, z], ?_⟩
          intro b' hb' hbr hmem
          rcases List.mem_cons.1 hb' with he | hV
          · subst he
            exact hnot ⟨hbr, hmem⟩
          · exact hall b' hV hbr hmem
        · exact Or.inr ⟨b', List.mem_cons_of_mem _ hb'V, hbr, j, hj, hlast, by rw [hsel, hsel0]⟩
      · exact Or.inr ⟨b, List.mem_cons_self _ _, hbr, j, hj, hlast, hsel⟩

theorem buildGraph_inv (func : List BasicBlock) (N : Nat) :
    ∀ (order V : List Nat) (st : List Node × List (List Nat)),
      BuildGraphInv func N V st → (∀ b ∈ order, b < N) → order.Nodup →
      (∀ b ∈ order, b ∉ V) →
      BuildGraphInv func N (order.reverse ++ V) (buildGraph func order st) := by
  intro order
  induction order with
  | nil =>
    intro V st hinv _ _ _
    simpa [buildGraph] using hinv
  | cons b rest ih =>
    intro V st hinv hlt hnd hV
    have hstep := buildGraphStep_inv func N V st b hinv (hlt b (List.mem_cons_self _ _))
      (hV b (List.mem_cons_self _ _))
    obtain ⟨hbrest, hndrest⟩ := List.nodup_cons.1 hnd
    have := ih (b :: V) (buildGraphStep func st b) hstep
      (fun x hx => hlt x (List.mem_cons_of_mem _ hx)) hndrest
      (fun x hx hmem => by
        rcases List.mem_cons.1 hmem with he | hxV
        · exact hbrest (he ▸ hx)
        · exact hV x (List.mem_cons_of_mem _ hx) hxV)
    have e : (b :: rest).reverse ++ V = rest.reverse ++ (b :: V) := by simp
    rw [e]
    exact this

theorem termSuccs_of_ge (func : List BasicBlock) {b : Nat} (h : func.length ≤ b) :
    termSuccs func b = [] := by
  unfold termSuccs
  rw [List.getElem?_eq_none h]
  rfl

/-- What `buildGraph` leaves, whatever the order in which it visits the blocks (each block
once): every node and `edges` hold the successors of the terminator; the select number of a
node is `0` when no block with at least two successors lists it, and otherwise one more than
the last index at which some block with at least two successors lists it. -/
theorem buildGraph_spec (func : List BasicBlock) (headers : List Nat) (order : List Nat)
    (hperm : order.Perm (List.range func.length)) :
    (buildGraph func order (initGraphState func headers)).1.length = func.length ∧
    (∀ b, b < func.length →
      (buildGraph func order (initGraphState func headers)).2[b]? = some (termSuccs func b)) ∧
    ∀ t n, (buildGraph func order (initGraphState func headers)).1[t]? = some n →
      n.successors = termSuccs func t ∧
      ((n.selectNum = 0 ∧ ∀ b, 1 < (termSuccs func b).length → t ∉ termSuccs func b) ∨
        ∃ b, 1 < (termSuccs func b).length ∧
          ∃ j : Nat, (termSuccs func b)[j]? = some t ∧
            (∀ k : Nat, j < k → (termSuccs func b)[k]? ≠ some t) ∧
            n.selectNum = (j : Int) + 1) := by
  have hmem : ∀ b, b ∈ order.reverse ++ [] ↔ b < func.length := by
    intro b
    simp only [List.append_nil, List.mem_reverse]
    rw [hperm.mem_iff, List.mem_range]
  obtain ⟨h1, _, h3, h4⟩ := buildGraph_inv func func.length order []
    (initGraphState func headers) (initGraphState_inv func headers)
    (fun b hb => List.mem_range.1 (hperm.mem_iff.1 hb))
    (hperm.nodup_iff.2 (List.nodup_range _)) (fun b _ hb => by cases hb)
  refine ⟨h1, fun b hb => h3 b ((hmem b).2 hb), fun t n h => ?_⟩
  have htlt : t < func.length := by
    rw [← h1]
    exact (List.getElem?_eq_some_iff.1 h).1
  obtain ⟨g1, g2⟩ := h4 t n h
  constructor
  · rw [g1, if_pos ((hmem t).2 htlt)]
  · rcases g2 with ⟨z, hall⟩ | ⟨b, _, hbr, j, hj, hlast, hsel⟩
    · refine Or.inl ⟨z, fun b hbr => ?_⟩
      by_cases hb : b < func.length
      · exact hall b ((hmem b).2 hb) hbr
      · rw [termSuccs_of_ge func (by omega)] at hbr
        simp at hbr
    · exact Or.inr ⟨b, hbr, j, hj, hlast, hsel⟩

/-- C33 (counterexample): in a function whose entry block ends in
`switch x [default: B1, 1: B2, 2: B2]`, block `B2` (node `2`) is successor `1` of the
terminator of the entry block, which has three successors, and it ends with select number
`3`, not `2`, whatever the order in which `buildGraph` visits the blocks.  In a function with
the body `if (!a || b) s1; else s2;`, node `2` is successor `1` of block `0` and successor
`0` of block `1`; its select number is `1` when block `1` is visited last and `2` when
block `0` is visited last. -/
theorem selectNum_differs_from_successor_index :
    (1 < (termSuccs exSwitchFunc 0).length ∧ (termSuccs exSwitchFunc 0)[1]? = some 2 ∧
      ∀ order : List Nat, order.Perm (List.range exSwitchFunc.length) →
        ((buildGraph exSwitchFunc order (initGraphState exSwitchFunc [])).1[2]?).map
          Node.selectNum = some 3) ∧
    (1 < (termSuccs exOrFunc 0).length ∧ (termSuccs exOrFunc 0)[1]? = some 2 ∧
      1 < (termSuccs exOrFunc 1).length ∧ (termSuccs exOrFunc 1)[0]? = some 2 ∧
      ((buildGraph exOrFunc [0, 1, 2, 3, 4] (initGraphState exOrFunc [])).1[2]?).map
        Node.selectNum = some 1 ∧
      ((buildGraph exOrFunc [1, 0, 2, 3, 4] (initGraphState exOrFunc [])).1[2]?).map
        Node.selectNum = some 2) := by
  refine ⟨⟨by decide, by decide, ?_⟩, by decide⟩
  intro order hperm
  obtain ⟨h1, _, h3⟩ := buildGraph_spec exSwitchFunc [] order hperm
  have hlt : 2 < (buildGraph exSwitchFunc order (initGraphState exSwitchFunc [])).1.length := by
    rw [h1]; decide
  rw [List.getElem?_eq_getElem hlt]
  obtain ⟨_, hcase⟩ := h3 2 _ (List.getElem?_eq_getElem hlt)
  simp only [Option.map_some', Option.some.injEq]
  rcases hcase with ⟨_, hall⟩ | ⟨b, hbr, j, hj, hlast, hsel⟩
  · exact absurd (by decide) (hall 0 (by decide))
  · have hb0 : b = 0 := by
      rcases b with _ | _ | _ | _ | b
      · rfl
      · exact absurd hbr (by decide)
      · exact absurd hbr (by decide)
      · exact absurd hbr (by decide)
      · rw [termSuccs_of_ge exSwitchFunc (by simp [exSwitchFunc])] at hbr
        simp at hbr
    subst hb0
    have hj2 : j = 2 := by
      rcases j with _ | _ | _ | j
      · exact absurd hj (by decide)
      · exact absurd (by decide) (hlast 2 (by omega))
      · rfl
      · have hS : termSuccs exSwitchFunc 0 = [1, 2, 2] := by decide
        rw [hS] at hj
        simp at hj
    rw [hsel, hj2]
    rfl

/-- C33 (amended): after `buildGraph`, whatever the order in which it visits the blocks
(each block once), every node holds the successors of its terminator, and so does `edges`;
the select number of a node `t` is `0` when no node with at least two successors has `t`
as a successor, and otherwise it is `j + 1` for some node `b` with at least two successors
and the last index `j` at which `t` is a successor of `b`.  So when `t` is a successor of
only one node `b` with at least two successors, at only one index `i`, its select number is
`i + 1`. -/
theorem buildGraph_selectNum (func : List BasicBlock) (headers : List Nat) (order : List Nat)
    (hperm : order.Perm (List.range func.length)) (t : Nat) (ht : t < func.length) :
    ∃ n, (buildGraph func order (initGraphState func headers)).1[t]? = some n ∧
      n.successors = termSuccs func t ∧
      (buildGraph func order (initGraphState func headers)).2[t]? = some (termSuccs func t) ∧
      ((n.selectNum = 0 ∧ ∀ b, 1 < (termSuccs func b).length → t ∉ termSuccs func b) ∨
        ∃ b, 1 < (termSuccs func b).length ∧
          ∃ j : Nat, (termSuccs func b)[j]? = some t ∧
            (∀ k : Nat, j < k → (termSuccs func b)[k]? ≠ some t) ∧
            n.selectNum = (j : Int) + 1) ∧
      ∀ (b i : Nat), 1 < (termSuccs func b).length → (termSuccs func b)[i]? = some t →
        (∀ (b' i' : Nat), 1 < (termSuccs func b').length →
          (termSuccs func b')[i']? = some t → b' = b ∧ i' = i) →
        n.selectNum = (i : Int) + 1 := by
  obtain ⟨h1, h2, h3⟩ := buildGraph_spec func headers order hperm
  have hlt : t < (buildGraph func order (initGraphState func headers)).1.length := by
    rw [h1]; exact ht
  obtain ⟨g1, g2⟩ := h3 t _ (List.getElem?_eq_getElem hlt)
  refine ⟨_, List.getElem?_eq_getElem hlt, g1, h2 t ht, g2, ?_⟩
  intro b i hbr hi huniq
  rcases g2 with ⟨_, hall⟩ | ⟨b', hbr', j, hj, _, hsel⟩
  · exact absurd (mem_of_getElem?_some hi) (hall b hbr)
  · obtain ⟨_, hji⟩ := huniq b' j hbr' hj
    rw [hsel, hji]

theorem buildGraph_selectNum_witness :
    [1, 0, 2, 3, 4].Perm (List.range exOrFunc.length) ∧ 3 < exOrFunc.length ∧
    ∃ n, (buildGraph exOrFunc [1, 0, 2, 3, 4] (initGraphState exOrFunc [])).1[3]? = some n ∧
      n.successors = termSuccs exOrFunc 3 ∧
      (buildGraph exOrFunc [1, 0, 2, 3, 4] (initGraphState exOrFunc [])).2[3]? =
        some (termSuccs exOrFunc 3) ∧
      ((n.selectNum = 0 ∧ ∀ b, 1 < (termSuccs exOrFunc b).length → 3 ∉ termSuccs exOrFunc b) ∨
        ∃ b, 1 < (termSuccs exOrFunc b).length ∧
          ∃ j : Nat, (termSuccs exOrFunc b)[j]? = some 3 ∧
            (∀ k : Nat, j < k → (termSuccs exOrFunc b)[k]? ≠ some 3) ∧
            n.selectNum = (j : Int) + 1) ∧
      ∀ (b i : Nat), 1 < (termSuccs exOrFunc b).length → (termSuccs exOrFunc b)[i]? = some 3 →
        (∀ (b' i' : Nat), 1 < (termSuccs exOrFunc b').length →
          (termSuccs exOrFunc b')[i']? = some 3 → b' = b ∧ i' = i) →
        n.selectNum = (i : Int) + 1 :=
  ⟨by decide, by decide, buildGraph_selectNum exOrFunc [] [1, 0, 2, 3, 4] (by decide) 3
    (by decide)⟩

end PCTRT
